import Mathlib

/-!
# Hierarchical allocator (`hierarchical.hpp`): embedding and verified properties

The allocator process of `src/external-allocator/3rdparty/mesos/hierarchical.hpp`
is embedded as pure functions on an explicit `State`; the factory of the test
hook of `src/test-hook/module_main.cpp` is embedded at the end of the
definitions.  Every handler of the
process is a function returning `Option`: `none` stands for a failed `CHECK`
or a rejected subtraction of resources (the process aborts), `some` carries the
successor state and, for the handlers that run an allocation cycle, the list of
offer callbacks that were invoked.

Conventions
* ids (`SlaveID`, `FrameworkID`) are the string values of the protobuf ids;
* clock readings are natural numbers of nanoseconds, durations are integers
  of nanoseconds (stout `Duration` is a signed nanosecond count);
* `std::random_shuffle` is the parameter `shuffle`, constrained by the theorems
  to return a permutation of its argument;
* a `Filter*` is a natural number (the identity of the heap object) stored
  together with the `RefusedFilter` it points to; `new` draws the identity from
  the counter `nextFilter`;
* `delay(d, self(), ...)` appends a pending message to `timers`.
-/

namespace Mesos

abbrev SlaveID := String
abbrev FrameworkID := String
/-- Clock reading in nanoseconds. -/
abbrev Time := Nat
/-- Signed nanosecond count (stout `Duration`). -/
abbrev Duration := Int

/-- The stout `hashmap<K, V>`: an association list with pairwise distinct keys. -/
abbrev hashmap (K : Type) (V : Type) := AList (fun _ : K => V)

/-! ## Resource algebra -/

/-- Modelled from the spec: the `Resources` class (`mesos/resources.hpp` is not
part of the sources).  A quantity of typed, possibly role-reserved resources is
a finitely supported map from `(name, role)` to a scalar amount; the role `"*"`
marks unreserved resources.  Sum is pointwise and containment is the pointwise
order.  The subtraction of the spec is `Resources.subtract`, which rejects a
subtraction whose result would be negative.  The pointwise difference `a - b`
is written where `b` is contained in `a` by construction (the offer that a
cycle takes from a pool, the quantity that an applicable operation consumes)
and in `Sorter.update`. -/
abbrev Resources := Π₀ _ : String × String, ℕ

namespace Resources

/-- `Resources::empty()`. -/
def empty (r : Resources) : Bool := decide (r = 0)

/-- `Resources::contains(that)`: `r` is a superset of `that`. -/
def contains (r that : Resources) : Bool := decide (that ≤ r)

/-- Modelled from the spec: the subtraction of `Resources`
(`mesos/resources.hpp` is not part of the sources).  A subtraction that would
yield a negative quantity is a contract violation and is rejected, not
clamped: `none` when `that` is not contained in `r`. -/
def subtract (r that : Resources) : Option Resources :=
  if contains r that then some (r - that) else none

/-- `Resources::unreserved()`: the part carrying the role `"*"`. -/
def unreserved (r : Resources) : Resources := r.filter (fun k => k.2 = "*")

/-- `Resources::reserved(role)`: the part reserved to `role`; as noted in
`allocate`, `reserved("*")` is empty. -/
def reserved (r : Resources) (role : String) : Resources :=
  if role = "*" then 0 else r.filter (fun k => k.2 = role)

/-- `Resources::sum(map)`: the sum of the values of a hashmap. -/
def sum {K : Type} (m : hashmap K Resources) : Resources :=
  (m.entries.map (fun e => e.2)).sum

/-- Total amount of the resource kind `name`, over all roles. -/
def amount (r : Resources) (name : String) : ℕ :=
  (r.filter (fun k => k.1 = name)).sum (fun _ n => n)

/-- `Resources::get<Value::Scalar>(name)`: `none` when no resource of that
name is present. -/
def get (r : Resources) (name : String) : Option ℕ :=
  if amount r name = 0 then none else some (amount r name)

/-- `Resources::cpus()`. -/
def cpus (r : Resources) : Option ℕ := get r "cpus"

/-- `Resources::mem()`. -/
def mem (r : Resources) : Option ℕ := get r "mem"

/-- Modelled from the spec: a resource-mutating offer operation (reserve,
unreserve, create or destroy a volume) turns the quantity `consumed` into the
quantity `produced`. -/
structure Operation where
  consumed : Resources
  produced : Resources

/-- Modelled from the spec: `Resources::apply(operations)` computes the
post-image and fails when an operation is inapplicable to the current
quantity. -/
def apply (r : Resources) : List Operation → Option Resources
  | [] => some r
  | op :: ops =>
    if contains r op.consumed then apply (r - op.consumed + op.produced) ops else none

end Resources

/-! ## Fair-share sorter -/

/-- Per-client record of a sorter.  Weights are natural numbers. -/
structure Client where
  allocation : Resources
  weight : ℕ
  active : Bool

/-- Modelled from the spec: the fair-share sorter (`sorter/drf/sorter.hpp` is
not part of the sources): a mapping from client name to (allocation, weight,
active flag) together with the tracked cluster total. -/
structure Sorter where
  clients : hashmap String Client
  resources : Resources

namespace Sorter

/-- A freshly constructed sorter. -/
def new : Sorter := ⟨∅, 0⟩

/-- `add(client, weight)`. -/
def add (s : Sorter) (name : String) (weight : ℕ) : Sorter :=
  { s with clients := s.clients.insert name ⟨0, weight, true⟩ }

/-- `remove(client)`. -/
def remove (s : Sorter) (name : String) : Sorter :=
  { s with clients := s.clients.erase name }

/-- `contains(client)`. -/
def contains (s : Sorter) (name : String) : Bool := (s.clients.lookup name).isSome

/-- `count()`: the number of clients. -/
def count (s : Sorter) : ℕ := s.clients.keys.length

/-- Apply `f` to the record of `name`, if there is one. -/
def modify (s : Sorter) (name : String) (f : Client → Client) : Sorter :=
  match s.clients.lookup name with
  | some c => { s with clients := s.clients.insert name (f c) }
  | none => s

/-- `activate(client)`. -/
def activate (s : Sorter) (name : String) : Sorter :=
  s.modify name (fun c => { c with active := true })

/-- `deactivate(client)`: the client keeps its allocation. -/
def deactivate (s : Sorter) (name : String) : Sorter :=
  s.modify name (fun c => { c with active := false })

/-- `allocation(client)`. -/
def allocation (s : Sorter) (name : String) : Resources :=
  match s.clients.lookup name with
  | some c => c.allocation
  | none => 0

/-- `allocated(client, delta)`. -/
def allocated (s : Sorter) (name : String) (r : Resources) : Sorter :=
  s.modify name (fun c => { c with allocation := c.allocation + r })

/-- `unallocated(client, delta)`: `none`, a contract violation, when the
allocation of the client does not contain `delta`. -/
def unallocated (s : Sorter) (name : String) (r : Resources) : Option Sorter :=
  match Resources.subtract (s.allocation name) r with
  | some a => some (s.modify name (fun c => { c with allocation := a }))
  | none => none

/-- `update(client, old, new)`: replace `old` by `new` in the client's
allocation.  `updateAllocation` passes the allocation of the framework as `old`
to the sorter of its role, and the unreserved part of it to the role sorter. -/
def update (s : Sorter) (name : String) (old new : Resources) : Sorter :=
  s.modify name (fun c => { c with allocation := c.allocation - old + new })

/-- `add(resources)`: grow the tracked cluster total. -/
def addResources (s : Sorter) (r : Resources) : Sorter :=
  { s with resources := s.resources + r }

/-- `remove(resources)`: shrink the tracked cluster total; `none`, a contract
violation, when the tracked total does not contain the resources. -/
def removeResources (s : Sorter) (r : Resources) : Option Sorter :=
  match Resources.subtract s.resources r with
  | some total => some { s with resources := total }
  | none => none

/-- The resource kinds present in the cluster total. -/
def kinds (s : Sorter) : Finset String := s.resources.support.image Prod.fst

/-- Common denominator of the per-kind fractions: the product of the cluster
totals of all kinds. -/
def denominator (s : Sorter) : ℕ := s.kinds.prod (fun name => Resources.amount s.resources name)

/-- Numerator of the dominant share over `denominator`: the maximum over the
resource kinds of (allocation of the kind / cluster total of the kind), scaled
by the common denominator.  The dominant share of the client is
`dominant s c / (denominator s * c.weight)`. -/
def dominant (s : Sorter) (c : Client) : ℕ :=
  s.kinds.sup (fun name =>
    Resources.amount c.allocation name * (s.denominator / Resources.amount s.resources name))

/-- The key a client is ordered by: the scaled dominant share, the weight, and
the name as a list of character codes. -/
structure Key where
  dominant : ℕ
  weight : ℕ
  name : String

/-- The fairness order: ascending weighted dominant share (compared by cross
multiplication), ties broken by the client name. -/
def before (a b : Key) : Prop :=
  a.dominant * b.weight < b.dominant * a.weight ∨
    (a.dominant * b.weight = b.dominant * a.weight ∧
      a.name.data.map Char.toNat ≤ b.name.data.map Char.toNat)

instance : DecidableRel before := fun a b => by unfold before; exact inferInstance

/-- `sort()`: the active clients by ascending dominant share. -/
def sort (s : Sorter) : List String :=
  (((s.clients.entries.filter (fun e => e.2.active)).map
      (fun e => Key.mk (s.dominant e.2) e.2.weight e.1)).insertionSort before).map Key.name

end Sorter

/-! ## Allocator state -/

/-- The constants of `master/constants.hpp` and the protobuf default that the
allocator reads; they are not part of the sources and are parameters here.
`MIN_CPUS` and `MIN_MEM` are in the units of the `"cpus"` and `"mem"` amounts. -/
structure Params where
  MIN_CPUS : ℕ
  MIN_MEM : ℕ
  /-- `Filters().refuse_seconds()`, the default refusal duration in seconds. -/
  defaultRefuseSeconds : ℚ

/-- `mesos::master::RoleInfo`. -/
structure RoleInfo where
  weight : ℕ

/-- The fields of `FrameworkInfo` read by the allocator. -/
structure FrameworkInfo where
  role : String
  checkpoint : Bool

/-- The fields of `SlaveInfo` read by the allocator. -/
structure SlaveInfo where
  checkpoint : Bool
  hostname : String

/-- The `Filters` message: `refuse_seconds` is a number of seconds. -/
structure Filters where
  refuse_seconds : ℚ

/-- `class RefusedFilter`. -/
structure RefusedFilter where
  slaveId : SlaveID
  resources : Resources
  /-- The instant at which the `process::Timeout` elapses. -/
  timeout : Time

/-- `RefusedFilter::filter`, evaluated at the clock reading `now`:
`timeout.remaining() > Seconds(0)` holds iff the timeout lies in the future. -/
def RefusedFilter.filter (f : RefusedFilter) (now : Time) (slaveId : SlaveID)
    (resources : Resources) : Bool :=
  decide (f.slaveId = slaveId) && Resources.contains f.resources resources &&
    decide (now < f.timeout)

/-- `struct Framework`; `filters` is the `hashset<Filter*>`: each element is
the identity of a filter object together with the object. -/
structure Framework where
  role : String
  checkpoint : Bool
  filters : List (ℕ × RefusedFilter)

/-- `struct Slave`. -/
structure Slave where
  total : Resources
  available : Resources
  activated : Bool
  checkpoint : Bool
  hostname : String

/-- A pending `delay(...)` dispatch. -/
inductive Timer where
  | batch : Timer
  | expire : FrameworkID → ℕ → Timer

/-- The data members of `HierarchicalAllocatorProcess`, the filter identity
counter and the pending delayed dispatches (due time, message). -/
structure State where
  initialized : Bool
  allocationInterval : Duration
  frameworks : hashmap FrameworkID Framework
  slaves : hashmap SlaveID Slave
  roles : hashmap String RoleInfo
  whitelist : Option (List String)
  roleSorter : Sorter
  frameworkSorters : hashmap String Sorter
  nextFilter : ℕ
  timers : List (Time × Timer)

/-- The payload handed to one invocation of `offerCallback`. -/
abbrev Offer := FrameworkID × hashmap SlaveID Resources

/-- The local `offerable` of `allocate`. -/
abbrev Offerable := hashmap FrameworkID (hashmap SlaveID Resources)

/-- The constructor `HierarchicalAllocatorProcess()`. -/
def State.new : State :=
  { initialized := false, allocationInterval := 0, frameworks := ∅, slaves := ∅, roles := ∅,
    whitelist := none, roleSorter := Sorter.new, frameworkSorters := ∅, nextFilter := 0,
    timers := [] }

/-- `delay(d, self(), message)` issued at the clock reading `now`. -/
def State.delay (s : State) (now : Time) (d : Duration) (t : Timer) : State :=
  { s with timers := s.timers ++ [((now + d).toNat, t)] }

/-- `Duration::create(seconds)`: an error when the nanosecond count leaves the
range of `int64_t`, otherwise the count truncated toward zero. -/
def Duration.create (seconds : ℚ) : Option Duration :=
  if seconds.num * 1000000000 > (2 ^ 63 - 1) * (seconds.den : Int) ∨
      seconds.num * 1000000000 < -(2 ^ 63) * (seconds.den : Int) then none
  else some ((seconds.num * 1000000000).tdiv seconds.den)

/-! ## Predicates of the allocation cycle -/

/-- `HierarchicalAllocatorProcess::isWhitelisted`. -/
def isWhitelisted (s : State) (slaveId : SlaveID) : Option Bool :=
  match s.slaves.lookup slaveId with
  | none => none
  | some slave =>
    match s.whitelist with
    | none => some true
    | some w => some (decide (slave.hostname ∈ w))

/-- `HierarchicalAllocatorProcess::isFiltered`, evaluated at the clock reading `now`. -/
def isFiltered (now : Time) (s : State) (frameworkId : FrameworkID) (slaveId : SlaveID)
    (resources : Resources) : Option Bool :=
  match s.frameworks.lookup frameworkId, s.slaves.lookup slaveId with
  | some framework, some slave =>
    if framework.checkpoint && !slave.checkpoint then some true
    else some (framework.filters.any (fun f => f.2.filter now slaveId resources))
  | _, _ => none

/-- `HierarchicalAllocatorProcess::allocatable`. -/
def allocatable (p : Params) (resources : Resources) : Bool :=
  (match Resources.cpus resources with
    | some c => decide (p.MIN_CPUS ≤ c)
    | none => false) ||
  (match Resources.mem resources with
    | some m => decide (p.MIN_MEM ≤ m)
    | none => false)

/-! ## The allocation cycle -/

/-- The quantity the cycle considers on a slave for the frameworks of a role:
`slaves[slaveId].available.unreserved() + slaves[slaveId].available.reserved(role)`. -/
def offerableTo (slave : Slave) (role : String) : Resources :=
  Resources.unreserved slave.available + Resources.reserved slave.available role

/-- `offerable[frameworkId]`: the payload collected so far for the framework,
default-constructed when there is none. -/
def payloadOf (offerable : Offerable) (frameworkId : FrameworkID) : hashmap SlaveID Resources :=
  match offerable.lookup frameworkId with
  | some m => m
  | none => ∅

/-- The assignments made by the innermost loop of `allocate(slaveIds)` once the
resources passed the checks: the entry of `offerable`, the available pool of
the slave and the two sorters. -/
def assign (acc : State × Offerable) (slaveId : SlaveID) (role : String)
    (frameworkId : String) (slave : Slave) (sorter : Sorter) (resources : Resources) :
    State × Offerable :=
  ({ acc.1 with
      slaves := acc.1.slaves.insert slaveId
        { slave with available := slave.available - resources }
      frameworkSorters := acc.1.frameworkSorters.insert role
        ((sorter.addResources resources).allocated frameworkId resources)
      roleSorter := acc.1.roleSorter.allocated role (Resources.unreserved resources) },
    acc.2.insert frameworkId ((payloadOf acc.2 frameworkId).insert slaveId resources))

/-- The body of the innermost loop of `allocate(slaveIds)`, for one slave, one
role and one framework name returned by the sorter of the role. -/
def allocateFramework (p : Params) (now : Time) (slaveId : SlaveID) (role : String)
    (acc : State × Offerable) (frameworkId : String) : Option (State × Offerable) :=
  match acc.1.slaves.lookup slaveId, acc.1.frameworkSorters.lookup role with
  | some slave, some sorter =>
    let resources := offerableTo slave role
    if !allocatable p resources then some acc
    else
      match isFiltered now acc.1 frameworkId slaveId resources with
      | none => none
      | some true => some acc
      | some false => some (assign acc slaveId role frameworkId slave sorter resources)
  | _, _ => none

/-- The loop over `frameworkSorters[role]->sort()`. -/
def allocateFrameworks (p : Params) (now : Time) (slaveId : SlaveID) (role : String) :
    List String → State × Offerable → Option (State × Offerable)
  | [], acc => some acc
  | f :: fs, acc =>
    match allocateFramework p now slaveId role acc f with
    | none => none
    | some acc1 => allocateFrameworks p now slaveId role fs acc1

/-- The loop over `roleSorter->sort()`; the ordering of the frameworks of a role
is read when the loop reaches the role. -/
def allocateRoles (p : Params) (now : Time) (slaveId : SlaveID) :
    List String → State × Offerable → Option (State × Offerable)
  | [], acc => some acc
  | role :: roles, acc =>
    match acc.1.frameworkSorters.lookup role with
    | none => none
    | some sorter =>
      match allocateFrameworks p now slaveId role sorter.sort acc with
      | none => none
      | some acc1 => allocateRoles p now slaveId roles acc1

/-- The loop over the shuffled slave ids; the ordering of the roles is read
when the loop reaches the slave. -/
def allocateSlaves (p : Params) (now : Time) :
    List SlaveID → State × Offerable → Option (State × Offerable)
  | [], acc => some acc
  | slaveId :: slaveIds, acc =>
    match isWhitelisted acc.1 slaveId, acc.1.slaves.lookup slaveId with
    | some whitelisted, some slave =>
      if !whitelisted || !slave.activated then allocateSlaves p now slaveIds acc
      else
        match allocateRoles p now slaveId acc.1.roleSorter.sort acc with
        | none => none
        | some acc1 => allocateSlaves p now slaveIds acc1
    | _, _ => none

/-- The invocations of `offerCallback` at the end of `allocate(slaveIds)`. -/
def offers (offerable : Offerable) : List Offer :=
  offerable.entries.map (fun e => (e.1, e.2))

/-- `HierarchicalAllocatorProcess::allocate(const hashset<SlaveID>&)`: the
result is the successor state and the offer callbacks invoked. -/
def allocate (p : Params) (now : Time) (shuffle : List SlaveID → List SlaveID) (s : State)
    (slaveIds : List SlaveID) : Option (State × List Offer) :=
  if s.roleSorter.count = 0 then some (s, [])
  else
    match allocateSlaves p now (shuffle slaveIds) (s, ∅) with
    | none => none
    | some acc => some (acc.1, offers acc.2)

/-- `HierarchicalAllocatorProcess::allocate()`: a cycle over all slaves. -/
def allocateAll (p : Params) (now : Time) (shuffle : List SlaveID → List SlaveID) (s : State) :
    Option (State × List Offer) :=
  allocate p now shuffle s s.slaves.keys

/-- `HierarchicalAllocatorProcess::allocate(const SlaveID&)`: a cycle over one slave. -/
def allocateSlave (p : Params) (now : Time) (shuffle : List SlaveID → List SlaveID) (s : State)
    (slaveId : SlaveID) : Option (State × List Offer) :=
  allocate p now shuffle s [slaveId]

/-! ## Lifecycle operations -/

/-- `HierarchicalAllocatorProcess::initialize` (the offer callback is the
output of the cycle functions): called on the freshly constructed process at
the clock reading `now`. -/
def initialize' (now : Time) (s : State) (allocationInterval : Duration)
    (roles : hashmap String RoleInfo) : State :=
  let s1 : State :=
    roles.entries.foldl
      (fun st e =>
        { st with
            roleSorter := st.roleSorter.add e.1 e.2.weight
            frameworkSorters := st.frameworkSorters.insert e.1 Sorter.new })
      { s with
          allocationInterval := allocationInterval
          roles := roles
          initialized := true
          roleSorter := Sorter.new }
  s1.delay now allocationInterval Timer.batch

/-- `HierarchicalAllocatorProcess::addFramework`. -/
def addFramework (p : Params) (now : Time) (shuffle : List SlaveID → List SlaveID) (s : State)
    (frameworkId : FrameworkID) (frameworkInfo : FrameworkInfo)
    (used_ : hashmap SlaveID Resources) : Option (State × List Offer) :=
  if !s.initialized then none
  else if (s.roles.lookup frameworkInfo.role).isNone then none
  else
    match s.frameworkSorters.lookup frameworkInfo.role with
    | none => none
    | some sorter =>
      if sorter.contains frameworkId then none
      else
        let used := Resources.sum used_
        allocateAll p now shuffle
          { s with
              roleSorter := s.roleSorter.allocated frameworkInfo.role (Resources.unreserved used)
              frameworkSorters := s.frameworkSorters.insert frameworkInfo.role
                (((sorter.add frameworkId 1).addResources used).allocated frameworkId used)
              frameworks := s.frameworks.insert frameworkId
                { role := frameworkInfo.role, checkpoint := frameworkInfo.checkpoint,
                  filters := [] } }

/-- `HierarchicalAllocatorProcess::removeFramework`; it fails also when a
subtraction of the allocation of the framework from what the sorters track is
rejected. -/
def removeFramework (s : State) (frameworkId : FrameworkID) : Option State :=
  if !s.initialized then none
  else
    match s.frameworks.lookup frameworkId with
    | none => none
    | some framework =>
      match s.frameworkSorters.lookup framework.role with
      | none => none
      | some sorter =>
        if sorter.contains frameworkId then
          let allocation := sorter.allocation frameworkId
          match s.roleSorter.unallocated framework.role (Resources.unreserved allocation),
              sorter.removeResources allocation with
          | some roleSorter1, some sorter1 =>
            some
              { s with
                  roleSorter := roleSorter1
                  frameworkSorters := s.frameworkSorters.insert framework.role
                    (sorter1.remove frameworkId)
                  frameworks := s.frameworks.erase frameworkId }
          | _, _ => none
        else some { s with frameworks := s.frameworks.erase frameworkId }

/-- `HierarchicalAllocatorProcess::activateFramework`. -/
def activateFramework (p : Params) (now : Time) (shuffle : List SlaveID → List SlaveID)
    (s : State) (frameworkId : FrameworkID) : Option (State × List Offer) :=
  if !s.initialized then none
  else
    match s.frameworks.lookup frameworkId with
    | none => none
    | some framework =>
      match s.frameworkSorters.lookup framework.role with
      | none => none
      | some sorter =>
        allocateAll p now shuffle
          { s with
              frameworkSorters :=
                s.frameworkSorters.insert framework.role (sorter.activate frameworkId) }

/-- `HierarchicalAllocatorProcess::deactivateFramework`. -/
def deactivateFramework (s : State) (frameworkId : FrameworkID) : Option State :=
  if !s.initialized then none
  else
    match s.frameworks.lookup frameworkId with
    | none => none
    | some framework =>
      match s.frameworkSorters.lookup framework.role with
      | none => none
      | some sorter =>
        some
          { s with
              frameworkSorters :=
                s.frameworkSorters.insert framework.role (sorter.deactivate frameworkId)
              frameworks := s.frameworks.insert frameworkId { framework with filters := [] } }

/-- The body of the `foreachpair` loop of `addSlave`, for one entry of `used`. -/
def addSlaveUsed (s : State) (frameworkId : FrameworkID) (allocated : Resources) :
    Option State :=
  match s.frameworks.lookup frameworkId with
  | none => some s
  | some framework =>
    match s.frameworkSorters.lookup framework.role with
    | none => none
    | some sorter =>
      some
        { s with
            roleSorter := s.roleSorter.allocated framework.role (Resources.unreserved allocated)
            frameworkSorters := s.frameworkSorters.insert framework.role
              ((sorter.addResources allocated).allocated frameworkId allocated) }

/-- The `foreachpair` loop of `addSlave` over the entries of `used`. -/
def addSlaveLoop : List (Sigma (fun _ : FrameworkID => Resources)) → State → Option State
  | [], s => some s
  | e :: es, s =>
    match addSlaveUsed s e.1 e.2 with
    | none => none
    | some s1 => addSlaveLoop es s1

/-- `HierarchicalAllocatorProcess::addSlave`; it fails also when the
subtraction `total - Resources::sum(used)` is rejected. -/
def addSlave (p : Params) (now : Time) (shuffle : List SlaveID → List SlaveID) (s : State)
    (slaveId : SlaveID) (slaveInfo : SlaveInfo) (total : Resources)
    (used : hashmap FrameworkID Resources) : Option (State × List Offer) :=
  if !s.initialized then none
  else if (s.slaves.lookup slaveId).isSome then none
  else
    match addSlaveLoop used.entries
        { s with roleSorter := s.roleSorter.addResources (Resources.unreserved total) } with
    | none => none
    | some s1 =>
      match Resources.subtract total (Resources.sum used) with
      | none => none
      | some available =>
        allocateSlave p now shuffle
          { s1 with
              slaves := s1.slaves.insert slaveId
                { total := total, available := available, activated := true,
                  checkpoint := slaveInfo.checkpoint, hostname := slaveInfo.hostname } }
          slaveId

/-- `HierarchicalAllocatorProcess::removeSlave`; it fails also when the
subtraction of the unreserved total of the slave from the total tracked by the
role sorter is rejected. -/
def removeSlave (s : State) (slaveId : SlaveID) : Option State :=
  if !s.initialized then none
  else
    match s.slaves.lookup slaveId with
    | none => none
    | some slave =>
      match s.roleSorter.removeResources (Resources.unreserved slave.total) with
      | none => none
      | some roleSorter1 =>
        some { s with roleSorter := roleSorter1, slaves := s.slaves.erase slaveId }

/-- `HierarchicalAllocatorProcess::activateSlave`. -/
def activateSlave (s : State) (slaveId : SlaveID) : Option State :=
  if !s.initialized then none
  else
    match s.slaves.lookup slaveId with
    | none => none
    | some slave => some { s with slaves := s.slaves.insert slaveId { slave with activated := true } }

/-- `HierarchicalAllocatorProcess::deactivateSlave`. -/
def deactivateSlave (s : State) (slaveId : SlaveID) : Option State :=
  if !s.initialized then none
  else
    match s.slaves.lookup slaveId with
    | none => none
    | some slave =>
      some { s with slaves := s.slaves.insert slaveId { slave with activated := false } }

/-- `HierarchicalAllocatorProcess::updateWhitelist`. -/
def updateWhitelist (s : State) (whitelist : Option (List String)) : Option State :=
  if !s.initialized then none else some { s with whitelist := whitelist }

/-- `HierarchicalAllocatorProcess::requestResources`. -/
def requestResources (s : State) (_frameworkId : FrameworkID) : Option State :=
  if !s.initialized then none else some s

/-- `HierarchicalAllocatorProcess::updateAllocation`. -/
def updateAllocation (s : State) (frameworkId : FrameworkID) (slaveId : SlaveID)
    (operations : List Resources.Operation) : Option State :=
  if !s.initialized then none
  else
    match s.slaves.lookup slaveId, s.frameworks.lookup frameworkId with
    | some slave, some framework =>
      match s.frameworkSorters.lookup framework.role with
      | none => none
      | some frameworkSorter =>
        let allocation := frameworkSorter.allocation frameworkId
        match Resources.apply allocation operations with
        | none => none
        | some updatedAllocation =>
          match Resources.apply slave.total operations with
          | none => none
          | some updatedTotal =>
            some
              { s with
                  frameworkSorters := s.frameworkSorters.insert framework.role
                    (frameworkSorter.update frameworkId allocation updatedAllocation)
                  roleSorter := s.roleSorter.update framework.role
                    (Resources.unreserved allocation) (Resources.unreserved updatedAllocation)
                  slaves := s.slaves.insert slaveId { slave with total := updatedTotal } }
    | _, _ => none

/-- The first part of `recoverResources`: the update of the sorters, made when
the framework still exists; it fails when one of the three subtractions is
rejected. -/
def recoverFramework (s : State) (frameworkId : FrameworkID) (resources : Resources) :
    Option State :=
  match s.frameworks.lookup frameworkId with
  | none => some s
  | some framework =>
    match s.frameworkSorters.lookup framework.role with
    | none => none
    | some sorter =>
      if sorter.contains frameworkId then
        match (sorter.unallocated frameworkId resources).bind
            (fun sorter1 => sorter1.removeResources resources),
          s.roleSorter.unallocated framework.role (Resources.unreserved resources) with
        | some sorter2, some roleSorter1 =>
          some
            { s with
                frameworkSorters := s.frameworkSorters.insert framework.role sorter2
                roleSorter := roleSorter1 }
        | _, _ => none
      else some s

/-- The second part of `recoverResources`: the update of the available pool,
made when the slave still exists. -/
def recoverSlave (s : State) (slaveId : SlaveID) (resources : Resources) : State :=
  match s.slaves.lookup slaveId with
  | none => s
  | some slave =>
    { s with
        slaves := s.slaves.insert slaveId { slave with available := slave.available + resources } }

/-- The refusal duration computed by `recoverResources` from the `Filters`
message; `none` is the failure of `CHECK_SOME(seconds)`. -/
def refuseDuration (p : Params) (filters : Filters) : Option Duration :=
  match Duration.create filters.refuse_seconds with
  | none => Duration.create p.defaultRefuseSeconds
  | some seconds =>
    if seconds < 0 then Duration.create p.defaultRefuseSeconds else some seconds

/-- The last part of `recoverResources`: the installation of the refused
resources filter. -/
def installFilter (p : Params) (now : Time) (s : State) (frameworkId : FrameworkID)
    (slaveId : SlaveID) (resources : Resources) (filters : Option Filters) : Option State :=
  match filters with
  | none => some s
  | some fs =>
    match s.frameworks.lookup frameworkId, s.slaves.lookup slaveId with
    | some framework, some _ =>
      match refuseDuration p fs with
      | none => none
      | some seconds =>
        if seconds = 0 then some s
        else
          let filter : RefusedFilter :=
            { slaveId := slaveId, resources := resources, timeout := (now + seconds).toNat }
          some
            ({ s with
                frameworks := s.frameworks.insert frameworkId
                  { framework with filters := (s.nextFilter, filter) :: framework.filters }
                nextFilter := s.nextFilter + 1 }.delay now seconds
              (Timer.expire frameworkId s.nextFilter))
    | _, _ => some s

/-- `HierarchicalAllocatorProcess::recoverResources`. -/
def recoverResources (p : Params) (now : Time) (s : State) (frameworkId : FrameworkID)
    (slaveId : SlaveID) (resources : Resources) (filters : Option Filters) : Option State :=
  if !s.initialized then none
  else if Resources.empty resources then some s
  else
    match recoverFramework s frameworkId resources with
    | none => none
    | some s1 => installFilter p now (recoverSlave s1 slaveId resources) frameworkId slaveId
        resources filters

/-- `HierarchicalAllocatorProcess::reviveOffers`; `frameworks[frameworkId]`
default-constructs the entry of an unknown framework. -/
def reviveOffers (p : Params) (now : Time) (shuffle : List SlaveID → List SlaveID) (s : State)
    (frameworkId : FrameworkID) : Option (State × List Offer) :=
  if !s.initialized then none
  else
    let framework : Framework :=
      match s.frameworks.lookup frameworkId with
      | some f => f
      | none => { role := "", checkpoint := false, filters := [] }
    allocateAll p now shuffle
      { s with frameworks := s.frameworks.insert frameworkId { framework with filters := [] } }

/-- `HierarchicalAllocatorProcess::batch`. -/
def batch (p : Params) (now : Time) (shuffle : List SlaveID → List SlaveID) (s : State) :
    Option (State × List Offer) :=
  match allocateAll p now shuffle s with
  | none => none
  | some r => some (r.1.delay now r.1.allocationInterval Timer.batch, r.2)

/-- `HierarchicalAllocatorProcess::expire`: the filter is removed from the
active set when the framework exists and holds that very filter object. -/
def expire (s : State) (frameworkId : FrameworkID) (filter : ℕ) : State :=
  match s.frameworks.lookup frameworkId with
  | none => s
  | some framework =>
    if framework.filters.any (fun f => decide (f.1 = filter)) then
      { s with
          frameworks := s.frameworks.insert frameworkId
            { framework with filters := framework.filters.filter (fun f => decide (f.1 ≠ filter)) } }
    else s

/-! ## Observations used to state the properties -/

/-- The available pool of a slave (empty for an unknown slave). -/
def available (s : State) (slaveId : SlaveID) : Resources :=
  match s.slaves.lookup slaveId with
  | some slave => slave.available
  | none => 0

/-- The quantity a payload offers on a slave (empty when the slave is not a key). -/
def quantity (payload : hashmap SlaveID Resources) (slaveId : SlaveID) : Resources :=
  match payload.lookup slaveId with
  | some q => q
  | none => 0

/-- The sum of the quantities offered on a slave by a list of callbacks. -/
def offeredOn (offs : List Offer) (slaveId : SlaveID) : Resources :=
  (offs.map (fun o => quantity o.2 slaveId)).sum

/-- The sum of the quantities offered to a framework by a list of callbacks. -/
def offeredTo (offs : List Offer) (frameworkId : FrameworkID) : Resources :=
  (offs.map (fun o => if o.1 = frameworkId then Resources.sum o.2 else 0)).sum

/-- The recorded role of a framework. -/
def roleOf (s : State) (frameworkId : FrameworkID) : Option String :=
  match s.frameworks.lookup frameworkId with
  | some framework => some framework.role
  | none => none

/-- The sum of the unreserved parts of the quantities offered to the
frameworks of a role by a list of callbacks. -/
def offeredToRole (s : State) (offs : List Offer) (role : String) : Resources :=
  (offs.map (fun o =>
    if roleOf s o.1 = some role then Resources.unreserved (Resources.sum o.2) else 0)).sum

/-- The allocation tracked for a framework by the framework sorter of a role
(empty when the role has no sorter). -/
def frameworkAllocation (s : State) (role : String) (frameworkId : FrameworkID) : Resources :=
  match s.frameworkSorters.lookup role with
  | some sorter => sorter.allocation frameworkId
  | none => 0

/-- The calling contract of `recoverResources(frameworkId, _, resources, _)`:
the recovered quantity is contained in what the framework sorter tracks for
the framework and in total, and its unreserved part in what the role sorter
tracks for the role, so that none of the subtractions of the recovery is
rejected.  It holds of every quantity when the framework is not registered or
not a client of the sorter of its role. -/
def Recoverable (s : State) (frameworkId : FrameworkID) (resources : Resources) : Prop :=
  ∀ framework sorter, s.frameworks.lookup frameworkId = some framework →
    s.frameworkSorters.lookup framework.role = some sorter →
    sorter.contains frameworkId = true →
    resources ≤ sorter.allocation frameworkId ∧ resources ≤ sorter.resources ∧
      Resources.unreserved resources ≤ s.roleSorter.allocation framework.role

/-- The contract `Recoverable` as a test that can be evaluated. -/
def recoverableTest (s : State) (frameworkId : FrameworkID) (resources : Resources) : Bool :=
  match s.frameworks.lookup frameworkId with
  | none => true
  | some framework =>
    match s.frameworkSorters.lookup framework.role with
    | none => true
    | some sorter =>
      !sorter.contains frameworkId ||
        (Resources.contains (sorter.allocation frameworkId) resources &&
          Resources.contains sorter.resources resources &&
          Resources.contains (s.roleSorter.allocation framework.role)
            (Resources.unreserved resources))

/-- The sorters of `t` track at least what the sorters of `s` track: totals
and allocations of the framework sorters, allocations of the role sorter. -/
def Grows (s t : State) : Prop :=
  (∀ role sorter, s.frameworkSorters.lookup role = some sorter →
    ∃ sorter', t.frameworkSorters.lookup role = some sorter' ∧
      sorter.resources ≤ sorter'.resources ∧
      ∀ f, sorter.allocation f ≤ sorter'.allocation f) ∧
  ∀ role, s.roleSorter.allocation role ≤ t.roleSorter.allocation role

/-- Well-formedness of the bookkeeping: the process is initialized, every role
of the role sorter has a framework sorter, and every client of the framework
sorter of a role is a registered framework whose recorded role is that role. -/
structure WF (s : State) : Prop where
  initialized : s.initialized = true
  sorters : ∀ r, r ∈ s.roleSorter.clients → r ∈ s.frameworkSorters
  clients : ∀ r sorter, s.frameworkSorters.lookup r = some sorter → ∀ f, f ∈ sorter.clients →
    ∃ framework, s.frameworks.lookup f = some framework ∧ framework.role = r

/-- Every registered framework is tracked: the framework sorter of its
recorded role exists and has the framework among its clients. -/
def Tracked (s : State) : Prop :=
  ∀ f framework, s.frameworks.lookup f = some framework →
    ∃ sorter, s.frameworkSorters.lookup framework.role = some sorter ∧ f ∈ sorter.clients

/-- Every configured role has a framework sorter. -/
def Roled (s : State) : Prop := ∀ r, r ∈ s.roles → r ∈ s.frameworkSorters

/-! ## Frame and context of an allocation cycle -/

/-- The fields of a slave that an allocation cycle never writes. -/
def Slave.static (slave : Slave) : Resources × Bool × Bool × String :=
  (slave.total, slave.activated, slave.checkpoint, slave.hostname)

/-- Weight and active flag of the clients of a sorter. -/
def Sorter.flags (s : Sorter) (name : String) : Option (ℕ × Bool) :=
  match s.clients.lookup name with
  | some c => some (c.weight, c.active)
  | none => none

/-- The frame of an allocation cycle: `t` agrees with `s` on everything except
the available pools of the slaves, the allocations tracked by the sorters and
the totals tracked by the framework sorters. -/
structure Same (s t : State) : Prop where
  initialized : t.initialized = s.initialized
  allocationInterval : t.allocationInterval = s.allocationInterval
  frameworks : t.frameworks = s.frameworks
  roles : t.roles = s.roles
  whitelist : t.whitelist = s.whitelist
  nextFilter : t.nextFilter = s.nextFilter
  timers : t.timers = s.timers
  slaves : ∀ m, (t.slaves.lookup m).map Slave.static = (s.slaves.lookup m).map Slave.static
  roleFlags : ∀ r, t.roleSorter.flags r = s.roleSorter.flags r
  roleTotal : t.roleSorter.resources = s.roleSorter.resources
  sorterFlags : ∀ r,
    (t.frameworkSorters.lookup r).map Sorter.flags = (s.frameworkSorters.lookup r).map Sorter.flags

/-- A slave that passes the eligibility test of the cycle: registered,
activated and whitelisted. -/
def Eligible (s : State) (slaveId : SlaveID) : Prop :=
  ∃ slave, s.slaves.lookup slaveId = some slave ∧ slave.activated = true ∧
    ∀ w, s.whitelist = some w → slave.hostname ∈ w

/-- The triples (slave, role, framework) that the nested loops of a cycle
visit: the slave is eligible, the role is an active client of the role sorter
and the framework is an active client of the framework sorter of the role. -/
def Visited (s : State) (slaveId : SlaveID) (role : String) (frameworkId : String) : Prop :=
  Eligible s slaveId ∧ (∃ w, s.roleSorter.flags role = some (w, true)) ∧
    ∃ sorter w, s.frameworkSorters.lookup role = some sorter ∧
      sorter.flags frameworkId = some (w, true)

/-- What makes a cycle at the clock reading `now` pass over the framework `f`
of the role `role` on the slave `m` when the available pool of `m` is `a`: the
quantity it considers is not allocatable, or it is filtered. -/
def Declined (p : Params) (now : Time) (s : State) (m : SlaveID) (a : Resources)
    (role : String) (f : FrameworkID) : Prop :=
  allocatable p (Resources.unreserved a + Resources.reserved a role) = false ∨
    isFiltered now s f m (Resources.unreserved a + Resources.reserved a role) = some true

/-- The available pool that the slave `m` has in `t` is settled for the cycles
of `s` at the clock reading `now`: every triple that such a cycle visits on `m`
is passed over. -/
def Settled (p : Params) (now : Time) (s t : State) (m : SlaveID) : Prop :=
  ∀ role f, Visited s m role f → Declined p now s m (available t m) role f

/-- The pairs (role, framework) for the roles `roles`, in order: each role is
followed by the frameworks that the sorter of the role returns. -/
def nested (s : State) : List String → List (String × String)
  | [] => []
  | role :: roles =>
    (match s.frameworkSorters.lookup role with
      | some sorter => sorter.sort.map (fun f => (role, f))
      | none => []) ++ nested s roles

/-- The nested order of the state `s`: the roles in the order returned by the
role sorter and, within each role, the frameworks in the order returned by the
framework sorter of the role. -/
def nestedOrder (s : State) : List (String × String) := nested s s.roleSorter.sort

/-- The body of the innermost loop of `allocate(slaveIds)` run along a list of
pairs (role, framework). -/
def allocatePairs (p : Params) (now : Time) (slaveId : SlaveID) :
    List (String × String) → State × Offerable → Option (State × Offerable)
  | [], acc => some acc
  | x :: xs, acc =>
    match allocateFramework p now slaveId x.1 acc x.2 with
    | none => none
    | some acc1 => allocatePairs p now slaveId xs acc1

/-- What a cycle started in `s` over the candidate slaves `ids` at the clock
reading `now` has checked before it offers the quantity `q` of the slave `m`
to the framework `f`. -/
structure Offered (p : Params) (now : Time) (s : State) (ids : List SlaveID) (f : FrameworkID)
    (m : SlaveID) (q : Resources) : Prop where
  candidate : m ∈ ids
  eligible : Eligible s m
  allocatable : allocatable p q = true
  unfiltered : isFiltered now s f m q = some false
  quantity : ∃ framework a, s.frameworks.lookup f = some framework ∧ a ≤ available s m ∧
    q = Resources.unreserved a + Resources.reserved a framework.role

/-- The loop invariant of a cycle started in `s`: the accounting of the
available pools and of the sorters against the entries of `offerable`. -/
structure CycleInv (p : Params) (now : Time) (s : State) (ids : List SlaveID)
    (acc : State × Offerable) : Prop where
  avail : ∀ m, available s m = available acc.1 m + offeredOn (offers acc.2) m
  exhausted : ∀ f payload m framework, acc.2.lookup f = some payload → m ∈ payload →
    s.frameworks.lookup f = some framework →
    Resources.unreserved (available acc.1 m) = 0 ∧
      Resources.reserved (available acc.1 m) framework.role = 0
  entry : ∀ f payload m q, acc.2.lookup f = some payload → payload.lookup m = some q →
    Offered p now s ids f m q
  nonempty : ∀ f payload, acc.2.lookup f = some payload → ∃ m, m ∈ payload
  fwAlloc : ∀ r sorter f, s.frameworkSorters.lookup r = some sorter → f ∈ sorter.clients →
    frameworkAllocation acc.1 r f = frameworkAllocation s r f + Resources.sum (payloadOf acc.2 f)
  roleAlloc : ∀ r, r ∈ s.roleSorter.clients →
    acc.1.roleSorter.allocation r = s.roleSorter.allocation r + offeredToRole s (offers acc.2) r
  idle : acc.2.entries = [] → acc.1 = s

/-! ## Reachable states -/

/-- A message handled by the allocator process: a call of the public interface
or the firing of a delayed dispatch. -/
inductive Call where
  | addFramework : FrameworkID → FrameworkInfo → hashmap SlaveID Resources → Call
  | removeFramework : FrameworkID → Call
  | activateFramework : FrameworkID → Call
  | deactivateFramework : FrameworkID → Call
  | addSlave : SlaveID → SlaveInfo → Resources → hashmap FrameworkID Resources → Call
  | removeSlave : SlaveID → Call
  | activateSlave : SlaveID → Call
  | deactivateSlave : SlaveID → Call
  | updateWhitelist : Option (List String) → Call
  | requestResources : FrameworkID → Call
  | updateAllocation : FrameworkID → SlaveID → List Resources.Operation → Call
  | recoverResources : FrameworkID → SlaveID → Resources → Option Filters → Call
  | reviveOffers : FrameworkID → Call
  | batch : Call
  | expire : FrameworkID → ℕ → Call

/-- The handling of one message at the clock reading `now`: the successor
state and the offer callbacks invoked, or `none` when a `CHECK` fails. -/
def step (p : Params) (now : Time) (shuffle : List SlaveID → List SlaveID) (s : State) :
    Call → Option (State × List Offer)
  | Call.addFramework f info used => addFramework p now shuffle s f info used
  | Call.removeFramework f => (removeFramework s f).map (fun t => (t, []))
  | Call.activateFramework f => activateFramework p now shuffle s f
  | Call.deactivateFramework f => (deactivateFramework s f).map (fun t => (t, []))
  | Call.addSlave m info total used => addSlave p now shuffle s m info total used
  | Call.removeSlave m => (removeSlave s m).map (fun t => (t, []))
  | Call.activateSlave m => (activateSlave s m).map (fun t => (t, []))
  | Call.deactivateSlave m => (deactivateSlave s m).map (fun t => (t, []))
  | Call.updateWhitelist w => (updateWhitelist s w).map (fun t => (t, []))
  | Call.requestResources f => (requestResources s f).map (fun t => (t, []))
  | Call.updateAllocation f m ops => (updateAllocation s f m ops).map (fun t => (t, []))
  | Call.recoverResources f m r filters =>
    (recoverResources p now s f m r filters).map (fun t => (t, []))
  | Call.reviveOffers f => reviveOffers p now shuffle s f
  | Call.batch => batch p now shuffle s
  | Call.expire f filter => some (expire s f filter, [])

/-- The stated preconditions of the interface that the handlers do not check
themselves: `addFramework` is called with an unknown framework id and
`reviveOffers` with a known one. -/
def Call.stated (s : State) : Call → Prop
  | Call.addFramework f _ _ => f ∉ s.frameworks
  | Call.reviveOffers f => f ∈ s.frameworks
  | _ => True

/-- The states reached from `initialize` on the freshly constructed process by
messages that satisfy their stated preconditions and pass the `CHECK`s, each
handled at some clock reading with some outcome of the shuffle. -/
inductive Reachable (p : Params) : State → Prop where
  | init (now : Time) (allocationInterval : Duration) (roles : hashmap String RoleInfo) :
    Reachable p (initialize' now State.new allocationInterval roles)
  | step {s : State} {r : State × List Offer} (now : Time)
    (shuffle : List SlaveID → List SlaveID) (c : Call) :
    Reachable p s → (∀ l, (shuffle l).Perm l) → c.stated s →
    step p now shuffle s c = some r → Reachable p r.1

/-! ## The scenario of one role, one framework and one slave -/

/-- A sorter with exactly one client, which is active. -/
def Sorter.Single (s : Sorter) (name : String) : Prop :=
  s.clients.keys = [name] ∧ ∃ c, s.clients.lookup name = some c ∧ c.active = true

/-- A state with exactly one role `R`, one framework `F` (an active client of
the sorter of `R`, with record `framework`), one slave `M` (with record
`slave`) and no whitelist. -/
structure Scene (s : State) (R F M : String) (framework : Framework) (slave : Slave) :
    Prop where
  initialized : s.initialized = true
  role : s.roleSorter.Single R
  sorter : ∃ sorter, s.frameworkSorters.lookup R = some sorter ∧ sorter.Single F
  registered : s.frameworks.lookup F = some framework
  frameworkRole : framework.role = R
  slaveKeys : s.slaves.keys = [M]
  added : s.slaves.lookup M = some slave
  whitelist : s.whitelist = none

/-- A state with exactly one role `R`, whose sorter orders its two frameworks
as `[F2, F1]`, the record `framework` of `F2`, one slave `M` with the record
`slave`, and no whitelist. -/
structure Duo (s : State) (R F1 F2 M : String) (framework : Framework) (slave : Slave) :
    Prop where
  initialized : s.initialized = true
  role : s.roleSorter.Single R
  sorter : ∃ sorter, s.frameworkSorters.lookup R = some sorter ∧ sorter.sort = [F2, F1]
  registered : s.frameworks.lookup F2 = some framework
  slaveKeys : s.slaves.keys = [M]
  added : s.slaves.lookup M = some slave
  whitelist : s.whitelist = none

/-! ## Attribution ledger -/

/-- The resources attributed to each slave.  The allocator keeps no such
record (its sorters track allocations per framework and per role only); the
ledger is kept beside the state to state the conservation of resources. -/
abbrev Ledger := SlaveID → Resources

/-- The ledger after a message handled in state `s` that invoked the callbacks
`offs`: `addSlave` attributes the reported usage to the new slave,
`recoverResources` takes the recovered quantity off the slave's attribution,
`updateAllocation` applies the operations to it, and every callback attributes
what it offers on a slave to that slave. -/
def Ledger.after (ledger : Ledger) (c : Call) (offs : List Offer) : Ledger :=
  fun m =>
    (match c with
      | Call.addSlave m' _ _ used => if m = m' then Resources.sum used else ledger m
      | Call.recoverResources _ m' q _ => if m = m' then ledger m - q else ledger m
      | Call.updateAllocation _ m' ops =>
        if m = m' then
          (match Resources.apply (ledger m) ops with
            | some l => l
            | none => ledger m)
        else ledger m
      | _ => ledger m) + offeredOn offs m

/-- The discipline of the caller on which the conservation rests: the usage
reported for a new slave is contained in its total, only resources attributed
to a registered slave are recovered on it, and the operations of
`updateAllocation` apply to the resources attributed to the slave. -/
def Call.disciplined (ledger : Ledger) (s : State) : Call → Prop
  | Call.addSlave _ _ total used => Resources.sum used ≤ total
  | Call.recoverResources _ m q _ => m ∈ s.slaves → q ≤ ledger m
  | Call.updateAllocation _ m ops => (Resources.apply (ledger m) ops).isSome = true
  | _ => True

/-- The states reached from `initialize` by messages of a disciplined caller,
together with the attribution ledger. -/
inductive Accounted (p : Params) : State → Ledger → Prop where
  | init (now : Time) (allocationInterval : Duration) (roles : hashmap String RoleInfo) :
    Accounted p (initialize' now State.new allocationInterval roles) (fun _ => 0)
  | step {s : State} {ledger : Ledger} {r : State × List Offer} (now : Time)
    (shuffle : List SlaveID → List SlaveID) (c : Call) :
    Accounted p s ledger → (∀ l, (shuffle l).Perm l) → c.stated s → c.disciplined ledger s →
    step p now shuffle s c = some r → Accounted p r.1 (ledger.after c r.2)

/-- Conservation: on every registered slave the available pool and the
attributed resources add up to the total. -/
def Conserved (s : State) (ledger : Ledger) : Prop :=
  ∀ m slave, s.slaves.lookup m = some slave → slave.available + ledger m = slave.total

/-! ## Runs -/

instance (s : State) (c : Call) : Decidable (c.stated s) := by
  cases c <;> unfold Call.stated <;> exact inferInstance

instance : DecidableEq Slave := fun a b =>
  decidable_of_iff
    (a.total = b.total ∧ a.available = b.available ∧ a.activated = b.activated ∧
      a.checkpoint = b.checkpoint ∧ a.hostname = b.hostname)
    (by cases a; cases b; simp)

/-- The handling of a list of timed messages, one after the other; `none` when
a message violates its stated precondition or fails a `CHECK`. -/
def run (p : Params) (shuffle : List SlaveID → List SlaveID) :
    List (Time × Call) → State → Option State
  | [], s => some s
  | tc :: rest, s =>
    if tc.2.stated s then
      match step p tc.1 shuffle s tc.2 with
      | none => none
      | some r => run p shuffle rest r.1
    else none

/-- The state a run leads to (the start state when the run fails). -/
def exec (p : Params) (shuffle : List SlaveID → List SlaveID) (calls : List (Time × Call))
    (s : State) : State :=
  match run p shuffle calls s with
  | some s' => s'
  | none => s

/-! ## Example configuration -/

/-- A quantity of unreserved cpus and memory. -/
def cpusMem (cpus mem : ℕ) : Resources :=
  DFinsupp.single ("cpus", "*") cpus + DFinsupp.single ("mem", "*") mem

/-- Example constants: thresholds of 1 cpu unit and 32 memory units, and a
default refusal of 5 seconds. -/
def exampleParams : Params := { MIN_CPUS := 1, MIN_MEM := 32, defaultRefuseSeconds := 5 }

/-- The freshly initialized process with the single role `"R"` of weight 1. -/
def exampleInit : State :=
  initialize' 0 State.new 1000000000 (AList.singleton "R" { weight := 1 })

/-- A slave `"M"` with 4 cpus and 4096 of memory is added, then resources that
were never allocated are recovered on it. -/
def overRecovered : State :=
  exec exampleParams id
    [(10, Call.addSlave "M" { checkpoint := true, hostname := "host" } (cpusMem 4 4096) ∅),
     (20, Call.recoverResources "F" "M" (cpusMem 1 0) none)]
    exampleInit

/-- A slave `"M"` with 4 cpus and 4096 of memory that reports 1 cpu and 1024 of
memory in use by the framework `"F"` is added, then 1 cpu of that usage is
recovered on it. -/
def exampleRecovered : State :=
  exec exampleParams id
    [(10, Call.addSlave "M" { checkpoint := true, hostname := "host" } (cpusMem 4 4096)
        (AList.singleton "F" (cpusMem 1 1024))),
     (20, Call.recoverResources "F" "M" (cpusMem 1 0) none)]
    exampleInit

/-- The attribution ledger that goes with `exampleRecovered`. -/
def exampleLedger : Ledger :=
  Ledger.after
    (Ledger.after (fun _ => 0)
      (Call.addSlave "M" { checkpoint := true, hostname := "host" } (cpusMem 4 4096)
        (AList.singleton "F" (cpusMem 1 1024))) [])
    (Call.recoverResources "F" "M" (cpusMem 1 0) none) []

/-- Resources that mix pools: 2 unreserved cpus, 1 cpu reserved for the role
`"R"`, 3 cpus reserved for the role `"S"` and 1024 of unreserved memory. -/
def mixed : Resources :=
  DFinsupp.single ("cpus", "*") 2 + DFinsupp.single ("cpus", "R") 1 +
    DFinsupp.single ("cpus", "S") 3 + DFinsupp.single ("mem", "*") 1024

/-- The framework `"F"` of role `"R"` is registered and the slave `"M"` holds
all of `mixed` in its available pool: both were added while an empty whitelist
kept every slave out of the cycle, and the whitelist was lifted afterwards. -/
def exampleIdle : State :=
  exec exampleParams id
    [(10, Call.updateWhitelist (some [])),
     (20, Call.addSlave "M" { checkpoint := true, hostname := "host" } mixed ∅),
     (30, Call.addFramework "F" { role := "R", checkpoint := false } ∅),
     (40, Call.updateWhitelist none)]
    exampleInit

/-- The framework `"F"` was offered the 4 cpus and 4096 of memory of the slave
`"M"` and returned them with a refusal of 5 seconds at the clock reading 30. -/
def exampleRefused : State :=
  exec exampleParams id
    [(10, Call.addFramework "F" { role := "R", checkpoint := false } ∅),
     (20, Call.addSlave "M" { checkpoint := true, hostname := "host" } (cpusMem 4 4096) ∅),
     (30, Call.recoverResources "F" "M" (cpusMem 4 4096) (some { refuse_seconds := 5 }))]
    exampleInit

/-- The slave `"M"` and the framework `"F"` are registered while the whitelist
admits the host `"other"` only. -/
def exampleFenced : State :=
  exec exampleParams id
    [(10, Call.updateWhitelist (some ["other"])),
     (20, Call.addSlave "M" { checkpoint := true, hostname := "host" } (cpusMem 4 4096) ∅),
     (30, Call.addFramework "F" { role := "R", checkpoint := false } ∅)]
    exampleInit

/-- The slave `"M"` does not checkpoint and the framework `"F"` does. -/
def exampleCheckpoint : State :=
  exec exampleParams id
    [(10, Call.addSlave "M" { checkpoint := false, hostname := "host" } (cpusMem 4 4096) ∅),
     (20, Call.addFramework "F" { role := "R", checkpoint := true } ∅)]
    exampleInit

/-- The framework `"F"` was offered the 4 cpus and 4096 of memory of the slave
`"M"` and was removed afterwards. -/
def exampleLate : State :=
  exec exampleParams id
    [(10, Call.addFramework "F" { role := "R", checkpoint := false } ∅),
     (20, Call.addSlave "M" { checkpoint := true, hostname := "host" } (cpusMem 4 4096) ∅),
     (30, Call.removeFramework "F")]
    exampleInit

/-- The framework `"F"` was offered the 4 cpus and 4096 of memory of the slave
`"M"`, and the slave was removed afterwards: the sorters still track the
allocation of `"F"`. -/
def exampleGone : State :=
  exec exampleParams id
    [(10, Call.addFramework "F" { role := "R", checkpoint := false } ∅),
     (20, Call.addSlave "M" { checkpoint := true, hostname := "host" } (cpusMem 4 4096) ∅),
     (30, Call.removeSlave "M")]
    exampleInit

/-- The process initialized with the two roles `"R"` and `"S"`, in which the
framework `"F"` registered with the role `"R"`. -/
def exampleTwoRoles : State :=
  exec exampleParams id
    [(10, Call.addFramework "F" { role := "R", checkpoint := false } ∅)]
    (initialize' 0 State.new 1000000000
      ((AList.singleton "R" { weight := 1 }).insert "S" { weight := 1 }))

/-- The framework `"F1"` was offered the 4 cpus and 4096 of memory of the slave
`"M"`, and the framework `"F2"` of the same role registered afterwards. -/
def exampleHeld : State :=
  exec exampleParams id
    [(10, Call.addFramework "F1" { role := "R", checkpoint := false } ∅),
     (20, Call.addSlave "M" { checkpoint := true, hostname := "host" } (cpusMem 4 4096) ∅),
     (30, Call.addFramework "F2" { role := "R", checkpoint := false } ∅)]
    exampleInit

/-- The frameworks `"F1"` and `"F2"` of the role `"R"` hold nothing, and the
slaves `"M1"` and `"M2"` hold 4 cpus and 4096 of memory each in their available
pools: all were added while an empty whitelist kept every slave out of the
cycle, and the whitelist was lifted afterwards. -/
def exampleTwoSlaves : State :=
  exec exampleParams id
    [(10, Call.updateWhitelist (some [])),
     (20, Call.addSlave "M1" { checkpoint := true, hostname := "host1" } (cpusMem 4 4096) ∅),
     (30, Call.addSlave "M2" { checkpoint := true, hostname := "host2" } (cpusMem 4 4096) ∅),
     (40, Call.addFramework "F1" { role := "R", checkpoint := false } ∅),
     (50, Call.addFramework "F2" { role := "R", checkpoint := false } ∅),
     (60, Call.updateWhitelist none)]
    exampleInit

/-- The record of the slave `"M2"` in `exampleTwoSlaves`. -/
def exampleM2 : Slave :=
  { total := cpusMem 4 4096, available := cpusMem 4 4096, activated := true, checkpoint := true,
    hostname := "host2" }

/-! ## The test hook module (`test-hook/module_main.cpp`) -/

/-- The protobuf message `mesos::Parameter`: each field is either set, and
then holds a string, or not set. -/
structure Parameter where
  key : Option String
  value : Option String

/-- The protobuf accessor `has_key()`. -/
def Parameter.has_key (parameter : Parameter) : Bool := parameter.key.isSome

/-- The protobuf accessor `has_value()`. -/
def Parameter.has_value (parameter : Parameter) : Bool := parameter.value.isSome

/-- The protobuf accessor `key()`: the empty string when the field is not set. -/
def Parameter.getKey (parameter : Parameter) : String := parameter.key.getD ""

/-- The protobuf accessor `value()`: the empty string when the field is not set. -/
def Parameter.getValue (parameter : Parameter) : String := parameter.value.getD ""

/-- `class TestHook`: the hook writes to the stream opened on `filename`. -/
structure TestHook where
  filename : String

/-- The body of the `foreach` loop of `createHook`. -/
def createHookStep (log_filename : String) (parameter : Parameter) : String :=
  if parameter.has_key && parameter.has_value && decide (parameter.getKey = "log") then
    parameter.getValue
  else log_filename

/-- The function `createHook`: `none` is the `NULL` result. -/
def createHook (parameters : List Parameter) : Option TestHook :=
  let log_filename := parameters.foldl createHookStep ""
  if log_filename = "" then none else some { filename := log_filename }

/-- The values of the parameters that have both a key and a value and whose key
is `"log"`, in the order of the parameter list. -/
def logValues (parameters : List Parameter) : List String :=
  (parameters.filter
    (fun parameter => parameter.has_key && parameter.has_value &&
      decide (parameter.getKey = "log"))).map Parameter.getValue

/-! ## Lemmas on hashmaps and on sums over their entries -/

section hashmapLemmas

variable {K V : Type} [DecidableEq K]

theorem lookup_insert_eq (m : hashmap K V) (k k' : K) (v : V) :
    (m.insert k v).lookup k' = if k' = k then some v else m.lookup k' := by
  by_cases h : k' = k
  · subst h
    simp [AList.lookup_insert]
  · simp [h, AList.lookup_insert_ne h]

theorem lookup_erase_eq (m : hashmap K V) (k k' : K) :
    (m.erase k).lookup k' = if k' = k then none else m.lookup k' := by
  by_cases h : k' = k
  · subst h
    simp [AList.lookup_erase]
  · simp [h, AList.lookup_erase_ne h]

theorem mem_iff_lookup (m : hashmap K V) (k : K) : k ∈ m ↔ ∃ v, m.lookup k = some v := by
  rw [← AList.lookup_isSome, Option.isSome_iff_exists]

theorem not_mem_iff_lookup (m : hashmap K V) (k : K) : k ∉ m ↔ m.lookup k = none :=
  AList.lookup_eq_none.symm

theorem sum_entries_split {A : Type} [AddCommMonoid A] (g : K → V → A) (k : K)
    (l : List (Sigma fun _ : K => V)) :
    (l.map (fun e => g e.1 e.2)).sum =
      (match List.dlookup k l with
        | some v => g k v
        | none => 0) + ((List.kerase k l).map (fun e => g e.1 e.2)).sum := by
  induction l with
  | nil => simp
  | cons e t ih =>
    obtain ⟨a, b⟩ := e
    by_cases h : a = k
    · subst h
      simp [List.dlookup_cons_eq, List.kerase_cons_eq]
    · have h' : k ≠ a := fun x => h x.symm
      rw [List.dlookup_cons_ne _ _ h', List.kerase_cons_ne h']
      simp only [List.map_cons, List.sum_cons]
      rw [ih]
      exact add_left_comm _ _ _

/-- Sum of `g` over the entries of a hashmap. -/
theorem sum_entries_insert {A : Type} [AddCommMonoid A] (g : K → V → A) (m : hashmap K V)
    (k : K) (v : V) :
    ((m.insert k v).entries.map (fun e => g e.1 e.2)).sum +
        (match m.lookup k with
          | some v0 => g k v0
          | none => 0) =
      g k v + (m.entries.map (fun e => g e.1 e.2)).sum := by
  rw [AList.insert_entries, sum_entries_split g k m.entries]
  simp only [List.map_cons, List.sum_cons]
  have : List.dlookup k m.entries = m.lookup k := rfl
  rw [this]
  abel

end hashmapLemmas

/-! ## Lemmas on the sorter -/

namespace Sorter

theorem lookup_modify (s : Sorter) (name : String) (f : Client → Client) (n : String) :
    (s.modify name f).clients.lookup n =
      if n = name then (s.clients.lookup name).map f else s.clients.lookup n := by
  unfold modify
  cases h : s.clients.lookup name with
  | none =>
    by_cases hn : n = name
    · subst hn; simp [h]
    · simp [hn]
  | some c =>
    simp only [lookup_insert_eq, Option.map_some']

theorem resources_modify (s : Sorter) (name : String) (f : Client → Client) :
    (s.modify name f).resources = s.resources := by
  unfold modify
  cases s.clients.lookup name <;> rfl

theorem mem_sort (s : Sorter) (name : String) :
    name ∈ s.sort ↔ ∃ c, s.clients.lookup name = some c ∧ c.active = true := by
  unfold sort
  simp only [List.mem_map, (List.perm_insertionSort before _).mem_iff, List.mem_filter]
  constructor
  · rintro ⟨k, ⟨e, ⟨he, hact⟩, rfl⟩, rfl⟩
    refine ⟨e.2, ?_, hact⟩
    have : e.2 ∈ s.clients.lookup e.1 := AList.mem_lookup_iff.mpr (by cases e; exact he)
    exact this
  · rintro ⟨c, hc, hact⟩
    have : (Sigma.mk name c : Sigma fun _ : String => Client) ∈ s.clients.entries :=
      AList.mem_lookup_iff.mp hc
    exact ⟨_, ⟨_, ⟨this, hact⟩, rfl⟩, rfl⟩

theorem mem_clients_of_mem_sort (s : Sorter) (name : String) (h : name ∈ s.sort) :
    name ∈ s.clients := by
  obtain ⟨c, hc, _⟩ := (mem_sort s name).mp h
  exact (mem_iff_lookup _ _).mpr ⟨c, hc⟩

theorem allocation_modify (s : Sorter) (name : String) (f : Client → Client) (n : String) :
    (s.modify name f).allocation n =
      if n = name then
        (match s.clients.lookup name with
          | some c => (f c).allocation
          | none => 0)
      else s.allocation n := by
  unfold allocation
  rw [lookup_modify]
  by_cases hn : n = name
  · subst hn
    cases s.clients.lookup n <;> simp
  · simp [hn]

theorem mem_modify (s : Sorter) (name : String) (f : Client → Client) (n : String) :
    n ∈ (s.modify name f).clients ↔ n ∈ s.clients := by
  rw [mem_iff_lookup, mem_iff_lookup, lookup_modify]
  by_cases hn : n = name
  · subst hn
    cases s.clients.lookup n <;> simp
  · simp [hn]

end Sorter

/-! ## The rejecting subtraction -/

theorem Resources.subtract_eq_some {a b t : Resources} :
    Resources.subtract a b = some t ↔ b ≤ a ∧ t = a - b := by
  unfold Resources.subtract Resources.contains
  by_cases h : b ≤ a
  · simp [h, eq_comm]
  · simp [h]

theorem Resources.subtract_eq_none {a b : Resources} :
    Resources.subtract a b = none ↔ ¬ b ≤ a := by
  unfold Resources.subtract Resources.contains
  by_cases h : b ≤ a
  · simp [h]
  · simp [h]

theorem Sorter.unallocated_eq_some {s t : Sorter} {name : String} {r : Resources} :
    s.unallocated name r = some t ↔
      r ≤ s.allocation name ∧
        t = s.modify name (fun c => { c with allocation := s.allocation name - r }) := by
  unfold Sorter.unallocated
  cases h : Resources.subtract (s.allocation name) r with
  | none =>
    have := Resources.subtract_eq_none.mp h
    simp [this]
  | some a =>
    obtain ⟨h1, h2⟩ := Resources.subtract_eq_some.mp h
    subst h2
    simp [h1, eq_comm]

theorem Sorter.unallocated_eq_none {s : Sorter} {name : String} {r : Resources} :
    s.unallocated name r = none ↔ ¬ r ≤ s.allocation name := by
  unfold Sorter.unallocated
  cases h : Resources.subtract (s.allocation name) r with
  | none => simpa using Resources.subtract_eq_none.mp h
  | some a => simpa using (Resources.subtract_eq_some.mp h).1

theorem Sorter.removeResources_eq_some {s t : Sorter} {r : Resources} :
    s.removeResources r = some t ↔
      r ≤ s.resources ∧ t = { s with resources := s.resources - r } := by
  unfold Sorter.removeResources
  cases h : Resources.subtract s.resources r with
  | none =>
    have := Resources.subtract_eq_none.mp h
    simp [this]
  | some a =>
    obtain ⟨h1, h2⟩ := Resources.subtract_eq_some.mp h
    subst h2
    simp [h1, eq_comm]

theorem Sorter.removeResources_eq_none {s : Sorter} {r : Resources} :
    s.removeResources r = none ↔ ¬ r ≤ s.resources := by
  unfold Sorter.removeResources
  cases h : Resources.subtract s.resources r with
  | none => simpa using Resources.subtract_eq_none.mp h
  | some a => simpa using (Resources.subtract_eq_some.mp h).1

/-- What a successful `recoverFramework` did: nothing for an unregistered
framework or one that its sorter does not hold; otherwise the three
subtractions were contained and the two sorters hold the differences. -/
theorem recoverFramework_eq_some {s t : State} {f : FrameworkID} {r : Resources}
    (h : recoverFramework s f r = some t) :
    (t = s ∧ (s.frameworks.lookup f = none ∨
      ∃ framework sorter, s.frameworks.lookup f = some framework ∧
        s.frameworkSorters.lookup framework.role = some sorter ∧ sorter.contains f = false)) ∨
    ∃ framework sorter, s.frameworks.lookup f = some framework ∧
      s.frameworkSorters.lookup framework.role = some sorter ∧ sorter.contains f = true ∧
      r ≤ sorter.allocation f ∧ r ≤ sorter.resources ∧
      Resources.unreserved r ≤ s.roleSorter.allocation framework.role ∧
      t = { s with
        frameworkSorters := s.frameworkSorters.insert framework.role
          { sorter.modify f (fun c => { c with allocation := sorter.allocation f - r }) with
            resources := sorter.resources - r }
        roleSorter := s.roleSorter.modify framework.role
          (fun c =>
            { c with
              allocation := s.roleSorter.allocation framework.role - Resources.unreserved r }) }
    := by
  unfold Mesos.recoverFramework at h
  cases hl : s.frameworks.lookup f with
  | none =>
    simp only [hl, Option.some.injEq] at h
    exact Or.inl ⟨h.symm, Or.inl rfl⟩
  | some framework =>
    cases hq : s.frameworkSorters.lookup framework.role with
    | none => simp [hl, hq] at h
    | some sorter =>
      simp only [hl, hq] at h
      by_cases hc : sorter.contains f = true
      · simp only [hc, if_true] at h
        cases h1 : sorter.unallocated f r with
        | none => simp [h1] at h
        | some sorter1 =>
          obtain ⟨ha, rfl⟩ := Sorter.unallocated_eq_some.mp h1
          simp only [h1, Option.some_bind] at h
          cases h2 : Sorter.removeResources
              (sorter.modify f (fun c => { c with allocation := sorter.allocation f - r })) r with
          | none => simp [h2] at h
          | some sorter2 =>
            obtain ⟨hb, rfl⟩ := Sorter.removeResources_eq_some.mp h2
            rw [Sorter.resources_modify] at hb
            cases h3 : s.roleSorter.unallocated framework.role (Resources.unreserved r) with
            | none => simp [h2, h3] at h
            | some roleSorter1 =>
              obtain ⟨hd, rfl⟩ := Sorter.unallocated_eq_some.mp h3
              simp only [h2, h3, Option.some.injEq] at h
              refine Or.inr ⟨framework, sorter, rfl, hq, hc, ha, hb, hd, ?_⟩
              rw [← h, Sorter.resources_modify]
      · have hc' : sorter.contains f = false := by
          cases hx : sorter.contains f
          · rfl
          · exact absurd hx hc
        simp only [hc', Bool.false_eq_true, if_false, Option.some.injEq] at h
        exact Or.inl ⟨h.symm, Or.inr ⟨framework, sorter, rfl, hq, hc'⟩⟩

/-- `recoverFramework` of a framework that its sorter holds succeeds when the
three subtractions are contained. -/
theorem recoverFramework_of_le {s : State} {f : FrameworkID} {r : Resources}
    {framework : Framework} {sorter : Sorter} (hl : s.frameworks.lookup f = some framework)
    (hq : s.frameworkSorters.lookup framework.role = some sorter)
    (hc : sorter.contains f = true) (ha : r ≤ sorter.allocation f) (hb : r ≤ sorter.resources)
    (hd : Resources.unreserved r ≤ s.roleSorter.allocation framework.role) :
    recoverFramework s f r = some
      { s with
        frameworkSorters := s.frameworkSorters.insert framework.role
          { sorter.modify f (fun c => { c with allocation := sorter.allocation f - r }) with
            resources := sorter.resources - r }
        roleSorter := s.roleSorter.modify framework.role
          (fun c =>
            { c with
              allocation := s.roleSorter.allocation framework.role - Resources.unreserved r }) }
    := by
  have h1 := Sorter.unallocated_eq_some.mpr ⟨ha, rfl⟩
  have h2 : Sorter.removeResources
      (sorter.modify f (fun c => { c with allocation := sorter.allocation f - r })) r = some
        { sorter.modify f (fun c => { c with allocation := sorter.allocation f - r }) with
          resources := sorter.resources - r } := by
    apply Sorter.removeResources_eq_some.mpr
    rw [Sorter.resources_modify]
    exact ⟨hb, rfl⟩
  have h3 := Sorter.unallocated_eq_some.mpr ⟨hd, rfl⟩
  unfold Mesos.recoverFramework
  simp only [hl, hq, hc, if_true, h1, Option.some_bind, h2, h3]

/-- What a successful `removeSlave` did. -/
theorem removeSlave_eq_some {s t : State} {m : SlaveID} (h : removeSlave s m = some t) :
    s.initialized = true ∧ ∃ slave, s.slaves.lookup m = some slave ∧
      Resources.unreserved slave.total ≤ s.roleSorter.resources ∧
      t = { s with
        roleSorter :=
          { s.roleSorter with
            resources := s.roleSorter.resources - Resources.unreserved slave.total }
        slaves := s.slaves.erase m } := by
  unfold Mesos.removeSlave at h
  split_ifs at h with hi
  cases hl : s.slaves.lookup m with
  | none => simp [hl] at h
  | some slave =>
    simp only [hl] at h
    cases h1 : s.roleSorter.removeResources (Resources.unreserved slave.total) with
    | none => simp [h1] at h
    | some roleSorter1 =>
      obtain ⟨hle, rfl⟩ := Sorter.removeResources_eq_some.mp h1
      simp only [h1, Option.some.injEq] at h
      refine ⟨by simpa using hi, slave, rfl, hle, h.symm⟩

/-- What a successful `removeFramework` did. -/
theorem removeFramework_eq_some {s t : State} {f : FrameworkID}
    (h : removeFramework s f = some t) :
    s.initialized = true ∧ ∃ framework sorter, s.frameworks.lookup f = some framework ∧
      s.frameworkSorters.lookup framework.role = some sorter ∧
      ((sorter.contains f = false ∧ t = { s with frameworks := s.frameworks.erase f }) ∨
        (sorter.contains f = true ∧
          t = { s with
            roleSorter := s.roleSorter.modify framework.role
              (fun c =>
                { c with
                  allocation := s.roleSorter.allocation framework.role -
                    Resources.unreserved (sorter.allocation f) })
            frameworkSorters := s.frameworkSorters.insert framework.role
              (Sorter.remove
                { sorter with resources := sorter.resources - sorter.allocation f } f)
            frameworks := s.frameworks.erase f })) := by
  unfold Mesos.removeFramework at h
  split_ifs at h with hi
  refine ⟨by simpa using hi, ?_⟩
  cases hl : s.frameworks.lookup f with
  | none => simp [hl] at h
  | some framework =>
    cases hq : s.frameworkSorters.lookup framework.role with
    | none => simp [hl, hq] at h
    | some sorter =>
      simp only [hl, hq] at h
      refine ⟨framework, sorter, rfl, hq, ?_⟩
      by_cases hc : sorter.contains f = true
      · simp only [hc, if_true] at h
        cases h1 : s.roleSorter.unallocated framework.role
            (Resources.unreserved (sorter.allocation f)) with
        | none => simp [h1] at h
        | some roleSorter1 =>
          obtain ⟨_, rfl⟩ := Sorter.unallocated_eq_some.mp h1
          cases h2 : sorter.removeResources (sorter.allocation f) with
          | none => simp [h1, h2] at h
          | some sorter1 =>
            obtain ⟨_, rfl⟩ := Sorter.removeResources_eq_some.mp h2
            simp only [h1, h2, Option.some.injEq] at h
            exact Or.inr ⟨hc, h.symm⟩
      · have hc' : sorter.contains f = false := by
          cases hx : sorter.contains f
          · rfl
          · exact absurd hx hc
        simp only [hc', Bool.false_eq_true, if_false, Option.some.injEq] at h
        exact Or.inl ⟨hc', h.symm⟩

/-- What a successful `addSlave` did before its cycle: the reported usage is
contained in the total, the loop over the usage returned and the slave was
recorded with the difference as its available pool. -/
theorem addSlave_eq_some {p : Params} {now : Time} {shuffle : List SlaveID → List SlaveID}
    {s : State} {m : SlaveID} {info : SlaveInfo} {total : Resources}
    {used : hashmap FrameworkID Resources} {r : State × List Offer}
    (h : addSlave p now shuffle s m info total used = some r) :
    s.initialized = true ∧ s.slaves.lookup m = none ∧ Resources.sum used ≤ total ∧
      ∃ s1, addSlaveLoop used.entries
          { s with roleSorter := s.roleSorter.addResources (Resources.unreserved total) } =
            some s1 ∧
        allocateSlave p now shuffle
          { s1 with
              slaves := s1.slaves.insert m
                { total := total, available := total - Resources.sum used, activated := true,
                  checkpoint := info.checkpoint, hostname := info.hostname } } m = some r := by
  unfold Mesos.addSlave at h
  split_ifs at h with hi hk
  have hm : s.slaves.lookup m = none := by
    cases hx : s.slaves.lookup m with
    | none => rfl
    | some x => simp [hx] at hk
  cases h1 : Mesos.addSlaveLoop used.entries
      { s with roleSorter := s.roleSorter.addResources (Resources.unreserved total) } with
  | none => simp [h1] at h
  | some s1 =>
    simp only [h1] at h
    cases h2 : Resources.subtract total (Resources.sum used) with
    | none => simp [h2] at h
    | some available =>
      obtain ⟨hle, rfl⟩ := Resources.subtract_eq_some.mp h2
      simp only [h2] at h
      exact ⟨by simpa using hi, hm, hle, s1, rfl, h⟩

/-- `addSlave` of an unknown slave whose reported usage is contained in its
total runs its cycle once the loop over the usage returned. -/
theorem addSlave_of_le {p : Params} {now : Time} {shuffle : List SlaveID → List SlaveID}
    {s s1 : State} {m : SlaveID} (info : SlaveInfo) {total : Resources}
    {used : hashmap FrameworkID Resources} (hi : s.initialized = true)
    (hm : s.slaves.lookup m = none) (hle : Resources.sum used ≤ total)
    (h1 : addSlaveLoop used.entries
      { s with roleSorter := s.roleSorter.addResources (Resources.unreserved total) } = some s1) :
    addSlave p now shuffle s m info total used =
      allocateSlave p now shuffle
        { s1 with
            slaves := s1.slaves.insert m
              { total := total, available := total - Resources.sum used, activated := true,
                checkpoint := info.checkpoint, hostname := info.hostname } } m := by
  have h2 : Resources.subtract total (Resources.sum used) = some (total - Resources.sum used) :=
    Resources.subtract_eq_some.mpr ⟨hle, rfl⟩
  have hi0 : (!s.initialized) = false := by simp [hi]
  unfold Mesos.addSlave
  simp only [hi0, hm, h1, h2, Bool.false_eq_true, if_false, Option.isSome_none]

/-! ## The frame of the allocation cycle -/

theorem Same.refl (s : State) : Same s s :=
  ⟨rfl, rfl, rfl, rfl, rfl, rfl, rfl, fun _ => rfl, fun _ => rfl, rfl, fun _ => rfl⟩

theorem Same.trans {s t u : State} (h1 : Same s t) (h2 : Same t u) : Same s u :=
  ⟨h2.initialized.trans h1.initialized, h2.allocationInterval.trans h1.allocationInterval,
    h2.frameworks.trans h1.frameworks, h2.roles.trans h1.roles,
    h2.whitelist.trans h1.whitelist, h2.nextFilter.trans h1.nextFilter,
    h2.timers.trans h1.timers, fun m => (h2.slaves m).trans (h1.slaves m),
    fun r => (h2.roleFlags r).trans (h1.roleFlags r), h2.roleTotal.trans h1.roleTotal,
    fun r => (h2.sorterFlags r).trans (h1.sorterFlags r)⟩

theorem Sorter.flags_modify (s : Sorter) (name : String) (f : Client → Client)
    (hf : ∀ c, (f c).weight = c.weight ∧ (f c).active = c.active) :
    (s.modify name f).flags = s.flags := by
  funext n
  unfold Sorter.flags
  rw [Sorter.lookup_modify]
  by_cases hn : n = name
  · subst hn
    cases h : s.clients.lookup n with
    | none => simp
    | some c => simp [(hf c).1, (hf c).2]
  · simp [hn]

theorem Sorter.flags_allocated (s : Sorter) (name : String) (r : Resources) :
    (s.allocated name r).flags = s.flags :=
  Sorter.flags_modify s name _ (fun _ => ⟨rfl, rfl⟩)

theorem Sorter.flags_addResources (s : Sorter) (r : Resources) :
    (s.addResources r).flags = s.flags := rfl

theorem assign_same (acc : State × Offerable) (slaveId : SlaveID) (role : String)
    (frameworkId : String) (slave : Slave) (sorter : Sorter) (resources : Resources)
    (hslave : acc.1.slaves.lookup slaveId = some slave)
    (hsorter : acc.1.frameworkSorters.lookup role = some sorter) :
    Same acc.1 (assign acc slaveId role frameworkId slave sorter resources).1 := by
  refine ⟨rfl, rfl, rfl, rfl, rfl, rfl, rfl, ?_, ?_, ?_, ?_⟩
  · intro m
    simp only [assign, lookup_insert_eq]
    by_cases hm : m = slaveId
    · subst hm
      simp [hslave, Slave.static]
    · simp [hm]
  · intro r
    simp only [assign]
    rw [Sorter.flags_allocated]
  · simp only [assign]
    exact Sorter.resources_modify _ _ _
  · intro r
    simp only [assign, lookup_insert_eq]
    by_cases hr : r = role
    · subst hr
      simp [hsorter, Sorter.flags_allocated, Sorter.flags_addResources]
    · simp [hr]

theorem allocateFramework_cases {p : Params} {now : Time} {slaveId : SlaveID} {role : String}
    {acc acc' : State × Offerable} {frameworkId : String}
    (h : allocateFramework p now slaveId role acc frameworkId = some acc') :
    acc' = acc ∨ ∃ slave sorter, acc.1.slaves.lookup slaveId = some slave ∧
      acc.1.frameworkSorters.lookup role = some sorter ∧
      allocatable p (offerableTo slave role) = true ∧
      isFiltered now acc.1 frameworkId slaveId (offerableTo slave role) = some false ∧
      acc' = assign acc slaveId role frameworkId slave sorter (offerableTo slave role) := by
  unfold allocateFramework at h
  cases hs : acc.1.slaves.lookup slaveId with
  | none => simp [hs] at h
  | some slave =>
    cases hq : acc.1.frameworkSorters.lookup role with
    | none => simp [hs, hq] at h
    | some sorter =>
      simp only [hs, hq] at h
      by_cases ha : allocatable p (offerableTo slave role) = true
      · simp only [ha, Bool.not_true, Bool.false_eq_true, if_false] at h
        cases hf : isFiltered now acc.1 frameworkId slaveId (offerableTo slave role) with
        | none => simp [hf] at h
        | some b =>
          cases b with
          | true =>
            simp only [hf, Option.some.injEq] at h
            exact Or.inl h.symm
          | false =>
            simp only [hf, Option.some.injEq] at h
            exact Or.inr ⟨slave, sorter, rfl, rfl, ha, hf, h.symm⟩
      · simp only [ha, Bool.not_false, if_true, Option.some.injEq] at h
        exact Or.inl h.symm

theorem allocateFramework_same {p : Params} {now : Time} {slaveId : SlaveID} {role : String}
    {acc acc' : State × Offerable} {frameworkId : String}
    (h : allocateFramework p now slaveId role acc frameworkId = some acc') :
    Same acc.1 acc'.1 := by
  rcases allocateFramework_cases h with h1 | ⟨slave, sorter, hs, hq, _, _, h1⟩
  · rw [h1]; exact Same.refl _
  · rw [h1]; exact assign_same acc slaveId role frameworkId slave sorter _ hs hq

/-! ## Induction over the nested loops of the cycle -/

theorem Eligible.same {s t : State} (h : Same s t) {m : SlaveID} (he : Eligible t m) :
    Eligible s m := by
  obtain ⟨slave, hl, hact, hw⟩ := he
  have hm := h.slaves m
  rw [hl] at hm
  cases hs : s.slaves.lookup m with
  | none => simp [hs] at hm
  | some slave0 =>
    simp only [hs, Option.map_some', Option.some.injEq, Slave.static, Prod.mk.injEq] at hm
    refine ⟨slave0, hs, ?_, ?_⟩
    · rw [← hm.2.1]; exact hact
    · intro w hw0
      rw [← hm.2.2.2]
      exact hw w (h.whitelist.trans hw0)

theorem flags_of_mem_sort {s : Sorter} {name : String} (h : name ∈ s.sort) :
    ∃ w, s.flags name = some (w, true) := by
  obtain ⟨c, hc, hact⟩ := (Sorter.mem_sort s name).mp h
  exact ⟨c.weight, by simp [Sorter.flags, hc, hact]⟩

theorem allocateFrameworks_inv {p : Params} {now : Time} (I : State × Offerable → Prop)
    (s : State) (slaveId : SlaveID) (role : String)
    (hstep : ∀ f acc acc', Same s acc.1 → I acc →
      (∃ sorter w, s.frameworkSorters.lookup role = some sorter ∧
        sorter.flags f = some (w, true)) →
      allocateFramework p now slaveId role acc f = some acc' → I acc') :
    ∀ (fs : List String) (acc acc' : State × Offerable), Same s acc.1 → I acc →
      (∀ f ∈ fs, ∃ sorter w, s.frameworkSorters.lookup role = some sorter ∧
        sorter.flags f = some (w, true)) →
      allocateFrameworks p now slaveId role fs acc = some acc' → Same s acc'.1 ∧ I acc' := by
  intro fs
  induction fs with
  | nil =>
    intro acc acc' hsame hI _ h
    simp only [allocateFrameworks, Option.some.injEq] at h
    subst h
    exact ⟨hsame, hI⟩
  | cons f fs ih =>
    intro acc acc' hsame hI hctx h
    simp only [allocateFrameworks] at h
    cases h1 : allocateFramework p now slaveId role acc f with
    | none => simp [h1] at h
    | some acc1 =>
      simp only [h1] at h
      have hI1 := hstep f acc acc1 hsame hI (hctx f (List.mem_cons_self _ _)) h1
      have hs1 := hsame.trans (allocateFramework_same h1)
      exact ih acc1 acc' hs1 hI1 (fun g hg => hctx g (List.mem_cons_of_mem _ hg)) h

theorem allocateRoles_inv {p : Params} {now : Time} (I : State × Offerable → Prop)
    (s : State) (slaveId : SlaveID)
    (hstep : ∀ role f acc acc', Same s acc.1 → I acc →
      (∃ w, s.roleSorter.flags role = some (w, true)) →
      (∃ sorter w, s.frameworkSorters.lookup role = some sorter ∧
        sorter.flags f = some (w, true)) →
      allocateFramework p now slaveId role acc f = some acc' → I acc') :
    ∀ (roles : List String) (acc acc' : State × Offerable), Same s acc.1 → I acc →
      (∀ r ∈ roles, ∃ w, s.roleSorter.flags r = some (w, true)) →
      allocateRoles p now slaveId roles acc = some acc' → Same s acc'.1 ∧ I acc' := by
  intro roles
  induction roles with
  | nil =>
    intro acc acc' hsame hI _ h
    simp only [allocateRoles, Option.some.injEq] at h
    subst h
    exact ⟨hsame, hI⟩
  | cons role roles ih =>
    intro acc acc' hsame hI hctx h
    simp only [allocateRoles] at h
    cases hq : acc.1.frameworkSorters.lookup role with
    | none => simp [hq] at h
    | some sorter =>
      simp only [hq] at h
      cases h1 : allocateFrameworks p now slaveId role sorter.sort acc with
      | none => simp [h1] at h
      | some acc1 =>
        simp only [h1] at h
        have hmem : ∀ f ∈ sorter.sort, ∃ sorter0 w,
            s.frameworkSorters.lookup role = some sorter0 ∧ sorter0.flags f = some (w, true) := by
          intro f hf
          obtain ⟨w, hw⟩ := flags_of_mem_sort hf
          have hfl := hsame.sorterFlags role
          rw [hq] at hfl
          cases hs0 : s.frameworkSorters.lookup role with
          | none => simp [hs0] at hfl
          | some sorter0 =>
            simp only [hs0, Option.map_some', Option.some.injEq] at hfl
            exact ⟨sorter0, w, rfl, by rw [← hfl]; exact hw⟩
        obtain ⟨hs1, hI1⟩ := allocateFrameworks_inv I s slaveId role
          (fun f a a' hsa hIa hc hst =>
            hstep role f a a' hsa hIa (hctx role (List.mem_cons_self _ _)) hc hst)
          sorter.sort acc acc1 hsame hI hmem h1
        exact ih acc1 acc' hs1 hI1 (fun r hr => hctx r (List.mem_cons_of_mem _ hr)) h

theorem isWhitelisted_eq_some {s : State} {m : SlaveID} {b : Bool}
    (h : isWhitelisted s m = some b) :
    ∃ slave, s.slaves.lookup m = some slave ∧
      (b = true ↔ ∀ w, s.whitelist = some w → slave.hostname ∈ w) := by
  unfold isWhitelisted at h
  cases hs : s.slaves.lookup m with
  | none => simp [hs] at h
  | some slave =>
    refine ⟨slave, rfl, ?_⟩
    simp only [hs] at h
    cases hw : s.whitelist with
    | none =>
      simp only [hw, Option.some.injEq] at h
      subst h
      simp
    | some w =>
      simp only [hw, Option.some.injEq] at h
      subst h
      simp

theorem allocateSlaves_inv {p : Params} {now : Time} (I : State × Offerable → Prop)
    (s : State) (ids0 : List SlaveID)
    (hstep : ∀ m role f acc acc', m ∈ ids0 → Same s acc.1 → I acc → Visited s m role f →
      allocateFramework p now m role acc f = some acc' → I acc') :
    ∀ (ids : List SlaveID) (acc acc' : State × Offerable), (∀ m ∈ ids, m ∈ ids0) →
      Same s acc.1 → I acc →
      allocateSlaves p now ids acc = some acc' → Same s acc'.1 ∧ I acc' := by
  intro ids
  induction ids with
  | nil =>
    intro acc acc' _ hsame hI h
    simp only [allocateSlaves, Option.some.injEq] at h
    subst h
    exact ⟨hsame, hI⟩
  | cons m ids ih =>
    intro acc acc' hsub hsame hI h
    have hsub' : ∀ x ∈ ids, x ∈ ids0 := fun x hx => hsub x (List.mem_cons_of_mem _ hx)
    simp only [allocateSlaves] at h
    cases hw : isWhitelisted acc.1 m with
    | none => simp [hw] at h
    | some b =>
      obtain ⟨slave, hsl, hb⟩ := isWhitelisted_eq_some hw
      simp only [hw, hsl] at h
      by_cases hskip : (!b || !slave.activated) = true
      · simp only [hskip, if_true] at h
        exact ih acc acc' hsub' hsame hI h
      · simp only [hskip, if_false] at h
        have hb' : b = true := by
          cases b <;> simp_all
        have hact : slave.activated = true := by
          cases hx : slave.activated <;> simp_all
        have helig : Eligible s m :=
          Eligible.same hsame ⟨slave, hsl, hact, hb.mp hb'⟩
        cases h1 : allocateRoles p now m acc.1.roleSorter.sort acc with
        | none => simp [h1] at h
        | some acc1 =>
          simp only [h1] at h
          have hroles : ∀ r ∈ acc.1.roleSorter.sort, ∃ w, s.roleSorter.flags r = some (w, true) := by
            intro r hr
            obtain ⟨w, hw⟩ := flags_of_mem_sort hr
            exact ⟨w, by rw [← hsame.roleFlags r]; exact hw⟩
          obtain ⟨hs1, hI1⟩ := allocateRoles_inv I s m
            (fun role f a a' hsa hIa hr hc hst =>
              hstep m role f a a' (hsub m (List.mem_cons_self _ _)) hsa hIa ⟨helig, hr, hc⟩ hst)
            acc.1.roleSorter.sort acc acc1 hsame hI hroles h1
          exact ih acc1 acc' hsub' hs1 hI1 h

/-! ## Lemmas on the resource algebra -/

namespace Resources

theorem offer_le (a : Resources) (role : String) : unreserved a + reserved a role ≤ a := by
  intro k
  unfold unreserved reserved
  by_cases hr : role = "*"
  · simp only [hr, if_true, add_zero, DFinsupp.filter_apply]
    split_ifs <;> simp
  · have hr' : ¬ "*" = role := fun h => hr h.symm
    simp only [hr, if_false, DFinsupp.add_apply, DFinsupp.filter_apply]
    by_cases h1 : k.2 = "*"
    · simp [h1, hr']
    · by_cases h2 : k.2 = role <;> simp [h1, h2, hr]

theorem unreserved_offer (a : Resources) (role : String) :
    unreserved (unreserved a + reserved a role) = unreserved a := by
  ext k
  unfold unreserved reserved
  by_cases hr : role = "*"
  · simp only [hr, if_true, add_zero, DFinsupp.filter_apply]
    split_ifs <;> simp
  · have hr' : ¬ "*" = role := fun h => hr h.symm
    simp only [hr, if_false, DFinsupp.add_apply, DFinsupp.filter_apply]
    by_cases h1 : k.2 = "*"
    · simp [h1, hr']
    · simp [h1]

theorem unreserved_sub_offer (a : Resources) (role : String) :
    unreserved (a - (unreserved a + reserved a role)) = 0 := by
  ext k
  unfold unreserved reserved
  by_cases hr : role = "*"
  · simp only [hr, if_true, add_zero, DFinsupp.filter_apply, DFinsupp.tsub_apply]
    split_ifs <;> simp
  · simp only [hr, if_false, DFinsupp.add_apply, DFinsupp.filter_apply, DFinsupp.tsub_apply]
    by_cases h1 : k.2 = "*"
    · simp [h1]
    · simp [h1]

theorem reserved_sub_offer (a : Resources) (role : String) :
    reserved (a - (unreserved a + reserved a role)) role = 0 := by
  ext k
  unfold unreserved reserved
  by_cases hr : role = "*"
  · simp [hr]
  · simp only [hr, if_false, DFinsupp.add_apply, DFinsupp.filter_apply, DFinsupp.tsub_apply]
    by_cases h2 : k.2 = role
    · simp [h2]
    · simp [h2]

theorem unreserved_mono {a b : Resources} (h : a ≤ b) : unreserved a ≤ unreserved b := by
  intro k
  unfold unreserved
  simp only [DFinsupp.filter_apply]
  split_ifs
  · exact h k
  · exact le_refl _

theorem unreserved_add (a b : Resources) : unreserved (a + b) = unreserved a + unreserved b := by
  ext k
  simp only [unreserved, DFinsupp.filter_apply, DFinsupp.add_apply]
  split_ifs <;> simp

theorem unreserved_zero : unreserved 0 = 0 := by
  ext k
  simp [unreserved, DFinsupp.filter_apply]

theorem reserved_sub_eq_zero (a q : Resources) (role : String) (h : reserved a role = 0) :
    reserved (a - q) role = 0 := by
  unfold reserved at h ⊢
  by_cases hr : role = "*"
  · simp [hr]
  · simp only [hr, if_false] at h ⊢
    ext k
    have hk := DFunLike.congr_fun h k
    simp only [DFinsupp.filter_apply, DFinsupp.tsub_apply, DFinsupp.zero_apply] at hk ⊢
    split_ifs with h2
    · simp only [h2, if_true] at hk
      simp [hk]
    · rfl

theorem unreserved_sub_eq_zero (a q : Resources) (h : unreserved a = 0) :
    unreserved (a - q) = 0 := by
  unfold unreserved at h ⊢
  ext k
  have hk := DFunLike.congr_fun h k
  simp only [DFinsupp.filter_apply, DFinsupp.tsub_apply, DFinsupp.zero_apply] at hk ⊢
  split_ifs with h2
  · simp only [h2, if_true] at hk
    simp [hk]
  · rfl

theorem amount_zero (name : String) : amount 0 name = 0 := by
  simp [amount, DFinsupp.sum]

theorem sum_insert {K : Type} [DecidableEq K] (m : hashmap K Resources) (k : K) (q : Resources)
    (h : m.lookup k = none) : sum (m.insert k q) = q + sum m := by
  have := sum_entries_insert (fun (_ : K) (v : Resources) => v) m k q
  simp only [h, add_zero] at this
  exact this

theorem sum_empty {K : Type} : sum (∅ : hashmap K Resources) = 0 := rfl

end Resources

theorem allocatable_zero (p : Params) : allocatable p 0 = false := by
  simp [allocatable, Resources.cpus, Resources.mem, Resources.get, Resources.amount_zero]

theorem ne_zero_of_allocatable {p : Params} {q : Resources} (h : allocatable p q = true) :
    q ≠ 0 := by
  rintro rfl
  rw [allocatable_zero] at h
  exact Bool.false_ne_true h

/-! ## Sums over the offer callbacks -/

theorem quantity_insert (payload : hashmap SlaveID Resources) (m m' : SlaveID) (q : Resources) :
    quantity (payload.insert m q) m' = if m' = m then q else quantity payload m' := by
  unfold quantity
  rw [lookup_insert_eq]
  by_cases h : m' = m <;> simp [h]

theorem quantity_empty (m : SlaveID) : quantity ∅ m = 0 := rfl

theorem payloadOf_insert (off : Offerable) (f f' : FrameworkID)
    (payload : hashmap SlaveID Resources) :
    payloadOf (off.insert f payload) f' = if f' = f then payload else payloadOf off f' := by
  unfold payloadOf
  rw [lookup_insert_eq]
  by_cases h : f' = f <;> simp [h]

theorem offers_sum_insert (g : FrameworkID → hashmap SlaveID Resources → Resources)
    (hg : ∀ f, g f ∅ = 0) (off : Offerable) (f : FrameworkID)
    (payload : hashmap SlaveID Resources) :
    ((offers (off.insert f payload)).map (fun o => g o.1 o.2)).sum + g f (payloadOf off f) =
      g f payload + ((offers off).map (fun o => g o.1 o.2)).sum := by
  have h := sum_entries_insert g off f payload
  unfold offers
  simp only [List.map_map, Function.comp_def]
  unfold payloadOf
  cases hl : off.lookup f with
  | none => simp only [hl, hg, add_zero] at h ⊢; exact h
  | some v => simp only [hl] at h ⊢; exact h

theorem offeredTo_eq (off : Offerable) (f : FrameworkID) :
    offeredTo (offers off) f = Resources.sum (payloadOf off f) := by
  unfold offeredTo offers
  simp only [List.map_map, Function.comp_def]
  have h := sum_entries_split
    (fun (k : FrameworkID) (v : hashmap SlaveID Resources) =>
      if k = f then Resources.sum v else 0) f off.entries
  simp only at h
  rw [h]
  have hz : ((List.kerase f off.entries).map
      (fun e => if e.1 = f then Resources.sum e.2 else 0)).sum = 0 := by
    apply List.sum_eq_zero
    intro x hx
    obtain ⟨e, he, rfl⟩ := List.mem_map.mp hx
    have hne : e.1 ≠ f := by
      intro heq
      have hk : e.1 ∈ (List.kerase f off.entries).keys := List.mem_keys_of_mem he
      rw [heq] at hk
      exact List.not_mem_keys_kerase f off.nodupKeys hk
    simp [hne]
  rw [hz, add_zero]
  unfold payloadOf
  have : List.dlookup f off.entries = off.lookup f := rfl
  rw [this]
  cases off.lookup f <;> simp [Resources.sum_empty]

/-! ## Preservation of the cycle invariant by one allocation -/

theorem Sorter.mem_of_flags {s : Sorter} {name : String} {x : ℕ × Bool}
    (h : s.flags name = some x) : name ∈ s.clients := by
  unfold Sorter.flags at h
  cases hc : s.clients.lookup name with
  | none => simp [hc] at h
  | some c => exact (mem_iff_lookup _ _).mpr ⟨c, hc⟩

theorem isFiltered_same {s t : State} (h : Same s t) (now : Time) (f : FrameworkID)
    (m : SlaveID) (q : Resources) : isFiltered now t f m q = isFiltered now s f m q := by
  unfold isFiltered
  have hm := h.slaves m
  rw [h.frameworks]
  cases hf : s.frameworks.lookup f with
  | none => simp
  | some framework =>
    cases ht : t.slaves.lookup m with
    | none =>
      cases hs : s.slaves.lookup m with
      | none => rfl
      | some slave => simp [ht, hs] at hm
    | some slave' =>
      cases hs : s.slaves.lookup m with
      | none => simp [ht, hs] at hm
      | some slave =>
        simp only [ht, hs, Option.map_some', Option.some.injEq, Slave.static,
          Prod.mk.injEq] at hm
        simp only [hm.2.2.1]

theorem available_of_lookup {s : State} {m : SlaveID} {slave : Slave}
    (h : s.slaves.lookup m = some slave) : available s m = slave.available := by
  simp [available, h]

theorem available_assign (acc : State × Offerable) (m : SlaveID) (role : String) (f : String)
    (slave : Slave) (sorter : Sorter) (q : Resources) (m' : SlaveID) :
    available (assign acc m role f slave sorter q).1 m' =
      if m' = m then slave.available - q else available acc.1 m' := by
  unfold available
  simp only [assign, lookup_insert_eq]
  by_cases h : m' = m <;> simp [h]

theorem frameworkAllocation_assign (acc : State × Offerable) (m : SlaveID) (role : String)
    (f : String) (slave : Slave) (sorter : Sorter) (q : Resources) (r : String) (f' : String) :
    frameworkAllocation (assign acc m role f slave sorter q).1 r f' =
      if r = role then ((sorter.addResources q).allocated f q).allocation f'
      else frameworkAllocation acc.1 r f' := by
  unfold frameworkAllocation
  simp only [assign, lookup_insert_eq]
  by_cases h : r = role <;> simp [h]

theorem Sorter.allocation_allocated (s : Sorter) (name : String) (q : Resources) (n : String)
    (h : name ∈ s.clients) :
    (s.allocated name q).allocation n =
      if n = name then s.allocation name + q else s.allocation n := by
  unfold Sorter.allocated
  rw [Sorter.allocation_modify]
  obtain ⟨c, hc⟩ := (mem_iff_lookup _ _).mp h
  by_cases hn : n = name
  · simp [hn, hc, Sorter.allocation]
  · simp [hn]

theorem step_facts {p : Params} {now : Time} {s : State} {ids : List SlaveID}
    {acc : State × Offerable} {m : SlaveID} {role : String} {f : String} {slave : Slave}
    {sorter : Sorter} (hwf : WF s) (hsame : Same s acc.1) (hI : CycleInv p now s ids acc)
    (hv : Visited s m role f) (hs : acc.1.slaves.lookup m = some slave)
    (hq : acc.1.frameworkSorters.lookup role = some sorter)
    (ha : allocatable p (offerableTo slave role) = true) :
    (∃ framework, s.frameworks.lookup f = some framework ∧ framework.role = role) ∧
      (∃ sorter0, s.frameworkSorters.lookup role = some sorter0 ∧ f ∈ sorter0.clients) ∧
      f ∈ sorter.clients ∧ role ∈ s.roleSorter.clients ∧ role ∈ acc.1.roleSorter.clients ∧
      (payloadOf acc.2 f).lookup m = none := by
  obtain ⟨_, ⟨wr, hwr⟩, sorter0, w, hs0, hw⟩ := hv
  have hf0 : f ∈ sorter0.clients := Sorter.mem_of_flags hw
  obtain ⟨framework, hfw, hrole⟩ := hwf.clients role sorter0 hs0 f hf0
  have hfl := hsame.sorterFlags role
  simp only [hq, hs0, Option.map_some', Option.some.injEq] at hfl
  have hfc : f ∈ sorter.clients := Sorter.mem_of_flags (x := (w, true)) (by rw [hfl]; exact hw)
  have hr0 : role ∈ s.roleSorter.clients := Sorter.mem_of_flags hwr
  have hrc : role ∈ acc.1.roleSorter.clients :=
    Sorter.mem_of_flags (x := (wr, true)) (by rw [hsame.roleFlags role]; exact hwr)
  refine ⟨⟨framework, hfw, hrole⟩, ⟨sorter0, hs0, hf0⟩, hfc, hr0, hrc, ?_⟩
  unfold payloadOf
  cases hl : acc.2.lookup f with
  | none => exact AList.lookup_empty m
  | some payload =>
    simp only
    cases hpm : payload.lookup m with
    | none => rfl
    | some q0 =>
      exfalso
      have hmem : m ∈ payload := (mem_iff_lookup _ _).mpr ⟨q0, hpm⟩
      obtain ⟨h1, h2⟩ := hI.exhausted f payload m framework hl hmem hfw
      rw [available_of_lookup hs] at h1 h2
      rw [hrole] at h2
      have : offerableTo slave role = 0 := by
        unfold offerableTo
        rw [h1, h2, add_zero]
      rw [this, allocatable_zero] at ha
      exact Bool.false_ne_true ha

theorem lookup_assign_offerable (acc : State × Offerable) (m : SlaveID) (role : String)
    (f : String) (slave : Slave) (sorter : Sorter) (q : Resources) (f' : FrameworkID) :
    (assign acc m role f slave sorter q).2.lookup f' =
      if f' = f then some ((payloadOf acc.2 f).insert m q) else acc.2.lookup f' := by
  simp only [assign, lookup_insert_eq]

theorem mem_payloadOf {off : Offerable} {f : FrameworkID} {m : SlaveID}
    (h : m ∈ payloadOf off f) : ∃ payload, off.lookup f = some payload ∧ m ∈ payload := by
  unfold payloadOf at h
  cases hl : off.lookup f with
  | none =>
    rw [hl] at h
    exact absurd h (AList.not_mem_empty m)
  | some payload =>
    rw [hl] at h
    exact ⟨payload, rfl, h⟩

theorem lookup_payloadOf {off : Offerable} {f : FrameworkID} {m : SlaveID} {q : Resources}
    (h : (payloadOf off f).lookup m = some q) :
    ∃ payload, off.lookup f = some payload ∧ payload.lookup m = some q := by
  unfold payloadOf at h
  cases hl : off.lookup f with
  | none =>
    rw [hl] at h
    simp [AList.lookup_empty] at h
  | some payload =>
    rw [hl] at h
    exact ⟨payload, rfl, h⟩

theorem quantity_of_lookup_none {payload : hashmap SlaveID Resources} {m : SlaveID}
    (h : payload.lookup m = none) : quantity payload m = 0 := by
  simp [quantity, h]

theorem assign_avail {p : Params} {now : Time} {s : State} {ids : List SlaveID}
    {acc : State × Offerable} {m : SlaveID} {role : String} {f : String} {slave : Slave}
    {sorter : Sorter} (hI : CycleInv p now s ids acc)
    (hs : acc.1.slaves.lookup m = some slave)
    (hnone : (payloadOf acc.2 f).lookup m = none) (m' : SlaveID) :
    available s m' =
      available (assign acc m role f slave sorter (offerableTo slave role)).1 m' +
        offeredOn (offers (assign acc m role f slave sorter (offerableTo slave role)).2) m' := by
  have hsum := offers_sum_insert (fun _ pl => quantity pl m') (fun _ => quantity_empty m')
    acc.2 f ((payloadOf acc.2 f).insert m (offerableTo slave role))
  simp only [quantity_insert] at hsum
  have hoff : offeredOn (offers (assign acc m role f slave sorter (offerableTo slave role)).2) m'
      = ((offers (acc.2.insert f ((payloadOf acc.2 f).insert m (offerableTo slave role)))).map
          (fun o => quantity o.2 m')).sum := rfl
  have hold : offeredOn (offers acc.2) m' = ((offers acc.2).map (fun o => quantity o.2 m')).sum :=
    rfl
  rw [available_assign, hoff, hI.avail m', hold]
  by_cases hm : m' = m
  · subst hm
    simp only [if_true, quantity_of_lookup_none hnone, add_zero] at hsum ⊢
    have hle : offerableTo slave role ≤ slave.available := Resources.offer_le slave.available role
    rw [hsum, available_of_lookup hs, ← add_assoc, tsub_add_cancel_of_le hle]
  · simp only [hm, if_false] at hsum ⊢
    rw [add_comm (quantity (payloadOf acc.2 f) m')] at hsum
    rw [add_right_cancel hsum]

theorem assign_exhausted {p : Params} {now : Time} {s : State} {ids : List SlaveID}
    {acc : State × Offerable} {m : SlaveID} {role : String} {f : String} {slave : Slave}
    {sorter : Sorter} (hI : CycleInv p now s ids acc)
    (hs : acc.1.slaves.lookup m = some slave)
    (hfw : ∃ framework, s.frameworks.lookup f = some framework ∧ framework.role = role)
    (f' : FrameworkID) (payload : hashmap SlaveID Resources) (m' : SlaveID)
    (framework' : Framework)
    (hl : (assign acc m role f slave sorter (offerableTo slave role)).2.lookup f' = some payload)
    (hmem : m' ∈ payload) (hf' : s.frameworks.lookup f' = some framework') :
    Resources.unreserved
        (available (assign acc m role f slave sorter (offerableTo slave role)).1 m') = 0 ∧
      Resources.reserved
        (available (assign acc m role f slave sorter (offerableTo slave role)).1 m')
        framework'.role = 0 := by
  rw [lookup_assign_offerable] at hl
  rw [available_assign]
  obtain ⟨framework, hfw1, hrole⟩ := hfw
  by_cases hm : m' = m
  · subst hm
    simp only [if_true]
    refine ⟨Resources.unreserved_sub_offer _ _, ?_⟩
    by_cases hf : f' = f
    · subst hf
      rw [hfw1] at hf'
      cases hf'
      rw [hrole]
      exact Resources.reserved_sub_offer _ _
    · simp only [hf, if_false] at hl
      have := (hI.exhausted f' payload m' framework' hl hmem hf').2
      rw [available_of_lookup hs] at this
      exact Resources.reserved_sub_eq_zero _ _ _ this
  · simp only [hm, if_false]
    by_cases hf : f' = f
    · subst hf
      simp only [if_true, Option.some.injEq] at hl
      subst hl
      have hmem' : m' ∈ payloadOf acc.2 f' := by
        rcases (AList.mem_insert _).mp hmem with h | h
        · exact absurd h hm
        · exact h
      obtain ⟨payload0, hl0, hm0⟩ := mem_payloadOf hmem'
      exact hI.exhausted f' payload0 m' framework' hl0 hm0 hf'
    · simp only [hf, if_false] at hl
      exact hI.exhausted f' payload m' framework' hl hmem hf'

theorem assign_entry {p : Params} {now : Time} {s : State} {ids : List SlaveID}
    {acc : State × Offerable} {m : SlaveID} {role : String} {f : String} {slave : Slave}
    {sorter : Sorter} (hsame : Same s acc.1) (hI : CycleInv p now s ids acc)
    (hm : m ∈ ids) (helig : Eligible s m)
    (hs : acc.1.slaves.lookup m = some slave)
    (hfw : ∃ framework, s.frameworks.lookup f = some framework ∧ framework.role = role)
    (ha : allocatable p (offerableTo slave role) = true)
    (hfilt : isFiltered now acc.1 f m (offerableTo slave role) = some false)
    (f' : FrameworkID) (payload : hashmap SlaveID Resources) (m' : SlaveID) (q : Resources)
    (hl : (assign acc m role f slave sorter (offerableTo slave role)).2.lookup f' = some payload)
    (hq : payload.lookup m' = some q) : Offered p now s ids f' m' q := by
  rw [lookup_assign_offerable] at hl
  by_cases hf : f' = f
  · subst hf
    simp only [if_true, Option.some.injEq] at hl
    subst hl
    rw [lookup_insert_eq] at hq
    by_cases hmm : m' = m
    · subst hmm
      simp only [if_true, Option.some.injEq] at hq
      subst hq
      obtain ⟨framework, hfw1, hrole⟩ := hfw
      refine ⟨hm, helig, ha, ?_, framework, slave.available, hfw1, ?_, ?_⟩
      · rw [← isFiltered_same hsame]; exact hfilt
      · rw [hI.avail m', available_of_lookup hs]
        exact le_self_add
      · rw [hrole]; rfl
    · simp only [hmm, if_false] at hq
      obtain ⟨payload0, hl0, hq0⟩ := lookup_payloadOf hq
      exact hI.entry f' payload0 m' q hl0 hq0
  · simp only [hf, if_false] at hl
    exact hI.entry f' payload m' q hl hq

theorem assign_nonempty {p : Params} {now : Time} {s : State} {ids : List SlaveID}
    {acc : State × Offerable} {m : SlaveID} {role : String} {f : String} {slave : Slave}
    {sorter : Sorter} {q : Resources} (hI : CycleInv p now s ids acc)
    (f' : FrameworkID) (payload : hashmap SlaveID Resources)
    (hl : (assign acc m role f slave sorter q).2.lookup f' = some payload) :
    ∃ m', m' ∈ payload := by
  rw [lookup_assign_offerable] at hl
  by_cases hf : f' = f
  · simp only [hf, if_true, Option.some.injEq] at hl
    subst hl
    exact ⟨m, (AList.mem_insert _).mpr (Or.inl rfl)⟩
  · simp only [hf, if_false] at hl
    exact hI.nonempty f' payload hl

theorem roleOf_of_lookup {s : State} {f : FrameworkID} {framework : Framework}
    (h : s.frameworks.lookup f = some framework) : roleOf s f = some framework.role := by
  simp [roleOf, h]

theorem assign_fwAlloc {p : Params} {now : Time} {s : State} {ids : List SlaveID}
    {acc : State × Offerable} {m : SlaveID} {role : String} {f : String} {slave : Slave}
    {sorter : Sorter} (hwf : WF s) (hI : CycleInv p now s ids acc)
    (hq : acc.1.frameworkSorters.lookup role = some sorter)
    (hfw : ∃ framework, s.frameworks.lookup f = some framework ∧ framework.role = role)
    (hfc : f ∈ sorter.clients)
    (hnone : (payloadOf acc.2 f).lookup m = none)
    (r : String) (sorter0 : Sorter) (f' : String)
    (hs0 : s.frameworkSorters.lookup r = some sorter0) (hf0 : f' ∈ sorter0.clients) :
    frameworkAllocation (assign acc m role f slave sorter (offerableTo slave role)).1 r f' =
      frameworkAllocation s r f' +
        Resources.sum (payloadOf (assign acc m role f slave sorter (offerableTo slave role)).2 f')
    := by
  have hpay : payloadOf (assign acc m role f slave sorter (offerableTo slave role)).2 f' =
      if f' = f then (payloadOf acc.2 f).insert m (offerableTo slave role)
      else payloadOf acc.2 f' := payloadOf_insert _ _ _ _
  have hcur : ∀ x, frameworkAllocation acc.1 role x = sorter.allocation x := by
    intro x
    simp [frameworkAllocation, hq]
  rw [frameworkAllocation_assign, hpay]
  by_cases hr : r = role
  · subst hr
    simp only [if_true]
    have hfc' : f ∈ (sorter.addResources (offerableTo slave r)).clients := hfc
    rw [Sorter.allocation_allocated _ _ _ _ hfc']
    have hadd : ∀ x, (sorter.addResources (offerableTo slave r)).allocation x
        = sorter.allocation x := fun _ => rfl
    by_cases hf : f' = f
    · subst hf
      simp only [if_true]
      rw [hadd, ← hcur, hI.fwAlloc r sorter0 f' hs0 hf0, Resources.sum_insert _ _ _ hnone]
      abel
    · simp only [hf, if_false]
      rw [hadd, ← hcur, hI.fwAlloc r sorter0 f' hs0 hf0]
  · simp only [hr, if_false]
    by_cases hf : f' = f
    · subst hf
      exfalso
      obtain ⟨framework, hfw1, hrole⟩ := hfw
      obtain ⟨framework', hfw2, hrole'⟩ := hwf.clients r sorter0 hs0 f' hf0
      rw [hfw1] at hfw2
      cases hfw2
      exact hr (hrole'.symm.trans hrole)
    · simp only [hf, if_false]
      exact hI.fwAlloc r sorter0 f' hs0 hf0

theorem assign_roleAlloc {p : Params} {now : Time} {s : State} {ids : List SlaveID}
    {acc : State × Offerable} {m : SlaveID} {role : String} {f : String} {slave : Slave}
    {sorter : Sorter} (hI : CycleInv p now s ids acc)
    (hfw : ∃ framework, s.frameworks.lookup f = some framework ∧ framework.role = role)
    (hrc : role ∈ acc.1.roleSorter.clients)
    (hnone : (payloadOf acc.2 f).lookup m = none)
    (r : String) (hr0 : r ∈ s.roleSorter.clients) :
    (assign acc m role f slave sorter (offerableTo slave role)).1.roleSorter.allocation r =
      s.roleSorter.allocation r +
        offeredToRole s (offers (assign acc m role f slave sorter (offerableTo slave role)).2) r
    := by
  obtain ⟨framework, hfw1, hrole⟩ := hfw
  have hroleOf : roleOf s f = some role := by rw [roleOf_of_lookup hfw1, hrole]
  have hsum := offers_sum_insert
    (fun f0 pl => if roleOf s f0 = some r then Resources.unreserved (Resources.sum pl) else 0)
    (fun f0 => by simp [Resources.sum_empty, Resources.unreserved_zero])
    acc.2 f ((payloadOf acc.2 f).insert m (offerableTo slave role))
  simp only [hroleOf, Resources.sum_insert _ _ _ hnone, Resources.unreserved_add] at hsum
  have hoff : offeredToRole s
      (offers (assign acc m role f slave sorter (offerableTo slave role)).2) r =
      ((offers (acc.2.insert f ((payloadOf acc.2 f).insert m (offerableTo slave role)))).map
        (fun o => if roleOf s o.1 = some r then Resources.unreserved (Resources.sum o.2)
          else 0)).sum := rfl
  have hold : offeredToRole s (offers acc.2) r = ((offers acc.2).map
      (fun o => if roleOf s o.1 = some r then Resources.unreserved (Resources.sum o.2)
        else 0)).sum := rfl
  have hrs : (assign acc m role f slave sorter (offerableTo slave role)).1.roleSorter =
      acc.1.roleSorter.allocated role (Resources.unreserved (offerableTo slave role)) := rfl
  rw [hrs, Sorter.allocation_allocated _ _ _ _ hrc, hoff]
  by_cases hr : r = role
  · subst hr
    simp only [if_true] at hsum ⊢
    rw [hI.roleAlloc r hr0, hold]
    have h2 := add_right_cancel (hsum.trans (by abel :
      Resources.unreserved (offerableTo slave r) +
          Resources.unreserved (Resources.sum (payloadOf acc.2 f)) +
        ((offers acc.2).map (fun o => if roleOf s o.1 = some r then
          Resources.unreserved (Resources.sum o.2) else 0)).sum =
      (Resources.unreserved (offerableTo slave r) +
        ((offers acc.2).map (fun o => if roleOf s o.1 = some r then
          Resources.unreserved (Resources.sum o.2) else 0)).sum) +
        Resources.unreserved (Resources.sum (payloadOf acc.2 f))))
    rw [h2]
    abel
  · have hne : ¬ (some role = some r) := fun h => hr (Option.some.inj h).symm
    simp only [hr, hne, if_false, add_zero, zero_add] at hsum ⊢
    rw [hsum, hI.roleAlloc r hr0, hold]

theorem CycleInv.preserved {p : Params} {now : Time} {s : State} {ids : List SlaveID}
    (hwf : WF s) (m : SlaveID) (role f : String) (acc acc' : State × Offerable)
    (hm : m ∈ ids) (hsame : Same s acc.1) (hI : CycleInv p now s ids acc)
    (hv : Visited s m role f)
    (h : allocateFramework p now m role acc f = some acc') : CycleInv p now s ids acc' := by
  rcases allocateFramework_cases h with h1 | ⟨slave, sorter, hs, hq, ha, hfilt, h1⟩
  · rw [h1]; exact hI
  · obtain ⟨hfw, _, hfc, _, hrc, hnone⟩ := step_facts hwf hsame hI hv hs hq ha
    rw [h1]
    exact
      { avail := assign_avail hI hs hnone
        exhausted := assign_exhausted hI hs hfw
        entry := assign_entry hsame hI hm hv.1 hs hfw ha hfilt
        nonempty := assign_nonempty hI
        fwAlloc := assign_fwAlloc hwf hI hq hfw hfc hnone
        roleAlloc := assign_roleAlloc hI hfw hrc hnone
        idle := fun hnil => by simp [assign, AList.insert_entries] at hnil }

theorem CycleInv.start (p : Params) (now : Time) (s : State) (ids : List SlaveID) :
    CycleInv p now s ids (s, ∅) :=
  { avail := fun m => by simp [offeredOn, offers]
    exhausted := fun f payload m framework h => by simp [AList.lookup_empty] at h
    entry := fun f payload m q h => by simp [AList.lookup_empty] at h
    nonempty := fun f payload h => by simp [AList.lookup_empty] at h
    fwAlloc := fun r sorter f _ _ => by
      simp [payloadOf, AList.lookup_empty, Resources.sum_empty]
    roleAlloc := fun r _ => by simp [offeredToRole, offers]
    idle := fun _ => rfl }

/-! ## The cycle completes in a well-formed state -/

theorem mem_slaves_of_same {s t : State} (h : Same s t) {m : SlaveID} (hm : m ∈ s.slaves) :
    ∃ slave, t.slaves.lookup m = some slave := by
  obtain ⟨slave0, h0⟩ := (mem_iff_lookup _ _).mp hm
  have := h.slaves m
  rw [h0] at this
  cases ht : t.slaves.lookup m with
  | none => simp [ht] at this
  | some slave => exact ⟨slave, rfl⟩

theorem sorter_of_same {s t : State} (h : Same s t) {r : String} {sorter0 : Sorter}
    (h0 : s.frameworkSorters.lookup r = some sorter0) :
    ∃ sorter, t.frameworkSorters.lookup r = some sorter ∧ sorter.flags = sorter0.flags := by
  have := h.sorterFlags r
  rw [h0] at this
  cases ht : t.frameworkSorters.lookup r with
  | none => simp [ht] at this
  | some sorter =>
    simp only [ht, Option.map_some', Option.some.injEq] at this
    exact ⟨sorter, rfl, this⟩

theorem allocateFramework_total {p : Params} (now : Time) {s : State} {m : SlaveID}
    {role : String} {f : String} (acc : State × Offerable) (hsame : Same s acc.1)
    (hm : m ∈ s.slaves) (hr : role ∈ s.frameworkSorters) (hf : f ∈ s.frameworks) :
    ∃ acc', allocateFramework p now m role acc f = some acc' := by
  obtain ⟨slave, hs⟩ := mem_slaves_of_same hsame hm
  obtain ⟨sorter0, h0⟩ := (mem_iff_lookup _ _).mp hr
  obtain ⟨sorter, hq, _⟩ := sorter_of_same hsame h0
  obtain ⟨framework, hfw⟩ := (mem_iff_lookup _ _).mp hf
  unfold allocateFramework
  simp only [hs, hq]
  by_cases ha : allocatable p (offerableTo slave role) = true
  · simp only [ha, Bool.not_true, Bool.false_eq_true, if_false]
    have hfilt : ∃ b, isFiltered now acc.1 f m (offerableTo slave role) = some b := by
      unfold isFiltered
      rw [hsame.frameworks, hfw, hs]
      simp only
      split_ifs
      · exact ⟨_, rfl⟩
      · exact ⟨_, rfl⟩
    obtain ⟨b, hb⟩ := hfilt
    rw [hb]
    cases b
    · exact ⟨_, rfl⟩
    · exact ⟨_, rfl⟩
  · simp only [ha, Bool.not_false, if_true]
    exact ⟨_, rfl⟩

theorem allocateFrameworks_total {p : Params} (now : Time) {s : State} {m : SlaveID}
    {role : String} (hm : m ∈ s.slaves) (hr : role ∈ s.frameworkSorters) :
    ∀ (fs : List String) (acc : State × Offerable), Same s acc.1 →
      (∀ f ∈ fs, f ∈ s.frameworks) →
      ∃ acc', allocateFrameworks p now m role fs acc = some acc' ∧ Same s acc'.1 := by
  intro fs
  induction fs with
  | nil => intro acc hsame _; exact ⟨acc, rfl, hsame⟩
  | cons f fs ih =>
    intro acc hsame hfs
    obtain ⟨acc1, h1⟩ := allocateFramework_total (p := p) now acc hsame hm hr
      (hfs f (List.mem_cons_self _ _))
    obtain ⟨acc', h2, hs2⟩ := ih acc1 (hsame.trans (allocateFramework_same h1))
      (fun g hg => hfs g (List.mem_cons_of_mem _ hg))
    exact ⟨acc', by simp only [allocateFrameworks, h1, h2], hs2⟩

theorem allocateRoles_total {p : Params} (now : Time) {s : State} {m : SlaveID}
    (hwf : WF s) (hm : m ∈ s.slaves) :
    ∀ (roles : List String) (acc : State × Offerable), Same s acc.1 →
      (∀ r ∈ roles, r ∈ s.frameworkSorters) →
      ∃ acc', allocateRoles p now m roles acc = some acc' ∧ Same s acc'.1 := by
  intro roles
  induction roles with
  | nil => intro acc hsame _; exact ⟨acc, rfl, hsame⟩
  | cons role roles ih =>
    intro acc hsame hroles
    have hr := hroles role (List.mem_cons_self _ _)
    obtain ⟨sorter0, h0⟩ := (mem_iff_lookup _ _).mp hr
    obtain ⟨sorter, hq, hfl⟩ := sorter_of_same hsame h0
    have hfs : ∀ f ∈ sorter.sort, f ∈ s.frameworks := by
      intro f hf
      obtain ⟨w, hw⟩ := flags_of_mem_sort hf
      rw [hfl] at hw
      obtain ⟨framework, hfw, _⟩ := hwf.clients role sorter0 h0 f (Sorter.mem_of_flags hw)
      exact (mem_iff_lookup _ _).mpr ⟨framework, hfw⟩
    obtain ⟨acc1, h1, hs1⟩ := allocateFrameworks_total (p := p) now hm hr
      sorter.sort acc hsame hfs
    obtain ⟨acc', h2, hs2⟩ := ih acc1 hs1 (fun r hr => hroles r (List.mem_cons_of_mem _ hr))
    exact ⟨acc', by simp only [allocateRoles, hq, h1, h2], hs2⟩

theorem allocateSlaves_total {p : Params} (now : Time) {s : State} (hwf : WF s) :
    ∀ (ids : List SlaveID) (acc : State × Offerable), Same s acc.1 →
      (∀ m ∈ ids, m ∈ s.slaves) →
      ∃ acc', allocateSlaves p now ids acc = some acc' := by
  intro ids
  induction ids with
  | nil => intro acc _ _; exact ⟨acc, rfl⟩
  | cons m ids ih =>
    intro acc hsame hids
    have hm := hids m (List.mem_cons_self _ _)
    have hrest : ∀ x ∈ ids, x ∈ s.slaves := fun x hx => hids x (List.mem_cons_of_mem _ hx)
    obtain ⟨slave, hs⟩ := mem_slaves_of_same hsame hm
    have hw : ∃ b, isWhitelisted acc.1 m = some b := by
      unfold isWhitelisted
      rw [hs]
      cases acc.1.whitelist <;> exact ⟨_, rfl⟩
    obtain ⟨b, hb⟩ := hw
    simp only [allocateSlaves, hb, hs]
    by_cases hskip : (!b || !slave.activated) = true
    · simp only [hskip, if_true]
      exact ih acc hsame hrest
    · simp only [hskip, if_false]
      have hroles : ∀ r ∈ acc.1.roleSorter.sort, r ∈ s.frameworkSorters := by
        intro r hr
        obtain ⟨w, hw⟩ := flags_of_mem_sort hr
        rw [hsame.roleFlags r] at hw
        exact hwf.sorters r (Sorter.mem_of_flags hw)
      obtain ⟨acc1, h1, hs1⟩ := allocateRoles_total (p := p) now hwf hm
        acc.1.roleSorter.sort acc hsame hroles
      simp only [h1]
      exact ih acc1 hs1 hrest

/-- The cycle completes when started in a well-formed state on registered slaves. -/
theorem allocate_total {p : Params} (now : Time) {shuffle : List SlaveID → List SlaveID}
    {s : State} {ids : List SlaveID} (hwf : WF s) (hids : ∀ m ∈ shuffle ids, m ∈ s.slaves) :
    ∃ r, allocate p now shuffle s ids = some r := by
  unfold allocate
  by_cases hc : s.roleSorter.count = 0
  · simp only [hc, if_true]
    exact ⟨_, rfl⟩
  · simp only [hc, if_false]
    obtain ⟨acc', h⟩ := allocateSlaves_total (p := p) now hwf (shuffle ids) (s, ∅)
      (Same.refl s) hids
    rw [h]
    exact ⟨_, rfl⟩

/-- The result of a completed cycle satisfies the frame and the loop invariant. -/
theorem allocate_inv {p : Params} {now : Time} {shuffle : List SlaveID → List SlaveID}
    {s : State} {ids : List SlaveID} {r : State × List Offer} (hwf : WF s)
    (h : allocate p now shuffle s ids = some r) :
    ∃ off : Offerable, r.2 = offers off ∧ Same s r.1 ∧
      CycleInv p now s (shuffle ids) (r.1, off) := by
  unfold allocate at h
  by_cases hc : s.roleSorter.count = 0
  · simp only [hc, if_true, Option.some.injEq] at h
    subst h
    exact ⟨∅, rfl, Same.refl s, CycleInv.start p now s _⟩
  · simp only [hc, if_false] at h
    cases h1 : allocateSlaves p now (shuffle ids) (s, ∅) with
    | none => simp [h1] at h
    | some acc =>
      simp only [h1, Option.some.injEq] at h
      subst h
      obtain ⟨hsame, hI⟩ := allocateSlaves_inv (CycleInv p now s (shuffle ids)) s (shuffle ids)
        (fun m role f a a' hm hsa hIa hv hst => CycleInv.preserved hwf m role f a a' hm hsa hIa hv hst)
        (shuffle ids) (s, ∅) acc (fun _ hm => hm) (Same.refl s) (CycleInv.start p now s _) h1
      exact ⟨acc.2, rfl, hsame, hI⟩

/-! ## Well-formedness is preserved by every handler -/

theorem Sorter.mem_iff_flags (s : Sorter) (name : String) :
    name ∈ s.clients ↔ ∃ x, s.flags name = some x := by
  constructor
  · intro h
    obtain ⟨c, hc⟩ := (mem_iff_lookup _ _).mp h
    exact ⟨(c.weight, c.active), by simp [Sorter.flags, hc]⟩
  · rintro ⟨x, hx⟩
    exact Sorter.mem_of_flags hx

theorem WF.of_refines {s : State} (hwf : WF s) (t : State)
    (h1 : t.initialized = true)
    (h2 : ∀ r, r ∈ t.roleSorter.clients → r ∈ s.roleSorter.clients)
    (h3 : ∀ r, r ∈ s.frameworkSorters → r ∈ t.frameworkSorters)
    (h4 : ∀ r sorter, t.frameworkSorters.lookup r = some sorter →
      ∃ sorter0, s.frameworkSorters.lookup r = some sorter0 ∧
        ∀ f, f ∈ sorter.clients → f ∈ sorter0.clients)
    (h5 : ∀ f framework, s.frameworks.lookup f = some framework →
      ∃ framework', t.frameworks.lookup f = some framework' ∧
        framework'.role = framework.role) : WF t := by
  refine ⟨h1, fun r hr => h3 r (hwf.sorters r (h2 r hr)), ?_⟩
  intro r sorter hl f hf
  obtain ⟨sorter0, h0, hsub⟩ := h4 r sorter hl
  obtain ⟨framework, hfw, hrole⟩ := hwf.clients r sorter0 h0 f (hsub f hf)
  obtain ⟨framework', hfw', hrole'⟩ := h5 f framework hfw
  exact ⟨framework', hfw', hrole'.trans hrole⟩

theorem WF.of_same {s t : State} (hwf : WF s) (h : Same s t) : WF t := by
  refine hwf.of_refines t (h.initialized.trans hwf.initialized) ?_ ?_ ?_ ?_
  · intro r hr
    obtain ⟨x, hx⟩ := (Sorter.mem_iff_flags _ _).mp hr
    rw [h.roleFlags r] at hx
    exact Sorter.mem_of_flags hx
  · intro r hr
    obtain ⟨sorter0, h0⟩ := (mem_iff_lookup _ _).mp hr
    obtain ⟨sorter, hq, _⟩ := sorter_of_same h h0
    exact (mem_iff_lookup _ _).mpr ⟨sorter, hq⟩
  · intro r sorter hl
    have := h.sorterFlags r
    rw [hl] at this
    cases h0 : s.frameworkSorters.lookup r with
    | none => simp [h0] at this
    | some sorter0 =>
      simp only [h0, Option.map_some', Option.some.injEq] at this
      refine ⟨sorter0, rfl, fun f hf => ?_⟩
      obtain ⟨x, hx⟩ := (Sorter.mem_iff_flags _ _).mp hf
      rw [this] at hx
      exact Sorter.mem_of_flags hx
  · intro f framework hfw
    exact ⟨framework, by rw [h.frameworks]; exact hfw, rfl⟩

theorem WF.allocate {p : Params} {now : Time} {shuffle : List SlaveID → List SlaveID}
    {s : State} {ids : List SlaveID} {r : State × List Offer} (hwf : WF s)
    (h : allocate p now shuffle s ids = some r) : WF r.1 := by
  obtain ⟨_, _, hsame, _⟩ := allocate_inv hwf h
  exact hwf.of_same hsame

theorem WF.delay {s : State} (hwf : WF s) (now : Time) (d : Duration) (t : Timer) :
    WF (s.delay now d t) :=
  ⟨hwf.initialized, hwf.sorters, hwf.clients⟩

/-- Replacing the sorter of a role by one with no new client. -/
theorem insert_sorter_refines {s : State} {role : String} {sorter sorter' : Sorter}
    (hq : s.frameworkSorters.lookup role = some sorter)
    (hsub : ∀ f, f ∈ sorter'.clients → f ∈ sorter.clients) :
    (∀ r, r ∈ s.frameworkSorters → r ∈ s.frameworkSorters.insert role sorter') ∧
    ∀ r sorter1, (s.frameworkSorters.insert role sorter').lookup r = some sorter1 →
      ∃ sorter0, s.frameworkSorters.lookup r = some sorter0 ∧
        ∀ f, f ∈ sorter1.clients → f ∈ sorter0.clients := by
  constructor
  · intro r hr
    exact (AList.mem_insert _).mpr (Or.inr hr)
  · intro r sorter1 hl
    rw [lookup_insert_eq] at hl
    by_cases h : r = role
    · subst h
      simp only [if_true, Option.some.injEq] at hl
      subst hl
      exact ⟨sorter, hq, hsub⟩
    · simp only [h, if_false] at hl
      exact ⟨sorter1, hl, fun _ hf => hf⟩

/-- Replacing the record of a framework by one with the same role. -/
theorem insert_framework_refines {s : State} {f : FrameworkID} {framework framework' : Framework}
    (hfw : s.frameworks.lookup f = some framework) (hrole : framework'.role = framework.role) :
    ∀ g framework0, s.frameworks.lookup g = some framework0 →
      ∃ framework1, (s.frameworks.insert f framework').lookup g = some framework1 ∧
        framework1.role = framework0.role := by
  intro g framework0 hg
  rw [lookup_insert_eq]
  by_cases h : g = f
  · subst h
    rw [hfw] at hg
    cases hg
    exact ⟨framework', by simp, hrole⟩
  · exact ⟨framework0, by simp [h, hg], rfl⟩

theorem refines_refl_sorters (s : State) :
    ∀ r sorter, s.frameworkSorters.lookup r = some sorter →
      ∃ sorter0, s.frameworkSorters.lookup r = some sorter0 ∧
        ∀ f, f ∈ sorter.clients → f ∈ sorter0.clients :=
  fun _ sorter hl => ⟨sorter, hl, fun _ hf => hf⟩

theorem refines_refl_frameworks (s : State) :
    ∀ f framework, s.frameworks.lookup f = some framework →
      ∃ framework', s.frameworks.lookup f = some framework' ∧
        framework'.role = framework.role :=
  fun _ framework hl => ⟨framework, hl, rfl⟩

theorem initialized_of_not {s : State} (h : ¬ (!s.initialized) = true) :
    s.initialized = true := by
  cases hx : s.initialized <;> simp_all

theorem WF.removeSlave {s t : State} {m : SlaveID} (hwf : WF s)
    (h : removeSlave s m = some t) : WF t := by
  obtain ⟨hi, slave, _, _, rfl⟩ := removeSlave_eq_some h
  exact hwf.of_refines _ hi (fun _ hr => hr) (fun _ hr => hr)
    (refines_refl_sorters s) (refines_refl_frameworks s)

theorem WF.activateSlave {s t : State} {m : SlaveID} (hwf : WF s)
    (h : activateSlave s m = some t) : WF t := by
  unfold Mesos.activateSlave at h
  split_ifs at h with hi
  cases hl : s.slaves.lookup m with
  | none => simp [hl] at h
  | some slave =>
    simp only [hl, Option.some.injEq] at h
    subst h
    exact hwf.of_refines _ (initialized_of_not hi) (fun _ hr => hr) (fun _ hr => hr)
      (refines_refl_sorters s) (refines_refl_frameworks s)

theorem WF.deactivateSlave {s t : State} {m : SlaveID} (hwf : WF s)
    (h : deactivateSlave s m = some t) : WF t := by
  unfold Mesos.deactivateSlave at h
  split_ifs at h with hi
  cases hl : s.slaves.lookup m with
  | none => simp [hl] at h
  | some slave =>
    simp only [hl, Option.some.injEq] at h
    subst h
    exact hwf.of_refines _ (initialized_of_not hi) (fun _ hr => hr) (fun _ hr => hr)
      (refines_refl_sorters s) (refines_refl_frameworks s)

theorem WF.updateWhitelist {s t : State} {w : Option (List String)} (hwf : WF s)
    (h : updateWhitelist s w = some t) : WF t := by
  unfold Mesos.updateWhitelist at h
  split_ifs at h with hi
  simp only [Option.some.injEq] at h
  subst h
  exact hwf.of_refines _ (initialized_of_not hi) (fun _ hr => hr) (fun _ hr => hr)
    (refines_refl_sorters s) (refines_refl_frameworks s)

theorem WF.requestResources {s t : State} {f : FrameworkID} (hwf : WF s)
    (h : requestResources s f = some t) : WF t := by
  unfold Mesos.requestResources at h
  split_ifs at h with hi
  simp only [Option.some.injEq] at h
  subst h
  exact hwf

theorem WF.expire {s : State} (hwf : WF s) (f : FrameworkID) (filter : ℕ) :
    WF (expire s f filter) := by
  unfold Mesos.expire
  cases hl : s.frameworks.lookup f with
  | none => exact hwf
  | some framework =>
    simp only
    split_ifs
    · exact hwf.of_refines _ hwf.initialized (fun _ hr => hr) (fun _ hr => hr)
        (refines_refl_sorters s) (insert_framework_refines hl rfl)
    · exact hwf

theorem WF.deactivateFramework {s t : State} {f : FrameworkID} (hwf : WF s)
    (h : deactivateFramework s f = some t) : WF t := by
  unfold Mesos.deactivateFramework at h
  split_ifs at h with hi
  cases hl : s.frameworks.lookup f with
  | none => simp [hl] at h
  | some framework =>
    cases hq : s.frameworkSorters.lookup framework.role with
    | none => simp [hl, hq] at h
    | some sorter =>
      simp only [hl, hq, Option.some.injEq] at h
      subst h
      obtain ⟨h3, h4⟩ := @insert_sorter_refines _ _ _ (sorter.deactivate f) hq
        (fun g hg => (Sorter.mem_modify _ _ _ _).mp hg)
      exact hwf.of_refines _ (initialized_of_not hi) (fun _ hr => hr) h3 h4
        (insert_framework_refines hl rfl)

theorem WF.updateAllocation {s t : State} {f : FrameworkID} {m : SlaveID}
    {ops : List Resources.Operation} (hwf : WF s)
    (h : updateAllocation s f m ops = some t) : WF t := by
  unfold Mesos.updateAllocation at h
  split_ifs at h with hi
  cases hm : s.slaves.lookup m with
  | none => simp [hm] at h
  | some slave =>
    cases hl : s.frameworks.lookup f with
    | none => simp [hm, hl] at h
    | some framework =>
      cases hq : s.frameworkSorters.lookup framework.role with
      | none => simp [hm, hl, hq] at h
      | some sorter =>
        simp only [hm, hl, hq] at h
        cases ha : Resources.apply (sorter.allocation f) ops with
        | none => simp [ha] at h
        | some ua =>
          cases ht : Resources.apply slave.total ops with
          | none => simp [ha, ht] at h
          | some ut =>
            simp only [ha, ht, Option.some.injEq] at h
            subst h
            obtain ⟨h3, h4⟩ := @insert_sorter_refines _ _ _
              (sorter.update f (sorter.allocation f) ua) hq
              (fun g hg => (Sorter.mem_modify _ _ _ _).mp hg)
            exact hwf.of_refines _ (initialized_of_not hi)
              (fun r hr => (Sorter.mem_modify _ _ _ _).mp hr) h3 h4
              (refines_refl_frameworks s)

theorem WF.recoverFramework {s t : State} {f : FrameworkID} {r : Resources} (hwf : WF s)
    (h : recoverFramework s f r = some t) : WF t := by
  rcases recoverFramework_eq_some h with ⟨rfl, _⟩ | ⟨framework, sorter, _, hq, _, _, _, _, rfl⟩
  · exact hwf
  · obtain ⟨h3, h4⟩ := @insert_sorter_refines _ _ _
      { sorter.modify f (fun c => { c with allocation := sorter.allocation f - r }) with
        resources := sorter.resources - r } hq
      (fun g hg => (Sorter.mem_modify _ _ _ _).mp hg)
    exact hwf.of_refines _ hwf.initialized
      (fun r hr => (Sorter.mem_modify _ _ _ _).mp hr) h3 h4 (refines_refl_frameworks s)

theorem WF.recoverSlave {s : State} (hwf : WF s) (m : SlaveID) (r : Resources) :
    WF (recoverSlave s m r) := by
  unfold Mesos.recoverSlave
  cases s.slaves.lookup m with
  | none => exact hwf
  | some slave =>
    exact hwf.of_refines _ hwf.initialized (fun _ hr => hr) (fun _ hr => hr)
      (refines_refl_sorters s) (refines_refl_frameworks s)

theorem WF.installFilter {p : Params} {now : Time} {s t : State} {f : FrameworkID}
    {m : SlaveID} {r : Resources} {filters : Option Filters} (hwf : WF s)
    (h : installFilter p now s f m r filters = some t) : WF t := by
  unfold Mesos.installFilter at h
  cases filters with
  | none =>
    simp only [Option.some.injEq] at h
    subst h
    exact hwf
  | some fs =>
    cases hl : s.frameworks.lookup f with
    | none =>
      simp only [hl, Option.some.injEq] at h
      subst h
      exact hwf
    | some framework =>
      cases hm : s.slaves.lookup m with
      | none =>
        simp only [hl, hm, Option.some.injEq] at h
        subst h
        exact hwf
      | some slave =>
        simp only [hl, hm] at h
        cases hd : refuseDuration p fs with
        | none => simp [hd] at h
        | some seconds =>
          simp only [hd] at h
          split_ifs at h
          · simp only [Option.some.injEq] at h
            subst h
            exact hwf
          · simp only [Option.some.injEq] at h
            subst h
            apply WF.delay
            exact hwf.of_refines _ hwf.initialized (fun _ hr => hr) (fun _ hr => hr)
              (refines_refl_sorters s) (insert_framework_refines hl rfl)

theorem WF.recoverResources {p : Params} {now : Time} {s t : State} {f : FrameworkID}
    {m : SlaveID} {r : Resources} {filters : Option Filters} (hwf : WF s)
    (h : recoverResources p now s f m r filters = some t) : WF t := by
  unfold Mesos.recoverResources at h
  split_ifs at h with hi he
  · simp only [Option.some.injEq] at h
    subst h
    exact hwf
  · cases h1 : Mesos.recoverFramework s f r with
    | none => simp [h1] at h
    | some s1 =>
      simp only [h1] at h
      exact ((hwf.recoverFramework h1).recoverSlave m r).installFilter h

theorem WF.allocateAll {p : Params} {now : Time} {shuffle : List SlaveID → List SlaveID}
    {s : State} {r : State × List Offer} (hwf : WF s)
    (h : allocateAll p now shuffle s = some r) : WF r.1 :=
  WF.allocate hwf h

theorem WF.allocateSlave {p : Params} {now : Time} {shuffle : List SlaveID → List SlaveID}
    {s : State} {m : SlaveID} {r : State × List Offer} (hwf : WF s)
    (h : allocateSlave p now shuffle s m = some r) : WF r.1 :=
  WF.allocate hwf h

theorem activateFramework_cycle {p : Params} {now : Time}
    {shuffle : List SlaveID → List SlaveID} {s : State} {f : FrameworkID}
    {r : State × List Offer} (hwf : WF s)
    (h : activateFramework p now shuffle s f = some r) :
    ∃ s1, WF s1 ∧ s1.slaves = s.slaves ∧ allocate p now shuffle s1 s1.slaves.keys = some r := by
  unfold Mesos.activateFramework at h
  split_ifs at h with hi
  cases hl : s.frameworks.lookup f with
  | none => simp [hl] at h
  | some framework =>
    cases hq : s.frameworkSorters.lookup framework.role with
    | none => simp [hl, hq] at h
    | some sorter =>
      simp only [hl, hq] at h
      obtain ⟨h3, h4⟩ := @insert_sorter_refines _ _ _ (sorter.activate f) hq
        (fun g hg => (Sorter.mem_modify _ _ _ _).mp hg)
      have hw : WF { s with
          frameworkSorters := s.frameworkSorters.insert framework.role (sorter.activate f) } :=
        hwf.of_refines _ (initialized_of_not hi) (fun _ hr => hr) h3 h4
          (refines_refl_frameworks s)
      exact ⟨_, hw, rfl, h⟩

theorem WF.activateFramework {p : Params} {now : Time} {shuffle : List SlaveID → List SlaveID}
    {s : State} {f : FrameworkID} {r : State × List Offer} (hwf : WF s)
    (h : activateFramework p now shuffle s f = some r) : WF r.1 := by
  obtain ⟨s1, hw, _, hc⟩ := activateFramework_cycle hwf h
  exact WF.allocate hw hc

theorem reviveOffers_cycle {p : Params} {now : Time} {shuffle : List SlaveID → List SlaveID}
    {s : State} {f : FrameworkID} {r : State × List Offer} (hwf : WF s)
    (hf : f ∈ s.frameworks) (h : reviveOffers p now shuffle s f = some r) :
    ∃ s1, WF s1 ∧ s1.slaves = s.slaves ∧ allocate p now shuffle s1 s1.slaves.keys = some r := by
  unfold Mesos.reviveOffers at h
  split_ifs at h with hi
  obtain ⟨framework, hl⟩ := (mem_iff_lookup _ _).mp hf
  simp only [hl] at h
  have hw : WF { s with
      frameworks := s.frameworks.insert f { framework with filters := [] } } :=
    hwf.of_refines _ (initialized_of_not hi) (fun _ hr => hr)
      (fun _ hr => hr) (refines_refl_sorters s) (insert_framework_refines hl rfl)
  exact ⟨_, hw, rfl, h⟩

theorem WF.reviveOffers {p : Params} {now : Time} {shuffle : List SlaveID → List SlaveID}
    {s : State} {f : FrameworkID} {r : State × List Offer} (hwf : WF s)
    (hf : f ∈ s.frameworks) (h : reviveOffers p now shuffle s f = some r) : WF r.1 := by
  obtain ⟨s1, hw, _, hc⟩ := reviveOffers_cycle hwf hf h
  exact WF.allocate hw hc

theorem batch_cycle {p : Params} {now : Time} {shuffle : List SlaveID → List SlaveID}
    {s : State} {r : State × List Offer} (h : batch p now shuffle s = some r) :
    ∃ r1, allocate p now shuffle s s.slaves.keys = some r1 ∧
      r = (r1.1.delay now r1.1.allocationInterval Timer.batch, r1.2) := by
  unfold Mesos.batch at h
  cases h1 : Mesos.allocateAll p now shuffle s with
  | none => simp [h1] at h
  | some r1 =>
    simp only [h1, Option.some.injEq] at h
    exact ⟨r1, h1, h.symm⟩

theorem WF.batch {p : Params} {now : Time} {shuffle : List SlaveID → List SlaveID}
    {s : State} {r : State × List Offer} (hwf : WF s)
    (h : batch p now shuffle s = some r) : WF r.1 := by
  obtain ⟨r1, h1, rfl⟩ := batch_cycle h
  exact (WF.allocate hwf h1).delay _ _ _

theorem WF.addSlaveUsed {s t : State} {f : FrameworkID} {q : Resources} (hwf : WF s)
    (h : addSlaveUsed s f q = some t) : WF t ∧ t.slaves = s.slaves := by
  unfold Mesos.addSlaveUsed at h
  cases hl : s.frameworks.lookup f with
  | none =>
    simp only [hl, Option.some.injEq] at h
    subst h
    exact ⟨hwf, rfl⟩
  | some framework =>
    cases hq : s.frameworkSorters.lookup framework.role with
    | none => simp [hl, hq] at h
    | some sorter =>
      simp only [hl, hq, Option.some.injEq] at h
      subst h
      obtain ⟨h3, h4⟩ := @insert_sorter_refines _ _ _
        ((sorter.addResources q).allocated f q) hq
        (fun g hg => (Sorter.mem_modify (sorter.addResources q) _ _ _).mp hg)
      exact ⟨hwf.of_refines _ hwf.initialized
        (fun r hr => (Sorter.mem_modify _ _ _ _).mp hr) h3 h4 (refines_refl_frameworks s), rfl⟩

theorem WF.addSlaveLoop :
    ∀ (es : List (Sigma (fun _ : FrameworkID => Resources))) {s t : State}, WF s →
      addSlaveLoop es s = some t → WF t ∧ t.slaves = s.slaves := by
  intro es
  induction es with
  | nil =>
    intro s t hwf h
    simp only [Mesos.addSlaveLoop, Option.some.injEq] at h
    subst h
    exact ⟨hwf, rfl⟩
  | cons e es ih =>
    intro s t hwf h
    simp only [Mesos.addSlaveLoop] at h
    cases h1 : Mesos.addSlaveUsed s e.1 e.2 with
    | none => simp [h1] at h
    | some s1 =>
      simp only [h1] at h
      obtain ⟨hw1, hs1⟩ := hwf.addSlaveUsed h1
      obtain ⟨hw2, hs2⟩ := ih hw1 h
      exact ⟨hw2, hs2.trans hs1⟩

theorem addSlave_cycle {p : Params} {now : Time} {shuffle : List SlaveID → List SlaveID}
    {s : State} {m : SlaveID} {info : SlaveInfo} {total : Resources}
    {used : hashmap FrameworkID Resources} {r : State × List Offer} (hwf : WF s)
    (h : addSlave p now shuffle s m info total used = some r) :
    ∃ s1, WF s1 ∧
      s1.slaves = s.slaves.insert m
        { total := total, available := total - Resources.sum used, activated := true,
          checkpoint := info.checkpoint, hostname := info.hostname } ∧
      s.slaves.lookup m = none ∧ allocate p now shuffle s1 [m] = some r := by
  obtain ⟨_, hm, _, s1, h1, h⟩ := addSlave_eq_some h
  have hw0 : WF { s with roleSorter := s.roleSorter.addResources (Resources.unreserved total) } :=
    hwf.of_refines _ hwf.initialized (fun _ hr => hr) (fun _ hr => hr)
      (refines_refl_sorters s) (refines_refl_frameworks s)
  obtain ⟨hw1, hsl⟩ := WF.addSlaveLoop used.entries hw0 h1
  have hw2 : WF { s1 with
      slaves := s1.slaves.insert m
        { total := total, available := total - Resources.sum used, activated := true,
          checkpoint := info.checkpoint, hostname := info.hostname } } :=
    hw1.of_refines _ hw1.initialized (fun _ hr => hr) (fun _ hr => hr)
      (refines_refl_sorters s1) (refines_refl_frameworks s1)
  refine ⟨_, hw2, ?_, hm, h⟩
  show s1.slaves.insert m _ = _
  rw [hsl]

theorem WF.addSlave {p : Params} {now : Time} {shuffle : List SlaveID → List SlaveID}
    {s : State} {m : SlaveID} {info : SlaveInfo} {total : Resources}
    {used : hashmap FrameworkID Resources} {r : State × List Offer} (hwf : WF s)
    (h : addSlave p now shuffle s m info total used = some r) : WF r.1 := by
  obtain ⟨s1, hw, _, _, hc⟩ := addSlave_cycle hwf h
  exact WF.allocate hw hc

theorem WF.removeFramework {s t : State} {f : FrameworkID} (hwf : WF s)
    (h : removeFramework s f = some t) : WF t := by
  obtain ⟨hi, framework, sorter, hl, hq, hcase⟩ := removeFramework_eq_some h
  have hkey : ∀ r sorter0 g, s.frameworkSorters.lookup r = some sorter0 →
      g ∈ sorter0.clients → g ≠ f →
      ∃ framework', (s.frameworks.erase f).lookup g = some framework' ∧
        framework'.role = r := by
    intro r sorter0 g h0 hg hne
    obtain ⟨framework', hfw, hrole⟩ := hwf.clients r sorter0 h0 g hg
    exact ⟨framework', by rw [lookup_erase_eq]; simp [hne, hfw], hrole⟩
  rcases hcase with ⟨hc, rfl⟩ | ⟨hc, rfl⟩
  · refine ⟨hi, hwf.sorters, ?_⟩
    intro r sorter1 h1 g hg
    have hne : g ≠ f := by
      rintro rfl
      obtain ⟨framework', hfw, hrole⟩ := hwf.clients r sorter1 h1 g hg
      rw [hl] at hfw
      cases hfw
      rw [hrole] at hq
      rw [hq] at h1
      cases h1
      have hc2 : sorter.contains g = true := by
        unfold Sorter.contains
        rw [AList.lookup_isSome]
        exact hg
      rw [hc] at hc2
      exact absurd hc2 (by decide)
    exact hkey r sorter1 g h1 hg hne
  · refine ⟨hi, ?_, ?_⟩
    · intro r hr
      exact (AList.mem_insert _).mpr
        (Or.inr (hwf.sorters r ((Sorter.mem_modify _ _ _ _).mp hr)))
    · intro r sorter1 h1 g hg
      simp only [lookup_insert_eq] at h1
      by_cases hr : r = framework.role
      · subst hr
        simp only [if_true, Option.some.injEq] at h1
        subst h1
        have hg' : g ≠ f ∧ g ∈ sorter.clients := AList.mem_erase.mp hg
        exact hkey _ sorter g hq hg'.2 hg'.1
      · simp only [hr, if_false] at h1
        have hne : g ≠ f := by
          rintro rfl
          obtain ⟨framework', hfw, hrole⟩ := hwf.clients r sorter1 h1 g hg
          rw [hl] at hfw
          cases hfw
          exact hr hrole.symm
        exact hkey r sorter1 g h1 hg hne

theorem addFramework_cycle {p : Params} {now : Time} {shuffle : List SlaveID → List SlaveID}
    {s : State} {f : FrameworkID} {info : FrameworkInfo} {used : hashmap SlaveID Resources}
    {r : State × List Offer} (hwf : WF s) (hf : f ∉ s.frameworks)
    (h : addFramework p now shuffle s f info used = some r) :
    ∃ s1, WF s1 ∧ s1.slaves = s.slaves ∧ allocate p now shuffle s1 s1.slaves.keys = some r := by
  unfold Mesos.addFramework at h
  split_ifs at h with hi hr
  cases hq : s.frameworkSorters.lookup info.role with
  | none => simp [hq] at h
  | some sorter =>
    simp only [hq] at h
    split_ifs at h with hc
    have hw : WF { s with
        roleSorter := s.roleSorter.allocated info.role
          (Resources.unreserved (Resources.sum used))
        frameworkSorters := s.frameworkSorters.insert info.role
          (((sorter.add f 1).addResources (Resources.sum used)).allocated f
            (Resources.sum used))
        frameworks := s.frameworks.insert f
          { role := info.role, checkpoint := info.checkpoint, filters := [] } } := by
      refine ⟨initialized_of_not hi, ?_, ?_⟩
      · intro r hr
        exact (AList.mem_insert _).mpr
          (Or.inr (hwf.sorters r ((Sorter.mem_modify _ _ _ _).mp hr)))
      · intro r sorter1 h1 g hg
        have hold : ∀ sorter0, s.frameworkSorters.lookup r = some sorter0 → g ∈ sorter0.clients →
            ∃ framework, (s.frameworks.insert f
              { role := info.role, checkpoint := info.checkpoint, filters := [] }).lookup g =
                some framework ∧ framework.role = r := by
          intro sorter0 h0 hg0
          obtain ⟨framework', hfw, hrole⟩ := hwf.clients r sorter0 h0 g hg0
          have hne : g ≠ f := by
            rintro rfl
            exact hf ((mem_iff_lookup _ _).mpr ⟨framework', hfw⟩)
          exact ⟨framework', by rw [lookup_insert_eq]; simp [hne, hfw], hrole⟩
        simp only [lookup_insert_eq] at h1
        by_cases hrr : r = info.role
        · subst hrr
          simp only [if_true, Option.some.injEq] at h1
          subst h1
          have hg1 : g ∈ (sorter.add f 1).clients :=
            (Sorter.mem_modify ((sorter.add f 1).addResources (Resources.sum used)) _ _ _).mp hg
          rcases (AList.mem_insert _).mp hg1 with hgf | hgs
          · subst hgf
            exact ⟨{ role := info.role, checkpoint := info.checkpoint, filters := [] },
              by rw [lookup_insert_eq]; simp, rfl⟩
          · exact hold sorter hq hgs
        · simp only [hrr, if_false] at h1
          exact hold sorter1 h1 hg
    exact ⟨_, hw, rfl, h⟩

theorem WF.addFramework {p : Params} {now : Time} {shuffle : List SlaveID → List SlaveID}
    {s : State} {f : FrameworkID} {info : FrameworkInfo} {used : hashmap SlaveID Resources}
    {r : State × List Offer} (hwf : WF s) (hf : f ∉ s.frameworks)
    (h : addFramework p now shuffle s f info used = some r) : WF r.1 := by
  obtain ⟨s1, hw, _, hc⟩ := addFramework_cycle hwf hf h
  exact WF.allocate hw hc

/-! ## Every reachable state is well-formed -/

theorem initialize_fold_wf :
    ∀ (l : List (Sigma (fun _ : String => RoleInfo))) (st : State),
      (st.initialized = true ∧ (∀ r, r ∈ st.roleSorter.clients → r ∈ st.frameworkSorters) ∧
        ∀ r sorter, st.frameworkSorters.lookup r = some sorter → ∀ f, f ∉ sorter.clients) →
      WF (l.foldl
        (fun st e =>
          { st with
              roleSorter := st.roleSorter.add e.1 e.2.weight
              frameworkSorters := st.frameworkSorters.insert e.1 Sorter.new })
        st) := by
  intro l
  induction l with
  | nil =>
    intro st h
    exact ⟨h.1, h.2.1, fun r sorter hl f hf => absurd hf (h.2.2 r sorter hl f)⟩
  | cons e l ih =>
    intro st h
    rw [List.foldl_cons]
    apply ih
    refine ⟨h.1, ?_, ?_⟩
    · intro r hr
      rcases (AList.mem_insert _).mp hr with h1 | h1
      · exact (AList.mem_insert _).mpr (Or.inl h1)
      · exact (AList.mem_insert _).mpr (Or.inr (h.2.1 r h1))
    · intro r sorter hl f
      simp only [lookup_insert_eq] at hl
      by_cases hr : r = e.1
      · simp only [hr, if_true, Option.some.injEq] at hl
        subst hl
        exact AList.not_mem_empty f
      · simp only [hr, if_false] at hl
        exact h.2.2 r sorter hl f

theorem WF.init (now : Time) (allocationInterval : Duration) (roles : hashmap String RoleInfo) :
    WF (initialize' now State.new allocationInterval roles) := by
  unfold initialize'
  apply WF.delay
  apply initialize_fold_wf
  refine ⟨rfl, ?_, ?_⟩
  · intro r hr
    exact absurd hr (AList.not_mem_empty r)
  · intro r sorter hl
    simp [State.new, AList.lookup_empty] at hl

theorem WF.step {p : Params} {now : Time} {shuffle : List SlaveID → List SlaveID} {s : State}
    {c : Call} {r : State × List Offer} (hwf : WF s) (hc : c.stated s)
    (h : step p now shuffle s c = some r) : WF r.1 := by
  cases c with
  | addFramework f info used => exact hwf.addFramework hc h
  | removeFramework f =>
    simp only [Mesos.step, Option.map_eq_some'] at h
    obtain ⟨t, ht, rfl⟩ := h
    exact hwf.removeFramework ht
  | activateFramework f => exact hwf.activateFramework h
  | deactivateFramework f =>
    simp only [Mesos.step, Option.map_eq_some'] at h
    obtain ⟨t, ht, rfl⟩ := h
    exact hwf.deactivateFramework ht
  | addSlave m info total used => exact hwf.addSlave h
  | removeSlave m =>
    simp only [Mesos.step, Option.map_eq_some'] at h
    obtain ⟨t, ht, rfl⟩ := h
    exact hwf.removeSlave ht
  | activateSlave m =>
    simp only [Mesos.step, Option.map_eq_some'] at h
    obtain ⟨t, ht, rfl⟩ := h
    exact hwf.activateSlave ht
  | deactivateSlave m =>
    simp only [Mesos.step, Option.map_eq_some'] at h
    obtain ⟨t, ht, rfl⟩ := h
    exact hwf.deactivateSlave ht
  | updateWhitelist w =>
    simp only [Mesos.step, Option.map_eq_some'] at h
    obtain ⟨t, ht, rfl⟩ := h
    exact hwf.updateWhitelist ht
  | requestResources f =>
    simp only [Mesos.step, Option.map_eq_some'] at h
    obtain ⟨t, ht, rfl⟩ := h
    exact hwf.requestResources ht
  | updateAllocation f m ops =>
    simp only [Mesos.step, Option.map_eq_some'] at h
    obtain ⟨t, ht, rfl⟩ := h
    exact hwf.updateAllocation ht
  | recoverResources f m q filters =>
    simp only [Mesos.step, Option.map_eq_some'] at h
    obtain ⟨t, ht, rfl⟩ := h
    exact hwf.recoverResources ht
  | reviveOffers f => exact hwf.reviveOffers hc h
  | batch => exact hwf.batch h
  | expire f filter =>
    simp only [Mesos.step, Option.some.injEq] at h
    subst h
    exact hwf.expire f filter

/-- Every reachable state is well-formed. -/
theorem Reachable.wf {p : Params} {s : State} (h : Reachable p s) : WF s := by
  induction h with
  | init now allocationInterval roles => exact WF.init now allocationInterval roles
  | step now shuffle c _ _ hc hstep ih => exact ih.step hc hstep

/-! ## The result of a cycle -/

theorem mem_offers {off : Offerable} {o : Offer} (h : o ∈ offers off) :
    off.lookup o.1 = some o.2 := by
  unfold offers at h
  obtain ⟨e, he, rfl⟩ := List.mem_map.mp h
  have : e.2 ∈ off.lookup e.1 := AList.mem_lookup_iff.mpr (by cases e; exact he)
  exact this

theorem offers_fst_nodup (off : Offerable) : ((offers off).map Prod.fst).Nodup := by
  unfold offers
  rw [List.map_map]
  exact off.keys_nodup

/-- A cycle started in a well-formed state on registered slaves completes, and
its result satisfies the frame and the loop invariant. -/
theorem cycle_result {p : Params} (now : Time) {shuffle : List SlaveID → List SlaveID}
    {s : State} {ids : List SlaveID} (hwf : WF s) (hperm : ∀ l, (shuffle l).Perm l)
    (hids : ∀ m ∈ ids, m ∈ s.slaves) :
    ∃ (r : State × List Offer) (off : Offerable), allocate p now shuffle s ids = some r ∧
      r.2 = offers off ∧ Same s r.1 ∧ CycleInv p now s ids (r.1, off) := by
  have hids' : ∀ m ∈ shuffle ids, m ∈ s.slaves :=
    fun m hm => hids m ((hperm ids).mem_iff.mp hm)
  obtain ⟨r, hr⟩ := allocate_total (p := p) now hwf hids'
  obtain ⟨off, hoff, hsame, hI⟩ := allocate_inv hwf hr
  refine ⟨r, off, hr, hoff, hsame, ?_⟩
  exact
    { avail := hI.avail
      exhausted := hI.exhausted
      entry := fun f payload m q hl hq =>
        let e := hI.entry f payload m q hl hq
        ⟨(hperm ids).mem_iff.mp e.candidate, e.eligible, e.allocatable, e.unfiltered, e.quantity⟩
      nonempty := hI.nonempty
      fwAlloc := hI.fwAlloc
      roleAlloc := hI.roleAlloc
      idle := hI.idle }

theorem filter_eq_false_iff (f : RefusedFilter) (now : Time) (m : SlaveID) (q : Resources) :
    f.filter now m q = false ↔ ¬ (f.slaveId = m ∧ q ≤ f.resources ∧ now < f.timeout) := by
  unfold RefusedFilter.filter Resources.contains
  simp only [Bool.and_eq_false_imp, Bool.and_eq_true, decide_eq_true_eq, decide_eq_false_iff_not]
  tauto

theorem isFiltered_false {now : Time} {s : State} {f : FrameworkID} {m : SlaveID}
    {q : Resources} (h : isFiltered now s f m q = some false) :
    ∃ framework slave, s.frameworks.lookup f = some framework ∧
      s.slaves.lookup m = some slave ∧ (framework.checkpoint = true → slave.checkpoint = true) ∧
      ∀ filter ∈ framework.filters, filter.2.filter now m q = false := by
  unfold isFiltered at h
  cases hf : s.frameworks.lookup f with
  | none => simp [hf] at h
  | some framework =>
    cases hm : s.slaves.lookup m with
    | none => simp [hf, hm] at h
    | some slave =>
      simp only [hf, hm] at h
      refine ⟨framework, slave, rfl, rfl, ?_, ?_⟩
      · intro hc
        by_contra hn
        have : (framework.checkpoint && !slave.checkpoint) = true := by
          cases hx : slave.checkpoint <;> simp_all
        simp [this] at h
      · by_cases hc : (framework.checkpoint && !slave.checkpoint) = true
        · simp [hc] at h
        · simp only [hc, Bool.false_eq_true, if_false, Option.some.injEq, List.any_eq_false] at h
          intro filter hfil
          have := h filter hfil
          simpa using this

/-- C1 (filter invariant): a cycle started at the clock reading `now` in a
well-formed state (every reachable state is one, `Reachable.wf`) completes, and
no callback delivers to a framework a quantity `q` of a slave `m` matched by one
of the framework's active filters, i.e. by a filter whose slave is `m`, whose
resources contain `q` and whose timeout has not elapsed at `now`. -/
theorem filter_invariant (p : Params) (now : Time) (shuffle : List SlaveID → List SlaveID)
    (s : State) (ids : List SlaveID) (hwf : WF s) (hperm : ∀ l, (shuffle l).Perm l)
    (hids : ∀ m ∈ ids, m ∈ s.slaves) :
    ∃ r, allocate p now shuffle s ids = some r ∧
      ∀ o ∈ r.2, ∀ m q, o.2.lookup m = some q →
        ∀ framework, s.frameworks.lookup o.1 = some framework →
          ∀ filter ∈ framework.filters,
            ¬ (filter.2.slaveId = m ∧ q ≤ filter.2.resources ∧ now < filter.2.timeout) := by
  obtain ⟨r, off, hr, hoff, _, hI⟩ := cycle_result (p := p) now hwf hperm hids
  refine ⟨r, hr, ?_⟩
  intro o ho m q hq framework hfw filter hfil
  rw [hoff] at ho
  have he := hI.entry o.1 o.2 m q (mem_offers ho) hq
  obtain ⟨framework', _, hfw', _, _, hall⟩ := isFiltered_false he.unfiltered
  rw [hfw] at hfw'
  cases hfw'
  exact (filter_eq_false_iff _ _ _ _).mp (hall filter hfil)

theorem offer_role {a : Resources} {role : String} {k : String × String}
    (h : (Resources.unreserved a + Resources.reserved a role) k ≠ 0) :
    k.2 = "*" ∨ k.2 = role := by
  by_contra hn
  push_neg at hn
  apply h
  unfold Resources.unreserved Resources.reserved
  by_cases hr : role = "*"
  · simp [hr, DFinsupp.filter_apply, hn.1]
  · simp [hr, DFinsupp.filter_apply, hn.1, hn.2]

theorem offeredOn_eq_zero {off : Offerable} {m : SlaveID}
    (h : ∀ f payload, off.lookup f = some payload → payload.lookup m = none) :
    offeredOn (offers off) m = 0 := by
  unfold offeredOn
  apply List.sum_eq_zero
  intro x hx
  obtain ⟨o, ho, rfl⟩ := List.mem_map.mp hx
  exact quantity_of_lookup_none (h o.1 o.2 (mem_offers ho))

theorem lookup_eq_of_static {s t : State} {m : SlaveID}
    (hst : (t.slaves.lookup m).map Slave.static = (s.slaves.lookup m).map Slave.static)
    (hav : available t m = available s m) : t.slaves.lookup m = s.slaves.lookup m := by
  unfold available at hav
  cases ht : t.slaves.lookup m with
  | none =>
    cases hs : s.slaves.lookup m with
    | none => rfl
    | some slave => simp [ht, hs] at hst
  | some slave' =>
    cases hs : s.slaves.lookup m with
    | none => simp [ht, hs] at hst
    | some slave =>
      simp only [ht, hs, Option.map_some', Option.some.injEq, Slave.static,
        Prod.mk.injEq] at hst hav
      obtain ⟨h1, h2, h3, h4⟩ := hst
      cases slave'
      cases slave
      simp_all

theorem unchanged_of_no_entry {p : Params} {now : Time} {s : State} {ids : List SlaveID}
    {acc : State × Offerable} (hsame : Same s acc.1) (hI : CycleInv p now s ids acc)
    {m : SlaveID} (h : ∀ f payload, acc.2.lookup f = some payload → payload.lookup m = none) :
    acc.1.slaves.lookup m = s.slaves.lookup m := by
  apply lookup_eq_of_static (hsame.slaves m)
  have := hI.avail m
  rw [offeredOn_eq_zero h, add_zero] at this
  exact this.symm

theorem no_entry_of_not {p : Params} {now : Time} {s : State} {ids : List SlaveID}
    {acc : State × Offerable} (hI : CycleInv p now s ids acc) {m : SlaveID}
    (h : ¬ (m ∈ ids ∧ Eligible s m)) :
    ∀ f payload, acc.2.lookup f = some payload → payload.lookup m = none := by
  intro f payload hl
  cases hq : payload.lookup m with
  | none => rfl
  | some q =>
    have e := hI.entry f payload m q hl hq
    exact absurd ⟨e.candidate, e.eligible⟩ h

theorem allocatable_iff (p : Params) (q : Resources) :
    allocatable p q = true ↔
      (∃ c, Resources.cpus q = some c ∧ p.MIN_CPUS ≤ c) ∨
        (∃ b, Resources.mem q = some b ∧ p.MIN_MEM ≤ b) := by
  unfold allocatable
  cases Resources.cpus q <;> cases Resources.mem q <;> simp

/-- C3 (reservation respect): whenever the innermost loop of a cycle assigns
resources of a slave to a framework returned by the sorter of a role, the
quantity recorded for the callback is the unreserved part of the slave's
available pool at that moment plus its part reserved to that role; and every
quantity delivered by a cycle started in a well-formed state has this form for
the recorded role of the receiving framework, for a pool contained in the
slave's pool at the start of the cycle, so that it holds no resource reserved
to another role. -/
theorem reservation_respect (p : Params) (now : Time) (shuffle : List SlaveID → List SlaveID)
    (s : State) (ids : List SlaveID) (hwf : WF s) (hperm : ∀ l, (shuffle l).Perm l)
    (hids : ∀ m ∈ ids, m ∈ s.slaves) :
    (∀ m role acc f acc', allocateFramework p now m role acc f = some acc' → acc' ≠ acc →
      ∃ slave, acc.1.slaves.lookup m = some slave ∧
        (payloadOf acc'.2 f).lookup m =
          some (Resources.unreserved slave.available +
            Resources.reserved slave.available role)) ∧
    ∃ r, allocate p now shuffle s ids = some r ∧
      ∀ o ∈ r.2, ∀ m q, o.2.lookup m = some q →
        ∃ framework a, s.frameworks.lookup o.1 = some framework ∧ a ≤ available s m ∧
          q = Resources.unreserved a + Resources.reserved a framework.role ∧
          q ≤ available s m ∧
          ∀ k, q k ≠ 0 → k.2 = "*" ∨ k.2 = framework.role := by
  constructor
  · intro m role acc f acc' h hne
    rcases allocateFramework_cases h with h1 | ⟨slave, sorter, hs, _, _, _, h1⟩
    · exact absurd h1 hne
    · refine ⟨slave, hs, ?_⟩
      rw [h1]
      simp only [assign, payloadOf_insert, if_true, lookup_insert_eq]
      rfl
  · obtain ⟨r, off, hr, hoff, _, hI⟩ := cycle_result (p := p) now hwf hperm hids
    refine ⟨r, hr, ?_⟩
    intro o ho m q hq
    rw [hoff] at ho
    obtain ⟨framework, a, hfw, ha, hqa⟩ := (hI.entry o.1 o.2 m q (mem_offers ho) hq).quantity
    refine ⟨framework, a, hfw, ha, hqa, ?_, ?_⟩
    · rw [hqa]
      exact (Resources.offer_le a framework.role).trans ha
    · intro k hk
      rw [hqa] at hk
      exact offer_role hk

/-- C4 (cycle accounting): a cycle started in a well-formed state completes;
the available pool of every slave afterwards is its pool before minus the sum
of the quantities offered on it, the total of every slave is unchanged, the
slaves outside the candidate set are unchanged, the allocation tracked for
every client of a framework sorter grows by what the callbacks offer to it, the
allocation tracked for every role grows by the unreserved part of what is
offered to its frameworks, and the quantities offered on one slave together
fit in its pool, so that they do not overlap. -/
theorem cycle_accounting (p : Params) (now : Time) (shuffle : List SlaveID → List SlaveID)
    (s : State) (ids : List SlaveID) (hwf : WF s) (hperm : ∀ l, (shuffle l).Perm l)
    (hids : ∀ m ∈ ids, m ∈ s.slaves) :
    ∃ r, allocate p now shuffle s ids = some r ∧
      (∀ m, available r.1 m = available s m - offeredOn r.2 m) ∧
      (∀ m, offeredOn r.2 m ≤ available s m) ∧
      (∀ m, (r.1.slaves.lookup m).map (fun slave => slave.total) =
        (s.slaves.lookup m).map (fun slave => slave.total)) ∧
      (∀ m, m ∉ ids → r.1.slaves.lookup m = s.slaves.lookup m) ∧
      (∀ role sorter f, s.frameworkSorters.lookup role = some sorter → f ∈ sorter.clients →
        frameworkAllocation r.1 role f = frameworkAllocation s role f + offeredTo r.2 f) ∧
      (∀ role, role ∈ s.roleSorter.clients →
        r.1.roleSorter.allocation role =
          s.roleSorter.allocation role + offeredToRole s r.2 role) := by
  obtain ⟨r, off, hr, hoff, hsame, hI⟩ := cycle_result (p := p) now hwf hperm hids
  refine ⟨r, hr, ?_, ?_, ?_, ?_, ?_, ?_⟩
  · intro m
    rw [hoff, hI.avail m, add_tsub_cancel_right]
  · intro m
    rw [hoff, hI.avail m]
    exact le_add_self
  · intro m
    have := congrArg (Option.map (fun x : Resources × Bool × Bool × String => x.1))
      (hsame.slaves m)
    simpa [Option.map_map, Function.comp_def, Slave.static] using this
  · intro m hm
    exact unchanged_of_no_entry hsame hI (no_entry_of_not hI (fun h => hm h.1))
  · intro role sorter f hl hf
    rw [hoff, offeredTo_eq]
    exact hI.fwAlloc role sorter f hl hf
  · intro role hrole
    rw [hoff]
    exact hI.roleAlloc role hrole

/-- C5 (machine eligibility): in a cycle started in a well-formed state a
slave appears in a callback only if it is activated and, when a whitelist is
present, its hostname is whitelisted; a registered slave that is deactivated
or not whitelisted is left unchanged; and with a present but empty whitelist
no callback is made. -/
theorem machine_eligibility (p : Params) (now : Time) (shuffle : List SlaveID → List SlaveID)
    (s : State) (ids : List SlaveID) (hwf : WF s) (hperm : ∀ l, (shuffle l).Perm l)
    (hids : ∀ m ∈ ids, m ∈ s.slaves) :
    ∃ r, allocate p now shuffle s ids = some r ∧
      (∀ o ∈ r.2, ∀ m q, o.2.lookup m = some q →
        ∃ slave, s.slaves.lookup m = some slave ∧ slave.activated = true ∧
          ∀ w, s.whitelist = some w → slave.hostname ∈ w) ∧
      (∀ m slave, s.slaves.lookup m = some slave →
        (slave.activated = false ∨ ∃ w, s.whitelist = some w ∧ slave.hostname ∉ w) →
        r.1.slaves.lookup m = some slave) ∧
      (s.whitelist = some [] → r.2 = []) := by
  obtain ⟨r, off, hr, hoff, hsame, hI⟩ := cycle_result (p := p) now hwf hperm hids
  refine ⟨r, hr, ?_, ?_, ?_⟩
  · intro o ho m q hq
    rw [hoff] at ho
    exact (hI.entry o.1 o.2 m q (mem_offers ho) hq).eligible
  · intro m slave hs hbad
    rw [← hs]
    apply unchanged_of_no_entry hsame hI
    apply no_entry_of_not hI
    rintro ⟨_, slave', hs', hact, hw⟩
    rw [hs] at hs'
    cases hs'
    rcases hbad with hb | ⟨w, hw1, hw2⟩
    · rw [hb] at hact
      exact Bool.false_ne_true hact
    · exact hw2 (hw w hw1)
  · intro hw
    rw [hoff]
    unfold offers
    cases he : off.entries with
    | nil => rfl
    | cons e es =>
      exfalso
      have hl : off.lookup e.1 = some e.2 := by
        have : e.2 ∈ off.lookup e.1 :=
          AList.mem_lookup_iff.mpr (by cases e; rw [he]; exact List.mem_cons_self _ _)
        exact this
      obtain ⟨m, hm⟩ := hI.nonempty e.1 e.2 hl
      obtain ⟨q, hq⟩ := (mem_iff_lookup _ _).mp hm
      obtain ⟨slave, _, _, hws⟩ := (hI.entry e.1 e.2 m q hl hq).eligible
      exact List.not_mem_nil _ (hws [] hw)

theorem checkpoint_of_cycle {p : Params} (now : Time) {shuffle : List SlaveID → List SlaveID}
    {s : State} {ids : List SlaveID} (hwf : WF s) (hperm : ∀ l, (shuffle l).Perm l)
    (hids : ∀ m ∈ ids, m ∈ s.slaves) :
    ∃ r, allocate p now shuffle s ids = some r ∧
      ∀ o ∈ r.2, ∀ m q, o.2.lookup m = some q →
        ∀ framework slave, s.frameworks.lookup o.1 = some framework →
          s.slaves.lookup m = some slave → framework.checkpoint = true →
          slave.checkpoint = true := by
  obtain ⟨r, off, hr, hoff, _, hI⟩ := cycle_result (p := p) now hwf hperm hids
  refine ⟨r, hr, ?_⟩
  intro o ho m q hq framework slave hfw hs hc
  rw [hoff] at ho
  obtain ⟨framework', slave', hfw', hs', hcp, _⟩ :=
    isFiltered_false (hI.entry o.1 o.2 m q (mem_offers ho) hq).unfiltered
  rw [hfw] at hfw'
  rw [hs] at hs'
  cases hfw'
  cases hs'
  exact hcp hc

/-- C6 (checkpoint compatibility): in a cycle started in a well-formed state a
framework whose checkpoint flag is set is never offered resources of a slave
whose checkpoint flag is unset, whatever its filters are; the same holds for
the cycle that `reviveOffers` runs right after it has cleared the filters of a
registered framework. -/
theorem checkpoint_compatibility (p : Params) (now : Time)
    (shuffle : List SlaveID → List SlaveID) (s : State) (ids : List SlaveID) (hwf : WF s)
    (hperm : ∀ l, (shuffle l).Perm l) (hids : ∀ m ∈ ids, m ∈ s.slaves) :
    (∃ r, allocate p now shuffle s ids = some r ∧
      ∀ o ∈ r.2, ∀ m q, o.2.lookup m = some q →
        ∀ framework slave, s.frameworks.lookup o.1 = some framework →
          s.slaves.lookup m = some slave → framework.checkpoint = true →
          slave.checkpoint = true) ∧
    ∀ f, f ∈ s.frameworks →
      ∃ r, reviveOffers p now shuffle s f = some r ∧
        (∀ framework, r.1.frameworks.lookup f = some framework → framework.filters = []) ∧
        ∀ o ∈ r.2, ∀ m q, o.2.lookup m = some q →
          ∀ framework slave, s.frameworks.lookup o.1 = some framework →
            s.slaves.lookup m = some slave → framework.checkpoint = true →
            slave.checkpoint = true := by
  refine ⟨checkpoint_of_cycle now hwf hperm hids, ?_⟩
  intro f hf
  obtain ⟨framework0, hl⟩ := (mem_iff_lookup _ _).mp hf
  have hw : WF { s with
      frameworks := s.frameworks.insert f { framework0 with filters := [] } } :=
    hwf.of_refines _ hwf.initialized (fun _ hr => hr)
      (fun _ hr => hr) (refines_refl_sorters s) (insert_framework_refines hl rfl)
  obtain ⟨r, off, hr, _, hsame, _⟩ := @cycle_result p now shuffle _
    s.slaves.keys hw hperm (fun m hm => hm)
  obtain ⟨r', hr', hcp⟩ := @checkpoint_of_cycle p now shuffle _
    s.slaves.keys hw hperm (fun m hm => hm)
  rw [hr] at hr'
  cases hr'
  refine ⟨r, ?_, ?_, ?_⟩
  · unfold reviveOffers
    have hi : ¬ (!s.initialized) = true := by simp [hwf.initialized]
    rw [if_neg hi]
    simp only [hl]
    exact hr
  · intro framework hfw
    rw [hsame.frameworks] at hfw
    simp only [lookup_insert_eq, if_true, Option.some.injEq] at hfw
    rw [← hfw]
  · intro o ho m q hq framework slave hfw hs hc
    by_cases hof : o.1 = f
    · rw [hof, hl] at hfw
      cases hfw
      exact hcp o ho m q hq { framework0 with filters := [] } slave
        (by simp [lookup_insert_eq, hof]) hs hc
    · exact hcp o ho m q hq framework slave (by simp [lookup_insert_eq, hof, hfw]) hs hc

theorem offeredTo_eq_zero {offs : List Offer} {f : FrameworkID} (h : ∀ o ∈ offs, o.1 ≠ f) :
    offeredTo offs f = 0 := by
  unfold offeredTo
  apply List.sum_eq_zero
  intro x hx
  obtain ⟨o, ho, rfl⟩ := List.mem_map.mp hx
  simp [h o ho]

/-- C7 (offer delivery): a cycle started in a well-formed state completes and
invokes the callback at most once per framework; every callback carries at
least one slave and only quantities that were allocated (taken from the
available pool of the slave, as the accounting of the pools shows); the
allocation tracked for a client of a framework sorter grows by exactly the
payload delivered to it, and stays unchanged for a framework that receives no
callback; and when no callback is invoked the state is unchanged. -/
theorem offer_delivery (p : Params) (now : Time) (shuffle : List SlaveID → List SlaveID)
    (s : State) (ids : List SlaveID) (hwf : WF s) (hperm : ∀ l, (shuffle l).Perm l)
    (hids : ∀ m ∈ ids, m ∈ s.slaves) :
    ∃ r, allocate p now shuffle s ids = some r ∧
      (r.2.map Prod.fst).Nodup ∧
      (∀ o ∈ r.2, ∃ m q, o.2.lookup m = some q ∧ q ≠ 0) ∧
      (∀ m, available s m = available r.1 m + offeredOn r.2 m) ∧
      (∀ role sorter f, s.frameworkSorters.lookup role = some sorter → f ∈ sorter.clients →
        frameworkAllocation r.1 role f = frameworkAllocation s role f + offeredTo r.2 f) ∧
      (∀ f, (∀ o ∈ r.2, o.1 ≠ f) → offeredTo r.2 f = 0) ∧
      (r.2 = [] → r.1 = s) := by
  obtain ⟨r, off, hr, hoff, _, hI⟩ := cycle_result (p := p) now hwf hperm hids
  refine ⟨r, hr, ?_, ?_, ?_, ?_, ?_, ?_⟩
  · rw [hoff]
    exact offers_fst_nodup off
  · intro o ho
    rw [hoff] at ho
    obtain ⟨m, hm⟩ := hI.nonempty o.1 o.2 (mem_offers ho)
    obtain ⟨q, hq⟩ := (mem_iff_lookup _ _).mp hm
    exact ⟨m, q, hq, ne_zero_of_allocatable (hI.entry o.1 o.2 m q (mem_offers ho) hq).allocatable⟩
  · intro m
    rw [hoff]
    exact hI.avail m
  · intro role sorter f hl hf
    rw [hoff, offeredTo_eq]
    exact hI.fwAlloc role sorter f hl hf
  · intro f hf
    exact offeredTo_eq_zero hf
  · intro hnil
    apply hI.idle
    rw [hoff] at hnil
    unfold offers at hnil
    exact List.map_eq_nil_iff.mp hnil

/-- C8 (well-formed payloads): every callback of a cycle started in a
well-formed state carries a non-empty map, and every quantity in it is
non-empty and passes the allocatable threshold: its cpus amount is at least
`MIN_CPUS` or its mem amount is at least `MIN_MEM`. -/
theorem wellformed_payloads (p : Params) (now : Time) (shuffle : List SlaveID → List SlaveID)
    (s : State) (ids : List SlaveID) (hwf : WF s) (hperm : ∀ l, (shuffle l).Perm l)
    (hids : ∀ m ∈ ids, m ∈ s.slaves) :
    ∃ r, allocate p now shuffle s ids = some r ∧
      ∀ o ∈ r.2, o.2.keys ≠ [] ∧
        ∀ m q, o.2.lookup m = some q →
          q ≠ 0 ∧ allocatable p q = true ∧
            ((∃ c, Resources.cpus q = some c ∧ p.MIN_CPUS ≤ c) ∨
              (∃ b, Resources.mem q = some b ∧ p.MIN_MEM ≤ b)) := by
  obtain ⟨r, off, hr, hoff, _, hI⟩ := cycle_result (p := p) now hwf hperm hids
  refine ⟨r, hr, ?_⟩
  intro o ho
  rw [hoff] at ho
  constructor
  · obtain ⟨m, hm⟩ := hI.nonempty o.1 o.2 (mem_offers ho)
    intro hnil
    have : m ∈ o.2.keys := AList.mem_keys.mp hm
    rw [hnil] at this
    exact List.not_mem_nil _ this
  · intro m q hq
    have ha := (hI.entry o.1 o.2 m q (mem_offers ho) hq).allocatable
    exact ⟨ne_zero_of_allocatable ha, ha, (allocatable_iff p q).mp ha⟩

/-! ## Cycles over a single slave, role and framework -/

theorem shuffle_nil {shuffle : List SlaveID → List SlaveID} (hperm : ∀ l, (shuffle l).Perm l) :
    shuffle [] = [] :=
  List.Perm.eq_nil (hperm [])

theorem shuffle_singleton {shuffle : List SlaveID → List SlaveID}
    (hperm : ∀ l, (shuffle l).Perm l) (m : SlaveID) : shuffle [m] = [m] :=
  List.perm_singleton.mp (hperm [m])

theorem Sorter.sort_single (s : Sorter) (name : String) (c : Client)
    (hk : s.clients.keys = [name]) (hl : s.clients.lookup name = some c)
    (ha : c.active = true) : s.sort = [name] := by
  have hent : s.clients.entries = [⟨name, c⟩] := by
    have hmem : (Sigma.mk name c : Sigma fun _ : String => Client) ∈ s.clients.entries :=
      AList.mem_lookup_iff.mp hl
    have hlen : s.clients.entries.length = 1 := by
      have := congrArg List.length hk
      simpa [AList.keys, List.keys] using this
    match hE : s.clients.entries, hlen, hmem with
    | [e], _, hmem =>
      simp only [List.mem_singleton] at hmem
      rw [hmem]
  unfold Sorter.sort
  rw [hent]
  simp [ha]

theorem Sorter.sort_empty (s : Sorter) (hk : s.clients.keys = []) : s.sort = [] := by
  have hent : s.clients.entries = [] := by
    have := congrArg List.length hk
    simp only [AList.keys, List.keys, List.length_map, List.length_nil] at this
    exact List.length_eq_zero.mp this
  unfold Sorter.sort
  rw [hent]
  rfl

theorem allocate_no_slaves {p : Params} {now : Time} {shuffle : List SlaveID → List SlaveID}
    (hperm : ∀ l, (shuffle l).Perm l) (s : State) :
    allocate p now shuffle s [] = some (s, []) := by
  unfold allocate
  split_ifs
  · rfl
  · rw [shuffle_nil hperm]
    rfl

/-- A cycle over one eligible slave, with one active role and one active
framework of that role, whose quantity passes both checks. -/
theorem allocate_single_offer {p : Params} {now : Time} {shuffle : List SlaveID → List SlaveID}
    (hperm : ∀ l, (shuffle l).Perm l) {s : State} {R F M : String} {sorter : Sorter}
    {slave : Slave} (hroles : s.roleSorter.sort = [R])
    (hq : s.frameworkSorters.lookup R = some sorter) (hfs : sorter.sort = [F])
    (hs : s.slaves.lookup M = some slave) (hact : slave.activated = true)
    (hw : s.whitelist = none) (ha : allocatable p (offerableTo slave R) = true)
    (hfilt : isFiltered now s F M (offerableTo slave R) = some false) :
    allocate p now shuffle s [M] =
      some ((assign (s, ∅) M R F slave sorter (offerableTo slave R)).1,
        [(F, AList.singleton M (offerableTo slave R))]) := by
  have hcount : s.roleSorter.count ≠ 0 := by
    intro h0
    have hk : s.roleSorter.clients.keys = [] := List.length_eq_zero.mp h0
    rw [Sorter.sort_empty _ hk] at hroles
    exact List.noConfusion hroles
  unfold allocate
  rw [if_neg hcount, shuffle_singleton hperm]
  simp only [allocateSlaves, isWhitelisted, hs, hw, hact, Bool.not_true, Bool.or_self,
    Bool.false_eq_true, if_false, hroles, allocateRoles, hq, hfs, allocateFrameworks,
    allocateFramework, ha, hfilt]
  rfl

theorem Resources.reserved_eq_zero_of_unreserved {t : Resources} (role : String)
    (h : Resources.unreserved t = t) : Resources.reserved t role = 0 := by
  unfold Resources.reserved
  by_cases hr : role = "*"
  · simp [hr]
  · simp only [hr, if_false]
    ext k
    have hk := DFunLike.congr_fun h k
    simp only [Resources.unreserved, DFinsupp.filter_apply] at hk
    simp only [DFinsupp.filter_apply, DFinsupp.zero_apply]
    split_ifs with h2
    · have h1 : ¬ k.2 = "*" := fun h1 => hr (h2.symm.trans h1)
      simp only [h1, if_false] at hk
      exact hk.symm
    · rfl

theorem offerableTo_of_unreserved {slave : Slave} (role : String)
    (h : Resources.unreserved slave.available = slave.available) :
    offerableTo slave role = slave.available := by
  unfold offerableTo
  rw [Resources.reserved_eq_zero_of_unreserved role h, h, add_zero]

theorem lookup_singleton {K V : Type} [DecidableEq K] (k k' : K) (v : V) :
    (AList.singleton k v : hashmap K V).lookup k' = if k' = k then some v else none := by
  rw [← AList.insert_empty, lookup_insert_eq, AList.lookup_empty]

theorem keys_insert_single {K V : Type} [DecidableEq K] (m : hashmap K V) (k : K) (v : V)
    (h : m.keys = [k]) : (m.insert k v).keys = [k] := by
  rw [AList.keys_insert, h]
  simp

theorem keys_insert_empty {K V : Type} [DecidableEq K] (m : hashmap K V) (k : K) (v : V)
    (h : m.keys = []) : (m.insert k v).keys = [k] := by
  rw [AList.keys_insert, h]
  simp

namespace Sorter

theorem Single.sort {s : Sorter} {name : String} (h : s.Single name) : s.sort = [name] := by
  obtain ⟨hk, c, hl, ha⟩ := h
  exact Sorter.sort_single s name c hk hl ha

theorem Single.mem {s : Sorter} {name : String} (h : s.Single name) : name ∈ s.clients := by
  obtain ⟨_, c, hl, _⟩ := h
  exact (mem_iff_lookup _ _).mpr ⟨c, hl⟩

theorem Single.modify {s : Sorter} {name : String} (h : s.Single name) (n : String)
    (f : Client → Client) (hf : ∀ c, (f c).active = c.active) : (s.modify n f).Single name := by
  obtain ⟨hk, c, hl, ha⟩ := h
  by_cases hn : n = name
  · subst hn
    refine ⟨?_, f c, ?_, (hf c).trans ha⟩
    · unfold Sorter.modify
      rw [hl]
      exact keys_insert_single _ _ _ hk
    · rw [Sorter.lookup_modify, hl]
      simp
  · have hnone : s.clients.lookup n = none := by
      rw [← not_mem_iff_lookup, AList.mem_keys, hk]
      simpa using hn
    refine ⟨?_, c, ?_, ha⟩
    · unfold Sorter.modify
      rw [hnone]
      exact hk
    · rw [Sorter.lookup_modify]
      simp [Ne.symm hn, hl]

theorem Single.allocated {s : Sorter} {name : String} (h : s.Single name) (n : String)
    (r : Resources) : (s.allocated n r).Single name :=
  h.modify n _ (fun _ => rfl)

theorem Single.unallocated {s t : Sorter} {name : String} (h : s.Single name) {n : String}
    {r : Resources} (hu : s.unallocated n r = some t) : t.Single name := by
  obtain ⟨_, rfl⟩ := Sorter.unallocated_eq_some.mp hu
  exact h.modify n _ (fun _ => rfl)

theorem Single.addResources {s : Sorter} {name : String} (h : s.Single name) (r : Resources) :
    (s.addResources r).Single name := h

theorem Single.removeResources {s t : Sorter} {name : String} (h : s.Single name)
    {r : Resources} (hu : s.removeResources r = some t) : t.Single name := by
  obtain ⟨_, rfl⟩ := Sorter.removeResources_eq_some.mp hu
  exact h

theorem single_add_new (name : String) (w : ℕ) : (Sorter.new.add name w).Single name := by
  refine ⟨?_, ⟨0, w, true⟩, ?_, rfl⟩
  · exact keys_insert_empty _ _ _ rfl
  · simp [Sorter.add, lookup_insert_eq]

end Sorter

theorem isFiltered_of_lookup {now : Time} {s : State} {f : FrameworkID} {m : SlaveID}
    {q : Resources} {framework : Framework} {slave : Slave}
    (hf : s.frameworks.lookup f = some framework) (hm : s.slaves.lookup m = some slave)
    (hc : framework.checkpoint = true → slave.checkpoint = true) :
    isFiltered now s f m q = some (framework.filters.any (fun x => x.2.filter now m q)) := by
  unfold isFiltered
  simp only [hf, hm]
  have : (framework.checkpoint && !slave.checkpoint) = false := by
    cases h1 : framework.checkpoint
    · rfl
    · simp [hc h1]
  simp [this]

/-- In the scenario a cycle over all slaves offers the whole offerable quantity
of the slave to the framework when it passes the checks. -/
theorem Scene.offer {p : Params} (now : Time) {shuffle : List SlaveID → List SlaveID}
    (hperm : ∀ l, (shuffle l).Perm l) {s : State} {R F M : String} {framework : Framework}
    {slave : Slave} (h : Scene s R F M framework slave) (hact : slave.activated = true)
    (ha : allocatable p (offerableTo slave R) = true)
    (hc : framework.checkpoint = true → slave.checkpoint = true)
    (hfil : framework.filters.any (fun x => x.2.filter now M (offerableTo slave R)) = false) :
    ∃ s', allocate p now shuffle s [M] =
        some (s', [(F, AList.singleton M (offerableTo slave R))]) ∧
      Scene s' R F M framework
        { slave with available := slave.available - offerableTo slave R } := by
  obtain ⟨sorter, hq, hsingle⟩ := h.sorter
  have hfilt : isFiltered now s F M (offerableTo slave R) = some false := by
    rw [isFiltered_of_lookup h.registered h.added hc, hfil]
  refine ⟨_, allocate_single_offer hperm h.role.sort hq hsingle.sort h.added hact h.whitelist
    ha hfilt, ?_⟩
  exact
    { initialized := h.initialized
      role := h.role.allocated _ _
      sorter := ⟨(sorter.addResources (offerableTo slave R)).allocated F (offerableTo slave R),
        by simp [assign, lookup_insert_eq],
        (hsingle.addResources _).allocated _ _⟩
      registered := h.registered
      frameworkRole := h.frameworkRole
      slaveKeys := keys_insert_single _ _ _ h.slaveKeys
      added := by simp [assign, lookup_insert_eq]
      whitelist := h.whitelist }

theorem initialize_single (t0 : Time) (interval : Duration) (R : String) (w : ℕ) :
    initialize' t0 State.new interval (AList.singleton R ⟨w⟩) =
      { initialized := true, allocationInterval := interval, frameworks := ∅, slaves := ∅,
        roles := AList.singleton R ⟨w⟩, whitelist := none,
        roleSorter := Sorter.new.add R w,
        frameworkSorters := (∅ : hashmap String Sorter).insert R Sorter.new,
        nextFilter := 0, timers := [((t0 + interval).toNat, Timer.batch)] } := rfl

/-- A cycle over one slave with one active role that has no active framework. -/
theorem allocate_single_idle {p : Params} (now : Time) {shuffle : List SlaveID → List SlaveID}
    (hperm : ∀ l, (shuffle l).Perm l) {s : State} {R M : String} {sorter : Sorter}
    {slave : Slave} (hroles : s.roleSorter.sort = [R])
    (hq : s.frameworkSorters.lookup R = some sorter) (hfs : sorter.sort = [])
    (hs : s.slaves.lookup M = some slave) :
    allocate p now shuffle s [M] = some (s, []) := by
  unfold allocate
  split_ifs with hcount
  · rfl
  · rw [shuffle_singleton hperm]
    have hwl : ∃ b, isWhitelisted s M = some b := by
      unfold isWhitelisted
      rw [hs]
      cases s.whitelist <;> exact ⟨_, rfl⟩
    obtain ⟨b, hb⟩ := hwl
    simp only [allocateSlaves, hb, hs]
    split_ifs
    · rfl
    · simp only [hroles, allocateRoles, hq, hfs, allocateFrameworks]
      rfl

theorem addFramework_unfold {p : Params} (now : Time) {shuffle : List SlaveID → List SlaveID}
    {s : State} {f : FrameworkID} {info : FrameworkInfo} {used : hashmap SlaveID Resources}
    {sorter : Sorter} (hi : s.initialized = true)
    (hr : (s.roles.lookup info.role).isNone = false)
    (hq : s.frameworkSorters.lookup info.role = some sorter)
    (hc : sorter.contains f = false) :
    addFramework p now shuffle s f info used =
      allocateAll p now shuffle
        { s with
            roleSorter := s.roleSorter.allocated info.role
              (Resources.unreserved (Resources.sum used))
            frameworkSorters := s.frameworkSorters.insert info.role
              (((sorter.add f 1).addResources (Resources.sum used)).allocated f
                (Resources.sum used))
            frameworks := s.frameworks.insert f
              { role := info.role, checkpoint := info.checkpoint, filters := [] } } := by
  unfold addFramework
  simp [hi, hr, hq, hc]

theorem addSlave_unfold {p : Params} {now : Time} {shuffle : List SlaveID → List SlaveID}
    {s : State} {m : SlaveID} {info : SlaveInfo} {total : Resources}
    (hi : s.initialized = true) (hm : s.slaves.lookup m = none) :
    addSlave p now shuffle s m info total ∅ =
      allocateSlave p now shuffle
        { s with
            roleSorter := s.roleSorter.addResources (Resources.unreserved total)
            slaves := s.slaves.insert m
              { total := total, available := total - Resources.sum (∅ : hashmap FrameworkID Resources),
                activated := true, checkpoint := info.checkpoint, hostname := info.hostname } }
        m := by
  have hle : Resources.sum (∅ : hashmap FrameworkID Resources) ≤ total := by
    rw [Resources.sum_empty]
    exact zero_le total
  exact addSlave_of_le info hi hm hle rfl

/-- Registering a framework of a known role while no slave is registered. -/
theorem addFramework_no_slaves {p : Params} (now : Time) {shuffle : List SlaveID → List SlaveID}
    (hperm : ∀ l, (shuffle l).Perm l) {s : State} {f : FrameworkID} {info : FrameworkInfo}
    {sorter : Sorter} (hi : s.initialized = true)
    (hr : (s.roles.lookup info.role).isNone = false)
    (hq : s.frameworkSorters.lookup info.role = some sorter)
    (hc : sorter.contains f = false) (hk : s.slaves.keys = []) :
    addFramework p now shuffle s f info ∅ =
      some ({ s with
          roleSorter := s.roleSorter.allocated info.role
            (Resources.unreserved (Resources.sum (∅ : hashmap SlaveID Resources)))
          frameworkSorters := s.frameworkSorters.insert info.role
            (((sorter.add f 1).addResources
              (Resources.sum (∅ : hashmap SlaveID Resources))).allocated f
              (Resources.sum (∅ : hashmap SlaveID Resources)))
          frameworks := s.frameworks.insert f
            { role := info.role, checkpoint := info.checkpoint, filters := [] } }, []) := by
  rw [addFramework_unfold now hi hr hq hc]
  simp only [allocateAll, hk, allocate_no_slaves hperm]

/-- Registering an unused slave while the only role has no framework. -/
theorem addSlave_no_frameworks {p : Params} (now : Time) {shuffle : List SlaveID → List SlaveID}
    (hperm : ∀ l, (shuffle l).Perm l) {s : State} {R : String} {m : SlaveID}
    {info : SlaveInfo} {total : Resources} {sorter : Sorter} (hi : s.initialized = true)
    (hm : s.slaves.lookup m = none) (hrole : s.roleSorter.Single R)
    (hq : s.frameworkSorters.lookup R = some sorter) (hk : sorter.clients.keys = []) :
    addSlave p now shuffle s m info total ∅ =
      some ({ s with
          roleSorter := s.roleSorter.addResources (Resources.unreserved total)
          slaves := s.slaves.insert m
            { total := total,
              available := total - Resources.sum (∅ : hashmap FrameworkID Resources),
              activated := true, checkpoint := info.checkpoint,
              hostname := info.hostname } }, []) := by
  rw [addSlave_unfold hi hm]
  exact @allocate_single_idle _ _ _ hperm _ R _ sorter
    { total := total,
      available := total - Resources.sum (∅ : hashmap FrameworkID Resources),
      activated := true, checkpoint := info.checkpoint, hostname := info.hostname }
    ((hrole.addResources _).sort) hq (Sorter.sort_empty _ hk)
    (by simp [lookup_insert_eq, lookup_singleton])

/-- Registering an unused, compatible slave with an allocatable unreserved
total while one framework of the only role is registered. -/
theorem addSlave_scene {p : Params} (now : Time) {shuffle : List SlaveID → List SlaveID}
    (hperm : ∀ l, (shuffle l).Perm l) {s : State} {R F M : String} {framework : Framework}
    {info : SlaveInfo} {T : Resources} (hi : s.initialized = true)
    (hk : s.slaves.keys = []) (hrole : s.roleSorter.Single R)
    (hsorter : ∃ sorter, s.frameworkSorters.lookup R = some sorter ∧ sorter.Single F)
    (hfw : s.frameworks.lookup F = some framework) (hfr : framework.role = R)
    (hfil : framework.filters = []) (hw : s.whitelist = none)
    (hT : allocatable p T = true) (hU : Resources.unreserved T = T)
    (hc : framework.checkpoint = true → info.checkpoint = true) :
    ∃ s2, addSlave p now shuffle s M info T ∅ = some (s2, [(F, AList.singleton M T)]) ∧
      available s2 M = 0 ∧ s2.slaves.keys = [M] ∧
      Scene s2 R F M framework
        { total := T, available := 0, activated := true, checkpoint := info.checkpoint,
          hostname := info.hostname } := by
  have hsum : Resources.sum (∅ : hashmap FrameworkID Resources) = 0 := rfl
  have hoff : offerableTo
      { total := T, available := T - Resources.sum (∅ : hashmap FrameworkID Resources),
        activated := true, checkpoint := info.checkpoint, hostname := info.hostname } R = T := by
    rw [offerableTo_of_unreserved]
    · simp [hsum]
    · simp [hsum, hU]
  have hm : s.slaves.lookup M = none := by
    rw [← not_mem_iff_lookup, AList.mem_keys, hk]
    exact List.not_mem_nil M
  have hscene : Scene
      { s with
          roleSorter := s.roleSorter.addResources (Resources.unreserved T)
          slaves := s.slaves.insert M
            { total := T, available := T - Resources.sum (∅ : hashmap FrameworkID Resources),
              activated := true, checkpoint := info.checkpoint, hostname := info.hostname } }
      R F M framework
      { total := T, available := T - Resources.sum (∅ : hashmap FrameworkID Resources),
        activated := true, checkpoint := info.checkpoint, hostname := info.hostname } :=
    { initialized := hi
      role := hrole.addResources _
      sorter := hsorter
      registered := hfw
      frameworkRole := hfr
      slaveKeys := keys_insert_empty _ M _ hk
      added := by simp [lookup_insert_eq, lookup_singleton]
      whitelist := hw }
  obtain ⟨s2, h2, hs2⟩ := hscene.offer (p := p) now hperm rfl
    (by rw [hoff]; exact hT) hc (by rw [hfil]; rfl)
  rw [hoff] at h2 hs2
  have h0 : T - Resources.sum (∅ : hashmap FrameworkID Resources) - T = 0 := by simp [hsum]
  simp only [h0] at hs2
  refine ⟨s2, ?_, ?_, hs2.slaveKeys, hs2⟩
  · rw [addSlave_unfold hi hm]
    exact h2
  · rw [available_of_lookup hs2.added]

/-- Registering a framework of the only role, compatible with the only slave,
whose pool is unreserved and allocatable. -/
theorem addFramework_scene {p : Params} (now : Time) {shuffle : List SlaveID → List SlaveID}
    (hperm : ∀ l, (shuffle l).Perm l) {s : State} {R F M : String} {c : Bool} {slave : Slave}
    {sorter : Sorter} (hi : s.initialized = true)
    (hr : (s.roles.lookup R).isNone = false)
    (hq : s.frameworkSorters.lookup R = some sorter) (hcl : sorter.clients.keys = [])
    (hrole : s.roleSorter.Single R) (hk : s.slaves.keys = [M])
    (hs : s.slaves.lookup M = some slave) (hact : slave.activated = true)
    (hw : s.whitelist = none) (hT : allocatable p slave.available = true)
    (hU : Resources.unreserved slave.available = slave.available)
    (hc : c = true → slave.checkpoint = true) :
    ∃ s2, addFramework p now shuffle s F ⟨R, c⟩ ∅ =
        some (s2, [(F, AList.singleton M slave.available)]) ∧
      available s2 M = 0 ∧ s2.slaves.keys = [M] := by
  have hcont : sorter.contains F = false := by
    unfold Sorter.contains
    have : F ∉ sorter.clients := by
      rw [AList.mem_keys, hcl]
      exact List.not_mem_nil F
    rw [(not_mem_iff_lookup _ _).mp this]
    rfl
  have hsing : (sorter.add F 1).Single F :=
    ⟨keys_insert_empty _ F _ hcl, ⟨0, 1, true⟩, by simp [Sorter.add, lookup_insert_eq], rfl⟩
  have hscene : Scene
      { s with
          roleSorter := s.roleSorter.allocated R
            (Resources.unreserved (Resources.sum (∅ : hashmap SlaveID Resources)))
          frameworkSorters := s.frameworkSorters.insert R
            (((sorter.add F 1).addResources
              (Resources.sum (∅ : hashmap SlaveID Resources))).allocated F
              (Resources.sum (∅ : hashmap SlaveID Resources)))
          frameworks := s.frameworks.insert F { role := R, checkpoint := c, filters := [] } }
      R F M ⟨R, c, []⟩ slave :=
    { initialized := hi
      role := hrole.allocated _ _
      sorter := ⟨((sorter.add F 1).addResources
          (Resources.sum (∅ : hashmap SlaveID Resources))).allocated F
          (Resources.sum (∅ : hashmap SlaveID Resources)),
        by simp [lookup_insert_eq, lookup_singleton], (hsing.addResources _).allocated F _⟩
      registered := by simp [lookup_insert_eq, lookup_singleton]
      frameworkRole := rfl
      slaveKeys := hk
      added := hs
      whitelist := hw }
  have hoff : offerableTo slave R = slave.available := offerableTo_of_unreserved R hU
  obtain ⟨s2, h2, hs2⟩ := hscene.offer (p := p) now hperm hact
    (by rw [hoff]; exact hT) hc rfl
  rw [hoff] at h2 hs2
  refine ⟨s2, ?_, ?_, hs2.slaveKeys⟩
  · rw [@addFramework_unfold _ _ _ _ _ ⟨R, c⟩ _ _ hi hr hq hcont]
    simp only [allocateAll, hk]
    exact h2
  · rw [available_of_lookup hs2.added]
    simp

/-- C10 (single-consumer scenario): with one configured role `R` of weight 1,
no whitelist, a framework `F` of role `R` without prior usage and a slave `M`
with unreserved total `T` above the allocatable threshold, without usage and
compatible with the checkpoint flag of `F`, the first cycle that sees both,
whatever the shuffle and in either order of registration, delivers exactly one
callback, to `F`, offering exactly `T` on `M`, and leaves the available pool
of `M` empty. -/
theorem single_consumer_scenario (p : Params) (shuffle : List SlaveID → List SlaveID)
    (hperm : ∀ l, (shuffle l).Perm l) (t0 t1 t2 : Time) (interval : Duration)
    (R F M : String) (c : Bool) (info : SlaveInfo) (T : Resources)
    (hT : allocatable p T = true) (hU : Resources.unreserved T = T)
    (hc : c = true → info.checkpoint = true) :
    (∃ s1 s2,
      addFramework p t1 shuffle (initialize' t0 State.new interval (AList.singleton R ⟨1⟩))
        F ⟨R, c⟩ ∅ = some (s1, []) ∧
      addSlave p t2 shuffle s1 M info T ∅ = some (s2, [(F, AList.singleton M T)]) ∧
      available s2 M = 0 ∧ s2.slaves.keys = [M]) ∧
    (∃ s1 s2,
      addSlave p t1 shuffle (initialize' t0 State.new interval (AList.singleton R ⟨1⟩))
        M info T ∅ = some (s1, []) ∧
      addFramework p t2 shuffle s1 F ⟨R, c⟩ ∅ = some (s2, [(F, AList.singleton M T)]) ∧
      available s2 M = 0 ∧ s2.slaves.keys = [M]) := by
  have hsum : Resources.sum (∅ : hashmap FrameworkID Resources) = 0 := rfl
  have hq0 : ((∅ : hashmap String Sorter).insert R Sorter.new).lookup R = some Sorter.new := by
    simp [lookup_insert_eq, lookup_singleton]
  have hr0 : ((AList.singleton R ⟨1⟩ : hashmap String RoleInfo).lookup R).isNone = false := by
    simp [lookup_singleton]
  constructor
  · -- the framework is registered first
    rw [initialize_single]
    have h1 := @addFramework_no_slaves p t1 _ hperm
      { initialized := true, allocationInterval := interval, frameworks := ∅,
              slaves := ∅, roles := AList.singleton R ⟨1⟩, whitelist := none,
              roleSorter := Sorter.new.add R 1,
              frameworkSorters := (∅ : hashmap String Sorter).insert R Sorter.new,
              nextFilter := 0, timers := [((t0 + interval).toNat, Timer.batch)] }
      F ⟨R, c⟩ Sorter.new rfl hr0 hq0
      (by simp [Sorter.contains, Sorter.new, AList.lookup_empty]) rfl
    obtain ⟨s2, h2, h3, h4, _⟩ := @addSlave_scene p t2 _ hperm
      { initialized := true, allocationInterval := interval,
              frameworks := (∅ : hashmap FrameworkID Framework).insert F ⟨R, c, []⟩,
              slaves := ∅, roles := AList.singleton R ⟨1⟩, whitelist := none,
              roleSorter := (Sorter.new.add R 1).allocated R
                (Resources.unreserved (Resources.sum (∅ : hashmap SlaveID Resources))),
              frameworkSorters := ((∅ : hashmap String Sorter).insert R Sorter.new).insert R
                (((Sorter.new.add F 1).addResources
                  (Resources.sum (∅ : hashmap SlaveID Resources))).allocated F
                  (Resources.sum (∅ : hashmap SlaveID Resources))),
              nextFilter := 0, timers := [((t0 + interval).toNat, Timer.batch)] }
      R F M ⟨R, c, []⟩ info T
      rfl rfl ((Sorter.single_add_new R 1).allocated R _)
      ⟨((Sorter.new.add F 1).addResources
          (Resources.sum (∅ : hashmap SlaveID Resources))).allocated F
          (Resources.sum (∅ : hashmap SlaveID Resources)),
        by simp [lookup_insert_eq, lookup_singleton], ((Sorter.single_add_new F 1).addResources _).allocated F _⟩
      (by simp [lookup_insert_eq, lookup_singleton]) rfl rfl rfl hT hU hc
    exact ⟨_, s2, h1, h2, h3, h4⟩
  · -- the slave is registered first
    rw [initialize_single]
    have h1 := @addSlave_no_frameworks p t1 _ hperm
      { initialized := true, allocationInterval := interval, frameworks := ∅,
              slaves := ∅, roles := AList.singleton R ⟨1⟩, whitelist := none,
              roleSorter := Sorter.new.add R 1,
              frameworkSorters := (∅ : hashmap String Sorter).insert R Sorter.new,
              nextFilter := 0, timers := [((t0 + interval).toNat, Timer.batch)] }
      R M info T Sorter.new rfl (AList.lookup_empty M) (Sorter.single_add_new R 1) hq0 rfl
    obtain ⟨s2, h2, h3, h4⟩ := @addFramework_scene p t2 _ hperm
      { initialized := true, allocationInterval := interval, frameworks := ∅,
              slaves := (∅ : hashmap SlaveID Slave).insert M
                { total := T,
                  available := T - Resources.sum (∅ : hashmap FrameworkID Resources),
                  activated := true, checkpoint := info.checkpoint,
                  hostname := info.hostname },
              roles := AList.singleton R ⟨1⟩, whitelist := none,
              roleSorter := (Sorter.new.add R 1).addResources (Resources.unreserved T),
              frameworkSorters := (∅ : hashmap String Sorter).insert R Sorter.new,
              nextFilter := 0, timers := [((t0 + interval).toNat, Timer.batch)] }
      R F M c
      { total := T,
        available := T - Resources.sum (∅ : hashmap FrameworkID Resources),
        activated := true, checkpoint := info.checkpoint,
        hostname := info.hostname }
      Sorter.new rfl hr0 hq0 rfl
      ((Sorter.single_add_new R 1).addResources _) (keys_insert_empty _ M _ rfl)
      (by simp [lookup_insert_eq, lookup_singleton]) rfl rfl
      (by simp [hsum]; exact hT) (by simp [hsum]; exact hU) hc
    exact ⟨_, s2, h1, h2.trans (by simp [hsum]), h3, h4⟩

/-! ## The refusal window -/

theorem Resources.apply_add :
    ∀ (ops : List Resources.Operation) (a l l' : Resources),
      Resources.apply l ops = some l' → Resources.apply (a + l) ops = some (a + l') := by
  intro ops
  induction ops with
  | nil =>
    intro a l l' h
    simp only [Resources.apply, Option.some.injEq] at h ⊢
    rw [h]
  | cons op ops ih =>
    intro a l l' h
    simp only [Resources.apply] at h ⊢
    by_cases hc : Resources.contains l op.consumed = true
    · simp only [hc, if_true] at h
      have hle : op.consumed ≤ l := by
        simpa [Resources.contains] using hc
      have hc' : Resources.contains (a + l) op.consumed = true := by
        simp only [Resources.contains, decide_eq_true_eq]
        exact hle.trans le_add_self
      simp only [hc', if_true]
      have : a + l - op.consumed + op.produced = a + (l - op.consumed + op.produced) := by
        rw [add_tsub_assoc_of_le hle, add_assoc]
      rw [this]
      exact ih a _ l' h
    · simp [hc] at h

theorem Conserved.of_slaves {s t : State} {ledger : Ledger} (h : Conserved s ledger)
    (hs : t.slaves = s.slaves) : Conserved t ledger := by
  intro m slave hl
  rw [hs] at hl
  exact h m slave hl

theorem Conserved.cycle {p : Params} {now : Time} {shuffle : List SlaveID → List SlaveID}
    {s : State} {ids : List SlaveID} {r : State × List Offer} {ledger : Ledger}
    (hwf : WF s) (h : Conserved s ledger) (hr : allocate p now shuffle s ids = some r) :
    Conserved r.1 (fun m => ledger m + offeredOn r.2 m) := by
  obtain ⟨off, hoff, hsame, hI⟩ := allocate_inv hwf hr
  intro m slave' hl
  have hst := hsame.slaves m
  rw [hl] at hst
  cases hs : s.slaves.lookup m with
  | none => simp [hs] at hst
  | some slave =>
    simp only [hs, Option.map_some', Option.some.injEq, Slave.static, Prod.mk.injEq] at hst
    have hav := hI.avail m
    rw [available_of_lookup hs, available_of_lookup hl, ← hoff] at hav
    have := h m slave hs
    rw [hst.1, ← this, hav]
    show slave'.available + (ledger m + offeredOn r.2 m) =
      slave'.available + offeredOn r.2 m + ledger m
    rw [add_assoc, add_comm (ledger m)]

theorem removeFramework_slaves {s t : State} {f : FrameworkID}
    (h : removeFramework s f = some t) : t.slaves = s.slaves := by
  obtain ⟨_, framework, sorter, _, _, h1 | h1⟩ := removeFramework_eq_some h
  · rw [h1.2]
  · rw [h1.2]

theorem deactivateFramework_slaves {s t : State} {f : FrameworkID}
    (h : deactivateFramework s f = some t) : t.slaves = s.slaves := by
  unfold deactivateFramework at h
  split_ifs at h
  cases hl : s.frameworks.lookup f with
  | none => simp [hl] at h
  | some framework =>
    cases hq : s.frameworkSorters.lookup framework.role with
    | none => simp [hl, hq] at h
    | some sorter =>
      simp only [hl, hq, Option.some.injEq] at h
      subst h
      rfl

theorem recoverFramework_slaves {s t : State} {f : FrameworkID} {q : Resources}
    (h : recoverFramework s f q = some t) : t.slaves = s.slaves := by
  rcases recoverFramework_eq_some h with ⟨h1, _⟩ | ⟨_, _, _, _, _, _, _, _, h1⟩
  · rw [h1]
  · rw [h1]

theorem installFilter_slaves {p : Params} {now : Time} {s t : State} {f : FrameworkID}
    {m : SlaveID} {q : Resources} {filters : Option Filters}
    (h : installFilter p now s f m q filters = some t) : t.slaves = s.slaves := by
  unfold installFilter at h
  cases filters with
  | none =>
    simp only [Option.some.injEq] at h
    subst h
    rfl
  | some fs =>
    cases hl : s.frameworks.lookup f with
    | none =>
      simp only [hl, Option.some.injEq] at h
      subst h
      rfl
    | some framework =>
      cases hm : s.slaves.lookup m with
      | none =>
        simp only [hl, hm, Option.some.injEq] at h
        subst h
        rfl
      | some slave =>
        simp only [hl, hm] at h
        cases hd : refuseDuration p fs with
        | none => simp [hd] at h
        | some seconds =>
          simp only [hd] at h
          split_ifs at h <;>
          · simp only [Option.some.injEq] at h
            subst h
            rfl

theorem Conserved.recovered {p : Params} {now : Time} {s t : State} {f : FrameworkID}
    {m : SlaveID} {q : Resources} {filters : Option Filters} {ledger : Ledger}
    (h : Conserved s ledger) (hd : m ∈ s.slaves → q ≤ ledger m)
    (ht : recoverResources p now s f m q filters = some t) :
    Conserved t (fun x => if x = m then ledger x - q else ledger x) := by
  unfold Mesos.recoverResources at ht
  split_ifs at ht with hi he
  · simp only [Option.some.injEq] at ht
    subst ht
    have hq : q = 0 := by simpa [Resources.empty] using he
    intro x slave hl
    simp only [hq, tsub_zero, ite_self]
    exact h x slave hl
  · cases h1 : Mesos.recoverFramework s f q with
    | none => simp [h1] at ht
    | some s1 =>
      simp only [h1] at ht
      have hs1 := recoverFramework_slaves h1
      have hs2 := installFilter_slaves ht
      intro x slave' hl
      rw [hs2] at hl
      cases hm : s.slaves.lookup m with
      | none =>
        have hrs : (recoverSlave s1 m q).slaves = s.slaves := by
          unfold recoverSlave
          rw [hs1, hm]
          exact hs1
        rw [hrs] at hl
        have hx : x ≠ m := by
          rintro rfl
          rw [hm] at hl
          cases hl
        simp only [hx, if_false]
        exact h x slave' hl
      | some slave =>
        have hrs : (recoverSlave s1 m q).slaves =
            s.slaves.insert m { slave with available := slave.available + q } := by
          unfold recoverSlave
          rw [hs1, hm]
        rw [hrs] at hl
        simp only [lookup_insert_eq] at hl
        by_cases hx : x = m
        · subst hx
          simp only [if_true, Option.some.injEq] at hl
          subst hl
          have hle := hd ((mem_iff_lookup _ _).mpr ⟨slave, hm⟩)
          have := h x slave hm
          simp only [if_true]
          rw [← this, add_assoc, add_tsub_cancel_of_le hle]
        · simp only [hx, if_false] at hl ⊢
          exact h x slave' hl

theorem Conserved.updated {s t : State} {f : FrameworkID} {m : SlaveID}
    {ops : List Resources.Operation} {ledger : Ledger} (h : Conserved s ledger)
    (hd : (Resources.apply (ledger m) ops).isSome = true)
    (ht : updateAllocation s f m ops = some t) :
    Conserved t (fun x => if x = m then
      (match Resources.apply (ledger x) ops with
        | some l => l
        | none => ledger x)
      else ledger x) := by
  unfold Mesos.updateAllocation at ht
  split_ifs at ht with hi
  cases hm : s.slaves.lookup m with
  | none => simp [hm] at ht
  | some slave =>
    cases hl : s.frameworks.lookup f with
    | none => simp [hm, hl] at ht
    | some framework =>
      cases hq : s.frameworkSorters.lookup framework.role with
      | none => simp [hm, hl, hq] at ht
      | some sorter =>
        simp only [hm, hl, hq] at ht
        cases ha : Resources.apply (sorter.allocation f) ops with
        | none => simp [ha] at ht
        | some ua =>
          cases hu : Resources.apply slave.total ops with
          | none => simp [ha, hu] at ht
          | some ut =>
            simp only [ha, hu, Option.some.injEq] at ht
            subst ht
            obtain ⟨l', hl'⟩ := Option.isSome_iff_exists.mp hd
            intro x slave' hx
            simp only [lookup_insert_eq] at hx
            by_cases hxm : x = m
            · subst hxm
              simp only [if_true, Option.some.injEq] at hx
              subst hx
              simp only [if_true, hl']
              have hcons := h x slave hm
              have := Resources.apply_add ops slave.available _ _ hl'
              rw [hcons, hu] at this
              exact (Option.some.inj this).symm
            · simp only [hxm, if_false] at hx ⊢
              exact h x slave' hx

theorem Reachable.run {p : Params} {shuffle : List SlaveID → List SlaveID}
    (hperm : ∀ l, (shuffle l).Perm l) :
    ∀ (calls : List (Time × Call)) {s s' : State}, Reachable p s →
      run p shuffle calls s = some s' → Reachable p s' := by
  intro calls
  induction calls with
  | nil =>
    intro s s' hs h
    simp only [Mesos.run, Option.some.injEq] at h
    subst h
    exact hs
  | cons tc rest ih =>
    intro s s' hs h
    simp only [Mesos.run] at h
    split_ifs at h with hst
    cases h1 : Mesos.step p tc.1 shuffle s tc.2 with
    | none => simp [h1] at h
    | some r =>
      simp only [h1] at h
      exact ih (Reachable.step tc.1 shuffle tc.2 hs hperm hst h1) h

/-- The state a run leads to is reachable. -/
theorem Reachable.exec (p : Params) {shuffle : List SlaveID → List SlaveID}
    (hperm : ∀ l, (shuffle l).Perm l) (calls : List (Time × Call)) {s : State}
    (hs : Reachable p s) : Reachable p (exec p shuffle calls s) := by
  unfold Mesos.exec
  cases h : Mesos.run p shuffle calls s with
  | none => exact hs
  | some s' => exact Reachable.run hperm calls hs h

theorem offeredOn_nil (m : SlaveID) : offeredOn [] m = 0 := rfl

theorem Conserved.handled {p : Params} {now : Time} {shuffle : List SlaveID → List SlaveID}
    {s : State} {ledger : Ledger} {c : Call} {r : State × List Offer} (hwf : WF s)
    (h : Conserved s ledger) (hc : c.stated s) (hd : c.disciplined ledger s)
    (hr : step p now shuffle s c = some r) : Conserved r.1 (ledger.after c r.2) := by
  cases c with
  | addFramework f info used =>
    obtain ⟨s1, hw, hs, hcyc⟩ := addFramework_cycle hwf hc hr
    exact Conserved.cycle hw (h.of_slaves hs) hcyc
  | removeFramework f =>
    simp only [Mesos.step, Option.map_eq_some'] at hr
    obtain ⟨t, ht, rfl⟩ := hr
    intro m slave hl
    simp only [Ledger.after, offeredOn_nil, add_zero]
    exact h.of_slaves (removeFramework_slaves ht) m slave hl
  | activateFramework f =>
    obtain ⟨s1, hw, hs, hcyc⟩ := activateFramework_cycle hwf hr
    exact Conserved.cycle hw (h.of_slaves hs) hcyc
  | deactivateFramework f =>
    simp only [Mesos.step, Option.map_eq_some'] at hr
    obtain ⟨t, ht, rfl⟩ := hr
    intro m slave hl
    simp only [Ledger.after, offeredOn_nil, add_zero]
    exact h.of_slaves (deactivateFramework_slaves ht) m slave hl
  | addSlave m info total used =>
    obtain ⟨s1, hw, hs, hnone, hcyc⟩ := addSlave_cycle hwf hr
    have h1 : Conserved s1 (fun x => if x = m then Resources.sum used else ledger x) := by
      intro x slave hl
      rw [hs, lookup_insert_eq] at hl
      by_cases hx : x = m
      · simp only [hx, if_true, Option.some.injEq] at hl ⊢
        subst hl
        exact tsub_add_cancel_of_le hd
      · simp only [hx, if_false] at hl ⊢
        exact h x slave hl
    exact Conserved.cycle hw h1 hcyc
  | removeSlave m =>
    simp only [Mesos.step, Option.map_eq_some'] at hr
    obtain ⟨t, ht, rfl⟩ := hr
    obtain ⟨_, slave0, hm, _, ht⟩ := removeSlave_eq_some ht
    subst ht
    intro x slave hl
    simp only [lookup_erase_eq] at hl
    simp only [Ledger.after, offeredOn_nil, add_zero]
    by_cases hx : x = m
    · simp [hx] at hl
    · simp only [hx, if_false] at hl
      exact h x slave hl
  | activateSlave m =>
    simp only [Mesos.step, Option.map_eq_some'] at hr
    obtain ⟨t, ht, rfl⟩ := hr
    unfold Mesos.activateSlave at ht
    split_ifs at ht
    cases hm : s.slaves.lookup m with
    | none => simp [hm] at ht
    | some slave0 =>
      simp only [hm, Option.some.injEq] at ht
      subst ht
      intro x slave hl
      simp only [lookup_insert_eq] at hl
      simp only [Ledger.after, offeredOn_nil, add_zero]
      by_cases hx : x = m
      · simp only [hx, if_true, Option.some.injEq] at hl
        subst hl
        rw [hx]
        exact h m slave0 hm
      · simp only [hx, if_false] at hl
        exact h x slave hl
  | deactivateSlave m =>
    simp only [Mesos.step, Option.map_eq_some'] at hr
    obtain ⟨t, ht, rfl⟩ := hr
    unfold Mesos.deactivateSlave at ht
    split_ifs at ht
    cases hm : s.slaves.lookup m with
    | none => simp [hm] at ht
    | some slave0 =>
      simp only [hm, Option.some.injEq] at ht
      subst ht
      intro x slave hl
      simp only [lookup_insert_eq] at hl
      simp only [Ledger.after, offeredOn_nil, add_zero]
      by_cases hx : x = m
      · simp only [hx, if_true, Option.some.injEq] at hl
        subst hl
        rw [hx]
        exact h m slave0 hm
      · simp only [hx, if_false] at hl
        exact h x slave hl
  | updateWhitelist w =>
    simp only [Mesos.step, Option.map_eq_some'] at hr
    obtain ⟨t, ht, rfl⟩ := hr
    unfold Mesos.updateWhitelist at ht
    split_ifs at ht
    simp only [Option.some.injEq] at ht
    subst ht
    intro m slave hl
    simp only [Ledger.after, offeredOn_nil, add_zero]
    exact h m slave hl
  | requestResources f =>
    simp only [Mesos.step, Option.map_eq_some'] at hr
    obtain ⟨t, ht, rfl⟩ := hr
    unfold Mesos.requestResources at ht
    split_ifs at ht
    simp only [Option.some.injEq] at ht
    subst ht
    intro m slave hl
    simp only [Ledger.after, offeredOn_nil, add_zero]
    exact h m slave hl
  | updateAllocation f m ops =>
    simp only [Mesos.step, Option.map_eq_some'] at hr
    obtain ⟨t, ht, rfl⟩ := hr
    intro x slave hl
    simp only [Ledger.after, offeredOn_nil, add_zero]
    exact Conserved.updated h hd ht x slave hl
  | recoverResources f m q filters =>
    simp only [Mesos.step, Option.map_eq_some'] at hr
    obtain ⟨t, ht, rfl⟩ := hr
    intro x slave hl
    simp only [Ledger.after, offeredOn_nil, add_zero]
    exact Conserved.recovered h hd ht x slave hl
  | reviveOffers f =>
    obtain ⟨s1, hw, hs, hcyc⟩ := reviveOffers_cycle hwf hc hr
    exact Conserved.cycle hw (h.of_slaves hs) hcyc
  | batch =>
    obtain ⟨r1, h1, rfl⟩ := batch_cycle hr
    exact (Conserved.cycle hwf h h1).of_slaves rfl
  | expire f filter =>
    simp only [Mesos.step, Option.some.injEq] at hr
    subst hr
    intro m slave hl
    simp only [Ledger.after, offeredOn_nil, add_zero]
    have hs : (expire s f filter).slaves = s.slaves := by
      unfold Mesos.expire
      cases s.frameworks.lookup f with
      | none => rfl
      | some framework =>
        simp only
        split_ifs <;> rfl
    rw [hs] at hl
    exact h m slave hl

theorem Accounted.wellFormed {p : Params} {s : State} {ledger : Ledger} (h : Accounted p s ledger) :
    WF s := by
  induction h with
  | init now allocationInterval roles => exact WF.init now allocationInterval roles
  | step now shuffle c _ _ hc _ hstep ih => exact ih.step hc hstep

/-- C2, amended (conservation under a disciplined caller): in every state
reached from `initialize` by messages that satisfy their stated preconditions,
where moreover the usage reported to `addSlave` is contained in the total of
the new slave, `recoverResources` returns only resources attributed to the
slave and the operations of `updateAllocation` apply to the resources
attributed to the slave, every registered slave satisfies
available + attributed = total.  The attribution of a slave is the usage
reported when it was added, plus what cycles offered on it, minus what was
recovered on it, with the operations of `updateAllocation` applied. -/
theorem conservation_disciplined (p : Params) (s : State) (ledger : Ledger)
    (h : Accounted p s ledger) :
    ∀ m slave, s.slaves.lookup m = some slave → slave.available + ledger m = slave.total := by
  induction h with
  | init now allocationInterval roles =>
    intro m slave hl
    have : (initialize' now State.new allocationInterval roles).slaves = ∅ := by
      unfold initialize'
      have hfold : ∀ (l : List (Sigma (fun _ : String => RoleInfo))) (st : State),
          (l.foldl
            (fun st e =>
              { st with
                  roleSorter := st.roleSorter.add e.1 e.2.weight
                  frameworkSorters := st.frameworkSorters.insert e.1 Sorter.new })
            st).slaves = st.slaves := by
        intro l
        induction l with
        | nil => intro st; rfl
        | cons e l ih => intro st; rw [List.foldl_cons, ih]
      exact hfold _ _
    rw [this] at hl
    simp [AList.lookup_empty] at hl
  | step now shuffle c hacc _ hc hd hstep ih =>
    exact Conserved.handled hacc.wellFormed ih hc hd hstep

/-- C2, counterexample: the state reached from `initialize` by adding the slave
`"M"` with 4 cpus and then recovering 1 cpu that was never allocated is
reachable, and in it the available pool of `"M"` holds 5 cpus while its total
holds 4, so that no attribution of allocations to `"M"` makes
available + allocations = total. -/
theorem conservation_counterexample :
    Reachable exampleParams overRecovered ∧
      ∃ slave, overRecovered.slaves.lookup "M" = some slave ∧
        slave.available ("cpus", "*") = 5 ∧ slave.total ("cpus", "*") = 4 ∧
        ∀ allocated : Resources, slave.available + allocated ≠ slave.total := by
  refine ⟨Reachable.exec _ (fun l => List.Perm.refl l) _ (Reachable.init _ _ _), ?_⟩
  have h1 : (overRecovered.slaves.lookup "M").isSome = true := by decide
  obtain ⟨slave, hs⟩ := Option.isSome_iff_exists.mp h1
  have h5 : available overRecovered "M" ("cpus", "*") = 5 := by decide
  have h4 : (match overRecovered.slaves.lookup "M" with
      | some sl => sl.total ("cpus", "*")
      | none => 0) = 4 := by decide
  rw [available_of_lookup hs] at h5
  simp only [hs] at h4
  refine ⟨slave, hs, h5, h4, ?_⟩
  intro allocated heq
  have := DFunLike.congr_fun heq ("cpus", "*")
  simp only [DFinsupp.add_apply, h5, h4] at this
  omega

/-! ## The theorems at concrete inputs -/

/-- C1 at a concrete input: in `exampleRefused` the framework `"F"` holds a
filter on the slave `"M"` that timed out at 5000000030; the cycle run at
6000000000 offers `"M"` to `"F"` and no offer is covered by a live filter. -/
theorem filter_invariant_witness :
    WF exampleRefused ∧ (∀ l : List SlaveID, (id l).Perm l) ∧
    (∀ m ∈ ["M"], m ∈ exampleRefused.slaves) ∧
    (∃ r, allocate exampleParams 6000000000 id exampleRefused ["M"] = some r ∧
      ∀ o ∈ r.2, ∀ m q, o.2.lookup m = some q →
        ∀ framework, exampleRefused.frameworks.lookup o.1 = some framework →
          ∀ filter ∈ framework.filters,
            ¬ (filter.2.slaveId = m ∧ q ≤ filter.2.resources ∧
              6000000000 < filter.2.timeout)) ∧
    (match allocate exampleParams 6000000000 id exampleRefused ["M"] with
      | some r => r.2.map (fun o => (o.1, o.2.keys))
      | none => []) = [("F", ["M"])] :=
  ⟨(Reachable.exec exampleParams (fun l => List.Perm.refl l) _ (Reachable.init _ _ _)).wf,
    fun l => List.Perm.refl l, by decide,
    filter_invariant exampleParams 6000000000 id exampleRefused ["M"]
      (Reachable.exec exampleParams (fun l => List.Perm.refl l) _ (Reachable.init _ _ _)).wf
      (fun l => List.Perm.refl l) (by decide),
    by decide⟩

/-- C3 at a concrete input: in `exampleIdle` the slave `"M"` holds unreserved
resources, a reservation for the role `"R"` of the framework `"F"` and a
reservation for the role `"S"`; the cycle offers `"F"` the first two only. -/
theorem reservation_respect_witness :
    WF exampleIdle ∧ (∀ l : List SlaveID, (id l).Perm l) ∧
    (∀ m ∈ ["M"], m ∈ exampleIdle.slaves) ∧
    ((∀ m role acc f acc', allocateFramework exampleParams 50 m role acc f = some acc' →
      acc' ≠ acc →
      ∃ slave, acc.1.slaves.lookup m = some slave ∧
        (payloadOf acc'.2 f).lookup m =
          some (Resources.unreserved slave.available +
            Resources.reserved slave.available role)) ∧
    ∃ r, allocate exampleParams 50 id exampleIdle ["M"] = some r ∧
      ∀ o ∈ r.2, ∀ m q, o.2.lookup m = some q →
        ∃ framework a, exampleIdle.frameworks.lookup o.1 = some framework ∧
          a ≤ available exampleIdle m ∧
          q = Resources.unreserved a + Resources.reserved a framework.role ∧
          q ≤ available exampleIdle m ∧
          ∀ k, q k ≠ 0 → k.2 = "*" ∨ k.2 = framework.role) ∧
    (match allocate exampleParams 50 id exampleIdle ["M"] with
      | some r => r.2.map (fun o => (o.1, o.2.keys, offeredTo r.2 o.1 ("cpus", "*"),
          offeredTo r.2 o.1 ("cpus", "R"), offeredTo r.2 o.1 ("cpus", "S")))
      | none => []) = [("F", ["M"], 2, 1, 0)] :=
  ⟨(Reachable.exec exampleParams (fun l => List.Perm.refl l) _ (Reachable.init _ _ _)).wf,
    fun l => List.Perm.refl l, by decide,
    reservation_respect exampleParams 50 id exampleIdle ["M"]
      (Reachable.exec exampleParams (fun l => List.Perm.refl l) _ (Reachable.init _ _ _)).wf
      (fun l => List.Perm.refl l) (by decide),
    by decide⟩

/-- C4 at a concrete input: the cycle run on `exampleIdle`, which moves the
offerable resources of the slave `"M"` to the framework `"F"`. -/
theorem cycle_accounting_witness :
    WF exampleIdle ∧ (∀ l : List SlaveID, (id l).Perm l) ∧
    (∀ m ∈ ["M"], m ∈ exampleIdle.slaves) ∧
    (∃ r, allocate exampleParams 50 id exampleIdle ["M"] = some r ∧
      (∀ m, available r.1 m = available exampleIdle m - offeredOn r.2 m) ∧
      (∀ m, offeredOn r.2 m ≤ available exampleIdle m) ∧
      (∀ m, (r.1.slaves.lookup m).map (fun slave => slave.total) =
        (exampleIdle.slaves.lookup m).map (fun slave => slave.total)) ∧
      (∀ m, m ∉ ["M"] → r.1.slaves.lookup m = exampleIdle.slaves.lookup m) ∧
      (∀ role sorter f, exampleIdle.frameworkSorters.lookup role = some sorter →
        f ∈ sorter.clients →
        frameworkAllocation r.1 role f =
          frameworkAllocation exampleIdle role f + offeredTo r.2 f) ∧
      (∀ role, role ∈ exampleIdle.roleSorter.clients →
        r.1.roleSorter.allocation role =
          exampleIdle.roleSorter.allocation role + offeredToRole exampleIdle r.2 role)) ∧
    (match allocate exampleParams 50 id exampleIdle ["M"] with
      | some r => (available r.1 "M" ("cpus", "S"), available r.1 "M" ("cpus", "*"),
          frameworkAllocation r.1 "R" "F" ("cpus", "*"))
      | none => (0, 0, 0)) = (3, 0, 2) :=
  ⟨(Reachable.exec exampleParams (fun l => List.Perm.refl l) _ (Reachable.init _ _ _)).wf,
    fun l => List.Perm.refl l, by decide,
    cycle_accounting exampleParams 50 id exampleIdle ["M"]
      (Reachable.exec exampleParams (fun l => List.Perm.refl l) _ (Reachable.init _ _ _)).wf
      (fun l => List.Perm.refl l) (by decide),
    by decide⟩

/-- C5 at a concrete input: in `exampleFenced` the whitelist admits the host
`"other"` only, so the cycle makes no offer on the slave `"M"` of the host
`"host"` and leaves its record untouched. -/
theorem machine_eligibility_witness :
    WF exampleFenced ∧ (∀ l : List SlaveID, (id l).Perm l) ∧
    (∀ m ∈ ["M"], m ∈ exampleFenced.slaves) ∧
    (∃ r, allocate exampleParams 50 id exampleFenced ["M"] = some r ∧
      (∀ o ∈ r.2, ∀ m q, o.2.lookup m = some q →
        ∃ slave, exampleFenced.slaves.lookup m = some slave ∧ slave.activated = true ∧
          ∀ w, exampleFenced.whitelist = some w → slave.hostname ∈ w) ∧
      (∀ m slave, exampleFenced.slaves.lookup m = some slave →
        (slave.activated = false ∨
          ∃ w, exampleFenced.whitelist = some w ∧ slave.hostname ∉ w) →
        r.1.slaves.lookup m = some slave) ∧
      (exampleFenced.whitelist = some [] → r.2 = [])) ∧
    (match allocate exampleParams 50 id exampleFenced ["M"] with
      | some r => (r.2.map (fun o => (o.1, o.2.keys)), available r.1 "M" ("cpus", "*"))
      | none => ([], 0)) = ([], 4) :=
  ⟨(Reachable.exec exampleParams (fun l => List.Perm.refl l) _ (Reachable.init _ _ _)).wf,
    fun l => List.Perm.refl l, by decide,
    machine_eligibility exampleParams 50 id exampleFenced ["M"]
      (Reachable.exec exampleParams (fun l => List.Perm.refl l) _ (Reachable.init _ _ _)).wf
      (fun l => List.Perm.refl l) (by decide),
    by decide⟩

/-- C6 at a concrete input: in `exampleCheckpoint` the framework `"F"`
checkpoints and the slave `"M"` does not, so neither the cycle nor
`reviveOffers` offers `"M"` to `"F"`. -/
theorem checkpoint_compatibility_witness :
    WF exampleCheckpoint ∧ (∀ l : List SlaveID, (id l).Perm l) ∧
    (∀ m ∈ ["M"], m ∈ exampleCheckpoint.slaves) ∧
    ((∃ r, allocate exampleParams 50 id exampleCheckpoint ["M"] = some r ∧
      ∀ o ∈ r.2, ∀ m q, o.2.lookup m = some q →
        ∀ framework slave, exampleCheckpoint.frameworks.lookup o.1 = some framework →
          exampleCheckpoint.slaves.lookup m = some slave → framework.checkpoint = true →
          slave.checkpoint = true) ∧
    ∀ f, f ∈ exampleCheckpoint.frameworks →
      ∃ r, reviveOffers exampleParams 50 id exampleCheckpoint f = some r ∧
        (∀ framework, r.1.frameworks.lookup f = some framework → framework.filters = []) ∧
        ∀ o ∈ r.2, ∀ m q, o.2.lookup m = some q →
          ∀ framework slave, exampleCheckpoint.frameworks.lookup o.1 = some framework →
            exampleCheckpoint.slaves.lookup m = some slave → framework.checkpoint = true →
            slave.checkpoint = true) ∧
    (match allocate exampleParams 50 id exampleCheckpoint ["M"] with
      | some r => (r.2.map (fun o => (o.1, o.2.keys)), available r.1 "M" ("cpus", "*"))
      | none => ([], 0)) = ([], 4) :=
  ⟨(Reachable.exec exampleParams (fun l => List.Perm.refl l) _ (Reachable.init _ _ _)).wf,
    fun l => List.Perm.refl l, by decide,
    checkpoint_compatibility exampleParams 50 id exampleCheckpoint ["M"]
      (Reachable.exec exampleParams (fun l => List.Perm.refl l) _ (Reachable.init _ _ _)).wf
      (fun l => List.Perm.refl l) (by decide),
    by decide⟩

/-- C7 at a concrete input: the cycle run on `exampleIdle` invokes the callback
once, for the framework `"F"`, with a non-empty payload. -/
theorem offer_delivery_witness :
    WF exampleIdle ∧ (∀ l : List SlaveID, (id l).Perm l) ∧
    (∀ m ∈ ["M"], m ∈ exampleIdle.slaves) ∧
    (∃ r, allocate exampleParams 50 id exampleIdle ["M"] = some r ∧
      (r.2.map Prod.fst).Nodup ∧
      (∀ o ∈ r.2, ∃ m q, o.2.lookup m = some q ∧ q ≠ 0) ∧
      (∀ m, available exampleIdle m = available r.1 m + offeredOn r.2 m) ∧
      (∀ role sorter f, exampleIdle.frameworkSorters.lookup role = some sorter →
        f ∈ sorter.clients →
        frameworkAllocation r.1 role f =
          frameworkAllocation exampleIdle role f + offeredTo r.2 f) ∧
      (∀ f, (∀ o ∈ r.2, o.1 ≠ f) → offeredTo r.2 f = 0) ∧
      (r.2 = [] → r.1 = exampleIdle)) ∧
    (match allocate exampleParams 50 id exampleIdle ["M"] with
      | some r => r.2.map (fun o => (o.1, o.2.keys))
      | none => []) = [("F", ["M"])] :=
  ⟨(Reachable.exec exampleParams (fun l => List.Perm.refl l) _ (Reachable.init _ _ _)).wf,
    fun l => List.Perm.refl l, by decide,
    offer_delivery exampleParams 50 id exampleIdle ["M"]
      (Reachable.exec exampleParams (fun l => List.Perm.refl l) _ (Reachable.init _ _ _)).wf
      (fun l => List.Perm.refl l) (by decide),
    by decide⟩

/-- C8 at a concrete input: the payload that the cycle run on `exampleIdle`
hands to the framework `"F"` names the slave `"M"` with 3 cpus and 1024 of
memory, above both thresholds of `exampleParams`. -/
theorem wellformed_payloads_witness :
    WF exampleIdle ∧ (∀ l : List SlaveID, (id l).Perm l) ∧
    (∀ m ∈ ["M"], m ∈ exampleIdle.slaves) ∧
    (∃ r, allocate exampleParams 50 id exampleIdle ["M"] = some r ∧
      ∀ o ∈ r.2, o.2.keys ≠ [] ∧
        ∀ m q, o.2.lookup m = some q →
          q ≠ 0 ∧ allocatable exampleParams q = true ∧
            ((∃ c, Resources.cpus q = some c ∧ exampleParams.MIN_CPUS ≤ c) ∨
              (∃ b, Resources.mem q = some b ∧ exampleParams.MIN_MEM ≤ b))) ∧
    (match allocate exampleParams 50 id exampleIdle ["M"] with
      | some r => r.2.map (fun o => (o.1, o.2.keys,
          (o.2.lookup "M").bind Resources.cpus, (o.2.lookup "M").bind Resources.mem))
      | none => []) = [("F", ["M"], some 3, some 1024)] :=
  ⟨(Reachable.exec exampleParams (fun l => List.Perm.refl l) _ (Reachable.init _ _ _)).wf,
    fun l => List.Perm.refl l, by decide,
    wellformed_payloads exampleParams 50 id exampleIdle ["M"]
      (Reachable.exec exampleParams (fun l => List.Perm.refl l) _ (Reachable.init _ _ _)).wf
      (fun l => List.Perm.refl l) (by decide),
    by decide⟩

/-- C10 at a concrete input: the role `"R"`, the framework `"F"` that does not
checkpoint and the slave `"M"` with 4 cpus and 4096 of memory, registered at
the clock readings 10 and 20 in either order. -/
theorem single_consumer_scenario_witness :
    (∀ l : List SlaveID, (id l).Perm l) ∧
    allocatable exampleParams (cpusMem 4 4096) = true ∧
    Resources.unreserved (cpusMem 4 4096) = cpusMem 4 4096 ∧
    (false = true → (⟨true, "host"⟩ : SlaveInfo).checkpoint = true) ∧
    (∃ s1 s2,
      addFramework exampleParams 10 id
        (initialize' 0 State.new 1000000000 (AList.singleton "R" ⟨1⟩))
        "F" ⟨"R", false⟩ ∅ = some (s1, []) ∧
      addSlave exampleParams 20 id s1 "M" ⟨true, "host"⟩ (cpusMem 4 4096) ∅ =
        some (s2, [("F", AList.singleton "M" (cpusMem 4 4096))]) ∧
      available s2 "M" = 0 ∧ s2.slaves.keys = ["M"]) ∧
    (∃ s1 s2,
      addSlave exampleParams 10 id
        (initialize' 0 State.new 1000000000 (AList.singleton "R" ⟨1⟩))
        "M" ⟨true, "host"⟩ (cpusMem 4 4096) ∅ = some (s1, []) ∧
      addFramework exampleParams 20 id s1 "F" ⟨"R", false⟩ ∅ =
        some (s2, [("F", AList.singleton "M" (cpusMem 4 4096))]) ∧
      available s2 "M" = 0 ∧ s2.slaves.keys = ["M"]) :=
  ⟨fun l => List.Perm.refl l, by decide, by decide, by decide,
    single_consumer_scenario exampleParams id (fun l => List.Perm.refl l) 0 10 20 1000000000
      "R" "F" "M" false ⟨true, "host"⟩ (cpusMem 4 4096) (by decide) (by decide) (by decide)⟩

/-- C2, amended, at a concrete input: the slave `"M"` with 4 cpus and 4096 of
memory is added with 1 cpu and 1024 of memory in use by `"F"`, then 1 cpu of
that usage is recovered; the ledger attributes the remaining 1024 of memory. -/
theorem conservation_disciplined_witness :
    Accounted exampleParams exampleRecovered exampleLedger ∧
    (∀ m slave, exampleRecovered.slaves.lookup m = some slave →
      slave.available + exampleLedger m = slave.total) ∧
    available exampleRecovered "M" = cpusMem 4 3072 ∧ exampleLedger "M" = cpusMem 0 1024 := by
  have h1 : Accounted exampleParams
      (exec exampleParams id
        [(10, Call.addSlave "M" { checkpoint := true, hostname := "host" } (cpusMem 4 4096)
          (AList.singleton "F" (cpusMem 1 1024)))] exampleInit)
      (Ledger.after (fun _ => 0)
        (Call.addSlave "M" { checkpoint := true, hostname := "host" } (cpusMem 4 4096)
          (AList.singleton "F" (cpusMem 1 1024))) []) :=
    Accounted.step 10 id _ (Accounted.init 0 1000000000 (AList.singleton "R" { weight := 1 }))
      (fun l => List.Perm.refl l) (by decide)
      (show Resources.sum (AList.singleton "F" (cpusMem 1 1024)) ≤ cpusMem 4 4096 by decide) rfl
  have h2 : Accounted exampleParams exampleRecovered exampleLedger :=
    Accounted.step 20 id _ h1 (fun l => List.Perm.refl l) (by decide)
      (fun _ => show cpusMem 1 0 ≤ Ledger.after (fun _ => 0)
        (Call.addSlave "M" { checkpoint := true, hostname := "host" } (cpusMem 4 4096)
          (AList.singleton "F" (cpusMem 1 1024))) [] "M" by decide) rfl
  exact ⟨h2, conservation_disciplined exampleParams exampleRecovered exampleLedger h2,
    by decide, by decide⟩

/-! ## Every registered framework of a reachable state is tracked -/

theorem allocate_same {p : Params} {now : Time} {shuffle : List SlaveID → List SlaveID}
    {s : State} {ids : List SlaveID} {r : State × List Offer}
    (h : allocate p now shuffle s ids = some r) : Same s r.1 := by
  unfold allocate at h
  by_cases hc : s.roleSorter.count = 0
  · simp only [hc, if_true, Option.some.injEq] at h
    subst h
    exact Same.refl s
  · simp only [hc, if_false] at h
    cases h1 : allocateSlaves p now (shuffle ids) (s, ∅) with
    | none => simp [h1] at h
    | some acc =>
      simp only [h1, Option.some.injEq] at h
      subst h
      exact (allocateSlaves_inv (fun _ => True) s (shuffle ids)
        (fun _ _ _ _ _ _ _ _ _ _ => trivial)
        (shuffle ids) (s, ∅) acc (fun _ hm => hm) (Same.refl s) trivial h1).1

theorem tracked_of_covers {s t : State} (h : Tracked s)
    (hf : ∀ g framework', t.frameworks.lookup g = some framework' →
      ∃ framework, s.frameworks.lookup g = some framework ∧ framework.role = framework'.role)
    (hs : ∀ r sorter, s.frameworkSorters.lookup r = some sorter →
      ∃ sorter', t.frameworkSorters.lookup r = some sorter' ∧
        ∀ g, g ∈ t.frameworks → g ∈ sorter.clients → g ∈ sorter'.clients) : Tracked t := by
  intro g framework' hg
  obtain ⟨framework, hfw, hrole⟩ := hf g framework' hg
  obtain ⟨sorter, hq, hmem⟩ := h g framework hfw
  obtain ⟨sorter', hq', hsub⟩ := hs _ sorter hq
  exact ⟨sorter', by rw [← hrole]; exact hq',
    hsub g ((mem_iff_lookup _ _).mpr ⟨_, hg⟩) hmem⟩

theorem covers_refl_frameworks (s : State) :
    ∀ g framework', s.frameworks.lookup g = some framework' →
      ∃ framework, s.frameworks.lookup g = some framework ∧ framework.role = framework'.role :=
  fun _ framework h => ⟨framework, h, rfl⟩

theorem covers_refl_sorters (s : State) (fws : hashmap FrameworkID Framework) :
    ∀ r sorter, s.frameworkSorters.lookup r = some sorter →
      ∃ sorter', s.frameworkSorters.lookup r = some sorter' ∧
        ∀ g, g ∈ fws → g ∈ sorter.clients → g ∈ sorter'.clients :=
  fun _ sorter h => ⟨sorter, h, fun _ _ hg => hg⟩

/-- Replacing the sorter of a role by one that keeps the clients in `fws`. -/
theorem covers_insert_sorter {s : State} {role : String} {sorter sorter' : Sorter}
    (fws : hashmap FrameworkID Framework)
    (hq : s.frameworkSorters.lookup role = some sorter)
    (hsup : ∀ g, g ∈ fws → g ∈ sorter.clients → g ∈ sorter'.clients) :
    ∀ r sorter0, s.frameworkSorters.lookup r = some sorter0 →
      ∃ sorter1, (s.frameworkSorters.insert role sorter').lookup r = some sorter1 ∧
        ∀ g, g ∈ fws → g ∈ sorter0.clients → g ∈ sorter1.clients := by
  intro r sorter0 h0
  rw [lookup_insert_eq]
  by_cases h : r = role
  · subst h
    rw [hq] at h0
    cases h0
    exact ⟨sorter', by simp, hsup⟩
  · exact ⟨sorter0, by simp [h, h0], fun _ _ hg => hg⟩

/-- Replacing the record of a framework by one with the same role. -/
theorem covers_insert_framework {s : State} {f : FrameworkID} {framework framework' : Framework}
    (hfw : s.frameworks.lookup f = some framework) (hrole : framework'.role = framework.role) :
    ∀ g framework1, (s.frameworks.insert f framework').lookup g = some framework1 →
      ∃ framework0, s.frameworks.lookup g = some framework0 ∧
        framework0.role = framework1.role := by
  intro g framework1 hg
  rw [lookup_insert_eq] at hg
  by_cases h : g = f
  · subst h
    simp only [if_true, Option.some.injEq] at hg
    subst hg
    exact ⟨framework, hfw, hrole.symm⟩
  · simp only [h, if_false] at hg
    exact ⟨framework1, hg, rfl⟩

theorem tracked_of_same {s t : State} (h : Tracked s) (hsame : Same s t) : Tracked t := by
  refine tracked_of_covers h ?_ ?_
  · intro g framework' hg
    exact ⟨framework', by rw [← hsame.frameworks]; exact hg, rfl⟩
  · intro r sorter hq
    obtain ⟨sorter', hq', hflags⟩ := sorter_of_same hsame hq
    refine ⟨sorter', hq', fun g _ hg => ?_⟩
    obtain ⟨x, hx⟩ := (Sorter.mem_iff_flags _ _).mp hg
    rw [← hflags] at hx
    exact Sorter.mem_of_flags hx

theorem tracked_allocate {p : Params} {now : Time} {shuffle : List SlaveID → List SlaveID}
    {s : State} {ids : List SlaveID} {r : State × List Offer} (ht : Tracked s)
    (h : allocate p now shuffle s ids = some r) : Tracked r.1 :=
  tracked_of_same ht (allocate_same h)

theorem tracked_delay {s : State} (ht : Tracked s) (now : Time) (d : Duration) (t : Timer) :
    Tracked (s.delay now d t) := ht

theorem tracked_addFramework {p : Params} {now : Time} {shuffle : List SlaveID → List SlaveID}
    {s : State} {f : FrameworkID} {info : FrameworkInfo} {used : hashmap SlaveID Resources}
    {r : State × List Offer} (ht : Tracked s)
    (h : addFramework p now shuffle s f info used = some r) : Tracked r.1 := by
  unfold Mesos.addFramework at h
  split_ifs at h with hi hr
  cases hq : s.frameworkSorters.lookup info.role with
  | none => simp [hq] at h
  | some sorter =>
    simp only [hq] at h
    split_ifs at h with hc
    refine tracked_allocate ?_ h
    intro g framework hg
    simp only [lookup_insert_eq] at hg ⊢
    by_cases hgf : g = f
    · subst hgf
      simp only [if_true, Option.some.injEq] at hg
      subst hg
      refine ⟨((sorter.add g 1).addResources (Resources.sum used)).allocated g
        (Resources.sum used), by simp, ?_⟩
      exact (Sorter.mem_modify ((sorter.add g 1).addResources (Resources.sum used)) _ _ _).mpr
        ((AList.mem_insert _).mpr (Or.inl rfl))
    · simp only [hgf, if_false] at hg
      obtain ⟨sorter0, hq0, hmem⟩ := ht g framework hg
      by_cases hrole : framework.role = info.role
      · rw [hrole] at hq0 ⊢
        rw [hq] at hq0
        cases hq0
        refine ⟨((sorter.add f 1).addResources (Resources.sum used)).allocated f
          (Resources.sum used), by simp, ?_⟩
        exact (Sorter.mem_modify ((sorter.add f 1).addResources (Resources.sum used)) _ _ _).mpr
          ((AList.mem_insert _).mpr (Or.inr hmem))
      · exact ⟨sorter0, by simp [hrole, hq0], hmem⟩

theorem tracked_removeFramework {s t : State} {f : FrameworkID} (ht : Tracked s)
    (h : removeFramework s f = some t) : Tracked t := by
  obtain ⟨_, framework, sorter, hl, hq, h1 | h1⟩ := removeFramework_eq_some h
  all_goals
    have hfw : ∀ g framework', (s.frameworks.erase f).lookup g = some framework' →
        ∃ framework0, s.frameworks.lookup g = some framework0 ∧
          framework0.role = framework'.role := by
      intro g framework' hg
      rw [lookup_erase_eq] at hg
      by_cases hgf : g = f
      · simp [hgf] at hg
      · simp only [hgf, if_false] at hg
        exact ⟨framework', hg, rfl⟩
  · rw [h1.2]
    exact tracked_of_covers ht hfw (covers_refl_sorters s _)
  · rw [h1.2]
    refine tracked_of_covers ht hfw
      (covers_insert_sorter (s.frameworks.erase f) hq ?_)
    intro g hg hmem
    exact AList.mem_erase.mpr ⟨(AList.mem_erase.mp hg).1, hmem⟩

theorem tracked_activateFramework {p : Params} {now : Time}
    {shuffle : List SlaveID → List SlaveID} {s : State} {f : FrameworkID}
    {r : State × List Offer} (ht : Tracked s)
    (h : activateFramework p now shuffle s f = some r) : Tracked r.1 := by
  unfold Mesos.activateFramework at h
  split_ifs at h with hi
  cases hl : s.frameworks.lookup f with
  | none => simp [hl] at h
  | some framework =>
    cases hq : s.frameworkSorters.lookup framework.role with
    | none => simp [hl, hq] at h
    | some sorter =>
      simp only [hl, hq] at h
      refine tracked_allocate ?_ h
      exact tracked_of_covers ht (covers_refl_frameworks s)
        (covers_insert_sorter s.frameworks hq
          (fun g _ hg => (Sorter.mem_modify _ _ _ _).mpr hg))

theorem tracked_deactivateFramework {s t : State} {f : FrameworkID} (ht : Tracked s)
    (h : deactivateFramework s f = some t) : Tracked t := by
  unfold Mesos.deactivateFramework at h
  split_ifs at h with hi
  cases hl : s.frameworks.lookup f with
  | none => simp [hl] at h
  | some framework =>
    cases hq : s.frameworkSorters.lookup framework.role with
    | none => simp [hl, hq] at h
    | some sorter =>
      simp only [hl, hq, Option.some.injEq] at h
      subst h
      exact tracked_of_covers ht (covers_insert_framework hl rfl)
        (covers_insert_sorter _ hq (fun g _ hg => (Sorter.mem_modify _ _ _ _).mpr hg))

theorem tracked_addSlaveUsed {s t : State} {f : FrameworkID} {q : Resources} (ht : Tracked s)
    (h : addSlaveUsed s f q = some t) : Tracked t := by
  unfold Mesos.addSlaveUsed at h
  cases hl : s.frameworks.lookup f with
  | none =>
    simp only [hl, Option.some.injEq] at h
    subst h
    exact ht
  | some framework =>
    cases hq : s.frameworkSorters.lookup framework.role with
    | none => simp [hl, hq] at h
    | some sorter =>
      simp only [hl, hq, Option.some.injEq] at h
      subst h
      exact tracked_of_covers ht (covers_refl_frameworks s)
        (covers_insert_sorter s.frameworks hq
          (fun g _ hg => (Sorter.mem_modify (sorter.addResources q) _ _ _).mpr hg))

theorem tracked_addSlaveLoop :
    ∀ (es : List (Sigma (fun _ : FrameworkID => Resources))) {s t : State}, Tracked s →
      addSlaveLoop es s = some t → Tracked t := by
  intro es
  induction es with
  | nil =>
    intro s t ht h
    simp only [Mesos.addSlaveLoop, Option.some.injEq] at h
    subst h
    exact ht
  | cons e es ih =>
    intro s t ht h
    simp only [Mesos.addSlaveLoop] at h
    cases h1 : Mesos.addSlaveUsed s e.1 e.2 with
    | none => simp [h1] at h
    | some s1 =>
      simp only [h1] at h
      exact ih (tracked_addSlaveUsed ht h1) h

theorem tracked_addSlave {p : Params} {now : Time} {shuffle : List SlaveID → List SlaveID}
    {s : State} {m : SlaveID} {info : SlaveInfo} {total : Resources}
    {used : hashmap FrameworkID Resources} {r : State × List Offer} (ht : Tracked s)
    (h : addSlave p now shuffle s m info total used = some r) : Tracked r.1 := by
  obtain ⟨_, _, _, s1, h1, h2⟩ := addSlave_eq_some h
  have ht0 : Tracked
      { s with roleSorter := s.roleSorter.addResources (Resources.unreserved total) } := ht
  have ht1 : Tracked s1 := tracked_addSlaveLoop used.entries ht0 h1
  have ht2 : Tracked { s1 with
      slaves := s1.slaves.insert m
        { total := total, available := total - Resources.sum used, activated := true,
          checkpoint := info.checkpoint, hostname := info.hostname } } := ht1
  exact tracked_allocate ht2 h2

theorem tracked_updateAllocation {s t : State} {f : FrameworkID} {m : SlaveID}
    {ops : List Resources.Operation} (ht : Tracked s)
    (h : updateAllocation s f m ops = some t) : Tracked t := by
  unfold Mesos.updateAllocation at h
  split_ifs at h with hi
  cases hm : s.slaves.lookup m with
  | none => simp [hm] at h
  | some slave =>
    cases hl : s.frameworks.lookup f with
    | none => simp [hm, hl] at h
    | some framework =>
      cases hq : s.frameworkSorters.lookup framework.role with
      | none => simp [hm, hl, hq] at h
      | some sorter =>
        simp only [hm, hl, hq] at h
        cases ha : Resources.apply (sorter.allocation f) ops with
        | none => simp [ha] at h
        | some ua =>
          cases hu : Resources.apply slave.total ops with
          | none => simp [ha, hu] at h
          | some utotal =>
            simp only [ha, hu, Option.some.injEq] at h
            subst h
            exact tracked_of_covers ht (covers_refl_frameworks s)
              (covers_insert_sorter s.frameworks hq
                (fun g _ hg => (Sorter.mem_modify _ _ _ _).mpr hg))

theorem tracked_recoverFramework {s t : State} {f : FrameworkID} {q : Resources}
    (ht : Tracked s) (h : recoverFramework s f q = some t) : Tracked t := by
  rcases recoverFramework_eq_some h with ⟨h1, _⟩ | ⟨framework, sorter, hl, hq, hc, _, _, _, h1⟩
  · rw [h1]
    exact ht
  · rw [h1]
    exact tracked_of_covers ht (covers_refl_frameworks s)
      (covers_insert_sorter s.frameworks hq
        (fun g _ hg => (Sorter.mem_modify _ _ _ _).mpr hg))

theorem tracked_recoverSlave {s : State} (ht : Tracked s) (m : SlaveID) (q : Resources) :
    Tracked (recoverSlave s m q) := by
  unfold Mesos.recoverSlave
  cases s.slaves.lookup m with
  | none => exact ht
  | some slave => exact ht

theorem tracked_installFilter {p : Params} {now : Time} {s t : State} {f : FrameworkID}
    {m : SlaveID} {q : Resources} {filters : Option Filters} (ht : Tracked s)
    (h : installFilter p now s f m q filters = some t) : Tracked t := by
  unfold Mesos.installFilter at h
  cases filters with
  | none =>
    simp only [Option.some.injEq] at h
    subst h
    exact ht
  | some fs =>
    cases hl : s.frameworks.lookup f with
    | none =>
      simp only [hl, Option.some.injEq] at h
      subst h
      exact ht
    | some framework =>
      cases hm : s.slaves.lookup m with
      | none =>
        simp only [hl, hm, Option.some.injEq] at h
        subst h
        exact ht
      | some slave =>
        simp only [hl, hm] at h
        cases hd : refuseDuration p fs with
        | none => simp [hd] at h
        | some seconds =>
          simp only [hd] at h
          split_ifs at h
          · simp only [Option.some.injEq] at h
            subst h
            exact ht
          · simp only [Option.some.injEq] at h
            subst h
            apply tracked_delay
            exact tracked_of_covers ht (covers_insert_framework hl rfl)
              (covers_refl_sorters s _)

theorem tracked_recoverResources {p : Params} {now : Time} {s t : State} {f : FrameworkID}
    {m : SlaveID} {q : Resources} {filters : Option Filters} (ht : Tracked s)
    (h : recoverResources p now s f m q filters = some t) : Tracked t := by
  unfold Mesos.recoverResources at h
  split_ifs at h with hi he
  · simp only [Option.some.injEq] at h
    subst h
    exact ht
  · cases h1 : Mesos.recoverFramework s f q with
    | none => simp [h1] at h
    | some s1 =>
      simp only [h1] at h
      exact tracked_installFilter (tracked_recoverSlave (tracked_recoverFramework ht h1) m q) h

theorem tracked_reviveOffers {p : Params} {now : Time} {shuffle : List SlaveID → List SlaveID}
    {s : State} {f : FrameworkID} {r : State × List Offer} (ht : Tracked s)
    (hf : f ∈ s.frameworks) (h : reviveOffers p now shuffle s f = some r) : Tracked r.1 := by
  unfold Mesos.reviveOffers at h
  split_ifs at h with hi
  obtain ⟨framework, hl⟩ := (mem_iff_lookup _ _).mp hf
  simp only [hl] at h
  refine tracked_allocate ?_ h
  exact tracked_of_covers ht (covers_insert_framework hl rfl) (covers_refl_sorters s _)

theorem tracked_expire {s : State} (ht : Tracked s) (f : FrameworkID) (filter : ℕ) :
    Tracked (expire s f filter) := by
  unfold Mesos.expire
  cases hl : s.frameworks.lookup f with
  | none => exact ht
  | some framework =>
    simp only []
    split_ifs
    · exact tracked_of_covers ht (covers_insert_framework hl rfl) (covers_refl_sorters s _)
    · exact ht

theorem tracked_step {p : Params} {now : Time} {shuffle : List SlaveID → List SlaveID}
    {s : State} {c : Call} {r : State × List Offer} (ht : Tracked s) (hc : c.stated s)
    (h : step p now shuffle s c = some r) : Tracked r.1 := by
  cases c with
  | addFramework f info used => exact tracked_addFramework ht h
  | removeFramework f =>
    simp only [Mesos.step, Option.map_eq_some'] at h
    obtain ⟨t, h1, rfl⟩ := h
    exact tracked_removeFramework ht h1
  | activateFramework f => exact tracked_activateFramework ht h
  | deactivateFramework f =>
    simp only [Mesos.step, Option.map_eq_some'] at h
    obtain ⟨t, h1, rfl⟩ := h
    exact tracked_deactivateFramework ht h1
  | addSlave m info total used => exact tracked_addSlave ht h
  | removeSlave m =>
    simp only [Mesos.step, Option.map_eq_some'] at h
    obtain ⟨t, h1, rfl⟩ := h
    obtain ⟨_, slave, hm, _, h2⟩ := removeSlave_eq_some h1
    subst h2
    exact ht
  | activateSlave m =>
    simp only [Mesos.step, Option.map_eq_some'] at h
    obtain ⟨t, h1, rfl⟩ := h
    unfold Mesos.activateSlave at h1
    split_ifs at h1
    cases hm : s.slaves.lookup m with
    | none => simp [hm] at h1
    | some slave =>
      simp only [hm, Option.some.injEq] at h1
      subst h1
      exact ht
  | deactivateSlave m =>
    simp only [Mesos.step, Option.map_eq_some'] at h
    obtain ⟨t, h1, rfl⟩ := h
    unfold Mesos.deactivateSlave at h1
    split_ifs at h1
    cases hm : s.slaves.lookup m with
    | none => simp [hm] at h1
    | some slave =>
      simp only [hm, Option.some.injEq] at h1
      subst h1
      exact ht
  | updateWhitelist w =>
    simp only [Mesos.step, Option.map_eq_some'] at h
    obtain ⟨t, h1, rfl⟩ := h
    unfold Mesos.updateWhitelist at h1
    split_ifs at h1
    simp only [Option.some.injEq] at h1
    subst h1
    exact ht
  | requestResources f =>
    simp only [Mesos.step, Option.map_eq_some'] at h
    obtain ⟨t, h1, rfl⟩ := h
    unfold Mesos.requestResources at h1
    split_ifs at h1
    simp only [Option.some.injEq] at h1
    subst h1
    exact ht
  | updateAllocation f m ops =>
    simp only [Mesos.step, Option.map_eq_some'] at h
    obtain ⟨t, h1, rfl⟩ := h
    exact tracked_updateAllocation ht h1
  | recoverResources f m q filters =>
    simp only [Mesos.step, Option.map_eq_some'] at h
    obtain ⟨t, h1, rfl⟩ := h
    exact tracked_recoverResources ht h1
  | reviveOffers f => exact tracked_reviveOffers ht hc h
  | batch =>
    obtain ⟨r1, h1, rfl⟩ := batch_cycle h
    exact tracked_delay (tracked_allocate ht h1) _ _ _
  | expire f filter =>
    simp only [Mesos.step, Option.some.injEq] at h
    subst h
    exact tracked_expire ht f filter

theorem initialize_frameworks (now : Time) (s : State) (allocationInterval : Duration)
    (roles : hashmap String RoleInfo) :
    (initialize' now s allocationInterval roles).frameworks = s.frameworks := by
  unfold initialize'
  have hfold : ∀ (l : List (Sigma (fun _ : String => RoleInfo))) (st : State),
      (l.foldl
        (fun st e =>
          { st with
              roleSorter := st.roleSorter.add e.1 e.2.weight
              frameworkSorters := st.frameworkSorters.insert e.1 Sorter.new })
        st).frameworks = st.frameworks := by
    intro l
    induction l with
    | nil => intro st; rfl
    | cons e l ih => intro st; rw [List.foldl_cons, ih]
  exact hfold _ _

/-- Every registered framework of a reachable state is tracked. -/
theorem tracked_of_reachable {p : Params} {s : State} (h : Reachable p s) : Tracked s := by
  induction h with
  | init now allocationInterval roles =>
    intro f framework hf
    rw [initialize_frameworks] at hf
    simp [State.new, AList.lookup_empty] at hf
  | step now shuffle c _ _ hc hstep ih => exact tracked_step ih hc hstep

/-! ## Adding and removing a slave -/

theorem addSlaveUsed_total {s : State} (ht : Tracked s) (f : FrameworkID) (q : Resources) :
    ∃ t, addSlaveUsed s f q = some t ∧ t.roleSorter.resources = s.roleSorter.resources := by
  unfold Mesos.addSlaveUsed
  cases hl : s.frameworks.lookup f with
  | none => exact ⟨s, rfl, rfl⟩
  | some framework =>
    obtain ⟨sorter, hq, _⟩ := ht f framework hl
    simp only [hq]
    exact ⟨_, rfl, Sorter.resources_modify _ _ _⟩

theorem addSlaveLoop_total :
    ∀ (es : List (Sigma (fun _ : FrameworkID => Resources))) {s : State}, Tracked s →
      ∃ t, addSlaveLoop es s = some t ∧ t.roleSorter.resources = s.roleSorter.resources := by
  intro es
  induction es with
  | nil => intro s _; exact ⟨s, rfl, rfl⟩
  | cons e es ih =>
    intro s ht
    obtain ⟨s1, h1, hr1⟩ := addSlaveUsed_total ht e.1 e.2
    obtain ⟨t, h2, hr2⟩ := ih (tracked_addSlaveUsed ht h1)
    refine ⟨t, ?_, hr2.trans hr1⟩
    simp only [Mesos.addSlaveLoop, h1]
    exact h2

/-- `addSlave` of an unknown slave whose reported usage is contained in its
total succeeds in a well-formed state whose frameworks are tracked; the
tracked total of the role sorter grows by the unreserved part of the slave's
total, whatever the cycle allocates. -/
theorem addSlave_total {p : Params} (now : Time) {shuffle : List SlaveID → List SlaveID}
    {s : State} (hwf : WF s) (ht : Tracked s) (hperm : ∀ l, (shuffle l).Perm l)
    {m : SlaveID} (hm : s.slaves.lookup m = none) (info : SlaveInfo) (T : Resources)
    (U : hashmap FrameworkID Resources) (hle : Resources.sum U ≤ T) :
    ∃ r, addSlave p now shuffle s m info T U = some r ∧
      r.1.roleSorter.resources = s.roleSorter.resources + Resources.unreserved T ∧
      r.1.initialized = true ∧
      ∃ slave, r.1.slaves.lookup m = some slave ∧ slave.total = T := by
  have ht0 : Tracked
      { s with roleSorter := s.roleSorter.addResources (Resources.unreserved T) } := ht
  have hw0 : WF { s with roleSorter := s.roleSorter.addResources (Resources.unreserved T) } :=
    hwf.of_refines _ hwf.initialized (fun _ hr => hr) (fun _ hr => hr)
      (refines_refl_sorters s) (refines_refl_frameworks s)
  obtain ⟨s1, h1, hr1⟩ := addSlaveLoop_total U.entries ht0
  obtain ⟨hw1, hsl⟩ := WF.addSlaveLoop U.entries hw0 h1
  have hw2 : WF { s1 with
      slaves := s1.slaves.insert m
        { total := T, available := T - Resources.sum U, activated := true,
          checkpoint := info.checkpoint, hostname := info.hostname } } :=
    hw1.of_refines _ hw1.initialized (fun _ hr => hr) (fun _ hr => hr)
      (refines_refl_sorters s1) (refines_refl_frameworks s1)
  obtain ⟨r, hr⟩ := @allocate_total p now shuffle _ [m] hw2 (by
    intro m' hm'
    have : m' ∈ [m] := (hperm [m]).mem_iff.mp hm'
    simp only [List.mem_singleton] at this
    subst this
    exact (AList.mem_insert _).mpr (Or.inl rfl))
  have hsame := allocate_same hr
  refine ⟨r, ?_, ?_, ?_, ?_⟩
  · rw [addSlave_of_le info hwf.initialized hm hle h1]
    exact hr
  · rw [hsame.roleTotal]
    exact hr1
  · rw [hsame.initialized]
    exact hw1.initialized
  · have hst := hsame.slaves m
    simp only [lookup_insert_eq, if_true, Option.map_some'] at hst
    cases hx : r.1.slaves.lookup m with
    | none => simp [hx] at hst
    | some slave =>
      simp only [hx, Option.map_some', Option.some.injEq, Slave.static, Prod.mk.injEq] at hst
      exact ⟨slave, rfl, hst.1⟩

/-- `addSlave` fails when the reported usage is not contained in the total:
the subtraction that gives the available pool is rejected. -/
theorem addSlave_none_of_not_le {p : Params} {now : Time}
    {shuffle : List SlaveID → List SlaveID} {s : State} {m : SlaveID} {info : SlaveInfo}
    {T : Resources} {U : hashmap FrameworkID Resources} (hle : ¬ Resources.sum U ≤ T) :
    addSlave p now shuffle s m info T U = none := by
  cases h : addSlave p now shuffle s m info T U with
  | none => rfl
  | some r => exact absurd (addSlave_eq_some h).2.2.1 hle

/-- C13 (addMachine/removeMachine round trip): in every reachable state, for
every unknown slave id, every total `T` and every usage map `U`, whatever the
shuffle: `addSlave(id, info, T, U)` succeeds when the sum of `U` is contained
in `T` and fails when it is not (the subtraction `T - sum(U)` is rejected);
and whenever it succeeds, `removeSlave(id)` called right after it succeeds and
the total tracked by the role sorter is then what it was before the
`addSlave`, whatever the cycle run by `addSlave` allocated in between. -/
theorem machine_roundtrip (p : Params) (now : Time) (shuffle : List SlaveID → List SlaveID)
    (s : State) (m : SlaveID) (info : SlaveInfo) (T : Resources)
    (U : hashmap FrameworkID Resources) (hs : Reachable p s)
    (hperm : ∀ l, (shuffle l).Perm l) (hm : m ∉ s.slaves) :
    (Resources.sum U ≤ T → ∃ s1 offs, addSlave p now shuffle s m info T U = some (s1, offs)) ∧
    (¬ Resources.sum U ≤ T → addSlave p now shuffle s m info T U = none) ∧
    (∀ s1 offs, addSlave p now shuffle s m info T U = some (s1, offs) →
      ∃ s2, removeSlave s1 m = some s2 ∧
        s2.roleSorter.resources = s.roleSorter.resources) := by
  have key : Resources.sum U ≤ T →
      ∃ r, addSlave p now shuffle s m info T U = some r ∧
        ∃ s2, removeSlave r.1 m = some s2 ∧
          s2.roleSorter.resources = s.roleSorter.resources := by
    intro hle
    obtain ⟨r, hr, htot, hi, slave, hl, hT⟩ :=
      addSlave_total now hs.wf (tracked_of_reachable hs) hperm
        ((not_mem_iff_lookup _ _).mp hm) info T U hle
    have hcont : Resources.unreserved slave.total ≤ r.1.roleSorter.resources := by
      rw [htot, hT]
      exact le_add_self
    refine ⟨r, hr,
      { r.1 with
          roleSorter :=
            { r.1.roleSorter with
              resources := r.1.roleSorter.resources - Resources.unreserved slave.total }
          slaves := r.1.slaves.erase m }, ?_, ?_⟩
    · have hi0 : (!r.1.initialized) = false := by simp [hi]
      have hrem := Sorter.removeResources_eq_some.mpr
        (⟨hcont, rfl⟩ : Resources.unreserved slave.total ≤ r.1.roleSorter.resources ∧ _ = _)
      unfold Mesos.removeSlave
      simp only [hi0, hl, hrem, Bool.false_eq_true, if_false]
    · show r.1.roleSorter.resources - Resources.unreserved slave.total = _
      rw [htot, hT]
      exact add_tsub_cancel_right _ _
  refine ⟨?_, addSlave_none_of_not_le, ?_⟩
  · intro hle
    obtain ⟨r, hr, _⟩ := key hle
    exact ⟨r.1, r.2, hr⟩
  · intro s1 offs h1
    obtain ⟨r, hr, h2⟩ := key (addSlave_eq_some h1).2.2.1
    rw [h1] at hr
    cases hr
    exact h2

theorem recoverable_zero (s : State) (f : FrameworkID) : Recoverable s f 0 := by
  intro framework sorter _ _ _
  refine ⟨zero_le _, zero_le _, ?_⟩
  rw [Resources.unreserved_zero]
  exact zero_le _

theorem recoverable_iff_test (s : State) (f : FrameworkID) (q : Resources) :
    Recoverable s f q ↔ recoverableTest s f q = true := by
  unfold Recoverable recoverableTest
  cases hl : s.frameworks.lookup f with
  | none => simp
  | some framework =>
    cases hq : s.frameworkSorters.lookup framework.role with
    | none =>
      simp only [hq]
      constructor
      · intro _
        trivial
      · intro _ framework' sorter' h1 h2
        cases h1
        rw [hq] at h2
        cases h2
    | some sorter =>
      simp only [hq, Bool.or_eq_true, Bool.not_eq_true', Bool.and_eq_true,
        Resources.contains, decide_eq_true_eq]
      constructor
      · intro h
        cases hc : sorter.contains f with
        | false => exact Or.inl rfl
        | true =>
          obtain ⟨h1, h2, h3⟩ := h framework sorter rfl hq hc
          exact Or.inr ⟨⟨h1, h2⟩, h3⟩
      · intro h framework' sorter' h1 h2 hc
        cases h1
        rw [hq] at h2
        cases h2
        rcases h with h | ⟨⟨h1, h2⟩, h3⟩
        · rw [hc] at h
          cases h
        · exact ⟨h1, h2, h3⟩

/-- The first part of `recoverResources` succeeds only within the contract. -/
theorem recoverable_of_some {s t : State} {f : FrameworkID} {q : Resources}
    (h : recoverFramework s f q = some t) : Recoverable s f q := by
  intro framework sorter hl hq hc
  rcases recoverFramework_eq_some h with ⟨_, h1 | ⟨framework', sorter', hl', hq', hc'⟩⟩ |
    ⟨framework', sorter', hl', hq', _, ha, hb, hd, _⟩
  · rw [hl] at h1
    cases h1
  · rw [hl] at hl'
    cases hl'
    rw [hq] at hq'
    cases hq'
    rw [hc] at hc'
    cases hc'
  · rw [hl] at hl'
    cases hl'
    rw [hq] at hq'
    cases hq'
    exact ⟨ha, hb, hd⟩

/-- The first part of `recoverResources` succeeds within the contract when
the frameworks are tracked; it touches the sorters only. -/
theorem recoverFramework_total {s : State} (ht : Tracked s) (f : FrameworkID) (q : Resources)
    (hc : Recoverable s f q) :
    ∃ s1, recoverFramework s f q = some s1 ∧ s1.initialized = s.initialized ∧
      s1.frameworks = s.frameworks ∧ s1.slaves = s.slaves ∧ s1.timers = s.timers ∧
      s1.nextFilter = s.nextFilter ∧ s1.whitelist = s.whitelist ∧
      (f ∉ s.frameworks → s1 = s) ∧
      ∀ framework, s.frameworks.lookup f = some framework →
        frameworkAllocation s1 framework.role f + q = frameworkAllocation s framework.role f ∧
        s1.roleSorter.allocation framework.role + Resources.unreserved q =
          s.roleSorter.allocation framework.role := by
  cases hl : s.frameworks.lookup f with
  | none =>
    refine ⟨s, ?_, rfl, rfl, rfl, rfl, rfl, rfl, fun _ => rfl, fun _ h => by cases h⟩
    unfold Mesos.recoverFramework
    rw [hl]
  | some framework =>
    obtain ⟨sorter, hq, hmem⟩ := ht f framework hl
    have hcont : sorter.contains f = true := by
      unfold Sorter.contains
      rw [AList.lookup_isSome]
      exact hmem
    obtain ⟨ha, hb, hd⟩ := hc framework sorter hl hq hcont
    refine ⟨_, recoverFramework_of_le hl hq hcont ha hb hd, rfl, rfl, rfl, rfl, rfl, rfl,
      ?_, ?_⟩
    · intro hf
      exact absurd ((mem_iff_lookup _ _).mpr ⟨framework, hl⟩) hf
    · intro framework' hfw
      cases hfw
      obtain ⟨c, hcl⟩ := (mem_iff_lookup _ _).mp hmem
      have hrole : framework.role ∈ s.roleSorter.clients ∨
          s.roleSorter.allocation framework.role = 0 := by
        cases hx : s.roleSorter.clients.lookup framework.role with
        | none =>
          right
          unfold Sorter.allocation
          rw [hx]
        | some c' => exact Or.inl ((mem_iff_lookup _ _).mpr ⟨c', hx⟩)
      constructor
      · unfold frameworkAllocation
        simp only [lookup_insert_eq, if_true, hq]
        show Sorter.allocation
          (sorter.modify f (fun c => { c with allocation := sorter.allocation f - q })) f + q = _
        rw [Sorter.allocation_modify, if_pos rfl, hcl]
        exact tsub_add_cancel_of_le ha
      · show Sorter.allocation (s.roleSorter.modify framework.role _) framework.role + _ = _
        rw [Sorter.allocation_modify, if_pos rfl]
        cases hx : s.roleSorter.clients.lookup framework.role with
        | none =>
          have h0 : s.roleSorter.allocation framework.role = 0 := by
            unfold Sorter.allocation
            rw [hx]
          rw [h0] at hd ⊢
          have : Resources.unreserved q = 0 := le_antisymm hd (zero_le _)
          rw [this]
          rfl
        | some c' => exact tsub_add_cancel_of_le hd

/-- `recoverResources` of a non-empty quantity outside the contract fails. -/
theorem recoverResources_rejected {p : Params} {now : Time} {s : State} {f : FrameworkID}
    {m : SlaveID} {q : Resources} {filters : Option Filters} (hc : ¬ Recoverable s f q) :
    recoverResources p now s f m q filters = none := by
  have hq : Resources.empty q = false := by
    cases he : Resources.empty q with
    | false => rfl
    | true =>
      have hq0 : q = 0 := by simpa [Resources.empty] using he
      exact absurd (hq0 ▸ recoverable_zero s f) hc
  unfold Mesos.recoverResources
  by_cases hi : (!s.initialized) = true
  · simp only [hi, if_true]
  · simp only [hi, hq, if_false, Bool.false_eq_true]
    cases h1 : recoverFramework s f q with
    | none => rfl
    | some s1 => exact absurd (recoverable_of_some h1) hc

theorem recoverSlave_lookup (s : State) (m : SlaveID) (q : Resources) (m' : SlaveID) :
    (recoverSlave s m q).slaves.lookup m' =
      if m' = m then (s.slaves.lookup m).map
        (fun slave => { slave with available := slave.available + q })
      else s.slaves.lookup m' := by
  unfold Mesos.recoverSlave
  cases hm : s.slaves.lookup m with
  | none =>
    by_cases h : m' = m
    · subst h
      simp [hm]
    · simp [h]
  | some slave =>
    simp only [lookup_insert_eq, Option.map_some']

theorem recoverSlave_of_not_mem {s : State} {m : SlaveID} (h : m ∉ s.slaves) (q : Resources) :
    recoverSlave s m q = s := by
  unfold Mesos.recoverSlave
  rw [(not_mem_iff_lookup _ _).mp h]

/-- The filter part of `recoverResources` does nothing when the framework or
the slave is not registered. -/
theorem installFilter_of_missing {p : Params} {now : Time} {s : State} {f : FrameworkID}
    {m : SlaveID} (h : f ∉ s.frameworks ∨ m ∉ s.slaves) (q : Resources)
    (filters : Option Filters) : installFilter p now s f m q filters = some s := by
  unfold Mesos.installFilter
  cases filters with
  | none => rfl
  | some fs =>
    rcases h with h | h
    · rw [(not_mem_iff_lookup _ _).mp h]
    · rw [(not_mem_iff_lookup _ _).mp h]
      cases s.frameworks.lookup f <;> rfl

/-- C15, amended (late recovery): in a reachable state,
`recoverResources(F, M, R, filterSpec)` with `F` or `M` not registered
succeeds when `R` is within the contract of the recovery (always so when `F`
is not registered) and fails when it is not; whenever it succeeds it installs
no filter and schedules no expiry, and only the part of the missing entity is
skipped.  With `F` not registered the sorters are unchanged and a registered
`M` still gets `R` added to its available pool; with `M` not registered the
slaves are unchanged and the allocation tracked for a registered `F` and its
role still shrinks by `R`; with both not registered the state is unchanged. -/
theorem late_recovery (p : Params) (now : Time) (s : State) (f : FrameworkID) (m : SlaveID)
    (q : Resources) (filters : Option Filters) (hs : Reachable p s)
    (h : f ∉ s.frameworks ∨ m ∉ s.slaves) :
    (f ∉ s.frameworks → Recoverable s f q) ∧
    (Recoverable s f q → ∃ t, recoverResources p now s f m q filters = some t) ∧
    (¬ Recoverable s f q → recoverResources p now s f m q filters = none) ∧
    (∀ t, recoverResources p now s f m q filters = some t →
      t.frameworks = s.frameworks ∧ t.timers = s.timers ∧ t.nextFilter = s.nextFilter ∧
      (f ∉ s.frameworks →
        t.roleSorter = s.roleSorter ∧ t.frameworkSorters = s.frameworkSorters ∧
        (∀ m', m' ≠ m → t.slaves.lookup m' = s.slaves.lookup m') ∧
        (∀ slave, s.slaves.lookup m = some slave →
          t.slaves.lookup m = some { slave with available := slave.available + q })) ∧
      (m ∉ s.slaves →
        t.slaves = s.slaves ∧
        ∀ framework, s.frameworks.lookup f = some framework →
          frameworkAllocation t framework.role f + q =
            frameworkAllocation s framework.role f ∧
          t.roleSorter.allocation framework.role + Resources.unreserved q =
            s.roleSorter.allocation framework.role) ∧
      (f ∉ s.frameworks → m ∉ s.slaves → t = s)) := by
  have hi0 : (!s.initialized) = false := by simp [hs.wf.initialized]
  have core : Recoverable s f q →
      ∃ t, recoverResources p now s f m q filters = some t ∧
        t.frameworks = s.frameworks ∧ t.timers = s.timers ∧ t.nextFilter = s.nextFilter ∧
        (f ∉ s.frameworks →
          t.roleSorter = s.roleSorter ∧ t.frameworkSorters = s.frameworkSorters ∧
          (∀ m', m' ≠ m → t.slaves.lookup m' = s.slaves.lookup m') ∧
          (∀ slave, s.slaves.lookup m = some slave →
            t.slaves.lookup m = some { slave with available := slave.available + q })) ∧
        (m ∉ s.slaves →
          t.slaves = s.slaves ∧
          ∀ framework, s.frameworks.lookup f = some framework →
            frameworkAllocation t framework.role f + q =
              frameworkAllocation s framework.role f ∧
            t.roleSorter.allocation framework.role + Resources.unreserved q =
              s.roleSorter.allocation framework.role) ∧
        (f ∉ s.frameworks → m ∉ s.slaves → t = s) := by
    intro hc
    by_cases he : Resources.empty q = true
    · have hq0 : q = 0 := by simpa [Resources.empty] using he
      refine ⟨s, ?_, rfl, rfl, rfl, ?_, ?_, fun _ _ => rfl⟩
      · unfold Mesos.recoverResources
        simp only [hi0, he, Bool.false_eq_true, if_false, if_true]
      · intro _
        refine ⟨rfl, rfl, fun _ _ => rfl, fun slave hl => ?_⟩
        rw [hl, hq0, add_zero]
      · intro _
        refine ⟨rfl, fun framework _ => ?_⟩
        rw [hq0, Resources.unreserved_zero, add_zero, add_zero]
        exact ⟨rfl, rfl⟩
    · obtain ⟨s1, h1, _, hfw1, hsl1, htm1, hnf1, _, hsame1, halloc1⟩ :=
        recoverFramework_total (tracked_of_reachable hs) f q hc
      have h' : f ∉ (recoverSlave s1 m q).frameworks ∨ m ∉ (recoverSlave s1 m q).slaves := by
        rcases h with h | h
        · left
          have : (recoverSlave s1 m q).frameworks = s1.frameworks := by
            unfold Mesos.recoverSlave
            cases s1.slaves.lookup m <;> rfl
          rw [this, hfw1]
          exact h
        · right
          rw [recoverSlave_of_not_mem (by rw [hsl1]; exact h), hsl1]
          exact h
      have hfr : (recoverSlave s1 m q).frameworks = s.frameworks := by
        unfold Mesos.recoverSlave
        cases s1.slaves.lookup m <;> exact hfw1
      have htm : (recoverSlave s1 m q).timers = s.timers := by
        unfold Mesos.recoverSlave
        cases s1.slaves.lookup m <;> exact htm1
      have hnf : (recoverSlave s1 m q).nextFilter = s.nextFilter := by
        unfold Mesos.recoverSlave
        cases s1.slaves.lookup m <;> exact hnf1
      refine ⟨recoverSlave s1 m q, ?_, hfr, htm, hnf, ?_, ?_, ?_⟩
      · unfold Mesos.recoverResources
        simp only [hi0, he, Bool.false_eq_true, if_false, h1]
        exact installFilter_of_missing h' q filters
      · intro hf
        rw [hsame1 hf]
        refine ⟨?_, ?_, ?_, ?_⟩
        · unfold Mesos.recoverSlave
          cases s.slaves.lookup m <;> rfl
        · unfold Mesos.recoverSlave
          cases s.slaves.lookup m <;> rfl
        · intro m' hne
          rw [recoverSlave_lookup]
          simp [hne]
        · intro slave hl
          rw [recoverSlave_lookup]
          simp [hl]
      · intro hm
        rw [recoverSlave_of_not_mem (by rw [hsl1]; exact hm)]
        exact ⟨hsl1, halloc1⟩
      · intro hf hm
        rw [recoverSlave_of_not_mem (by rw [hsl1]; exact hm)]
        exact hsame1 hf
  refine ⟨?_, ?_, recoverResources_rejected, ?_⟩
  · intro hf framework sorter hl _ _
    rw [(not_mem_iff_lookup _ _).mp hf] at hl
    cases hl
  · intro hc
    obtain ⟨t, ht, _⟩ := core hc
    exact ⟨t, ht⟩
  · intro t ht
    have hc : Recoverable s f q := by
      by_contra hn
      rw [recoverResources_rejected hn] at ht
      cases ht
    obtain ⟨t', ht', hrest⟩ := core hc
    rw [ht] at ht'
    cases ht'
    exact hrest

/-- `recoverResources` of a non-empty quantity within the contract in a
reachable state: the two accounting parts succeed and leave the frameworks, the filter counter and the
pending dispatches alone, then the filter part runs. -/
theorem recoverResources_unfold {p : Params} (now : Time) {s : State} (hs : Reachable p s)
    (f : FrameworkID) (m : SlaveID) {q : Resources} (hq : q ≠ 0) (hc : Recoverable s f q)
    (filters : Option Filters) :
    ∃ s2, recoverResources p now s f m q filters = installFilter p now s2 f m q filters ∧
      s2.frameworks = s.frameworks ∧ s2.timers = s.timers ∧ s2.nextFilter = s.nextFilter ∧
      (m ∈ s.slaves → m ∈ s2.slaves) := by
  have hi0 : (!s.initialized) = false := by simp [hs.wf.initialized]
  have he : Resources.empty q = false := by simp [Resources.empty, hq]
  obtain ⟨s1, h1, _, hfw1, hsl1, htm1, hnf1, _, _, _⟩ :=
    recoverFramework_total (tracked_of_reachable hs) f q hc
  refine ⟨recoverSlave s1 m q, ?_, ?_, ?_, ?_, ?_⟩
  · unfold Mesos.recoverResources
    simp only [hi0, he, Bool.false_eq_true, if_false, h1]
  · unfold Mesos.recoverSlave
    cases s1.slaves.lookup m <;> exact hfw1
  · unfold Mesos.recoverSlave
    cases s1.slaves.lookup m <;> exact htm1
  · unfold Mesos.recoverSlave
    cases s1.slaves.lookup m <;> exact hnf1
  · intro hm
    obtain ⟨slave, hl⟩ := (mem_iff_lookup _ _).mp hm
    rw [← hsl1] at hl
    refine (mem_iff_lookup _ _).mpr ⟨{ slave with available := slave.available + q }, ?_⟩
    rw [recoverSlave_lookup, hl]
    simp

/-- The filter part of `recoverResources` for a registered framework and a
registered slave, by the refusal duration that is computed. -/
theorem installFilter_of_duration {p : Params} {now : Time} {s : State} {f : FrameworkID}
    {m : SlaveID} {framework : Framework} (q : Resources) {fs : Filters} {d : Duration}
    (hf : s.frameworks.lookup f = some framework) (hm : m ∈ s.slaves)
    (hd : refuseDuration p fs = some d) :
    installFilter p now s f m q (some fs) =
      if d = 0 then some s
      else
        some
          ({ s with
              frameworks := s.frameworks.insert f
                { framework with
                    filters :=
                      (s.nextFilter,
                        { slaveId := m, resources := q, timeout := (now + d).toNat }) ::
                        framework.filters }
              nextFilter := s.nextFilter + 1 }.delay now d (Timer.expire f s.nextFilter)) := by
  obtain ⟨slave, hl⟩ := (mem_iff_lookup _ _).mp hm
  unfold Mesos.installFilter
  simp only [hf, hl, hd]

/-- C17, the code at the failing input: in the reachable state `exampleIdle`
the id `"ghost"` is not registered, and `reviveOffers("ghost")` does not fail:
it registers an entry for `"ghost"` and runs a cycle, which here offers the
slave `"M"` to the framework `"F"`. -/
theorem reviveOffers_unknown :
    Reachable exampleParams exampleIdle ∧ "ghost" ∉ exampleIdle.frameworks ∧
    exampleIdle.frameworks.keys = ["F"] ∧
    (reviveOffers exampleParams 50 id exampleIdle "ghost").isSome = true ∧
    (match reviveOffers exampleParams 50 id exampleIdle "ghost" with
      | some r => (r.1.frameworks.keys, (r.1.frameworks.lookup "ghost").map (fun fw => fw.role),
          r.2.map (fun o => (o.1, o.2.keys)))
      | none => ([], none, [])) = (["ghost", "F"], some "", [("F", ["M"])]) :=
  ⟨Reachable.exec exampleParams (fun l => List.Perm.refl l) _ (Reachable.init _ _ _),
    by decide, by decide, by decide, by decide⟩

/-- C18, the code at the failing input: in the reachable state
`exampleTwoRoles` with the roles `"R"` and `"S"` and the framework `"F"`
registered under `"R"`, `addFramework` fails for the unknown role `"T"` and for
the registered `"F"` under its own role `"R"`, but succeeds for the registered
`"F"` under the other role `"S"`: the record of `"F"` then carries the role
`"S"` while `"F"` is a client of the sorters of both roles. -/
theorem addFramework_registered :
    Reachable exampleParams exampleTwoRoles ∧ exampleTwoRoles.frameworks.keys = ["F"] ∧
    (exampleTwoRoles.roles.keys = ["S", "R"]) ∧
    (addFramework exampleParams 20 id exampleTwoRoles "G" ⟨"T", false⟩ ∅).isNone = true ∧
    (addFramework exampleParams 20 id exampleTwoRoles "F" ⟨"R", false⟩ ∅).isNone = true ∧
    (addFramework exampleParams 20 id exampleTwoRoles "F" ⟨"S", false⟩ ∅).isSome = true ∧
    (match addFramework exampleParams 20 id exampleTwoRoles "F" ⟨"S", false⟩ ∅ with
      | some r => ((r.1.frameworks.lookup "F").map (fun fw => fw.role),
          (r.1.frameworkSorters.lookup "R").map (fun sorter => sorter.contains "F"),
          (r.1.frameworkSorters.lookup "S").map (fun sorter => sorter.contains "F"))
      | none => (none, none, none)) = (some "S", some true, some true) :=
  ⟨Reachable.exec exampleParams (fun l => List.Perm.refl l) _ (Reachable.init _ _ _),
    by decide, by decide, by decide, by decide, by decide, by decide⟩

/-! ## Update of an allocation -/

theorem Sorter.allocation_update (s : Sorter) (name : String) (new : Resources)
    (h : name ∈ s.clients) :
    (s.update name (s.allocation name) new).allocation name = new := by
  obtain ⟨c, hc⟩ := (mem_iff_lookup _ _).mp h
  unfold Sorter.update
  rw [Sorter.allocation_modify]
  simp only [if_true, hc, Sorter.allocation]
  rw [tsub_self, zero_add]

/-- C19 (updateAllocation frame and failure): in a reachable state with the
framework `F` and the slave `M` registered, `updateAllocation(F, M, ops)`
succeeds exactly when `apply(ops)` succeeds on the allocation tracked for `F`
and on the total of `M`.  It then invokes no offer callback, leaves every
available pool, every other slave and the frameworks unchanged, sets the total
of `M` to `apply(ops)` of its old total and the allocation tracked for `F` to
`apply(ops)` of its old allocation.  When `apply(ops)` fails on the allocation
or on the total, the call fails. -/
theorem allocation_update_frame (p : Params) (now : Time)
    (shuffle : List SlaveID → List SlaveID) (s : State) (f : FrameworkID) (m : SlaveID)
    (ops : List Resources.Operation) (framework : Framework) (slave : Slave)
    (hs : Reachable p s) (hf : s.frameworks.lookup f = some framework)
    (hm : s.slaves.lookup m = some slave) :
    (∀ a T', Resources.apply (frameworkAllocation s framework.role f) ops = some a →
      Resources.apply slave.total ops = some T' →
      ∃ t, step p now shuffle s (Call.updateAllocation f m ops) = some (t, []) ∧
        updateAllocation s f m ops = some t ∧
        (∀ m', available t m' = available s m') ∧
        (∀ m', m' ≠ m → t.slaves.lookup m' = s.slaves.lookup m') ∧
        t.slaves.lookup m = some { slave with total := T' } ∧
        frameworkAllocation t framework.role f = a ∧
        t.frameworks = s.frameworks) ∧
    ((Resources.apply (frameworkAllocation s framework.role f) ops = none ∨
        Resources.apply slave.total ops = none) →
      updateAllocation s f m ops = none ∧
        step p now shuffle s (Call.updateAllocation f m ops) = none) := by
  have hi0 : (!s.initialized) = false := by simp [hs.wf.initialized]
  obtain ⟨sorter, hq, hmem⟩ := tracked_of_reachable hs f framework hf
  have hfa : frameworkAllocation s framework.role f = sorter.allocation f := by
    simp [frameworkAllocation, hq]
  rw [hfa]
  constructor
  · intro a T' ha hT
    have hu : updateAllocation s f m ops = some
        { s with
            frameworkSorters := s.frameworkSorters.insert framework.role
              (sorter.update f (sorter.allocation f) a)
            roleSorter := s.roleSorter.update framework.role
              (Resources.unreserved (sorter.allocation f)) (Resources.unreserved a)
            slaves := s.slaves.insert m { slave with total := T' } } := by
      unfold Mesos.updateAllocation
      simp only [hi0, hm, hf, hq, ha, hT, Bool.false_eq_true, if_false]
    refine ⟨_, ?_, hu, ?_, ?_, ?_, ?_, rfl⟩
    · simp only [Mesos.step, hu, Option.map_some']
    · intro m'
      unfold available
      simp only [lookup_insert_eq]
      by_cases h : m' = m
      · subst h
        simp [hm]
      · simp [h]
    · intro m' hne
      show (s.slaves.insert m _).lookup m' = _
      rw [lookup_insert_eq, if_neg hne]
    · show (s.slaves.insert m _).lookup m = _
      rw [lookup_insert_eq, if_pos rfl]
    · unfold frameworkAllocation
      simp only [lookup_insert_eq, if_true]
      exact Sorter.allocation_update sorter f a hmem
  · intro hfail
    have hu : updateAllocation s f m ops = none := by
      unfold Mesos.updateAllocation
      simp only [hi0, hm, hf, hq, Bool.false_eq_true, if_false]
      rcases hfail with h | h
      · simp only [h]
      · cases ha : Resources.apply (sorter.allocation f) ops with
        | none => rfl
        | some a => simp only [h]
    exact ⟨hu, by simp only [Mesos.step, hu, Option.map_none']⟩

/-! ## A cycle leaves nothing that a second cycle at the same time would offer -/

theorem Resources.amount_add (a b : Resources) (name : String) :
    Resources.amount (a + b) name = Resources.amount a name + Resources.amount b name := by
  unfold Resources.amount
  rw [DFinsupp.filter_add]
  exact DFinsupp.sum_add_index (fun _ => rfl) (fun _ _ _ => rfl)

theorem Resources.amount_mono {q' q : Resources} (h : q' ≤ q) (name : String) :
    Resources.amount q' name ≤ Resources.amount q name := by
  have : q = q' + (q - q') := (add_tsub_cancel_of_le h).symm
  rw [this, Resources.amount_add]
  exact Nat.le_add_right _ _

theorem get_false_mono {q' q : Resources} (h : q' ≤ q) (name : String) (n : ℕ)
    (hq : (match Resources.get q name with
      | some c => decide (n ≤ c)
      | none => false) = false) :
    (match Resources.get q' name with
      | some c => decide (n ≤ c)
      | none => false) = false := by
  have hle := Resources.amount_mono h name
  unfold Resources.get at hq ⊢
  by_cases h0 : Resources.amount q' name = 0
  · simp [h0]
  · have h1 : Resources.amount q name ≠ 0 := by omega
    simp only [h0, h1, if_false, decide_eq_false_iff_not, not_le] at hq ⊢
    omega

theorem allocatable_mono (p : Params) {q' q : Resources} (h : q' ≤ q)
    (hq : allocatable p q = false) : allocatable p q' = false := by
  unfold allocatable at hq ⊢
  rw [Bool.or_eq_false_iff] at hq ⊢
  exact ⟨get_false_mono h "cpus" _ hq.1, get_false_mono h "mem" _ hq.2⟩

theorem isFiltered_mono {now : Time} {s : State} {f : FrameworkID} {m : SlaveID}
    {q' q : Resources} (h : q' ≤ q) (hq : isFiltered now s f m q = some true) :
    isFiltered now s f m q' = some true := by
  unfold isFiltered at hq ⊢
  cases hf : s.frameworks.lookup f with
  | none => simp [hf] at hq
  | some framework =>
    cases hm : s.slaves.lookup m with
    | none => simp [hf, hm] at hq
    | some slave =>
      simp only [hf, hm] at hq ⊢
      split_ifs at hq ⊢ with hc
      · rfl
      · simp only [Option.some.injEq, List.any_eq_true] at hq ⊢
        obtain ⟨x, hx, hfx⟩ := hq
        refine ⟨x, hx, ?_⟩
        unfold RefusedFilter.filter Resources.contains at hfx ⊢
        simp only [Bool.and_eq_true, decide_eq_true_eq] at hfx ⊢
        exact ⟨⟨hfx.1.1, le_trans h hfx.1.2⟩, hfx.2⟩

theorem Resources.offer_mono {a' a : Resources} (h : a' ≤ a) (role : String) :
    Resources.unreserved a' + Resources.reserved a' role ≤
      Resources.unreserved a + Resources.reserved a role := by
  apply add_le_add
  · intro k
    simp only [Resources.unreserved, DFinsupp.filter_apply]
    split_ifs
    · exact h k
    · exact le_refl _
  · unfold Resources.reserved
    split_ifs
    · exact le_refl _
    · intro k
      simp only [DFinsupp.filter_apply]
      split_ifs
      · exact h k
      · exact le_refl _

theorem declined_mono {p : Params} {now : Time} {s : State} {m : SlaveID} {a' a : Resources}
    {role : String} {f : FrameworkID} (h : a' ≤ a) (hd : Declined p now s m a role f) :
    Declined p now s m a' role f := by
  rcases hd with hd | hd
  · exact Or.inl (allocatable_mono p (Resources.offer_mono h role) hd)
  · exact Or.inr (isFiltered_mono (Resources.offer_mono h role) hd)

theorem settled_mono {p : Params} {now : Time} {s t t' : State} {m : SlaveID}
    (h : available t' m ≤ available t m) (hs : Settled p now s t m) : Settled p now s t' m :=
  fun role f hv => declined_mono h (hs role f hv)

/-- One pass of the innermost loop: afterwards the framework is passed over on
the slave, and no available pool has grown. -/
theorem allocateFramework_declined {p : Params} {now : Time} {s : State} {m : SlaveID}
    {role : String} {acc acc' : State × Offerable} {f : String} (hsame : Same s acc.1)
    (h : allocateFramework p now m role acc f = some acc') :
    Declined p now s m (available acc'.1 m) role f ∧
      ∀ m', available acc'.1 m' ≤ available acc.1 m' := by
  unfold allocateFramework at h
  cases hs : acc.1.slaves.lookup m with
  | none => simp [hs] at h
  | some slave =>
    cases hq : acc.1.frameworkSorters.lookup role with
    | none => simp [hs, hq] at h
    | some sorter =>
      simp only [hs, hq] at h
      have hav : available acc.1 m = slave.available := available_of_lookup hs
      by_cases ha : allocatable p (offerableTo slave role) = true
      · simp only [ha, Bool.not_true, Bool.false_eq_true, if_false] at h
        cases hfil : isFiltered now acc.1 f m (offerableTo slave role) with
        | none => simp [hfil] at h
        | some b =>
          cases b with
          | true =>
            simp only [hfil, Option.some.injEq] at h
            subst h
            refine ⟨Or.inr ?_, fun _ => le_refl _⟩
            rw [hav, ← isFiltered_same hsame]
            exact hfil
          | false =>
            simp only [hfil, Option.some.injEq] at h
            subst h
            constructor
            · left
              rw [available_assign, if_pos rfl]
              have h1 := Resources.unreserved_sub_offer slave.available role
              have h2 := Resources.reserved_sub_offer slave.available role
              unfold offerableTo
              rw [h1, h2, add_zero]
              exact allocatable_zero p
            · intro m'
              rw [available_assign]
              by_cases hm' : m' = m
              · subst hm'
                rw [if_pos rfl, hav]
                exact tsub_le_self
              · rw [if_neg hm']
      · have ha' : allocatable p (offerableTo slave role) = false := by
          cases hx : allocatable p (offerableTo slave role)
          · rfl
          · exact absurd hx ha
        simp only [ha', Bool.not_false, if_true, Option.some.injEq] at h
        subst h
        refine ⟨Or.inl ?_, fun _ => le_refl _⟩
        rw [hav]
        exact ha'

theorem eligible_of_same {s t : State} (h : Same s t) {m : SlaveID} (he : Eligible s m) :
    Eligible t m := by
  obtain ⟨slave0, hl, hact, hw⟩ := he
  have hm := h.slaves m
  rw [hl] at hm
  cases ht : t.slaves.lookup m with
  | none => simp [ht] at hm
  | some slave =>
    simp only [ht, Option.map_some', Option.some.injEq, Slave.static, Prod.mk.injEq] at hm
    refine ⟨slave, ht, ?_, ?_⟩
    · rw [hm.2.1]; exact hact
    · intro w hw0
      rw [hm.2.2.2]
      exact hw w (h.whitelist.symm.trans hw0)

theorem mem_sort_of_flags {s : Sorter} {name : String} {w : ℕ}
    (h : s.flags name = some (w, true)) : name ∈ s.sort := by
  unfold Sorter.flags at h
  cases hc : s.clients.lookup name with
  | none => simp [hc] at h
  | some c =>
    simp only [hc, Option.some.injEq, Prod.mk.injEq] at h
    exact (Sorter.mem_sort s name).mpr ⟨c, hc, h.2⟩

theorem allocateFrameworks_settled {p : Params} {now : Time} {s : State} {m : SlaveID}
    {role : String} :
    ∀ (fs : List String) (acc acc' : State × Offerable), Same s acc.1 →
      allocateFrameworks p now m role fs acc = some acc' →
      Same s acc'.1 ∧ (∀ m', available acc'.1 m' ≤ available acc.1 m') ∧
        ∀ f ∈ fs, Declined p now s m (available acc'.1 m) role f := by
  intro fs
  induction fs with
  | nil =>
    intro acc acc' hsame h
    simp only [allocateFrameworks, Option.some.injEq] at h
    subst h
    exact ⟨hsame, fun _ => le_refl _, fun f hf => absurd hf (List.not_mem_nil f)⟩
  | cons f fs ih =>
    intro acc acc' hsame h
    simp only [allocateFrameworks] at h
    cases h1 : allocateFramework p now m role acc f with
    | none => simp [h1] at h
    | some acc1 =>
      simp only [h1] at h
      obtain ⟨hd, hmono1⟩ := allocateFramework_declined hsame h1
      obtain ⟨hs', hmono2, hrest⟩ := ih acc1 acc' (hsame.trans (allocateFramework_same h1)) h
      refine ⟨hs', fun m' => le_trans (hmono2 m') (hmono1 m'), ?_⟩
      intro g hg
      rcases List.mem_cons.mp hg with rfl | hg'
      · exact declined_mono (hmono2 m) hd
      · exact hrest g hg'

theorem allocateRoles_settled {p : Params} {now : Time} {s : State} {m : SlaveID} :
    ∀ (roles : List String) (acc acc' : State × Offerable), Same s acc.1 →
      allocateRoles p now m roles acc = some acc' →
      Same s acc'.1 ∧ (∀ m', available acc'.1 m' ≤ available acc.1 m') ∧
        ∀ r ∈ roles, ∀ sorter0 w f, s.frameworkSorters.lookup r = some sorter0 →
          sorter0.flags f = some (w, true) →
          Declined p now s m (available acc'.1 m) r f := by
  intro roles
  induction roles with
  | nil =>
    intro acc acc' hsame h
    simp only [allocateRoles, Option.some.injEq] at h
    subst h
    exact ⟨hsame, fun _ => le_refl _, fun r hr => absurd hr (List.not_mem_nil r)⟩
  | cons role roles ih =>
    intro acc acc' hsame h
    simp only [allocateRoles] at h
    cases hq : acc.1.frameworkSorters.lookup role with
    | none => simp [hq] at h
    | some sorter =>
      simp only [hq] at h
      cases h1 : allocateFrameworks p now m role sorter.sort acc with
      | none => simp [h1] at h
      | some acc1 =>
        simp only [h1] at h
        obtain ⟨hs1, hmono1, hd1⟩ := allocateFrameworks_settled sorter.sort acc acc1 hsame h1
        obtain ⟨hs', hmono2, hrest⟩ := ih acc1 acc' hs1 h
        refine ⟨hs', fun m' => le_trans (hmono2 m') (hmono1 m'), ?_⟩
        intro r hr sorter0 w f h0 hfl
        rcases List.mem_cons.mp hr with rfl | hr'
        · obtain ⟨sorter', hq', hflags⟩ := sorter_of_same hsame h0
          rw [hq] at hq'
          cases hq'
          have hmem : f ∈ sorter.sort := mem_sort_of_flags (by rw [hflags]; exact hfl)
          exact declined_mono (hmono2 m) (hd1 f hmem)
        · exact hrest r hr' sorter0 w f h0 hfl

theorem allocateSlaves_settled {p : Params} {now : Time} {s : State} :
    ∀ (ids : List SlaveID) (acc acc' : State × Offerable), Same s acc.1 →
      allocateSlaves p now ids acc = some acc' →
      Same s acc'.1 ∧ (∀ m', available acc'.1 m' ≤ available acc.1 m') ∧
        ∀ m ∈ ids, Settled p now s acc'.1 m := by
  intro ids
  induction ids with
  | nil =>
    intro acc acc' hsame h
    simp only [allocateSlaves, Option.some.injEq] at h
    subst h
    exact ⟨hsame, fun _ => le_refl _, fun m hm => absurd hm (List.not_mem_nil m)⟩
  | cons m ids ih =>
    intro acc acc' hsame h
    simp only [allocateSlaves] at h
    cases hw : isWhitelisted acc.1 m with
    | none => simp [hw] at h
    | some b =>
      obtain ⟨slave, hsl, hb⟩ := isWhitelisted_eq_some hw
      simp only [hw, hsl] at h
      by_cases hskip : (!b || !slave.activated) = true
      · simp only [hskip, if_true] at h
        obtain ⟨hs', hmono, hrest⟩ := ih acc acc' hsame h
        refine ⟨hs', hmono, ?_⟩
        intro x hx
        rcases List.mem_cons.mp hx with rfl | hx'
        · intro role f hv
          exfalso
          obtain ⟨slave', hsl', hact', hw'⟩ := eligible_of_same hsame hv.1
          rw [hsl] at hsl'
          cases hsl'
          have hb' : b = true := hb.mpr hw'
          simp [hb', hact'] at hskip
        · exact hrest x hx'
      · simp only [hskip, if_false] at h
        cases h1 : allocateRoles p now m acc.1.roleSorter.sort acc with
        | none => simp [h1] at h
        | some acc1 =>
          simp only [h1] at h
          obtain ⟨hs1, hmono1, hd1⟩ :=
            allocateRoles_settled acc.1.roleSorter.sort acc acc1 hsame h1
          obtain ⟨hs', hmono2, hrest⟩ := ih acc1 acc' hs1 h
          refine ⟨hs', fun m' => le_trans (hmono2 m') (hmono1 m'), ?_⟩
          intro x hx
          rcases List.mem_cons.mp hx with rfl | hx'
          · intro role f hv
            obtain ⟨_, ⟨w, hrw⟩, sorter0, w', h0, hfl⟩ := hv
            have hrmem : role ∈ acc.1.roleSorter.sort :=
              mem_sort_of_flags (by rw [hsame.roleFlags role]; exact hrw)
            exact declined_mono (hmono2 x) (hd1 role hrmem sorter0 w' f h0 hfl)
          · exact hrest x hx'

/-- After a cycle, every candidate slave is settled for the cycles of the
resulting state at the same clock reading. -/
theorem allocate_settled {p : Params} {now : Time} {shuffle : List SlaveID → List SlaveID}
    {s : State} {ids : List SlaveID} {r : State × List Offer}
    (h : allocate p now shuffle s ids = some r) (hc : s.roleSorter.count ≠ 0) :
    ∀ m ∈ shuffle ids, Settled p now r.1 r.1 m := by
  have hsame := allocate_same h
  unfold allocate at h
  simp only [hc, if_false] at h
  cases h1 : allocateSlaves p now (shuffle ids) (s, ∅) with
  | none => simp [h1] at h
  | some acc =>
    simp only [h1, Option.some.injEq] at h
    subst h
    obtain ⟨_, _, hset⟩ := allocateSlaves_settled (shuffle ids) (s, ∅) acc (Same.refl s) h1
    intro m hm role f hv
    have hv' : Visited s m role f := by
      obtain ⟨he, ⟨w, hrw⟩, sorter, w', hq, hfl⟩ := hv
      refine ⟨Eligible.same hsame he, ⟨w, by rw [← hsame.roleFlags role]; exact hrw⟩, ?_⟩
      have hsf := hsame.sorterFlags role
      rw [hq] at hsf
      cases h0 : s.frameworkSorters.lookup role with
      | none => simp [h0] at hsf
      | some sorter0 =>
        simp only [h0, Option.map_some', Option.some.injEq] at hsf
        exact ⟨sorter0, w', rfl, by rw [← hsf]; exact hfl⟩
    rcases hset m hm role f hv' with hd | hd
    · exact Or.inl hd
    · exact Or.inr (by rw [isFiltered_same hsame]; exact hd)

/-! ## A cycle on settled slaves does nothing -/

theorem allocateFramework_noop {p : Params} {now : Time} {t : State} {m : SlaveID}
    {role : String} {f : String} {slave : Slave} {sorter : Sorter}
    (hs : t.slaves.lookup m = some slave) (hq : t.frameworkSorters.lookup role = some sorter)
    (hd : Declined p now t m (available t m) role f) :
    allocateFramework p now m role (t, ∅) f = some (t, ∅) := by
  rw [available_of_lookup hs] at hd
  unfold allocateFramework
  simp only [hs, hq]
  by_cases ha : allocatable p (offerableTo slave role) = true
  · rcases hd with hd | hd
    · exact absurd (ha.symm.trans hd) (by decide)
    · have hfil : isFiltered now t f m (offerableTo slave role) = some true := hd
      simp only [ha, hfil, Bool.not_true, Bool.false_eq_true, if_false]
  · have ha' : allocatable p (offerableTo slave role) = false := by
      cases hx : allocatable p (offerableTo slave role)
      · rfl
      · exact absurd hx ha
    simp only [ha', Bool.not_false, if_true]

theorem allocateFrameworks_noop {p : Params} {now : Time} {t : State} {m : SlaveID}
    {role : String} {slave : Slave} {sorter : Sorter}
    (hs : t.slaves.lookup m = some slave) (hq : t.frameworkSorters.lookup role = some sorter) :
    ∀ fs : List String, (∀ f ∈ fs, Declined p now t m (available t m) role f) →
      allocateFrameworks p now m role fs (t, ∅) = some (t, ∅) := by
  intro fs
  induction fs with
  | nil => intro _; rfl
  | cons f fs ih =>
    intro h
    simp only [allocateFrameworks, allocateFramework_noop hs hq (h f (List.mem_cons_self _ _))]
    exact ih (fun g hg => h g (List.mem_cons_of_mem _ hg))

theorem allocateRoles_noop {p : Params} {now : Time} {t : State} {m : SlaveID} {slave : Slave}
    (hs : t.slaves.lookup m = some slave) :
    ∀ roles : List String,
      (∀ r ∈ roles, ∃ sorter, t.frameworkSorters.lookup r = some sorter ∧
        ∀ f ∈ sorter.sort, Declined p now t m (available t m) r f) →
      allocateRoles p now m roles (t, ∅) = some (t, ∅) := by
  intro roles
  induction roles with
  | nil => intro _; rfl
  | cons role roles ih =>
    intro h
    obtain ⟨sorter, hq, hd⟩ := h role (List.mem_cons_self _ _)
    simp only [allocateRoles, hq, allocateFrameworks_noop hs hq sorter.sort hd]
    exact ih (fun r hr => h r (List.mem_cons_of_mem _ hr))

theorem allocateSlaves_noop {p : Params} {now : Time} {t : State} (hwf : WF t) :
    ∀ ids : List SlaveID, (∀ m ∈ ids, m ∈ t.slaves) → (∀ m ∈ ids, Settled p now t t m) →
      allocateSlaves p now ids (t, ∅) = some (t, ∅) := by
  intro ids
  induction ids with
  | nil => intro _ _; rfl
  | cons m ids ih =>
    intro hmem hset
    have hrest := ih (fun x hx => hmem x (List.mem_cons_of_mem _ hx))
      (fun x hx => hset x (List.mem_cons_of_mem _ hx))
    obtain ⟨slave, hs⟩ := (mem_iff_lookup _ _).mp (hmem m (List.mem_cons_self _ _))
    have hwl : ∃ b, isWhitelisted t m = some b := by
      unfold isWhitelisted
      simp only [hs]
      cases t.whitelist with
      | none => exact ⟨true, rfl⟩
      | some w => exact ⟨_, rfl⟩
    obtain ⟨b, hw⟩ := hwl
    obtain ⟨slave', hs', hb⟩ := isWhitelisted_eq_some hw
    rw [hs] at hs'
    cases hs'
    simp only [allocateSlaves, hw, hs]
    by_cases hskip : (!b || !slave.activated) = true
    · simp only [hskip, if_true]
      exact hrest
    · simp only [hskip, if_false]
      have hb' : b = true := by
        cases b <;> simp_all
      have hact : slave.activated = true := by
        cases hx : slave.activated <;> simp_all
      have helig : Eligible t m := ⟨slave, hs, hact, hb.mp hb'⟩
      have hroles : allocateRoles p now m t.roleSorter.sort (t, ∅) = some (t, ∅) := by
        apply allocateRoles_noop hs
        intro r hr
        obtain ⟨w, hrw⟩ := flags_of_mem_sort hr
        obtain ⟨sorter, hq⟩ := (mem_iff_lookup _ _).mp
          (hwf.sorters r (Sorter.mem_clients_of_mem_sort _ _ hr))
        refine ⟨sorter, hq, fun f hf => ?_⟩
        obtain ⟨w', hfw⟩ := flags_of_mem_sort hf
        exact hset m (List.mem_cons_self _ _) r f ⟨helig, ⟨w, hrw⟩, sorter, w', hq, hfw⟩
      simp only [hroles]
      exact hrest

theorem allocate_noop {p : Params} {now : Time} {shuffle : List SlaveID → List SlaveID}
    {t : State} {ids : List SlaveID} (hwf : WF t) (hmem : ∀ m ∈ shuffle ids, m ∈ t.slaves)
    (hset : t.roleSorter.count ≠ 0 → ∀ m ∈ shuffle ids, Settled p now t t m) :
    allocate p now shuffle t ids = some (t, []) := by
  unfold allocate
  by_cases hc : t.roleSorter.count = 0
  · simp only [hc, if_true]
  · simp only [hc, if_false, allocateSlaves_noop hwf (shuffle ids) hmem (hset hc)]
    rfl

/-- C12 (reviveOffers idempotence): in every reachable state, for every
registered framework `F`, whatever the two shuffles, `reviveOffers(F)` succeeds
and a second `reviveOffers(F)` at the same clock reading succeeds in the
resulting state, changes nothing and invokes no offer callback; the final state
and the callbacks of the two calls are those of the first call alone. -/
theorem reviveOffers_idempotent (p : Params) (now : Time)
    (shuffle1 shuffle2 : List SlaveID → List SlaveID) (s : State) (f : FrameworkID)
    (hs : Reachable p s) (hf : f ∈ s.frameworks)
    (hperm1 : ∀ l, (shuffle1 l).Perm l) (hperm2 : ∀ l, (shuffle2 l).Perm l) :
    ∃ t offs, reviveOffers p now shuffle1 s f = some (t, offs) ∧
      reviveOffers p now shuffle2 t f = some (t, []) := by
  have hwf := hs.wf
  have hi0 : (!s.initialized) = false := by simp [hwf.initialized]
  obtain ⟨framework, hl⟩ := (mem_iff_lookup _ _).mp hf
  have hw : WF { s with
      frameworks := s.frameworks.insert f { framework with filters := [] } } :=
    hwf.of_refines _ hwf.initialized (fun _ hr => hr)
      (fun _ hr => hr) (refines_refl_sorters s) (insert_framework_refines hl rfl)
  obtain ⟨r, hr⟩ := @allocate_total p now shuffle1 _ s.slaves.keys hw (by
    intro m hm
    exact AList.mem_keys.mp ((hperm1 _).mem_iff.mp hm))
  have hsame := allocate_same hr
  have hwr : WF r.1 := WF.allocate hw hr
  have hfr : r.1.frameworks = s.frameworks.insert f { framework with filters := [] } :=
    hsame.frameworks
  have hir : (!r.1.initialized) = false := by simp [hwr.initialized]
  refine ⟨r.1, r.2, ?_, ?_⟩
  · unfold Mesos.reviveOffers
    simp only [hi0, hl, Bool.false_eq_true, if_false]
    exact hr
  · have hlr : r.1.frameworks.lookup f = some { framework with filters := [] } := by
      rw [hfr, lookup_insert_eq, if_pos rfl]
    have hins : r.1.frameworks.insert f { framework with filters := [] } = r.1.frameworks := by
      rw [hfr, AList.insert_insert]
    unfold Mesos.reviveOffers
    simp only [hir, hlr, Bool.false_eq_true, if_false, hins]
    unfold allocateAll
    apply allocate_noop hwr
    · intro m hm
      exact AList.mem_keys.mp ((hperm2 _).mem_iff.mp hm)
    · intro hc m hm
      have hm2 : m ∈ r.1.slaves := AList.mem_keys.mp ((hperm2 _).mem_iff.mp hm)
      obtain ⟨slave, hsl⟩ := (mem_iff_lookup _ _).mp hm2
      have hst := hsame.slaves m
      rw [hsl] at hst
      have hm1 : m ∈ s.slaves := by
        cases h0 : s.slaves.lookup m with
        | none => simp [h0] at hst
        | some slave0 => exact (mem_iff_lookup _ _).mpr ⟨slave0, h0⟩
      have hc0 : s.roleSorter.count ≠ 0 := by
        intro h0
        have : allocate p now shuffle1
            { s with frameworks := s.frameworks.insert f { framework with filters := [] } }
            s.slaves.keys = some
              ({ s with frameworks := s.frameworks.insert f { framework with filters := [] } },
                []) := by
          unfold allocate
          simp only [h0, if_true]
        rw [this] at hr
        cases hr
        exact hc h0
      exact allocate_settled hr hc0 m ((hperm1 _).mem_iff.mpr (AList.mem_keys.mpr hm1))

/-! ## The ordering of two frameworks of one role -/

/-- A cycle over one slave, with one active role and two active frameworks of
that role, when the quantity of the slave is not allocatable. -/
theorem allocate_duo_skip {p : Params} (now : Time) {shuffle : List SlaveID → List SlaveID}
    (hperm : ∀ l, (shuffle l).Perm l) {s : State} {R F1 F2 M : String} {sorter : Sorter}
    {slave : Slave} (hroles : s.roleSorter.sort = [R])
    (hq : s.frameworkSorters.lookup R = some sorter) (hfs : sorter.sort = [F2, F1])
    (hs : s.slaves.lookup M = some slave)
    (hskip : allocatable p (offerableTo slave R) = false) :
    allocate p now shuffle s [M] = some (s, []) := by
  unfold allocate
  split_ifs with hcount
  · rfl
  · rw [shuffle_singleton hperm]
    have hwl : ∃ b, isWhitelisted s M = some b := by
      unfold isWhitelisted
      rw [hs]
      cases s.whitelist <;> exact ⟨_, rfl⟩
    obtain ⟨b, hb⟩ := hwl
    simp only [allocateSlaves, hb, hs]
    split_ifs
    · rfl
    · simp only [hroles, allocateRoles, hq, hfs, allocateFrameworks, allocateFramework, hs,
        hskip, Bool.not_false, if_true]
      rfl

theorem Duo.idle {p : Params} (now : Time) {shuffle : List SlaveID → List SlaveID}
    (hperm : ∀ l, (shuffle l).Perm l) {s : State} {R F1 F2 M : String} {framework : Framework}
    {slave : Slave} (h : Duo s R F1 F2 M framework slave)
    (hskip : allocatable p (offerableTo slave R) = false) :
    allocateAll p now shuffle s = some (s, []) := by
  obtain ⟨sorter, hq, hfs⟩ := h.sorter
  unfold allocateAll
  rw [h.slaveKeys]
  exact allocate_duo_skip now hperm h.role.sort hq hfs h.added hskip

theorem eq_some_of_map_decide {α : Type} [DecidableEq α] {o : Option α} {x : α}
    (h : o.map (fun a => decide (a = x)) = some true) : o = some x := by
  cases o with
  | none => simp at h
  | some a => simpa using h

/-- C12 at a concrete input: `reviveOffers("F")` in `exampleIdle`, once with the
slaves in the given order and once more with the order reversed. -/
theorem reviveOffers_idempotent_witness :
    Reachable exampleParams exampleIdle ∧ "F" ∈ exampleIdle.frameworks ∧
    (∀ l : List SlaveID, (id l).Perm l) ∧ (∀ l : List SlaveID, (List.reverse l).Perm l) ∧
    ∃ t offs, reviveOffers exampleParams 50 id exampleIdle "F" = some (t, offs) ∧
      reviveOffers exampleParams 50 List.reverse t "F" = some (t, []) :=
  ⟨Reachable.exec exampleParams (fun l => List.Perm.refl l) _ (Reachable.init _ _ _),
    by decide, fun l => List.Perm.refl l, fun l => List.reverse_perm l,
    reviveOffers_idempotent exampleParams 50 id List.reverse exampleIdle "F"
      (Reachable.exec exampleParams (fun l => List.Perm.refl l) _ (Reachable.init _ _ _))
      (by decide) (fun l => List.Perm.refl l) (fun l => List.reverse_perm l)⟩

/-- C13 at a concrete input: the unknown slave `"N"` with 4 cpus and 4096 of
memory, of which the framework `"F1"` uses 1 cpu and 1024 of memory, is added
to `exampleHeld`, where the cycle offers the rest of it to `"F2"`, and removed;
with a reported usage of 8 cpus the registration fails. -/
theorem machine_roundtrip_witness :
    Reachable exampleParams exampleHeld ∧ (∀ l : List SlaveID, (id l).Perm l) ∧
    "N" ∉ exampleHeld.slaves ∧
    Resources.sum (AList.singleton "F1" (cpusMem 1 1024) : hashmap FrameworkID Resources) ≤
      cpusMem 4 4096 ∧
    ¬ Resources.sum (AList.singleton "F1" (cpusMem 8 0) : hashmap FrameworkID Resources) ≤
      cpusMem 4 4096 ∧
    (∃ s1 offs,
      addSlave exampleParams 50 id exampleHeld "N" ⟨true, "other"⟩ (cpusMem 4 4096)
        (AList.singleton "F1" (cpusMem 1 1024)) = some (s1, offs)) ∧
    (∀ s1 offs,
      addSlave exampleParams 50 id exampleHeld "N" ⟨true, "other"⟩ (cpusMem 4 4096)
        (AList.singleton "F1" (cpusMem 1 1024)) = some (s1, offs) →
      ∃ s2, removeSlave s1 "N" = some s2 ∧
        s2.roleSorter.resources = exampleHeld.roleSorter.resources) ∧
    addSlave exampleParams 50 id exampleHeld "N" ⟨true, "other"⟩ (cpusMem 4 4096)
      (AList.singleton "F1" (cpusMem 8 0)) = none ∧
    (match addSlave exampleParams 50 id exampleHeld "N" ⟨true, "other"⟩ (cpusMem 4 4096)
        (AList.singleton "F1" (cpusMem 1 1024)) with
      | some r => (r.2.map (fun o => (o.1, o.2.keys)), available r.1 "N" ("cpus", "*"),
          (removeSlave r.1 "N").isSome)
      | none => ([], 0, false)) = ([("F2", ["N"])], 0, true) :=
  ⟨Reachable.exec exampleParams (fun l => List.Perm.refl l) _ (Reachable.init _ _ _),
    fun l => List.Perm.refl l, by decide, by decide, by decide,
    (machine_roundtrip exampleParams 50 id exampleHeld "N" ⟨true, "other"⟩ (cpusMem 4 4096)
      (AList.singleton "F1" (cpusMem 1 1024))
      (Reachable.exec exampleParams (fun l => List.Perm.refl l) _ (Reachable.init _ _ _))
      (fun l => List.Perm.refl l) (by decide)).1 (by decide),
    (machine_roundtrip exampleParams 50 id exampleHeld "N" ⟨true, "other"⟩ (cpusMem 4 4096)
      (AList.singleton "F1" (cpusMem 1 1024))
      (Reachable.exec exampleParams (fun l => List.Perm.refl l) _ (Reachable.init _ _ _))
      (fun l => List.Perm.refl l) (by decide)).2.2,
    (machine_roundtrip exampleParams 50 id exampleHeld "N" ⟨true, "other"⟩ (cpusMem 4 4096)
      (AList.singleton "F1" (cpusMem 8 0))
      (Reachable.exec exampleParams (fun l => List.Perm.refl l) _ (Reachable.init _ _ _))
      (fun l => List.Perm.refl l) (by decide)).2.1 (by decide),
    by decide⟩

/-- C15, counterexample: in the reachable state `exampleLate` the framework
`"F"` is not registered any more and the pool of the slave `"M"` is empty;
`recoverResources("F", "M", 4 cpus and 4096 of memory)` succeeds and puts the
resources into the pool of `"M"`, so that the state is not left unchanged. -/
theorem late_recovery_counterexample :
    Reachable exampleParams exampleLate ∧ "F" ∉ exampleLate.frameworks ∧
    "M" ∈ exampleLate.slaves ∧ available exampleLate "M" = 0 ∧
    (recoverResources exampleParams 40 exampleLate "F" "M" (cpusMem 4 4096) none).isSome =
      true ∧
    (match recoverResources exampleParams 40 exampleLate "F" "M" (cpusMem 4 4096) none with
      | some t => available t "M"
      | none => 0) = cpusMem 4 4096 ∧
    recoverResources exampleParams 40 exampleLate "F" "M" (cpusMem 4 4096) none ≠
      some exampleLate := by
  have h0 : available exampleLate "M" = 0 := by decide
  have h1 : (match recoverResources exampleParams 40 exampleLate "F" "M" (cpusMem 4 4096)
      none with
      | some t => available t "M"
      | none => 0) = cpusMem 4 4096 := by decide
  refine ⟨Reachable.exec exampleParams (fun l => List.Perm.refl l) _ (Reachable.init _ _ _),
    by decide, by decide, h0, by decide, h1, ?_⟩
  intro h
  rw [h] at h1
  simp only [h0] at h1
  exact absurd h1 (by decide)

/-- C15, amended, at a concrete input: the recovery for the removed framework
`"F"` on the slave `"M"` of `exampleLate` puts the resources into the pool of
`"M"`; the recovery of 1 cpu and 1024 of memory for the framework `"F"` on the
removed slave `"M"` of `exampleGone` shrinks what the sorters track for `"F"`,
and the recovery of 8 cpus, which the sorters do not track for `"F"`, fails. -/
theorem late_recovery_witness :
    Reachable exampleParams exampleLate ∧
    ("F" ∉ exampleLate.frameworks ∨ "M" ∉ exampleLate.slaves) ∧
    (∃ t, recoverResources exampleParams 40 exampleLate "F" "M" (cpusMem 4 4096) none = some t ∧
      t.frameworks = exampleLate.frameworks ∧ t.timers = exampleLate.timers ∧
      t.nextFilter = exampleLate.nextFilter ∧
      t.roleSorter = exampleLate.roleSorter ∧
      t.frameworkSorters = exampleLate.frameworkSorters ∧
      (∀ m', m' ≠ "M" → t.slaves.lookup m' = exampleLate.slaves.lookup m') ∧
      (∀ slave, exampleLate.slaves.lookup "M" = some slave →
        t.slaves.lookup "M" =
          some { slave with available := slave.available + cpusMem 4 4096 })) ∧
    Reachable exampleParams exampleGone ∧
    ("F" ∉ exampleGone.frameworks ∨ "M" ∉ exampleGone.slaves) ∧
    exampleGone.frameworks.lookup "F" = some ⟨"R", false, []⟩ ∧
    Recoverable exampleGone "F" (cpusMem 1 1024) ∧
    (∃ t, recoverResources exampleParams 40 exampleGone "F" "M" (cpusMem 1 1024) none = some t ∧
      t.frameworks = exampleGone.frameworks ∧ t.timers = exampleGone.timers ∧
      t.nextFilter = exampleGone.nextFilter ∧
      t.slaves = exampleGone.slaves ∧
      frameworkAllocation t "R" "F" + cpusMem 1 1024 = frameworkAllocation exampleGone "R" "F" ∧
      t.roleSorter.allocation "R" + Resources.unreserved (cpusMem 1 1024) =
        exampleGone.roleSorter.allocation "R") ∧
    ¬ Recoverable exampleGone "F" (cpusMem 8 0) ∧
    recoverResources exampleParams 40 exampleGone "F" "M" (cpusMem 8 0) none = none ∧
    (frameworkAllocation exampleGone "R" "F" ("cpus", "*"),
      match recoverResources exampleParams 40 exampleGone "F" "M" (cpusMem 1 1024) none with
      | some t => frameworkAllocation t "R" "F" ("cpus", "*")
      | none => 0) = (4, 3) := by
  have hs1 : Reachable exampleParams exampleLate :=
    Reachable.exec exampleParams (fun l => List.Perm.refl l) _ (Reachable.init _ _ _)
  have hs2 : Reachable exampleParams exampleGone :=
    Reachable.exec exampleParams (fun l => List.Perm.refl l) _ (Reachable.init _ _ _)
  have hF : "F" ∉ exampleLate.frameworks := by decide
  have hM : "M" ∉ exampleGone.slaves := by decide
  have hl : exampleGone.frameworks.lookup "F" = some ⟨"R", false, []⟩ := rfl
  have hc : Recoverable exampleGone "F" (cpusMem 1 1024) :=
    (recoverable_iff_test _ _ _).mpr (by decide)
  have hn : ¬ Recoverable exampleGone "F" (cpusMem 8 0) :=
    fun h => absurd ((recoverable_iff_test _ _ _).mp h) (by decide)
  have h1 := late_recovery exampleParams 40 exampleLate "F" "M" (cpusMem 4 4096) none hs1
    (Or.inl hF)
  have h2 := late_recovery exampleParams 40 exampleGone "F" "M" (cpusMem 1 1024) none hs2
    (Or.inr hM)
  have h3 := late_recovery exampleParams 40 exampleGone "F" "M" (cpusMem 8 0) none hs2
    (Or.inr hM)
  obtain ⟨t1, ht1⟩ := h1.2.1 (h1.1 hF)
  obtain ⟨e1, e2, e3, e4, _, _⟩ := h1.2.2.2 t1 ht1
  obtain ⟨t2, ht2⟩ := h2.2.1 hc
  obtain ⟨g1, g2, g3, _, g5, _⟩ := h2.2.2.2 t2 ht2
  refine ⟨hs1, Or.inl hF, ⟨t1, ht1, e1, e2, e3, (e4 hF).1, (e4 hF).2.1, (e4 hF).2.2.1,
    (e4 hF).2.2.2⟩, hs2, Or.inr hM, hl, hc,
    ⟨t2, ht2, g1, g2, g3, (g5 hM).1, ((g5 hM).2 _ hl).1, ((g5 hM).2 _ hl).2⟩, hn,
    h3.2.2.1 hn, by decide⟩

/-- C19 at a concrete input: in `exampleHeld` the framework `"F1"` holds the 4
cpus and 4096 of memory of the slave `"M"`; the operation reserves 1 cpu for the
role `"R"`. -/
theorem allocation_update_frame_witness :
    Reachable exampleParams exampleHeld ∧
    exampleHeld.frameworks.lookup "F1" = some ⟨"R", false, []⟩ ∧
    exampleHeld.slaves.lookup "M" = some ⟨cpusMem 4 4096, 0, true, true, "host"⟩ ∧
    ((∀ a T',
      Resources.apply (frameworkAllocation exampleHeld "R" "F1")
        [⟨DFinsupp.single ("cpus", "*") 1, DFinsupp.single ("cpus", "R") 1⟩] = some a →
      Resources.apply (cpusMem 4 4096)
        [⟨DFinsupp.single ("cpus", "*") 1, DFinsupp.single ("cpus", "R") 1⟩] = some T' →
      ∃ t, step exampleParams 40 id exampleHeld
          (Call.updateAllocation "F1" "M"
            [⟨DFinsupp.single ("cpus", "*") 1, DFinsupp.single ("cpus", "R") 1⟩]) =
          some (t, []) ∧
        updateAllocation exampleHeld "F1" "M"
          [⟨DFinsupp.single ("cpus", "*") 1, DFinsupp.single ("cpus", "R") 1⟩] = some t ∧
        (∀ m', available t m' = available exampleHeld m') ∧
        (∀ m', m' ≠ "M" → t.slaves.lookup m' = exampleHeld.slaves.lookup m') ∧
        t.slaves.lookup "M" = some ⟨T', 0, true, true, "host"⟩ ∧
        frameworkAllocation t "R" "F1" = a ∧
        t.frameworks = exampleHeld.frameworks) ∧
    ((Resources.apply (frameworkAllocation exampleHeld "R" "F1")
          [⟨DFinsupp.single ("cpus", "*") 1, DFinsupp.single ("cpus", "R") 1⟩] = none ∨
        Resources.apply (cpusMem 4 4096)
          [⟨DFinsupp.single ("cpus", "*") 1, DFinsupp.single ("cpus", "R") 1⟩] = none) →
      updateAllocation exampleHeld "F1" "M"
          [⟨DFinsupp.single ("cpus", "*") 1, DFinsupp.single ("cpus", "R") 1⟩] = none ∧
        step exampleParams 40 id exampleHeld
          (Call.updateAllocation "F1" "M"
            [⟨DFinsupp.single ("cpus", "*") 1, DFinsupp.single ("cpus", "R") 1⟩]) = none)) ∧
    (match updateAllocation exampleHeld "F1" "M"
        [⟨DFinsupp.single ("cpus", "*") 1, DFinsupp.single ("cpus", "R") 1⟩] with
      | some t => (frameworkAllocation t "R" "F1" ("cpus", "*"),
          frameworkAllocation t "R" "F1" ("cpus", "R"),
          (t.slaves.lookup "M").map (fun sl => (sl.total ("cpus", "*"), sl.total ("cpus", "R"))),
          available t "M" ("cpus", "*"))
      | none => (0, 0, none, 0)) = (3, 1, some (3, 1), 0) ∧
    (updateAllocation exampleHeld "F1" "M"
      [⟨DFinsupp.single ("cpus", "*") 5, DFinsupp.single ("cpus", "R") 5⟩]).isNone = true :=
  ⟨Reachable.exec exampleParams (fun l => List.Perm.refl l) _ (Reachable.init _ _ _),
    rfl, eq_some_of_map_decide (by decide),
    allocation_update_frame exampleParams 40 id exampleHeld "F1" "M"
      [⟨DFinsupp.single ("cpus", "*") 1, DFinsupp.single ("cpus", "R") 1⟩]
      ⟨"R", false, []⟩ ⟨cpusMem 4 4096, 0, true, true, "host"⟩
      (Reachable.exec exampleParams (fun l => List.Perm.refl l) _ (Reachable.init _ _ _))
      rfl (eq_some_of_map_decide (by decide)),
    by decide, by decide⟩

theorem mem_slaves_iff_of_same {s t : State} (h : Same s t) (m : SlaveID) :
    m ∈ t.slaves ↔ m ∈ s.slaves := by
  have hst := h.slaves m
  rw [mem_iff_lookup, mem_iff_lookup]
  constructor
  · rintro ⟨slave, hsl⟩
    rw [hsl] at hst
    cases h0 : s.slaves.lookup m with
    | none => simp [h0] at hst
    | some slave0 => exact ⟨slave0, rfl⟩
  · rintro ⟨slave, hsl⟩
    rw [hsl] at hst
    cases h0 : t.slaves.lookup m with
    | none => simp [h0] at hst
    | some slave0 => exact ⟨slave0, rfl⟩

/-- C24 (a full cycle reaches a fixpoint): in every reachable state, whatever
the filters and whatever the two shuffles, a full cycle `allocate()` returns a
state `t` and its callbacks, and a second full cycle run on `t` at the same
clock reading returns `t` itself and invokes no offer callback, so that every
available pool and every allocation tracked by the sorters is as the first
cycle left it.  The same holds for two periodic cycles `batch()`: the second
one invokes no callback and only appends its own re-arming to the pending
dispatches. -/
theorem cycle_fixpoint (p : Params) (now : Time) (shuffle1 shuffle2 : List SlaveID → List SlaveID)
    (s : State) (hs : Reachable p s) (hperm1 : ∀ l, (shuffle1 l).Perm l)
    (hperm2 : ∀ l, (shuffle2 l).Perm l) :
    ∃ t offs, allocateAll p now shuffle1 s = some (t, offs) ∧
      allocateAll p now shuffle2 t = some (t, []) ∧
      batch p now shuffle1 s = some (t.delay now t.allocationInterval Timer.batch, offs) ∧
      batch p now shuffle2 (t.delay now t.allocationInterval Timer.batch) =
        some ((t.delay now t.allocationInterval Timer.batch).delay now t.allocationInterval
          Timer.batch, []) := by
  have hwf := hs.wf
  obtain ⟨r, hr⟩ := @allocate_total p now shuffle1 _ s.slaves.keys hwf (by
    intro m hm
    exact AList.mem_keys.mp ((hperm1 _).mem_iff.mp hm))
  have hsame := allocate_same hr
  have hwr : WF r.1 := WF.allocate hwf hr
  have hset : r.1.roleSorter.count ≠ 0 → ∀ m, m ∈ r.1.slaves → Settled p now r.1 r.1 m := by
    intro hc m hm2
    have hm1 : m ∈ s.slaves := (mem_slaves_iff_of_same hsame m).mp hm2
    have hc0 : s.roleSorter.count ≠ 0 := by
      intro h0
      have : allocate p now shuffle1 s s.slaves.keys = some (s, []) := by
        unfold allocate
        simp only [h0, if_true]
      rw [this] at hr
      cases hr
      exact hc h0
    exact allocate_settled hr hc0 m ((hperm1 _).mem_iff.mpr (AList.mem_keys.mpr hm1))
  have h2 : allocateAll p now shuffle2 r.1 = some (r.1, []) := by
    unfold allocateAll
    apply allocate_noop hwr
    · intro m hm
      exact AList.mem_keys.mp ((hperm2 _).mem_iff.mp hm)
    · intro hc m hm
      exact hset hc m (AList.mem_keys.mp ((hperm2 _).mem_iff.mp hm))
  have h3 : allocateAll p now shuffle2 (r.1.delay now r.1.allocationInterval Timer.batch) =
      some (r.1.delay now r.1.allocationInterval Timer.batch, []) := by
    unfold allocateAll
    apply allocate_noop (hwr.delay now r.1.allocationInterval Timer.batch)
    · intro m hm
      exact AList.mem_keys.mp ((hperm2 _).mem_iff.mp hm)
    · intro hc m hm
      exact hset hc m (AList.mem_keys.mp ((hperm2 _).mem_iff.mp hm))
  refine ⟨r.1, r.2, hr, h2, ?_, ?_⟩
  · unfold Mesos.batch
    rw [show allocateAll p now shuffle1 s = some r from hr]
  · unfold Mesos.batch
    rw [h3]
    rfl

/-- C24 at a concrete input: two full cycles at the clock reading 50 in
`exampleIdle`, the second one with the slaves in reversed order; the first one
offers the slave `"M"` to the framework `"F"`. -/
theorem cycle_fixpoint_witness :
    Reachable exampleParams exampleIdle ∧ (∀ l : List SlaveID, (id l).Perm l) ∧
    (∀ l : List SlaveID, (List.reverse l).Perm l) ∧
    (∃ t offs, allocateAll exampleParams 50 id exampleIdle = some (t, offs) ∧
      allocateAll exampleParams 50 List.reverse t = some (t, []) ∧
      batch exampleParams 50 id exampleIdle =
        some (t.delay 50 t.allocationInterval Timer.batch, offs) ∧
      batch exampleParams 50 List.reverse (t.delay 50 t.allocationInterval Timer.batch) =
        some ((t.delay 50 t.allocationInterval Timer.batch).delay 50 t.allocationInterval
          Timer.batch, [])) ∧
    (match allocateAll exampleParams 50 id exampleIdle with
      | some r => (r.2.map (fun o => (o.1, o.2.keys)),
          (allocateAll exampleParams 50 List.reverse r.1).map
            (fun r' => r'.2.map (fun o => (o.1, o.2.keys))))
      | none => ([], none)) = ([("F", ["M"])], some []) :=
  ⟨Reachable.exec exampleParams (fun l => List.Perm.refl l) _ (Reachable.init _ _ _),
    fun l => List.Perm.refl l, fun l => List.reverse_perm l,
    cycle_fixpoint exampleParams 50 id List.reverse exampleIdle
      (Reachable.exec exampleParams (fun l => List.Perm.refl l) _ (Reachable.init _ _ _))
      (fun l => List.Perm.refl l) (fun l => List.reverse_perm l),
    by decide⟩

/-! ## The factory of the test hook -/

theorem logValues_cons (parameter : Parameter) (rest : List Parameter) :
    logValues (parameter :: rest) =
      if parameter.has_key && parameter.has_value && decide (parameter.getKey = "log") then
        parameter.getValue :: logValues rest
      else logValues rest := by
  unfold logValues
  by_cases h : (parameter.has_key && parameter.has_value &&
      decide (parameter.getKey = "log")) = true
  · simp only [List.filter_cons, h, if_true, List.map_cons]
  · simp only [List.filter_cons, h, if_false]
    rfl

theorem createHook_foldl (parameters : List Parameter) (acc : String) :
    parameters.foldl createHookStep acc = ((logValues parameters).getLast?).getD acc := by
  induction parameters generalizing acc with
  | nil => rfl
  | cons parameter rest ih =>
    rw [List.foldl_cons, ih, logValues_cons]
    unfold createHookStep
    by_cases h : (parameter.has_key && parameter.has_value &&
        decide (parameter.getKey = "log")) = true
    · rw [if_pos h, if_pos h, List.getLast?_cons]
      rfl
    · rw [if_neg h, if_neg h]

/-- C26 (test hook factory): for every parameter list, with `v` the value of
the last parameter that has both a key and a value and whose key is `"log"`:
`createHook` returns a hook exactly when there is such a parameter and `v` is
not empty, the hook then writes to the file named `v`, and `createHook` returns
`NULL` when there is no such parameter or when `v` is empty, whatever the
values of the earlier such parameters. -/
theorem createHook_last_log (parameters : List Parameter) :
    ((createHook parameters).isSome = true ↔
      ∃ v, (logValues parameters).getLast? = some v ∧ v ≠ "") ∧
    (∀ hook, createHook parameters = some hook →
      (logValues parameters).getLast? = some hook.filename) ∧
    (∀ v, (logValues parameters).getLast? = some v → v ≠ "" →
      createHook parameters = some { filename := v }) ∧
    ((logValues parameters).getLast? = none → createHook parameters = none) ∧
    ((logValues parameters).getLast? = some "" → createHook parameters = none) ∧
    createHook [⟨some "log", some "a.txt"⟩, ⟨some "log", some ""⟩] = none ∧
    createHook [⟨some "log", some "a.txt"⟩, ⟨some "other", some "x"⟩, ⟨some "log", none⟩,
      ⟨none, some "y"⟩, ⟨some "log", some "b.txt"⟩] = some { filename := "b.txt" } := by
  have key : createHook parameters =
      if ((logValues parameters).getLast?).getD "" = "" then none
      else some { filename := ((logValues parameters).getLast?).getD "" } := by
    unfold createHook
    simp only [createHook_foldl]
  refine ⟨?_, ?_, ?_, ?_, ?_, rfl, rfl⟩
  · rw [key]
    cases h : (logValues parameters).getLast? with
    | none => simp
    | some v =>
      by_cases hv : v = ""
      · simp [hv]
      · simp [hv]
  · intro hook hh
    rw [key] at hh
    cases h : (logValues parameters).getLast? with
    | none => simp [h] at hh
    | some v =>
      by_cases hv : v = ""
      · simp [h, hv] at hh
      · simp only [h, Option.getD_some, hv, if_false, Option.some.injEq] at hh
        rw [← hh]
  · intro v h hv
    rw [key, h]
    simp [hv]
  · intro h
    rw [key, h]
    simp
  · intro h
    rw [key, h]
    simp

/-! ## Re-arming of the periodic cycle -/

theorem addSlaveUsed_timers {s t : State} {f : FrameworkID} {q : Resources}
    (h : addSlaveUsed s f q = some t) : t.timers = s.timers := by
  unfold Mesos.addSlaveUsed at h
  cases hl : s.frameworks.lookup f with
  | none =>
    simp only [hl, Option.some.injEq] at h
    rw [← h]
  | some framework =>
    cases hq : s.frameworkSorters.lookup framework.role with
    | none => simp [hl, hq] at h
    | some sorter =>
      simp only [hl, hq, Option.some.injEq] at h
      rw [← h]

theorem addSlaveLoop_timers :
    ∀ (es : List (Sigma (fun _ : FrameworkID => Resources))) (s t : State),
      addSlaveLoop es s = some t → t.timers = s.timers
  | [], s, t, h => by
    simp only [addSlaveLoop, Option.some.injEq] at h
    rw [← h]
  | e :: es, s, t, h => by
    unfold addSlaveLoop at h
    cases h1 : addSlaveUsed s e.1 e.2 with
    | none => simp [h1] at h
    | some s1 =>
      simp only [h1] at h
      rw [addSlaveLoop_timers es s1 t h, addSlaveUsed_timers h1]

/-- The handlers that run a cycle out of band leave the pending dispatches as
they are. -/
theorem cycle_timers {p : Params} {now : Time} {shuffle : List SlaveID → List SlaveID}
    {s : State} {r : State × List Offer} :
    (∀ f info used, addFramework p now shuffle s f info used = some r → r.1.timers = s.timers) ∧
    (∀ f, activateFramework p now shuffle s f = some r → r.1.timers = s.timers) ∧
    (∀ m info total used, addSlave p now shuffle s m info total used = some r →
      r.1.timers = s.timers) ∧
    (∀ f, reviveOffers p now shuffle s f = some r → r.1.timers = s.timers) ∧
    (allocateAll p now shuffle s = some r → r.1.timers = s.timers) := by
  refine ⟨?_, ?_, ?_, ?_, ?_⟩
  · intro f info used h
    unfold Mesos.addFramework at h
    split_ifs at h with hi hr
    cases hq : s.frameworkSorters.lookup info.role with
    | none => simp [hq] at h
    | some sorter =>
      simp only [hq] at h
      split_ifs at h with hc
      exact (allocate_same h).timers
  · intro f h
    unfold Mesos.activateFramework at h
    split_ifs at h with hi
    cases hl : s.frameworks.lookup f with
    | none => simp [hl] at h
    | some framework =>
      cases hq : s.frameworkSorters.lookup framework.role with
      | none => simp [hl, hq] at h
      | some sorter =>
        simp only [hl, hq] at h
        exact (allocate_same h).timers
  · intro m info total used h
    obtain ⟨_, _, _, s1, h1, h3⟩ := addSlave_eq_some h
    have ht := (allocate_same h3).timers
    have h2 := addSlaveLoop_timers _ _ _ h1
    exact ht.trans h2
  · intro f h
    unfold Mesos.reviveOffers at h
    split_ifs at h with hi
    exact (allocate_same h).timers
  · intro h
    exact (allocate_same h).timers

/-- C22, amended (timer re-arming): `initialize` schedules the first periodic
cycle after the allocation interval; in every reachable state the periodic
cycle `batch()` returns and appends exactly one further periodic cycle, due
after the allocation interval, to the pending dispatches, keeping the
interval; the cycles run out of band by `addFramework`, `activateFramework`,
`addSlave` and `reviveOffers`, and the plain cycle `allocate()`, leave the
pending dispatches as they are. -/
theorem timer_rearming (p : Params) (now : Time) (shuffle : List SlaveID → List SlaveID)
    (s : State) (hs : Reachable p s) (hperm : ∀ l, (shuffle l).Perm l) :
    (∀ now0 interval roles,
      (initialize' now0 State.new interval roles).timers =
        [((now0 + interval).toNat, Timer.batch)] ∧
      (initialize' now0 State.new interval roles).allocationInterval = interval) ∧
    (∃ t offs, batch p now shuffle s = some (t, offs) ∧
      t.timers = s.timers ++ [((now + s.allocationInterval).toNat, Timer.batch)] ∧
      t.allocationInterval = s.allocationInterval) ∧
    (∃ r, allocateAll p now shuffle s = some r ∧ r.1.timers = s.timers) ∧
    (∀ f, f ∈ s.frameworks →
      ∃ r, reviveOffers p now shuffle s f = some r ∧ r.1.timers = s.timers) ∧
    (∀ f info used r, addFramework p now shuffle s f info used = some r →
      r.1.timers = s.timers) ∧
    (∀ f r, activateFramework p now shuffle s f = some r → r.1.timers = s.timers) ∧
    (∀ m info total used r, addSlave p now shuffle s m info total used = some r →
      r.1.timers = s.timers) := by
  have hwf := hs.wf
  obtain ⟨r, hr⟩ := @allocate_total p now shuffle _ s.slaves.keys hwf (by
    intro m hm
    exact AList.mem_keys.mp ((hperm _).mem_iff.mp hm))
  have hsame := allocate_same hr
  refine ⟨?_, ?_, ⟨r, hr, hsame.timers⟩, ?_, ?_, ?_, ?_⟩
  · intro now0 interval roles
    have hfold : ∀ (l : List (Sigma (fun _ : String => RoleInfo))) (st : State),
        (l.foldl
          (fun st e =>
            { st with
                roleSorter := st.roleSorter.add e.1 e.2.weight
                frameworkSorters := st.frameworkSorters.insert e.1 Sorter.new }) st).timers =
          st.timers ∧
        (l.foldl
          (fun st e =>
            { st with
                roleSorter := st.roleSorter.add e.1 e.2.weight
                frameworkSorters := st.frameworkSorters.insert e.1 Sorter.new })
          st).allocationInterval = st.allocationInterval := by
      intro l
      induction l with
      | nil => intro st; exact ⟨rfl, rfl⟩
      | cons e l ih =>
        intro st
        rw [List.foldl_cons]
        exact ih _
    unfold Mesos.initialize' State.delay
    constructor
    · show _ ++ _ = _
      rw [(hfold _ _).1]
      rfl
    · exact (hfold _ _).2
  · refine ⟨r.1.delay now r.1.allocationInterval Timer.batch, r.2, ?_, ?_, ?_⟩
    · unfold Mesos.batch
      rw [show allocateAll p now shuffle s = some r from hr]
    · show r.1.timers ++ _ = _
      rw [hsame.timers, hsame.allocationInterval]
    · exact hsame.allocationInterval
  · intro f hf
    obtain ⟨framework, hl⟩ := (mem_iff_lookup _ _).mp hf
    have hi0 : (!s.initialized) = false := by simp [hwf.initialized]
    have hw : WF { s with
        frameworks := s.frameworks.insert f { framework with filters := [] } } :=
      hwf.of_refines _ hwf.initialized (fun _ hr => hr)
        (fun _ hr => hr) (refines_refl_sorters s) (insert_framework_refines hl rfl)
    obtain ⟨r1, hr1⟩ := @allocate_total p now shuffle _ s.slaves.keys hw (by
      intro m hm
      exact AList.mem_keys.mp ((hperm _).mem_iff.mp hm))
    have h1 : reviveOffers p now shuffle s f = some r1 := by
      unfold Mesos.reviveOffers
      simp only [hi0, hl, Bool.false_eq_true, if_false]
      exact hr1
    exact ⟨r1, h1, cycle_timers.2.2.2.1 f h1⟩
  · intro f info used r1 h
    exact cycle_timers.1 f info used h
  · intro f r1 h
    exact cycle_timers.2.1 f h
  · intro m info total used r1 h
    exact cycle_timers.2.2.1 m info total used h

/-- C22, counterexample: in the reachable state `exampleIdle` one periodic
cycle is pending, due at 1000000000.  `reviveOffers("F")` at the clock reading
50 runs a cycle, which offers the slave `"M"` to `"F"`, and schedules nothing:
the same single dispatch is pending afterwards.  The periodic cycle `batch()`
at the same clock reading does schedule a further one, due at 1000000050. -/
theorem timer_rearming_counterexample :
    Reachable exampleParams exampleIdle ∧
    exampleIdle.timers.map
      (fun x => (x.1, match x.2 with
        | Timer.batch => true
        | Timer.expire _ _ => false)) = [(1000000000, true)] ∧
    (match reviveOffers exampleParams 50 id exampleIdle "F" with
      | some r => (r.2.map (fun o => (o.1, o.2.keys)),
          r.1.timers.map (fun x => (x.1, match x.2 with
            | Timer.batch => true
            | Timer.expire _ _ => false)))
      | none => ([], [])) = ([("F", ["M"])], [(1000000000, true)]) ∧
    (match batch exampleParams 50 id exampleIdle with
      | some r => (r.2.map (fun o => (o.1, o.2.keys)),
          r.1.timers.map (fun x => (x.1, match x.2 with
            | Timer.batch => true
            | Timer.expire _ _ => false)))
      | none => ([], [])) = ([("F", ["M"])], [(1000000000, true), (1000000050, true)]) :=
  ⟨Reachable.exec exampleParams (fun l => List.Perm.refl l) _ (Reachable.init _ _ _),
    by decide, by decide, by decide⟩

/-! ## Expiry of a filter -/

theorem Sorter.le_allocation_allocated (s : Sorter) (name : String) (q : Resources)
    (n : String) : s.allocation n ≤ (s.allocated name q).allocation n := by
  unfold Sorter.allocated
  rw [Sorter.allocation_modify]
  by_cases hn : n = name
  · subst hn
    rw [if_pos rfl]
    unfold Sorter.allocation
    cases s.clients.lookup n with
    | none => exact le_refl _
    | some c => exact le_self_add
  · rw [if_neg hn]

theorem grows_refl (s : State) : Grows s s :=
  ⟨fun _ sorter h => ⟨sorter, h, le_refl _, fun _ => le_refl _⟩, fun _ => le_refl _⟩

/-- An assignment of the cycle only adds to what the sorters track. -/
theorem grows_assign {s : State} {acc : State × Offerable} (m : SlaveID) (role : String)
    (f : String) (slave : Slave) {sorter0 : Sorter} (q : Resources) (h : Grows s acc.1)
    (hq : acc.1.frameworkSorters.lookup role = some sorter0) :
    Grows s (assign acc m role f slave sorter0 q).1 := by
  obtain ⟨h1, h2⟩ := h
  constructor
  · intro r sorter hs
    obtain ⟨sorter', hl', hres, hal⟩ := h1 r sorter hs
    by_cases hr : r = role
    · subst hr
      rw [hq] at hl'
      cases hl'
      refine ⟨(sorter0.addResources q).allocated f q, by simp [assign, lookup_insert_eq], ?_, ?_⟩
      · have : ((sorter0.addResources q).allocated f q).resources = sorter0.resources + q := by
          unfold Sorter.allocated
          rw [Sorter.resources_modify]
          rfl
        rw [this]
        exact hres.trans le_self_add
      · intro g
        exact (hal g).trans (Sorter.le_allocation_allocated (sorter0.addResources q) f q g)
    · exact ⟨sorter', by simp [assign, lookup_insert_eq, hr, hl'], hres, hal⟩
  · intro r
    exact (h2 r).trans (Sorter.le_allocation_allocated _ _ _ _)

/-- A cycle only adds to what the sorters track. -/
theorem allocate_grows {p : Params} {now : Time} {shuffle : List SlaveID → List SlaveID}
    {s : State} {ids : List SlaveID} {r : State × List Offer}
    (h : allocate p now shuffle s ids = some r) : Grows s r.1 := by
  unfold allocate at h
  by_cases hc : s.roleSorter.count = 0
  · simp only [hc, if_true, Option.some.injEq] at h
    subst h
    exact grows_refl s
  · simp only [hc, if_false] at h
    cases h1 : allocateSlaves p now (shuffle ids) (s, ∅) with
    | none => simp [h1] at h
    | some acc =>
      simp only [h1, Option.some.injEq] at h
      subst h
      refine (allocateSlaves_inv (fun acc => Grows s acc.1) s (shuffle ids) ?_
        (shuffle ids) (s, ∅) acc (fun _ hm => hm) (Same.refl s) (grows_refl s) h1).2
      intro m role f acc0 acc1 _ _ hI _ hstep
      rcases allocateFramework_cases hstep with h2 | ⟨slave, sorter0, _, hq, _, _, h2⟩
      · rw [h2]
        exact hI
      · rw [h2]
        exact grows_assign m role f slave _ hI hq

theorem installFilter_sorters {p : Params} {now : Time} {s t : State} {f : FrameworkID}
    {m : SlaveID} {q : Resources} {filters : Option Filters}
    (h : installFilter p now s f m q filters = some t) :
    t.frameworkSorters = s.frameworkSorters ∧ t.roleSorter = s.roleSorter ∧
      ∀ g framework', t.frameworks.lookup g = some framework' →
        ∃ framework, s.frameworks.lookup g = some framework ∧
          framework.role = framework'.role := by
  unfold installFilter at h
  cases filters with
  | none =>
    simp only [Option.some.injEq] at h
    subst h
    exact ⟨rfl, rfl, fun _ framework hl => ⟨framework, hl, rfl⟩⟩
  | some fs =>
    cases hl : s.frameworks.lookup f with
    | none =>
      simp only [hl, Option.some.injEq] at h
      subst h
      exact ⟨rfl, rfl, fun _ framework hl => ⟨framework, hl, rfl⟩⟩
    | some framework =>
      cases hm : s.slaves.lookup m with
      | none =>
        simp only [hl, hm, Option.some.injEq] at h
        subst h
        exact ⟨rfl, rfl, fun _ framework hl => ⟨framework, hl, rfl⟩⟩
      | some slave =>
        simp only [hl, hm] at h
        cases hd : refuseDuration p fs with
        | none => simp [hd] at h
        | some seconds =>
          simp only [hd] at h
          split_ifs at h
          · simp only [Option.some.injEq] at h
            subst h
            exact ⟨rfl, rfl, fun _ framework hl => ⟨framework, hl, rfl⟩⟩
          · simp only [Option.some.injEq] at h
            subst h
            refine ⟨rfl, rfl, ?_⟩
            intro g framework' hg
            change (s.frameworks.insert f _).lookup g = some framework' at hg
            rw [lookup_insert_eq] at hg
            by_cases hgf : g = f
            · subst hgf
              simp only [if_true, Option.some.injEq] at hg
              subst hg
              exact ⟨framework, hl, rfl⟩
            · simp only [hgf, if_false] at hg
              exact ⟨framework', hg, rfl⟩

theorem recoverable_mono {s : State} {f : FrameworkID} {q q' : Resources} (hle : q ≤ q')
    (h : Recoverable s f q') : Recoverable s f q := by
  intro framework sorter hl hq hc
  obtain ⟨h1, h2, h3⟩ := h framework sorter hl hq hc
  exact ⟨hle.trans h1, hle.trans h2, (Resources.unreserved_mono hle).trans h3⟩

/-- After a recovery of `q`, what the contract allowed beyond `q` can still be
recovered. -/
theorem recoverable_recover {p : Params} {now : Time} {s t : State} {f : FrameworkID}
    {m : SlaveID} {q q' : Resources} {filters : Option Filters}
    (h : recoverResources p now s f m q filters = some t)
    (hc : Recoverable s f (q + q')) : Recoverable t f q' := by
  unfold Mesos.recoverResources at h
  split_ifs at h with hi he
  · simp only [Option.some.injEq] at h
    subst h
    exact recoverable_mono le_add_self hc
  · cases h1 : recoverFramework s f q with
    | none => simp [h1] at h
    | some s1 =>
      simp only [h1] at h
      obtain ⟨hfs, hrs, hfw⟩ := installFilter_sorters h
      have hfs1 : (recoverSlave s1 m q).frameworkSorters = s1.frameworkSorters := by
        unfold Mesos.recoverSlave
        cases s1.slaves.lookup m <;> rfl
      have hrs1 : (recoverSlave s1 m q).roleSorter = s1.roleSorter := by
        unfold Mesos.recoverSlave
        cases s1.slaves.lookup m <;> rfl
      have hfw1 : (recoverSlave s1 m q).frameworks = s1.frameworks := by
        unfold Mesos.recoverSlave
        cases s1.slaves.lookup m <;> rfl
      intro framework' sorter' hl' hq' hc'
      obtain ⟨framework1, hl1, hrole1⟩ := hfw f framework' hl'
      rw [hfw1] at hl1
      rw [hfs, hfs1, ← hrole1] at hq'
      rw [hrs, hrs1, ← hrole1]
      rcases recoverFramework_eq_some h1 with
        ⟨rfl, hn | ⟨framework, sorter, hl, hq, hcf⟩⟩ |
        ⟨framework, sorter, hl, hq, hcf, _, _, _, rfl⟩
      · rw [hn] at hl1
        cases hl1
      · rw [hl] at hl1
        cases hl1
        rw [hq] at hq'
        cases hq'
        rw [hcf] at hc'
        cases hc'
      · have hl1' : s.frameworks.lookup f = some framework1 := hl1
        have hfr : framework = framework1 := Option.some.inj (hl.symm.trans hl1')
        subst hfr
        obtain ⟨ha, hb, hd⟩ := hc framework sorter hl hq hcf
        change (s.frameworkSorters.insert framework.role _).lookup framework.role =
          some sorter' at hq'
        rw [lookup_insert_eq, if_pos rfl] at hq'
        cases hq'
        have hmem : f ∈ sorter.clients := by
          unfold Sorter.contains at hcf
          rw [AList.lookup_isSome] at hcf
          exact hcf
        obtain ⟨c, hcl⟩ := (mem_iff_lookup _ _).mp hmem
        refine ⟨?_, ?_, ?_⟩
        · show q' ≤ Sorter.allocation
            (sorter.modify f (fun c => { c with allocation := sorter.allocation f - q })) f
          rw [Sorter.allocation_modify, if_pos rfl, hcl]
          exact le_tsub_of_add_le_left ha
        · show q' ≤ sorter.resources - q
          exact le_tsub_of_add_le_left hb
        · show Resources.unreserved q' ≤
            Sorter.allocation (s.roleSorter.modify framework.role _) framework.role
          rw [Resources.unreserved_add] at hd
          rw [Sorter.allocation_modify, if_pos rfl]
          cases hx : s.roleSorter.clients.lookup framework.role with
          | none =>
            have h0 : s.roleSorter.allocation framework.role = 0 := by
              unfold Sorter.allocation
              rw [hx]
            rw [h0] at hd
            exact le_add_self.trans hd
          | some c' => exact le_tsub_of_add_le_left hd

/-- The cycle of `reviveOffers` keeps what can be recovered. -/
theorem recoverable_revive {p : Params} {now : Time} {shuffle : List SlaveID → List SlaveID}
    {s : State} {f : FrameworkID} {q : Resources} {r : State × List Offer}
    (h : reviveOffers p now shuffle s f = some r) (hc : Recoverable s f q)
    (hf : f ∈ s.frameworks) : Recoverable r.1 f q := by
  obtain ⟨framework, hl⟩ := (mem_iff_lookup _ _).mp hf
  unfold Mesos.reviveOffers at h
  split_ifs at h with hi
  simp only [hl] at h
  have hsame := allocate_same h
  obtain ⟨hg1, hg2⟩ := allocate_grows h
  intro framework' sorter' hl' hq' hc'
  rw [hsame.frameworks] at hl'
  change (s.frameworks.insert f _).lookup f = some framework' at hl'
  rw [lookup_insert_eq, if_pos rfl] at hl'
  cases hl'
  change r.1.frameworkSorters.lookup framework.role = some sorter' at hq'
  show q ≤ sorter'.allocation f ∧ q ≤ sorter'.resources ∧
    Resources.unreserved q ≤ r.1.roleSorter.allocation framework.role
  have hfl := hsame.sorterFlags framework.role
  rw [hq'] at hfl
  change some sorter'.flags = (s.frameworkSorters.lookup framework.role).map Sorter.flags at hfl
  cases hq0 : s.frameworkSorters.lookup framework.role with
  | none => simp [hq0] at hfl
  | some sorter0 =>
    simp only [hq0, Option.map_some', Option.some.injEq] at hfl
    have hc0 : sorter0.contains f = true := by
      have hff := congrFun hfl f
      unfold Sorter.contains at hc' ⊢
      unfold Sorter.flags at hff
      cases hx : sorter0.clients.lookup f with
      | some c => rfl
      | none =>
        rw [hx] at hff
        cases hy : sorter'.clients.lookup f with
        | none => simp [hy] at hc'
        | some c => simp [hy] at hff
    obtain ⟨ha, hb, hd⟩ := hc framework sorter0 hl hq0 hc0
    obtain ⟨sorter1, hq1, hres, hal⟩ := hg1 framework.role sorter0 hq0
    change r.1.frameworkSorters.lookup framework.role = some sorter1 at hq1
    rw [hq'] at hq1
    cases hq1
    exact ⟨ha.trans (hal f), hb.trans hres, hd.trans (hg2 framework.role)⟩

/-- `recoverResources` within the contract, with a non-zero refusal duration,
for a registered framework and a registered slave in a reachable state: the
filter installed carries the identity drawn from the counter. -/
theorem recoverResources_installs {p : Params} (now : Time) {s : State} {F : FrameworkID}
    {M : SlaveID} {q : Resources} {framework : Framework} {fs : Filters} {d : Duration}
    (hs : Reachable p s) (hf : s.frameworks.lookup F = some framework) (hm : M ∈ s.slaves)
    (hq : q ≠ 0) (hc : Recoverable s F q) (hd : refuseDuration p fs = some d) (h0 : d ≠ 0) :
    ∃ t, recoverResources p now s F M q (some fs) = some t ∧
      t.frameworks.lookup F =
        some { framework with
          filters := (s.nextFilter, ⟨M, q, (now + d).toNat⟩) :: framework.filters } ∧
      t.nextFilter = s.nextFilter + 1 ∧ M ∈ t.slaves := by
  obtain ⟨sa, ha, hfa, _, hna, hma⟩ := recoverResources_unfold now hs F M hq hc (some fs)
  have hfa' : sa.frameworks.lookup F = some framework := by rw [hfa]; exact hf
  have hinst := @installFilter_of_duration p now _ _ _ _ q _ _ hfa' (hma hm) hd
  rw [if_neg h0] at hinst
  refine ⟨_, ha.trans hinst, ?_, ?_, ?_⟩
  · show (sa.frameworks.insert F _).lookup F = _
    rw [lookup_insert_eq, if_pos rfl, hna]
  · show sa.nextFilter + 1 = _
    rw [hna]
  · exact hma hm

/-- C21 (filter expiry is by identity): whatever the state, the firing
`expire(G, id)` never fails, invokes no callback and changes nothing but the
filters of `G`: the other frameworks keep their records, and the filters of a
registered `G` become those whose identity is not `id`; when `G` is not
registered or holds no filter of the identity `id` the state is unchanged.  In
a reachable state with the framework `F` and the slave `M` registered, where
the sorters track enough for `F` to return `q` twice, let
`recoverResources(F, M, q)` install the filter of identity `id` (a non-zero
refusal duration), let `reviveOffers(F)` clear it, and let a second
`recoverResources(F, M, q)` install a filter for the same slave and resources:
the second filter has another identity, and the firing `expire(F, id)` leaves
the state, hence the second filter, as it is. -/
theorem expiry_by_identity (p : Params) (now1 now2 now3 : Time)
    (shuffle : List SlaveID → List SlaveID) (s : State) (F : FrameworkID) (M : SlaveID)
    (q : Resources) (framework : Framework) (fs1 fs2 : Filters) (d1 d2 : Duration)
    (hs : Reachable p s) (hperm : ∀ l, (shuffle l).Perm l)
    (hf : s.frameworks.lookup F = some framework) (hm : M ∈ s.slaves) (hq : q ≠ 0)
    (hc : Recoverable s F (q + q))
    (hd1 : refuseDuration p fs1 = some d1) (h1 : d1 ≠ 0)
    (hd2 : refuseDuration p fs2 = some d2) (h2 : d2 ≠ 0) :
    (∀ (st : State) (G : FrameworkID) (id : ℕ),
      step p now1 shuffle st (Call.expire G id) = some (expire st G id, []) ∧
      (∀ H, H ≠ G → (expire st G id).frameworks.lookup H = st.frameworks.lookup H) ∧
      (∀ record, st.frameworks.lookup G = some record →
        (expire st G id).frameworks.lookup G =
          some { record with filters := record.filters.filter (fun x => decide (x.1 ≠ id)) }) ∧
      (G ∉ st.frameworks → expire st G id = st) ∧
      (∀ record, st.frameworks.lookup G = some record →
        (∀ x ∈ record.filters, x.1 ≠ id) → expire st G id = st) ∧
      (expire st G id).slaves = st.slaves ∧ (expire st G id).roleSorter = st.roleSorter ∧
      (expire st G id).frameworkSorters = st.frameworkSorters ∧
      (expire st G id).timers = st.timers ∧ (expire st G id).nextFilter = st.nextFilter ∧
      (expire st G id).whitelist = st.whitelist ∧ (expire st G id).roles = st.roles ∧
      (expire st G id).initialized = st.initialized ∧
      (expire st G id).allocationInterval = st.allocationInterval) ∧
    ∃ s1 s2 offs s3 k k',
      recoverResources p now1 s F M q (some fs1) = some s1 ∧
      s1.frameworks.lookup F =
        some { framework with
          filters := (k, ⟨M, q, (now1 + d1).toNat⟩) :: framework.filters } ∧
      reviveOffers p now2 shuffle s1 F = some (s2, offs) ∧
      s2.frameworks.lookup F = some { framework with filters := [] } ∧
      recoverResources p now3 s2 F M q (some fs2) = some s3 ∧
      s3.frameworks.lookup F =
        some { framework with filters := [(k', ⟨M, q, (now3 + d2).toNat⟩)] } ∧
      k' ≠ k ∧
      expire s3 F k = s3 := by
  constructor
  · intro st G id
    refine ⟨rfl, ?_, ?_, ?_, ?_, ?_⟩
    · intro H hH
      unfold Mesos.expire
      cases hl : st.frameworks.lookup G with
      | none => rfl
      | some record =>
        simp only
        split_ifs
        · show (st.frameworks.insert G _).lookup H = _
          rw [lookup_insert_eq, if_neg hH]
        · rfl
    · intro record hl
      unfold Mesos.expire
      simp only [hl]
      split_ifs with hany
      · show (st.frameworks.insert G _).lookup G = _
        rw [lookup_insert_eq, if_pos rfl]
      · rw [hl]
        have hall : record.filters.filter (fun x => decide (x.1 ≠ id)) = record.filters := by
          rw [List.filter_eq_self]
          intro x hx
          simp only [List.any_eq_true, decide_eq_true_eq, not_exists, not_and] at hany
          simpa using hany x hx
        rw [hall]
    · intro hG
      unfold Mesos.expire
      rw [(not_mem_iff_lookup _ _).mp hG]
    · intro record hl hall
      unfold Mesos.expire
      simp only [hl]
      have hany : record.filters.any (fun f => decide (f.1 = id)) = false := by
        rw [List.any_eq_false]
        intro x hx
        simpa using hall x hx
      simp only [hany, Bool.false_eq_true, if_false]
    · unfold Mesos.expire
      cases hl : st.frameworks.lookup G with
      | none => exact ⟨rfl, rfl, rfl, rfl, rfl, rfl, rfl, rfl, rfl⟩
      | some record =>
        simp only
        split_ifs <;> exact ⟨rfl, rfl, rfl, rfl, rfl, rfl, rfl, rfl, rfl⟩
  · obtain ⟨s1, hr1, hl1, hn1, hm1⟩ := recoverResources_installs now1 hs hf hm hq
      (recoverable_mono le_self_add hc) hd1 h1
    have hc1 : Recoverable s1 F q := recoverable_recover hr1 hc
    have hs1 : Reachable p s1 :=
      Reachable.step (r := (s1, [])) now1 shuffle (Call.recoverResources F M q (some fs1)) hs
        hperm trivial (by
          show (recoverResources p now1 s F M q (some fs1)).map _ = _
          rw [hr1]
          rfl)
    have hwf1 := hs1.wf
    have hi1 : (!s1.initialized) = false := by simp [hwf1.initialized]
    have hw : WF { s1 with
        frameworks := s1.frameworks.insert F { framework with filters := [] } } :=
      hwf1.of_refines _ hwf1.initialized (fun _ hr => hr)
        (fun _ hr => hr) (refines_refl_sorters s1) (insert_framework_refines hl1 rfl)
    obtain ⟨r2, hr2⟩ := @allocate_total p now2 shuffle _ s1.slaves.keys hw (by
      intro m hm'
      exact AList.mem_keys.mp ((hperm _).mem_iff.mp hm'))
    have hrev : reviveOffers p now2 shuffle s1 F = some r2 := by
      unfold Mesos.reviveOffers
      simp only [hi1, hl1, Bool.false_eq_true, if_false]
      exact hr2
    have hsame := allocate_same hr2
    have hl2 : r2.1.frameworks.lookup F = some { framework with filters := [] } := by
      rw [hsame.frameworks]
      show (s1.frameworks.insert F _).lookup F = _
      rw [lookup_insert_eq, if_pos rfl]
    have hs2 : Reachable p r2.1 :=
      Reachable.step now2 shuffle (Call.reviveOffers F) hs1 hperm
        ((mem_iff_lookup _ _).mpr ⟨_, hl1⟩) hrev
    have hm2 : M ∈ r2.1.slaves := (mem_slaves_iff_of_same hsame M).mpr hm1
    have hc2 : Recoverable r2.1 F q :=
      recoverable_revive hrev hc1 ((mem_iff_lookup _ _).mpr ⟨_, hl1⟩)
    obtain ⟨s3, hr3, hl3, _, _⟩ := recoverResources_installs now3 hs2 hl2 hm2 hq hc2 hd2 h2
    have hn2 : r2.1.nextFilter = s.nextFilter + 1 := hsame.nextFilter.trans hn1
    refine ⟨s1, r2.1, r2.2, s3, s.nextFilter, r2.1.nextFilter, hr1, hl1, hrev, hl2, hr3, hl3,
      ?_, ?_⟩
    · rw [hn2]
      exact Nat.succ_ne_self _
    · unfold Mesos.expire
      simp only [hl3]
      have hany : List.any [(r2.1.nextFilter, (⟨M, q, (now3 + d2).toNat⟩ : RefusedFilter))]
          (fun f => decide (f.1 = s.nextFilter)) = false := by
        simp [hn2]
      simp only [hany, Bool.false_eq_true, if_false]

/-! ## The configured roles keep their sorters -/

theorem mem_sorters_of_same {s t : State} (h : Same s t) {r : String}
    (hr : r ∈ s.frameworkSorters) : r ∈ t.frameworkSorters := by
  obtain ⟨sorter0, h0⟩ := (mem_iff_lookup _ _).mp hr
  obtain ⟨sorter, h1, _⟩ := sorter_of_same h h0
  exact (mem_iff_lookup _ _).mpr ⟨sorter, h1⟩

theorem roled_allocate {p : Params} {now : Time} {shuffle : List SlaveID → List SlaveID}
    {s : State} {ids : List SlaveID} {r : State × List Offer} (hr : Roled s)
    (h : allocate p now shuffle s ids = some r) : Roled r.1 := by
  have hsame := allocate_same h
  intro role hrole
  rw [hsame.roles] at hrole
  exact mem_sorters_of_same hsame (hr role hrole)

theorem roled_addSlaveUsed {s t : State} {f : FrameworkID} {q : Resources} (hr : Roled s)
    (h : addSlaveUsed s f q = some t) : Roled t := by
  unfold Mesos.addSlaveUsed at h
  cases hl : s.frameworks.lookup f with
  | none =>
    simp only [hl, Option.some.injEq] at h
    rw [← h]
    exact hr
  | some framework =>
    cases hq : s.frameworkSorters.lookup framework.role with
    | none => simp [hl, hq] at h
    | some sorter =>
      simp only [hl, hq, Option.some.injEq] at h
      rw [← h]
      exact fun role hrole => (AList.mem_insert _).mpr (Or.inr (hr role hrole))

theorem roled_addSlaveLoop :
    ∀ (es : List (Sigma (fun _ : FrameworkID => Resources))) (s t : State), Roled s →
      addSlaveLoop es s = some t → Roled t
  | [], s, t, hr, h => by
    simp only [addSlaveLoop, Option.some.injEq] at h
    rw [← h]
    exact hr
  | e :: es, s, t, hr, h => by
    unfold addSlaveLoop at h
    cases h1 : addSlaveUsed s e.1 e.2 with
    | none => simp [h1] at h
    | some s1 =>
      simp only [h1] at h
      exact roled_addSlaveLoop es s1 t (roled_addSlaveUsed hr h1) h

theorem roled_recoverResources {p : Params} {now : Time} {s t : State} {f : FrameworkID}
    {m : SlaveID} {q : Resources} {filters : Option Filters} (hr : Roled s)
    (h : recoverResources p now s f m q filters = some t) : Roled t := by
  unfold Mesos.recoverResources at h
  split_ifs at h with hi he
  · simp only [Option.some.injEq] at h
    rw [← h]
    exact hr
  · cases h1 : Mesos.recoverFramework s f q with
    | none => simp [h1] at h
    | some s1 =>
      simp only [h1] at h
      have hr1 : Roled s1 := by
        rcases recoverFramework_eq_some h1 with ⟨h2, _⟩ | ⟨_, _, _, _, _, _, _, _, h2⟩
        · rw [h2]
          exact hr
        · rw [h2]
          exact fun role hrole => (AList.mem_insert _).mpr (Or.inr (hr role hrole))
      have hr2 : Roled (recoverSlave s1 m q) := by
        unfold Mesos.recoverSlave
        cases s1.slaves.lookup m with
        | none => exact hr1
        | some slave => exact hr1
      unfold Mesos.installFilter at h
      cases filters with
      | none =>
        simp only [Option.some.injEq] at h
        rw [← h]
        exact hr2
      | some fs =>
        simp only at h
        cases hl : (recoverSlave s1 m q).frameworks.lookup f with
        | none =>
          simp only [hl, Option.some.injEq] at h
          rw [← h]
          exact hr2
        | some framework =>
          cases hm : (recoverSlave s1 m q).slaves.lookup m with
          | none =>
            simp only [hl, hm, Option.some.injEq] at h
            rw [← h]
            exact hr2
          | some slave =>
            simp only [hl, hm] at h
            cases hd : refuseDuration p fs with
            | none => simp [hd] at h
            | some d =>
              simp only [hd] at h
              split_ifs at h with hz
              · simp only [Option.some.injEq] at h
                rw [← h]
                exact hr2
              · simp only [Option.some.injEq] at h
                rw [← h]
                exact hr2

theorem roled_step {p : Params} {now : Time} {shuffle : List SlaveID → List SlaveID}
    {s : State} {c : Call} {r : State × List Offer} (hr : Roled s)
    (h : step p now shuffle s c = some r) : Roled r.1 := by
  have hins : ∀ (role : String) (sorter : Sorter) (t : State), t.roles = s.roles →
      t.frameworkSorters = s.frameworkSorters.insert role sorter → Roled t := by
    intro role sorter t h1 h2 x hx
    rw [h2]
    rw [h1] at hx
    exact (AList.mem_insert _).mpr (Or.inr (hr x hx))
  have hkeep : ∀ t : State, t.roles = s.roles → t.frameworkSorters = s.frameworkSorters →
      Roled t := by
    intro t h1 h2 x hx
    rw [h2]
    rw [h1] at hx
    exact hr x hx
  cases c with
  | addFramework f info used =>
    simp only [Mesos.step] at h
    unfold Mesos.addFramework at h
    split_ifs at h with hi hro
    cases hq : s.frameworkSorters.lookup info.role with
    | none => simp [hq] at h
    | some sorter =>
      simp only [hq] at h
      split_ifs at h with hc
      refine roled_allocate ?_ h
      exact hins _ _ _ rfl rfl
  | removeFramework f =>
    simp only [Mesos.step, Option.map_eq_some'] at h
    obtain ⟨t, h1, rfl⟩ := h
    obtain ⟨_, framework, sorter, _, _, h2 | h2⟩ := removeFramework_eq_some h1
    · rw [h2.2]
      exact hkeep _ rfl rfl
    · rw [h2.2]
      exact hins _ _ _ rfl rfl
  | activateFramework f =>
    simp only [Mesos.step] at h
    unfold Mesos.activateFramework at h
    split_ifs at h with hi
    cases hl : s.frameworks.lookup f with
    | none => simp [hl] at h
    | some framework =>
      cases hq : s.frameworkSorters.lookup framework.role with
      | none => simp [hl, hq] at h
      | some sorter =>
        simp only [hl, hq] at h
        refine roled_allocate ?_ h
        exact hins _ _ _ rfl rfl
  | deactivateFramework f =>
    simp only [Mesos.step, Option.map_eq_some'] at h
    obtain ⟨t, h1, rfl⟩ := h
    unfold Mesos.deactivateFramework at h1
    split_ifs at h1 with hi
    cases hl : s.frameworks.lookup f with
    | none => simp [hl] at h1
    | some framework =>
      cases hq : s.frameworkSorters.lookup framework.role with
      | none => simp [hl, hq] at h1
      | some sorter =>
        simp only [hl, hq, Option.some.injEq] at h1
        rw [← h1]
        exact hins _ _ _ rfl rfl
  | addSlave m info total used =>
    simp only [Mesos.step] at h
    obtain ⟨_, _, _, s1, h1, h3⟩ := addSlave_eq_some h
    have hr0 : Roled
        { s with roleSorter := s.roleSorter.addResources (Resources.unreserved total) } := hr
    have hr1 : Roled s1 := roled_addSlaveLoop _ _ _ hr0 h1
    refine roled_allocate ?_ h3
    exact hr1
  | removeSlave m =>
    simp only [Mesos.step, Option.map_eq_some'] at h
    obtain ⟨t, h1, rfl⟩ := h
    obtain ⟨_, slave, _, _, h2⟩ := removeSlave_eq_some h1
    rw [h2]
    exact hkeep _ rfl rfl
  | activateSlave m =>
    simp only [Mesos.step, Option.map_eq_some'] at h
    obtain ⟨t, h1, rfl⟩ := h
    unfold Mesos.activateSlave at h1
    split_ifs at h1 with hi
    cases hl : s.slaves.lookup m with
    | none => simp [hl] at h1
    | some slave =>
      simp only [hl, Option.some.injEq] at h1
      rw [← h1]
      exact hkeep _ rfl rfl
  | deactivateSlave m =>
    simp only [Mesos.step, Option.map_eq_some'] at h
    obtain ⟨t, h1, rfl⟩ := h
    unfold Mesos.deactivateSlave at h1
    split_ifs at h1 with hi
    cases hl : s.slaves.lookup m with
    | none => simp [hl] at h1
    | some slave =>
      simp only [hl, Option.some.injEq] at h1
      rw [← h1]
      exact hkeep _ rfl rfl
  | updateWhitelist w =>
    simp only [Mesos.step, Option.map_eq_some'] at h
    obtain ⟨t, h1, rfl⟩ := h
    unfold Mesos.updateWhitelist at h1
    split_ifs at h1 with hi
    simp only [Option.some.injEq] at h1
    rw [← h1]
    exact hkeep _ rfl rfl
  | requestResources f =>
    simp only [Mesos.step, Option.map_eq_some'] at h
    obtain ⟨t, h1, rfl⟩ := h
    unfold Mesos.requestResources at h1
    split_ifs at h1 with hi
    simp only [Option.some.injEq] at h1
    rw [← h1]
    exact hr
  | updateAllocation f m ops =>
    simp only [Mesos.step, Option.map_eq_some'] at h
    obtain ⟨t, h1, rfl⟩ := h
    unfold Mesos.updateAllocation at h1
    split_ifs at h1 with hi
    cases hm : s.slaves.lookup m with
    | none => simp [hm] at h1
    | some slave =>
      cases hl : s.frameworks.lookup f with
      | none => simp [hm, hl] at h1
      | some framework =>
        cases hq : s.frameworkSorters.lookup framework.role with
        | none => simp [hm, hl, hq] at h1
        | some sorter =>
          simp only [hm, hl, hq] at h1
          cases ha : Resources.apply (sorter.allocation f) ops with
          | none => simp [ha] at h1
          | some a =>
            cases hT : Resources.apply slave.total ops with
            | none => simp [ha, hT] at h1
            | some T' =>
              simp only [ha, hT, Option.some.injEq] at h1
              rw [← h1]
              exact hins _ _ _ rfl rfl
  | recoverResources f m q filters =>
    simp only [Mesos.step, Option.map_eq_some'] at h
    obtain ⟨t, h1, rfl⟩ := h
    exact roled_recoverResources hr h1
  | reviveOffers f =>
    simp only [Mesos.step] at h
    unfold Mesos.reviveOffers at h
    split_ifs at h with hi
    refine roled_allocate ?_ h
    exact hr
  | batch =>
    obtain ⟨r1, h1, rfl⟩ := batch_cycle h
    exact (roled_allocate hr h1 : Roled r1.1)
  | expire f filter =>
    simp only [Mesos.step, Option.some.injEq] at h
    rw [← h]
    unfold Mesos.expire
    cases hl : s.frameworks.lookup f with
    | none => exact hr
    | some framework =>
      simp only
      split_ifs
      · exact hkeep _ rfl rfl
      · exact hr

theorem initialize_roled (now : Time) (s : State) (allocationInterval : Duration)
    (roles : hashmap String RoleInfo) :
    Roled (initialize' now s allocationInterval roles) := by
  have hfold : ∀ (l : List (Sigma (fun _ : String => RoleInfo))) (st : State),
      (l.foldl
        (fun st e =>
          { st with
              roleSorter := st.roleSorter.add e.1 e.2.weight
              frameworkSorters := st.frameworkSorters.insert e.1 Sorter.new })
        st).roles = st.roles ∧
      ∀ r, (r ∈ l.map Sigma.fst ∨ r ∈ st.frameworkSorters) →
        r ∈ (l.foldl
          (fun st e =>
            { st with
                roleSorter := st.roleSorter.add e.1 e.2.weight
                frameworkSorters := st.frameworkSorters.insert e.1 Sorter.new })
          st).frameworkSorters := by
    intro l
    induction l with
    | nil =>
      intro st
      refine ⟨rfl, ?_⟩
      intro r hr
      rcases hr with hr | hr
      · simp at hr
      · exact hr
    | cons e l ih =>
      intro st
      rw [List.foldl_cons]
      refine ⟨(ih _).1, ?_⟩
      intro r hr
      apply (ih _).2
      rcases hr with hr | hr
      · rw [List.map_cons, List.mem_cons] at hr
        rcases hr with hr | hr
        · exact Or.inr ((AList.mem_insert _).mpr (Or.inl hr))
        · exact Or.inl hr
      · exact Or.inr ((AList.mem_insert _).mpr (Or.inr hr))
  intro r hr
  unfold Mesos.initialize' State.delay at hr ⊢
  simp only at hr ⊢
  rw [(hfold _ _).1] at hr
  exact (hfold _ _).2 r (Or.inl (AList.mem_keys.mpr hr))

/-- Every configured role of a reachable state has a framework sorter. -/
theorem roled_of_reachable {p : Params} {s : State} (h : Reachable p s) : Roled s := by
  induction h with
  | init now allocationInterval roles => exact initialize_roled _ _ _ _
  | step now shuffle c _ _ _ hstep ih => exact roled_step ih hstep

/-! ## Safety of the assertions of the cycle -/

/-- The state that `addFramework` hands to its cycle is well-formed. -/
theorem addFramework_wf {s : State} {f : FrameworkID} (info : FrameworkInfo)
    (used : hashmap SlaveID Resources) {sorter : Sorter} (hwf : WF s) (hf : f ∉ s.frameworks)
    (hq : s.frameworkSorters.lookup info.role = some sorter) :
    WF { s with
        roleSorter := s.roleSorter.allocated info.role
          (Resources.unreserved (Resources.sum used))
        frameworkSorters := s.frameworkSorters.insert info.role
          (((sorter.add f 1).addResources (Resources.sum used)).allocated f
            (Resources.sum used))
        frameworks := s.frameworks.insert f
          { role := info.role, checkpoint := info.checkpoint, filters := [] } } := by
  refine ⟨hwf.initialized, ?_, ?_⟩
  · intro r hr
    exact (AList.mem_insert _).mpr
      (Or.inr (hwf.sorters r ((Sorter.mem_modify _ _ _ _).mp hr)))
  · intro r sorter1 h1 g hg
    have hold : ∀ sorter0, s.frameworkSorters.lookup r = some sorter0 → g ∈ sorter0.clients →
        ∃ framework, (s.frameworks.insert f
          { role := info.role, checkpoint := info.checkpoint, filters := [] }).lookup g =
            some framework ∧ framework.role = r := by
      intro sorter0 h0 hg0
      obtain ⟨framework', hfw, hrole⟩ := hwf.clients r sorter0 h0 g hg0
      have hne : g ≠ f := by
        rintro rfl
        exact hf ((mem_iff_lookup _ _).mpr ⟨framework', hfw⟩)
      exact ⟨framework', by rw [lookup_insert_eq]; simp [hne, hfw], hrole⟩
    simp only [lookup_insert_eq] at h1
    by_cases hrr : r = info.role
    · subst hrr
      simp only [if_true, Option.some.injEq] at h1
      subst h1
      have hg1 : g ∈ (sorter.add f 1).clients :=
        (Sorter.mem_modify ((sorter.add f 1).addResources (Resources.sum used)) _ _ _).mp hg
      rcases (AList.mem_insert _).mp hg1 with hgf | hgs
      · subst hgf
        exact ⟨{ role := info.role, checkpoint := info.checkpoint, filters := [] },
          by rw [lookup_insert_eq]; simp, rfl⟩
      · exact hold sorter hq hgs
    · simp only [hrr, if_false] at h1
      exact hold sorter1 h1 hg

/-- C25 (cycle assertion safety): in every state reached from `initialize` by
messages that satisfy their stated preconditions, the assertions of a cycle
hold: every candidate slave id is registered, so that `isWhitelisted` returns;
every role returned by the role sorter has a framework sorter, and every
framework name that this sorter returns is a registered framework whose
recorded role is that role, so that `isFiltered` returns for it on every
registered slave.  No cycle trips an assertion on the way either: the cycle
over all slaves, the cycle over one registered slave and the periodic cycle
return, and so do the handlers that run a cycle after their own checks:
`reviveOffers` and `activateFramework` of a registered framework, `addSlave` of
an unknown slave whose reported usage is contained in its total and
`addFramework` of an unknown framework with a configured role. -/
theorem cycle_assertion_safety (p : Params) (now : Time)
    (shuffle : List SlaveID → List SlaveID) (s : State) (hs : Reachable p s)
    (hperm : ∀ l, (shuffle l).Perm l) :
    (∀ m, m ∈ shuffle s.slaves.keys → m ∈ s.slaves ∧ ∃ b, isWhitelisted s m = some b) ∧
    (∀ r, r ∈ s.roleSorter.sort → ∃ sorter, s.frameworkSorters.lookup r = some sorter ∧
      ∀ f, f ∈ sorter.sort → ∃ framework, s.frameworks.lookup f = some framework ∧
        framework.role = r ∧
        ∀ m, m ∈ s.slaves → ∀ q, ∃ b, isFiltered now s f m q = some b) ∧
    (∃ r, allocateAll p now shuffle s = some r) ∧
    (∃ r, batch p now shuffle s = some r) ∧
    (∀ m, m ∈ s.slaves → ∃ r, allocateSlave p now shuffle s m = some r) ∧
    (∀ f, f ∈ s.frameworks → ∃ r, reviveOffers p now shuffle s f = some r) ∧
    (∀ f, f ∈ s.frameworks → ∃ r, activateFramework p now shuffle s f = some r) ∧
    (∀ m info total used, m ∉ s.slaves → Resources.sum used ≤ total →
      ∃ r, addSlave p now shuffle s m info total used = some r) ∧
    (∀ f info used, f ∉ s.frameworks → info.role ∈ s.roles →
      ∃ r, addFramework p now shuffle s f info used = some r) := by
  have hwf := hs.wf
  have hi0 : (!s.initialized) = false := by simp [hwf.initialized]
  have hkeys : ∀ {t : State}, t.slaves = s.slaves →
      ∀ m ∈ shuffle t.slaves.keys, m ∈ t.slaves := by
    intro t _ m hm
    exact AList.mem_keys.mp ((hperm _).mem_iff.mp hm)
  obtain ⟨r0, hr0⟩ := @allocate_total p now shuffle _ s.slaves.keys hwf (hkeys rfl)
  refine ⟨?_, ?_, ⟨r0, hr0⟩, ?_, ?_, ?_, ?_, ?_, ?_⟩
  · intro m hm
    have hm' : m ∈ s.slaves := hkeys rfl m hm
    obtain ⟨slave, hl⟩ := (mem_iff_lookup _ _).mp hm'
    refine ⟨hm', ?_⟩
    unfold isWhitelisted
    rw [hl]
    cases s.whitelist with
    | none => exact ⟨_, rfl⟩
    | some w => exact ⟨_, rfl⟩
  · intro r hr
    have hr' : r ∈ s.frameworkSorters :=
      hwf.sorters r (Sorter.mem_clients_of_mem_sort _ _ hr)
    obtain ⟨sorter, hq⟩ := (mem_iff_lookup _ _).mp hr'
    refine ⟨sorter, hq, ?_⟩
    intro f hf
    obtain ⟨framework, hl, hrole⟩ :=
      hwf.clients r sorter hq f (Sorter.mem_clients_of_mem_sort _ _ hf)
    refine ⟨framework, hl, hrole, ?_⟩
    intro m hm q
    obtain ⟨slave, hsl⟩ := (mem_iff_lookup _ _).mp hm
    unfold isFiltered
    simp only [hl, hsl]
    split_ifs
    · exact ⟨_, rfl⟩
    · exact ⟨_, rfl⟩
  · refine ⟨(r0.1.delay now r0.1.allocationInterval Timer.batch, r0.2), ?_⟩
    unfold Mesos.batch
    rw [show allocateAll p now shuffle s = some r0 from hr0]
  · intro m hm
    unfold allocateSlave
    apply allocate_total now hwf
    intro m' hm'
    have : m' ∈ [m] := (hperm [m]).mem_iff.mp hm'
    simp only [List.mem_singleton] at this
    rw [this]
    exact hm
  · intro f hf
    obtain ⟨framework, hl⟩ := (mem_iff_lookup _ _).mp hf
    have hw : WF { s with
        frameworks := s.frameworks.insert f { framework with filters := [] } } :=
      hwf.of_refines _ hwf.initialized (fun _ hr => hr)
        (fun _ hr => hr) (refines_refl_sorters s) (insert_framework_refines hl rfl)
    obtain ⟨r1, hr1⟩ := @allocate_total p now shuffle _ s.slaves.keys hw (hkeys rfl)
    refine ⟨r1, ?_⟩
    unfold Mesos.reviveOffers
    simp only [hi0, hl, Bool.false_eq_true, if_false]
    exact hr1
  · intro f hf
    obtain ⟨framework, hl⟩ := (mem_iff_lookup _ _).mp hf
    obtain ⟨sorter, hq, _⟩ := tracked_of_reachable hs f framework hl
    obtain ⟨h3, h4⟩ := @insert_sorter_refines _ _ _ (sorter.activate f) hq
      (fun g hg => (Sorter.mem_modify _ _ _ _).mp hg)
    have hw : WF { s with
        frameworkSorters := s.frameworkSorters.insert framework.role (sorter.activate f) } :=
      hwf.of_refines _ hwf.initialized (fun _ hr => hr) h3 h4 (refines_refl_frameworks s)
    obtain ⟨r1, hr1⟩ := @allocate_total p now shuffle _ s.slaves.keys hw (hkeys rfl)
    refine ⟨r1, ?_⟩
    unfold Mesos.activateFramework
    simp only [hi0, hl, hq, Bool.false_eq_true, if_false]
    exact hr1
  · intro m info total used hm hle
    obtain ⟨r1, hr1, _⟩ := addSlave_total (p := p) now hwf (tracked_of_reachable hs) hperm
      ((not_mem_iff_lookup _ _).mp hm) info total used hle
    exact ⟨r1, hr1⟩
  · intro f info used hf hrole
    obtain ⟨sorter, hq⟩ := (mem_iff_lookup _ _).mp (roled_of_reachable hs info.role hrole)
    obtain ⟨roleInfo, hro⟩ := (mem_iff_lookup _ _).mp hrole
    have hc : sorter.contains f = false := by
      unfold Sorter.contains
      cases hcl : sorter.clients.lookup f with
      | none => rfl
      | some c =>
        obtain ⟨framework, hl, _⟩ :=
          hwf.clients info.role sorter hq f ((mem_iff_lookup _ _).mpr ⟨c, hcl⟩)
        exact absurd ((mem_iff_lookup _ _).mpr ⟨framework, hl⟩) hf
    have hw := addFramework_wf info used hwf hf hq
    obtain ⟨r1, hr1⟩ := @allocate_total p now shuffle _ s.slaves.keys hw (hkeys rfl)
    refine ⟨r1, ?_⟩
    unfold Mesos.addFramework
    simp only [hi0, hro, hq, hc, Option.isNone_some, Bool.false_eq_true, if_false]
    exact hr1

/-! ## The nested order of a cycle -/

theorem Sorter.sort_nodup (s : Sorter) : s.sort.Nodup := by
  unfold Sorter.sort
  have hperm := List.perm_insertionSort Sorter.before
    ((s.clients.entries.filter (fun e => e.2.active)).map
      (fun e => Sorter.Key.mk (s.dominant e.2) e.2.weight e.1))
  rw [(hperm.map Sorter.Key.name).nodup_iff, List.map_map]
  have hk : (s.clients.entries.map Sigma.fst).Nodup := s.clients.nodupKeys
  exact (hk.sublist (List.Sublist.map _ (List.filter_sublist _)))

theorem allocatePairs_cons {p : Params} {now : Time} {m : SlaveID} (x : String × String)
    (xs : List (String × String)) (acc : State × Offerable) :
    allocatePairs p now m (x :: xs) acc =
      (allocateFramework p now m x.1 acc x.2).bind (allocatePairs p now m xs) := by
  show (match allocateFramework p now m x.1 acc x.2 with
    | none => none
    | some acc1 => allocatePairs p now m xs acc1) = _
  cases allocateFramework p now m x.1 acc x.2 <;> rfl

theorem allocateFrameworks_cons {p : Params} {now : Time} {m : SlaveID} {role : String}
    (f : String) (fs : List String) (acc : State × Offerable) :
    allocateFrameworks p now m role (f :: fs) acc =
      (allocateFramework p now m role acc f).bind (allocateFrameworks p now m role fs) := by
  show (match allocateFramework p now m role acc f with
    | none => none
    | some acc1 => allocateFrameworks p now m role fs acc1) = _
  cases allocateFramework p now m role acc f <;> rfl

theorem allocatePairs_append {p : Params} {now : Time} {m : SlaveID} :
    ∀ (l1 l2 : List (String × String)) (acc : State × Offerable),
      allocatePairs p now m (l1 ++ l2) acc =
        (allocatePairs p now m l1 acc).bind (allocatePairs p now m l2)
  | [], l2, acc => rfl
  | x :: l1, l2, acc => by
    rw [List.cons_append, allocatePairs_cons, allocatePairs_cons]
    cases allocateFramework p now m x.1 acc x.2 with
    | none => rfl
    | some acc1 => exact allocatePairs_append l1 l2 acc1

theorem allocatePairs_map {p : Params} {now : Time} {m : SlaveID} (role : String) :
    ∀ (fs : List String) (acc : State × Offerable),
      allocatePairs p now m (fs.map (fun f => (role, f))) acc =
        allocateFrameworks p now m role fs acc
  | [], acc => rfl
  | f :: fs, acc => by
    rw [List.map_cons, allocatePairs_cons, allocateFrameworks_cons]
    cases allocateFramework p now m role acc f with
    | none => rfl
    | some acc1 => exact allocatePairs_map role fs acc1

theorem allocateFramework_sorters {p : Params} {now : Time} {m : SlaveID} {role : String}
    {acc acc' : State × Offerable} {f : String}
    (h : allocateFramework p now m role acc f = some acc') (r : String) (hr : r ≠ role) :
    acc'.1.frameworkSorters.lookup r = acc.1.frameworkSorters.lookup r := by
  rcases allocateFramework_cases h with rfl | ⟨slave, sorter, _, _, _, _, rfl⟩
  · rfl
  · show (acc.1.frameworkSorters.insert role _).lookup r = _
    rw [lookup_insert_eq, if_neg hr]

theorem allocateFrameworks_sorters {p : Params} {now : Time} {m : SlaveID} {role : String} :
    ∀ (fs : List String) (acc acc' : State × Offerable),
      allocateFrameworks p now m role fs acc = some acc' → ∀ r, r ≠ role →
        acc'.1.frameworkSorters.lookup r = acc.1.frameworkSorters.lookup r
  | [], acc, acc', h, r, _ => by
    simp only [allocateFrameworks, Option.some.injEq] at h
    rw [← h]
  | f :: fs, acc, acc', h, r, hr => by
    unfold allocateFrameworks at h
    cases h1 : allocateFramework p now m role acc f with
    | none => simp [h1] at h
    | some acc1 =>
      simp only [h1] at h
      rw [allocateFrameworks_sorters fs acc1 acc' h r hr, allocateFramework_sorters h1 r hr]

theorem nested_congr {s t : State} :
    ∀ roles : List String,
      (∀ r ∈ roles, t.frameworkSorters.lookup r = s.frameworkSorters.lookup r) →
      nested t roles = nested s roles
  | [], _ => rfl
  | role :: roles, h => by
    unfold nested
    rw [h role (List.mem_cons_self _ _),
      nested_congr roles (fun r hr => h r (List.mem_cons_of_mem _ hr))]

theorem mem_nested {s : State} {x : String × String} :
    ∀ roles : List String, x ∈ nested s roles →
      x.1 ∈ roles ∧ ∃ sorter, s.frameworkSorters.lookup x.1 = some sorter ∧ x.2 ∈ sorter.sort
  | [], h => by simp [nested] at h
  | role :: roles, h => by
    unfold nested at h
    rcases List.mem_append.mp h with h1 | h1
    · cases hq : s.frameworkSorters.lookup role with
      | none => simp [hq] at h1
      | some sorter =>
        simp only [hq, List.mem_map] at h1
        obtain ⟨f, hf, rfl⟩ := h1
        exact ⟨List.mem_cons_self _ _, sorter, hq, hf⟩
    · obtain ⟨h2, h3⟩ := mem_nested roles h1
      exact ⟨List.mem_cons_of_mem _ h2, h3⟩

/-- The loop over the roles is the loop over the nested order read at its
start, when the roles are pairwise distinct and have their sorters. -/
theorem allocateRoles_eq_pairs {p : Params} {now : Time} {m : SlaveID} :
    ∀ (roles : List String) (acc : State × Offerable), roles.Nodup →
      (∀ r ∈ roles, r ∈ acc.1.frameworkSorters) →
      allocateRoles p now m roles acc = allocatePairs p now m (nested acc.1 roles) acc
  | [], acc, _, _ => rfl
  | role :: roles, acc, hnd, hmem => by
    obtain ⟨sorter, hq⟩ := (mem_iff_lookup _ _).mp (hmem role (List.mem_cons_self _ _))
    unfold allocateRoles nested
    simp only [hq]
    rw [allocatePairs_append, allocatePairs_map]
    cases h1 : allocateFrameworks p now m role sorter.sort acc with
    | none => rfl
    | some acc1 =>
      have hnd' := List.nodup_cons.mp hnd
      have hfr : ∀ r ∈ roles,
          acc1.1.frameworkSorters.lookup r = acc.1.frameworkSorters.lookup r := by
        intro r hr
        apply allocateFrameworks_sorters _ _ _ h1
        rintro rfl
        exact hnd'.1 hr
      show allocateRoles p now m roles acc1 = allocatePairs p now m (nested acc.1 roles) acc1
      rw [← nested_congr roles hfr]
      apply allocateRoles_eq_pairs roles acc1 hnd'.2
      intro r hr
      obtain ⟨sorter0, h0⟩ := (mem_iff_lookup _ _).mp (hmem r (List.mem_cons_of_mem _ hr))
      exact (mem_iff_lookup _ _).mpr ⟨sorter0, by rw [hfr r hr]; exact h0⟩

/-! ## Least-served first -/

theorem allocateFramework_skip {p : Params} {now : Time} {acc : State × Offerable}
    {m : SlaveID} {role : String} {f : String} {slave : Slave} {sorter : Sorter}
    (hs : acc.1.slaves.lookup m = some slave)
    (hq : acc.1.frameworkSorters.lookup role = some sorter)
    (hd : Declined p now acc.1 m slave.available role f) :
    allocateFramework p now m role acc f = some acc := by
  unfold allocateFramework
  simp only [hs, hq]
  by_cases ha : allocatable p (offerableTo slave role) = true
  · rcases hd with hd | hd
    · exact absurd (ha.symm.trans hd) (by decide)
    · have hfil : isFiltered now acc.1 f m (offerableTo slave role) = some true := hd
      simp only [ha, hfil, Bool.not_true, Bool.false_eq_true, if_false]
  · have ha' : allocatable p (offerableTo slave role) = false := by
      cases hx : allocatable p (offerableTo slave role)
      · rfl
      · exact absurd hx ha
    simp only [ha', Bool.not_false, if_true]

theorem allocatePairs_skip {p : Params} {now : Time} {acc : State × Offerable} {m : SlaveID}
    {slave : Slave} (hs : acc.1.slaves.lookup m = some slave) :
    ∀ l : List (String × String),
      (∀ x ∈ l, ∃ sorter, acc.1.frameworkSorters.lookup x.1 = some sorter) →
      (∀ x ∈ l, Declined p now acc.1 m slave.available x.1 x.2) →
      allocatePairs p now m l acc = some acc
  | [], _, _ => rfl
  | x :: l, hq, hd => by
    obtain ⟨sorter, hqx⟩ := hq x (List.mem_cons_self _ _)
    rw [allocatePairs_cons, allocateFramework_skip hs hqx (hd x (List.mem_cons_self _ _))]
    exact allocatePairs_skip hs l (fun y hy => hq y (List.mem_cons_of_mem _ hy))
      (fun y hy => hd y (List.mem_cons_of_mem _ hy))

/-- Once the unreserved resources of the slave `m` and those reserved to the
role `r` are exhausted and the framework `f` of `r` holds the quantity `Q` of
`m` in its payload, the rest of the nested order leaves that entry alone and
gives no unreserved resources of `m` to any other framework. -/
theorem allocatePairs_rest {p : Params} (now : Time) {s : State} (hwf : WF s) {m : SlaveID}
    (hm : m ∈ s.slaves) {r : String} {f : String} {Q : Resources}
    (hfr : ∃ framework, s.frameworks.lookup f = some framework ∧ framework.role = r) :
    ∀ (l : List (String × String)) (acc : State × Offerable), Same s acc.1 →
      (∀ x ∈ l, ∃ sorter, s.frameworkSorters.lookup x.1 = some sorter ∧ x.2 ∈ sorter.sort) →
      Resources.unreserved (available acc.1 m) = 0 →
      Resources.reserved (available acc.1 m) r = 0 →
      (payloadOf acc.2 f).lookup m = some Q →
      (∀ g, g ≠ f → Resources.unreserved (quantity (payloadOf acc.2 g) m) = 0) →
      ∃ acc', allocatePairs p now m l acc = some acc' ∧ Same s acc'.1 ∧
        Resources.unreserved (available acc'.1 m) = 0 ∧
        (payloadOf acc'.2 f).lookup m = some Q ∧
        ∀ g, g ≠ f → Resources.unreserved (quantity (payloadOf acc'.2 g) m) = 0
  | [], acc, hsame, _, hu, _, hp, hg => ⟨acc, rfl, hsame, hu, hp, hg⟩
  | x :: l, acc, hsame, hl, hu, hres, hp, hg => by
    obtain ⟨sorter0, h0, hx2⟩ := hl x (List.mem_cons_self _ _)
    obtain ⟨frameworkx, hfx, hrolex⟩ :=
      hwf.clients x.1 sorter0 h0 x.2 (Sorter.mem_clients_of_mem_sort _ _ hx2)
    obtain ⟨acc1, h1⟩ := allocateFramework_total (p := p) now acc hsame hm
      ((mem_iff_lookup _ _).mpr ⟨sorter0, h0⟩) ((mem_iff_lookup _ _).mpr ⟨frameworkx, hfx⟩)
    have hsame1 : Same s acc1.1 := hsame.trans (allocateFramework_same h1)
    have hl' : ∀ y ∈ l, ∃ sorter, s.frameworkSorters.lookup y.1 = some sorter ∧
        y.2 ∈ sorter.sort := fun y hy => hl y (List.mem_cons_of_mem _ hy)
    rw [allocatePairs_cons, h1]
    show ∃ acc', allocatePairs p now m l acc1 = some acc' ∧ _
    rcases allocateFramework_cases h1 with rfl | ⟨slave, sorter, hsl, hq, ha, _, rfl⟩
    · exact allocatePairs_rest now hwf hm hfr l acc1 hsame1 hl' hu hres hp hg
    · have hav : available acc.1 m = slave.available := available_of_lookup hsl
      rw [hav] at hu hres
      have hne : x.1 ≠ r := by
        intro hxr
        have h00 : offerableTo slave x.1 = 0 := by
          unfold offerableTo
          rw [hxr, hu, hres, add_zero]
        rw [h00, allocatable_zero] at ha
        exact absurd ha (by decide)
      have hfne : x.2 ≠ f := by
        intro hxf
        obtain ⟨framework, hf1, hf2⟩ := hfr
        rw [hxf, hf1, Option.some.injEq] at hfx
        rw [← hfx, hf2] at hrolex
        exact hne hrolex.symm
      have hu1 : Resources.unreserved
          (available (assign acc m x.1 x.2 slave sorter (offerableTo slave x.1)).1 m) = 0 := by
        rw [available_assign, if_pos rfl]
        exact Resources.unreserved_sub_eq_zero _ _ hu
      have hres1 : Resources.reserved
          (available (assign acc m x.1 x.2 slave sorter (offerableTo slave x.1)).1 m) r = 0 := by
        rw [available_assign, if_pos rfl]
        exact Resources.reserved_sub_eq_zero _ _ _ hres
      have hp1 : (payloadOf (assign acc m x.1 x.2 slave sorter (offerableTo slave x.1)).2
          f).lookup m = some Q := by
        show (payloadOf (acc.2.insert x.2 _) f).lookup m = some Q
        rw [payloadOf_insert, if_neg (Ne.symm hfne)]
        exact hp
      have hg1 : ∀ g, g ≠ f → Resources.unreserved
          (quantity (payloadOf (assign acc m x.1 x.2 slave sorter (offerableTo slave x.1)).2 g)
            m) = 0 := by
        intro g hgf
        show Resources.unreserved (quantity (payloadOf (acc.2.insert x.2 _) g) m) = 0
        rw [payloadOf_insert]
        by_cases hgx : g = x.2
        · rw [if_pos hgx, quantity_insert, if_pos rfl]
          unfold offerableTo
          rw [Resources.unreserved_offer]
          exact hu
        · rw [if_neg hgx]
          exact hg g hgf
      exact allocatePairs_rest now hwf hm hfr l _ hsame1 hl' hu1 hres1 hp1 hg1

/-- C23 (least-served first): let the cycle reach the registered slave `m`,
with record `slave`, in the well-formed loop state `acc` whose payloads hold
nothing of `m` yet.  The body of the cycle for `m` returns, and it is the
innermost loop body run along the nested order read in `acc`: the roles as
`roleSorter->sort()` returns them and, within each role, the frameworks as the
sorter of the role returns them.  If every pair before `(r, f)` in this order
is passed over (its quantity is not allocatable or is filtered) and the
quantity of `(r, f)`, the unreserved resources of `m` plus those reserved to
`r`, is allocatable and not filtered, then `f` is offered exactly that
quantity, which holds all the unreserved resources of `m`; afterwards `m` has
no unreserved resources left and no other framework is offered any unreserved
resources of `m`.  If every pair is passed over, nothing changes.  The order is
read again for each slave: the cycle runs the body for an eligible slave in
the state that the slaves before it left, then goes on with the next slave. -/
theorem least_served_first (p : Params) (now : Time) (m : SlaveID) (acc : State × Offerable)
    (slave : Slave) (hwf : WF acc.1) (hm : acc.1.slaves.lookup m = some slave)
    (hfresh : ∀ g, (payloadOf acc.2 g).lookup m = none) :
    allocateRoles p now m acc.1.roleSorter.sort acc =
      allocatePairs p now m (nestedOrder acc.1) acc ∧
    (∃ acc', allocateRoles p now m acc.1.roleSorter.sort acc = some acc') ∧
    (∀ pre r f post, nestedOrder acc.1 = pre ++ (r, f) :: post →
      (∀ x ∈ pre, Declined p now acc.1 m slave.available x.1 x.2) →
      allocatable p (offerableTo slave r) = true →
      isFiltered now acc.1 f m (offerableTo slave r) = some false →
      ∃ acc', allocateRoles p now m acc.1.roleSorter.sort acc = some acc' ∧
        (payloadOf acc'.2 f).lookup m = some (offerableTo slave r) ∧
        Resources.unreserved (offerableTo slave r) = Resources.unreserved slave.available ∧
        Resources.unreserved (available acc'.1 m) = 0 ∧
        ∀ g, g ≠ f → Resources.unreserved (quantity (payloadOf acc'.2 g) m) = 0) ∧
    ((∀ x ∈ nestedOrder acc.1, Declined p now acc.1 m slave.available x.1 x.2) →
      allocateRoles p now m acc.1.roleSorter.sort acc = some acc) ∧
    (∀ ids, allocateSlaves p now (m :: ids) acc =
      if isWhitelisted acc.1 m = some true ∧ slave.activated = true then
        (allocateRoles p now m acc.1.roleSorter.sort acc).bind (allocateSlaves p now ids)
      else allocateSlaves p now ids acc) := by
  have hroles : ∀ r ∈ acc.1.roleSorter.sort, r ∈ acc.1.frameworkSorters :=
    fun r hr => hwf.sorters r (Sorter.mem_clients_of_mem_sort _ _ hr)
  have heq : allocateRoles p now m acc.1.roleSorter.sort acc =
      allocatePairs p now m (nestedOrder acc.1) acc :=
    allocateRoles_eq_pairs _ acc (Sorter.sort_nodup _) hroles
  have hmem : m ∈ acc.1.slaves := (mem_iff_lookup _ _).mpr ⟨slave, hm⟩
  have hsorter : ∀ x ∈ nestedOrder acc.1,
      ∃ sorter, acc.1.frameworkSorters.lookup x.1 = some sorter ∧ x.2 ∈ sorter.sort :=
    fun x hx => (mem_nested _ hx).2
  refine ⟨heq, ?_, ?_, ?_, ?_⟩
  · obtain ⟨acc', h, _⟩ := allocateRoles_total (p := p) now hwf hmem _ acc (Same.refl _) hroles
    exact ⟨acc', h⟩
  · intro pre r f post hsplit hpre ha hfil
    have hin : ∀ x, x ∈ pre ∨ x = (r, f) ∨ x ∈ post → x ∈ nestedOrder acc.1 := by
      intro x hx
      rw [hsplit, List.mem_append, List.mem_cons]
      exact hx
    obtain ⟨sorter, hq, hfs⟩ := hsorter (r, f) (hin _ (Or.inr (Or.inl rfl)))
    obtain ⟨framework, hfw, hrole⟩ :=
      hwf.clients r sorter hq f (Sorter.mem_clients_of_mem_sort _ _ hfs)
    have h1 : allocatePairs p now m pre acc = some acc :=
      allocatePairs_skip hm pre
        (fun x hx => (hsorter x (hin x (Or.inl hx))).imp (fun _ h => h.1)) hpre
    have h2 : allocateFramework p now m r acc f =
        some (assign acc m r f slave sorter (offerableTo slave r)) := by
      unfold allocateFramework
      simp only [hm, hq, ha, hfil, Bool.not_true, Bool.false_eq_true, if_false]
    have hu : Resources.unreserved
        (available (assign acc m r f slave sorter (offerableTo slave r)).1 m) = 0 := by
      rw [available_assign, if_pos rfl]
      exact Resources.unreserved_sub_offer _ _
    have hres : Resources.reserved
        (available (assign acc m r f slave sorter (offerableTo slave r)).1 m) r = 0 := by
      rw [available_assign, if_pos rfl]
      exact Resources.reserved_sub_offer _ _
    have hp : (payloadOf (assign acc m r f slave sorter (offerableTo slave r)).2 f).lookup m =
        some (offerableTo slave r) := by
      show (payloadOf (acc.2.insert f _) f).lookup m = _
      rw [payloadOf_insert, if_pos rfl, lookup_insert_eq, if_pos rfl]
    have hg : ∀ g, g ≠ f → Resources.unreserved
        (quantity (payloadOf (assign acc m r f slave sorter (offerableTo slave r)).2 g) m) =
          0 := by
      intro g hgf
      show Resources.unreserved (quantity (payloadOf (acc.2.insert f _) g) m) = 0
      rw [payloadOf_insert, if_neg hgf, quantity_of_lookup_none (hfresh g)]
      exact Resources.unreserved_zero
    obtain ⟨acc', h3, _, hu', hp', hg'⟩ :=
      allocatePairs_rest (p := p) now hwf hmem ⟨framework, hfw, hrole⟩ post
        (assign acc m r f slave sorter (offerableTo slave r))
        (assign_same acc m r f slave sorter _ hm hq)
        (fun x hx => hsorter x (hin x (Or.inr (Or.inr hx)))) hu hres hp hg
    refine ⟨acc', ?_, hp', Resources.unreserved_offer _ _, hu', hg'⟩
    rw [heq, hsplit, allocatePairs_append, h1, Option.some_bind, allocatePairs_cons, h2,
      Option.some_bind]
    exact h3
  · intro hall
    rw [heq]
    exact allocatePairs_skip hm _ (fun x hx => (hsorter x hx).imp (fun _ h => h.1)) hall
  · intro ids
    show (match isWhitelisted acc.1 m, acc.1.slaves.lookup m with
      | some whitelisted, some slave =>
        if !whitelisted || !slave.activated then allocateSlaves p now ids acc
        else
          match allocateRoles p now m acc.1.roleSorter.sort acc with
          | none => none
          | some acc1 => allocateSlaves p now ids acc1
      | _, _ => none) = _
    have hw : ∃ b, isWhitelisted acc.1 m = some b := by
      unfold isWhitelisted
      rw [hm]
      cases acc.1.whitelist with
      | none => exact ⟨_, rfl⟩
      | some w => exact ⟨_, rfl⟩
    obtain ⟨b, hb⟩ := hw
    rw [hb, hm]
    cases b <;> cases hact : slave.activated <;>
      cases hr : allocateRoles p now m acc.1.roleSorter.sort acc <;> simp [hact]

/-! ## The third group of theorems at concrete inputs -/

/-- C21 at a concrete input: in `exampleHeld` the framework `"F1"`, which holds
the 4 cpus and 4096 of memory of the slave `"M"`, returns 2 cpus and 2048 of
memory with a refusal of 5 seconds at the clock reading 40, revives its offers
at 50 and returns 2 cpus and 2048 of memory again with a refusal of 10 seconds
at 60; the first filter has the identity 0 and the second one the identity
1. -/
theorem expiry_by_identity_witness :
    Reachable exampleParams exampleHeld ∧ (∀ l : List SlaveID, (id l).Perm l) ∧
    exampleHeld.frameworks.lookup "F1" = some ⟨"R", false, []⟩ ∧ "M" ∈ exampleHeld.slaves ∧
    cpusMem 2 2048 ≠ 0 ∧
    Recoverable exampleHeld "F1" (cpusMem 2 2048 + cpusMem 2 2048) ∧
    refuseDuration exampleParams ⟨5⟩ = some 5000000000 ∧ (5000000000 : Duration) ≠ 0 ∧
    refuseDuration exampleParams ⟨10⟩ = some 10000000000 ∧ (10000000000 : Duration) ≠ 0 ∧
    (∃ s1 s2 offs s3 k k',
      recoverResources exampleParams 40 exampleHeld "F1" "M" (cpusMem 2 2048) (some ⟨5⟩) =
        some s1 ∧
      s1.frameworks.lookup "F1" =
        some ⟨"R", false,
          [(k, ⟨"M", cpusMem 2 2048, ((40 : Time) + (5000000000 : Duration)).toNat⟩)]⟩ ∧
      reviveOffers exampleParams 50 id s1 "F1" = some (s2, offs) ∧
      s2.frameworks.lookup "F1" = some ⟨"R", false, []⟩ ∧
      recoverResources exampleParams 60 s2 "F1" "M" (cpusMem 2 2048) (some ⟨10⟩) = some s3 ∧
      s3.frameworks.lookup "F1" =
        some ⟨"R", false,
          [(k', ⟨"M", cpusMem 2 2048, ((60 : Time) + (10000000000 : Duration)).toNat⟩)]⟩ ∧
      k' ≠ k ∧
      expire s3 "F1" k = s3) ∧
    (match run exampleParams id
        [(40, Call.recoverResources "F1" "M" (cpusMem 2 2048) (some ⟨5⟩)),
         (50, Call.reviveOffers "F1"),
         (60, Call.recoverResources "F1" "M" (cpusMem 2 2048) (some ⟨10⟩))] exampleHeld with
      | some t =>
        ((t.frameworks.lookup "F1").map (fun fw => fw.filters.map (fun x => (x.1, x.2.timeout))),
          ((expire t "F1" 0).frameworks.lookup "F1").map (fun fw => fw.filters.map Prod.fst),
          ((expire t "F1" 1).frameworks.lookup "F1").map (fun fw => fw.filters.map Prod.fst))
      | none => (none, none, none)) = (some [(1, 10000000060)], some [1], some []) :=
  ⟨Reachable.exec exampleParams (fun l => List.Perm.refl l) _ (Reachable.init _ _ _),
    fun l => List.Perm.refl l, rfl, by decide, by decide,
    (recoverable_iff_test _ _ _).mpr (by decide), by decide, by decide, by decide,
    by decide,
    (expiry_by_identity exampleParams 40 50 60 id exampleHeld "F1" "M" (cpusMem 2 2048)
      ⟨"R", false, []⟩ ⟨5⟩ ⟨10⟩ 5000000000 10000000000
      (Reachable.exec exampleParams (fun l => List.Perm.refl l) _ (Reachable.init _ _ _))
      (fun l => List.Perm.refl l) rfl (by decide) (by decide)
      ((recoverable_iff_test _ _ _).mpr (by decide)) (by decide) (by decide)
      (by decide) (by decide)).2,
    by decide⟩

/-- C22, amended, at a concrete input: the cycles run in `exampleIdle` at the
clock reading 50. -/
theorem timer_rearming_witness :
    Reachable exampleParams exampleIdle ∧ (∀ l : List SlaveID, (id l).Perm l) ∧
    ((∀ now0 interval roles,
      (initialize' now0 State.new interval roles).timers =
        [((now0 + interval).toNat, Timer.batch)] ∧
      (initialize' now0 State.new interval roles).allocationInterval = interval) ∧
    (∃ t offs, batch exampleParams 50 id exampleIdle = some (t, offs) ∧
      t.timers = exampleIdle.timers ++
        [(((50 : Time) + exampleIdle.allocationInterval).toNat, Timer.batch)] ∧
      t.allocationInterval = exampleIdle.allocationInterval) ∧
    (∃ r, allocateAll exampleParams 50 id exampleIdle = some r ∧
      r.1.timers = exampleIdle.timers) ∧
    (∀ f, f ∈ exampleIdle.frameworks →
      ∃ r, reviveOffers exampleParams 50 id exampleIdle f = some r ∧
        r.1.timers = exampleIdle.timers) ∧
    (∀ f info used r, addFramework exampleParams 50 id exampleIdle f info used = some r →
      r.1.timers = exampleIdle.timers) ∧
    (∀ f r, activateFramework exampleParams 50 id exampleIdle f = some r →
      r.1.timers = exampleIdle.timers) ∧
    (∀ m info total used r, addSlave exampleParams 50 id exampleIdle m info total used = some r →
      r.1.timers = exampleIdle.timers)) :=
  ⟨Reachable.exec exampleParams (fun l => List.Perm.refl l) _ (Reachable.init _ _ _),
    fun l => List.Perm.refl l,
    timer_rearming exampleParams 50 id exampleIdle
      (Reachable.exec exampleParams (fun l => List.Perm.refl l) _ (Reachable.init _ _ _))
      (fun l => List.Perm.refl l)⟩

/-- C25 at a concrete input: the cycles run in `exampleIdle` at the clock
reading 50. -/
theorem cycle_assertion_safety_witness :
    Reachable exampleParams exampleIdle ∧ (∀ l : List SlaveID, (id l).Perm l) ∧
    ((∀ m, m ∈ id exampleIdle.slaves.keys →
      m ∈ exampleIdle.slaves ∧ ∃ b, isWhitelisted exampleIdle m = some b) ∧
    (∀ r, r ∈ exampleIdle.roleSorter.sort →
      ∃ sorter, exampleIdle.frameworkSorters.lookup r = some sorter ∧
        ∀ f, f ∈ sorter.sort → ∃ framework, exampleIdle.frameworks.lookup f = some framework ∧
          framework.role = r ∧
          ∀ m, m ∈ exampleIdle.slaves → ∀ q, ∃ b, isFiltered 50 exampleIdle f m q = some b) ∧
    (∃ r, allocateAll exampleParams 50 id exampleIdle = some r) ∧
    (∃ r, batch exampleParams 50 id exampleIdle = some r) ∧
    (∀ m, m ∈ exampleIdle.slaves → ∃ r, allocateSlave exampleParams 50 id exampleIdle m = some r) ∧
    (∀ f, f ∈ exampleIdle.frameworks →
      ∃ r, reviveOffers exampleParams 50 id exampleIdle f = some r) ∧
    (∀ f, f ∈ exampleIdle.frameworks →
      ∃ r, activateFramework exampleParams 50 id exampleIdle f = some r) ∧
    (∀ m info total used, m ∉ exampleIdle.slaves → Resources.sum used ≤ total →
      ∃ r, addSlave exampleParams 50 id exampleIdle m info total used = some r) ∧
    (∀ f info used, f ∉ exampleIdle.frameworks → info.role ∈ exampleIdle.roles →
      ∃ r, addFramework exampleParams 50 id exampleIdle f info used = some r)) ∧
    exampleIdle.roleSorter.sort = ["R"] ∧ exampleIdle.slaves.keys = ["M"] ∧
    (match exampleIdle.frameworkSorters.lookup "R" with
      | some sorter => sorter.sort
      | none => []) = ["F"] :=
  ⟨Reachable.exec exampleParams (fun l => List.Perm.refl l) _ (Reachable.init _ _ _),
    fun l => List.Perm.refl l,
    cycle_assertion_safety exampleParams 50 id exampleIdle
      (Reachable.exec exampleParams (fun l => List.Perm.refl l) _ (Reachable.init _ _ _))
      (fun l => List.Perm.refl l),
    by decide, by decide, by decide⟩

/-- C23 at a concrete input: the cycle reaches the slave `"M2"` of
`exampleTwoSlaves` first.  The nested order is `("R", "F1")`, `("R", "F2")`, so
that `"F1"` is offered `"M2"`; the order read for the next slave `"M1"` is
`("R", "F2")`, `("R", "F1")`, and the whole cycle offers `"M1"` to `"F2"`. -/
theorem least_served_first_witness :
    WF (exampleTwoSlaves, (∅ : Offerable)).1 ∧
    (exampleTwoSlaves, (∅ : Offerable)).1.slaves.lookup "M2" = some exampleM2 ∧
    (∀ g, (payloadOf (exampleTwoSlaves, (∅ : Offerable)).2 g).lookup "M2" = none) ∧
    (allocateRoles exampleParams 70 "M2" exampleTwoSlaves.roleSorter.sort (exampleTwoSlaves, ∅) =
      allocatePairs exampleParams 70 "M2" (nestedOrder exampleTwoSlaves) (exampleTwoSlaves, ∅) ∧
    (∃ acc', allocateRoles exampleParams 70 "M2" exampleTwoSlaves.roleSorter.sort
      (exampleTwoSlaves, ∅) = some acc') ∧
    (∀ pre r f post, nestedOrder exampleTwoSlaves = pre ++ (r, f) :: post →
      (∀ x ∈ pre, Declined exampleParams 70 exampleTwoSlaves "M2" exampleM2.available x.1 x.2) →
      allocatable exampleParams (offerableTo exampleM2 r) = true →
      isFiltered 70 exampleTwoSlaves f "M2" (offerableTo exampleM2 r) = some false →
      ∃ acc', allocateRoles exampleParams 70 "M2" exampleTwoSlaves.roleSorter.sort
          (exampleTwoSlaves, ∅) = some acc' ∧
        (payloadOf acc'.2 f).lookup "M2" = some (offerableTo exampleM2 r) ∧
        Resources.unreserved (offerableTo exampleM2 r) =
          Resources.unreserved exampleM2.available ∧
        Resources.unreserved (available acc'.1 "M2") = 0 ∧
        ∀ g, g ≠ f → Resources.unreserved (quantity (payloadOf acc'.2 g) "M2") = 0) ∧
    ((∀ x ∈ nestedOrder exampleTwoSlaves,
        Declined exampleParams 70 exampleTwoSlaves "M2" exampleM2.available x.1 x.2) →
      allocateRoles exampleParams 70 "M2" exampleTwoSlaves.roleSorter.sort
        (exampleTwoSlaves, ∅) = some (exampleTwoSlaves, ∅)) ∧
    (∀ ids, allocateSlaves exampleParams 70 ("M2" :: ids) (exampleTwoSlaves, ∅) =
      if isWhitelisted exampleTwoSlaves "M2" = some true ∧ exampleM2.activated = true then
        (allocateRoles exampleParams 70 "M2" exampleTwoSlaves.roleSorter.sort
          (exampleTwoSlaves, ∅)).bind (allocateSlaves exampleParams 70 ids)
      else allocateSlaves exampleParams 70 ids (exampleTwoSlaves, ∅))) ∧
    exampleTwoSlaves.slaves.keys = ["M2", "M1"] ∧
    nestedOrder exampleTwoSlaves = [] ++ ("R", "F1") :: [("R", "F2")] ∧
    allocatable exampleParams (offerableTo exampleM2 "R") = true ∧
    isFiltered 70 exampleTwoSlaves "F1" "M2" (offerableTo exampleM2 "R") = some false ∧
    (match allocateRoles exampleParams 70 "M2" exampleTwoSlaves.roleSorter.sort
        (exampleTwoSlaves, ∅) with
      | some acc => (nestedOrder acc.1, (offers acc.2).map (fun o => (o.1, o.2.keys)))
      | none => ([], [])) = ([("R", "F2"), ("R", "F1")], [("F1", ["M2"])]) ∧
    (match allocateAll exampleParams 70 id exampleTwoSlaves with
      | some r => r.2.map (fun o => (o.1, o.2.keys))
      | none => []) = [("F2", ["M1"]), ("F1", ["M2"])] :=
  ⟨(show Reachable exampleParams exampleTwoSlaves from
    Reachable.exec exampleParams (fun l => List.Perm.refl l) _ (Reachable.init _ _ _)).wf,
    eq_some_of_map_decide (by decide), fun _ => rfl,
    least_served_first exampleParams 70 "M2" (exampleTwoSlaves, ∅) exampleM2
      (show Reachable exampleParams exampleTwoSlaves from
        Reachable.exec exampleParams (fun l => List.Perm.refl l) _ (Reachable.init _ _ _)).wf
      (eq_some_of_map_decide (by decide)) (fun _ => rfl),
    by decide, by decide, by decide, by decide, by decide, by decide⟩

end Mesos
